import Mathlib

/-!
ModularGameplaySystems: inventory ledger, ability registry and quest tracker.

A shallow embedding of `UInventoryComponent` / `UItemInstance`
(`Private/Inventory/*.cpp`), of `UAbilityComponent` / `UMgsGameplayAbility`
(`Private/Abilities/*.cpp`) and of `UQuestComponent` / `UObjectiveBase`
(`Private/Quest/*.cpp`), followed by theorems about them.

Conventions of the embedding.

* `int32` values are integers (`Int`). Where the source adds `int32` values that need
  not stay in range, the sum is the `int32` the machine stores, `WrapInt32` of the
  exact sum: the total of `GetItemCount`, the sum `CurrentProgress + Delta` of
  `AddProgress`, and the sum `Dividend + Divisor - 1` of `FMath::DivideAndRoundUp` as
  `CanAddItem` calls it. The other sums and differences stay in range on the states a
  component can reach. `INT_MAX` appears where the source uses it.
* `float` and `double` times are exact rationals.
* A pointer that may be null is an `Option`. Two definition or class pointers are
  equal when the records are equal; the field `Name` stands for the identity of the
  object.
* A multicast delegate is a log: `Broadcast` appends one entry to `Broadcasts`.
  `UE_LOG` lines are not part of the state.
* A `while` loop whose termination depends on the data takes a bound on its number
  of iterations and yields `none` when the bound is exhausted.
* A method of an ability instance takes the instance and its outer component and
  gives both back; the component method that called it stores the instance.
* An `FName` is `NAME_None` or a name; a `TSet` of names is a list without
  repetition, `Add` appending a name that is not in it. The objective instances of an
  active quest are values held by its entry; a call of an overridable event
  (`OnProgressUpdated`, `OnQuestObjectiveCompleted`) appends one entry to `Calls`.
  The objective objects outlive the entry that points to them: the entries `FailQuest`
  removes are kept, as they are when removed, in `FailedEntries`.
-/

namespace MGS

/-! ## Engine arithmetic (`FMath`, `INT_MAX`) -/

/-- Largest value of an `int32`. -/
def INT_MAX : Int := 2147483647

/-- Smallest value of an `int32`. -/
def INT_MIN : Int := -2147483648

/-- The `int32` stored for an exact result `x`: `x` itself when it lies between
`INT_MIN` and `INT_MAX`, and otherwise the value in that range that differs from `x`
by a multiple of `2^32` (two's complement wraparound). -/
def WrapInt32 (x : Int) : Int := (x - INT_MIN) % 4294967296 + INT_MIN

namespace FMath

/-- Unreal Engine `FMath::Min`. -/
def Min (A B : Int) : Int := if A < B then A else B

/-- Unreal Engine `FMath::Max`. -/
def Max (A B : Int) : Int := if B < A then A else B

/-- Unreal Engine `FMath::Clamp(X, MinValue, MaxValue)`, which is
`Max(Min(X, MaxValue), MinValue)`. -/
def Clamp (X MinValue MaxValue : Int) : Int := Max (Min X MaxValue) MinValue

/-- Unreal Engine `FMath::DivideAndRoundUp`, a template that is
`(Dividend + Divisor - 1) / Divisor` with the truncating division of C++, at the
exact integers: for `Dividend >= 0` and `Divisor >= 1` the quotient rounded up. -/
def DivideAndRoundUp (Dividend Divisor : Int) : Int :=
  Int.tdiv (Dividend + Divisor - 1) Divisor

/-- Unreal Engine `FMath::DivideAndRoundUp` at `int32`, as `CanAddItem` calls it:
`Dividend + Divisor` and then `- 1` are `int32` results. -/
def DivideAndRoundUpInt32 (Dividend Divisor : Int) : Int :=
  Int.tdiv (WrapInt32 (WrapInt32 (Dividend + Divisor) - 1)) Divisor

end FMath

/-! ## Inventory: data model -/

/-- The fields of `UItemDefinition` the inventory reads. `Name` is the identity of
the data asset. -/
structure UItemDefinition where
  Name : Nat
  MaxStackSize : Int
  deriving DecidableEq, Repr

/-- The object `UItemInstance`: one stack. -/
structure UItemInstance where
  ItemDefinition : Option UItemDefinition
  Quantity : Int
  deriving DecidableEq, Repr

/-- The delegates of `UInventoryComponent`, one constructor per broadcast. -/
inductive InventoryEvent where
  | OnItemAdded (ItemDef : UItemDefinition) (Quantity : Int)
  | OnItemRemoved (ItemDef : UItemDefinition) (Quantity : Int)
  | OnInventoryChanged
  deriving DecidableEq, Repr

/-- The object `UInventoryComponent`: slot limit, the array `Items` (an entry may be
a null pointer) and the broadcasts made so far, oldest first. -/
structure UInventoryComponent where
  MaxSlots : Int
  Items : List (Option UItemInstance)
  Broadcasts : List InventoryEvent
  deriving DecidableEq, Repr

namespace UItemInstance

/-- Source function `UItemInstance::Initialize`. The argument is not null (`check(InDefinition)`). -/
def Initialize (InDefinition : UItemDefinition) (InQuantity : Int) : UItemInstance :=
  { ItemDefinition := some InDefinition
    Quantity := FMath.Clamp InQuantity 1 InDefinition.MaxStackSize }

/-- Source function `UItemInstance::GetDefinition`. -/
def GetDefinition (self : UItemInstance) : Option UItemDefinition := self.ItemDefinition

/-- Source function `UItemInstance::GetQuantity`. -/
def GetQuantity (self : UItemInstance) : Int := self.Quantity

/-- Source function `UItemInstance::AddQuantity`: the amount added and the stack afterwards. -/
def AddQuantity (self : UItemInstance) (Amount : Int) : Int × UItemInstance :=
  match self.ItemDefinition with
  | none => (0, self)
  | some Def =>
    if Amount ≤ 0 then (0, self)
    else
      let SpaceLeft := Def.MaxStackSize - self.Quantity
      let ToAdd := FMath.Min Amount SpaceLeft
      (ToAdd, { self with Quantity := self.Quantity + ToAdd })

/-- Source function `UItemInstance::RemoveQuantity`: the amount removed and the stack afterwards. -/
def RemoveQuantity (self : UItemInstance) (Amount : Int) : Int × UItemInstance :=
  if Amount ≤ 0 then (0, self)
  else
    let ToRemove := FMath.Min Amount self.Quantity
    (ToRemove, { self with Quantity := self.Quantity - ToRemove })

/-- Source function `UItemInstance::IsStackFull`. -/
def IsStackFull (self : UItemInstance) : Bool :=
  match self.ItemDefinition with
  | none => false
  | some Def => decide (self.Quantity ≥ Def.MaxStackSize)

/-- Source function `UItemInstance::IsEmpty`. -/
def IsEmpty (self : UItemInstance) : Bool := decide (self.Quantity ≤ 0)

/-- Source function `UItemInstance::GetRemainingCapacity`. -/
def GetRemainingCapacity (self : UItemInstance) : Int :=
  match self.ItemDefinition with
  | none => 0
  | some Def => FMath.Max 0 (Def.MaxStackSize - self.Quantity)

end UItemInstance

namespace UInventoryComponent

/-! ## Inventory: queries -/

/-- The first loop of `CanAddItem`: `none` when the loop returned `true`, otherwise
the value of `Remaining` after the last entry. -/
def CanAddItem.fill (ItemDef : UItemDefinition) :
    List (Option UItemInstance) → Int → Option Int
  | [], Remaining => some Remaining
  | none :: rest, Remaining => CanAddItem.fill ItemDef rest Remaining
  | some Instance :: rest, Remaining =>
    if Instance.GetDefinition = some ItemDef then
      let Remaining1 := Remaining - Instance.GetRemainingCapacity
      if Remaining1 ≤ 0 then none else CanAddItem.fill ItemDef rest Remaining1
    else CanAddItem.fill ItemDef rest Remaining

/-- Source function `UInventoryComponent::CanAddItem` (a `const` method: it yields a value only). -/
def CanAddItem (self : UInventoryComponent) (ItemDef : Option UItemDefinition)
    (Quantity : Int) : Bool :=
  match ItemDef with
  | none => false
  | some Def =>
    if Quantity ≤ 0 then false
    else
      match CanAddItem.fill Def self.Items Quantity with
      | none => true
      | some Remaining =>
        let NewSlotsNeeded := FMath.DivideAndRoundUpInt32 Remaining Def.MaxStackSize
        let FreeSlots :=
          if self.MaxSlots > 0 then self.MaxSlots - (self.Items.length : Int) else INT_MAX
        decide (NewSlotsNeeded ≤ FreeSlots)

/-- One iteration of the loop of `GetItemCount`, `Total += Instance->GetQuantity()`
on an `int32`. -/
def GetItemCount.step (ItemDef : UItemDefinition) (Total : Int)
    (Entry : Option UItemInstance) : Int :=
  match Entry with
  | none => Total
  | some Instance =>
    if Instance.GetDefinition = some ItemDef then WrapInt32 (Total + Instance.GetQuantity)
    else Total

/-- Source function `UInventoryComponent::GetItemCount`. -/
def GetItemCount (self : UInventoryComponent) (ItemDef : Option UItemDefinition) : Int :=
  match ItemDef with
  | none => 0
  | some Def => self.Items.foldl (GetItemCount.step Def) 0

/-- Source function `UInventoryComponent::HasItem`. -/
def HasItem (self : UInventoryComponent) (ItemDef : Option UItemDefinition)
    (Quantity : Int) : Bool :=
  decide (self.GetItemCount ItemDef ≥ Quantity)

/-- Source function `UInventoryComponent::GetUsedSlotCount`. -/
def GetUsedSlotCount (self : UInventoryComponent) : Int := self.Items.length

/-! ## Inventory: mutations -/

/-- Step 1 of `AddItem` ("top up existing partial stacks"): the array and
`Remaining` when the loop is left. -/
def AddItem.topUp (ItemDef : UItemDefinition) :
    List (Option UItemInstance) → Int → List (Option UItemInstance) × Int
  | [], Remaining => ([], Remaining)
  | none :: rest, Remaining =>
    let r := AddItem.topUp ItemDef rest Remaining
    (none :: r.1, r.2)
  | some Instance :: rest, Remaining =>
    if Instance.GetDefinition = some ItemDef ∧ Instance.IsStackFull = false then
      let a := Instance.AddQuantity Remaining
      let Remaining1 := Remaining - a.1
      if Remaining1 ≤ 0 then (some a.2 :: rest, Remaining1)
      else
        let r := AddItem.topUp ItemDef rest Remaining1
        (some a.2 :: r.1, r.2)
    else
      let r := AddItem.topUp ItemDef rest Remaining
      (some Instance :: r.1, r.2)

/-- Step 2 of `AddItem` ("open new slots for the rest"), the `while (Remaining > 0)`
loop. The first argument bounds the number of stacks the loop may open. The result
is `false` when the loop returned at the slot limit and `true` when it ran to its
end, with the array and `Remaining` at that point. -/
def AddItem.openSlots (ItemDef : UItemDefinition) (MaxSlots : Int) :
    Nat → List (Option UItemInstance) → Int →
      Option (Bool × List (Option UItemInstance) × Int)
  | fuel, Items, Remaining =>
    if Remaining > 0 then
      if MaxSlots > 0 ∧ (Items.length : Int) ≥ MaxSlots then
        some (false, Items, Remaining)
      else
        match fuel with
        | 0 => none
        | fuel1 + 1 =>
          let ToAdd := FMath.Min Remaining ItemDef.MaxStackSize
          let NewInstance := UItemInstance.Initialize ItemDef ToAdd
          AddItem.openSlots ItemDef MaxSlots fuel1 (Items ++ [some NewInstance])
            (Remaining - ToAdd)
    else some (true, Items, Remaining)

/-- Source function `UInventoryComponent::AddItem`: the returned flag and the component afterwards;
`none` when the bound on the second loop is exhausted. -/
def AddItem (fuel : Nat) (self : UInventoryComponent) (ItemDef : Option UItemDefinition)
    (Quantity : Int) : Option (Bool × UInventoryComponent) :=
  match ItemDef with
  | none => some (false, self)
  | some Def =>
    if Quantity ≤ 0 then some (false, self)
    else
      let t := AddItem.topUp Def self.Items Quantity
      match AddItem.openSlots Def self.MaxSlots fuel t.1 t.2 with
      | none => none
      | some (false, Items2, Remaining) =>
        some (false,
          { self with
            Items := Items2
            Broadcasts := self.Broadcasts ++
              (if Remaining < Quantity then
                [InventoryEvent.OnItemAdded Def (Quantity - Remaining),
                 InventoryEvent.OnInventoryChanged]
               else []) })
      | some (true, Items2, _) =>
        some (true,
          { self with
            Items := Items2
            Broadcasts := self.Broadcasts ++
              [InventoryEvent.OnItemAdded Def Quantity, InventoryEvent.OnInventoryChanged] })

/-- The loop of `RemoveItem`, `for (i = Items.Num() - 1; i >= 0 && Remaining > 0; --i)`.
The first argument is `i + 1`. -/
def RemoveItem.loop (ItemDef : UItemDefinition) :
    Nat → List (Option UItemInstance) → Int → List (Option UItemInstance) × Int
  | 0, Items, Remaining => (Items, Remaining)
  | i + 1, Items, Remaining =>
    if Remaining > 0 then
      match Items.get? i with
      | some (some Instance) =>
        if Instance.GetDefinition = some ItemDef then
          let r := Instance.RemoveQuantity Remaining
          if r.2.IsEmpty then RemoveItem.loop ItemDef i (Items.eraseIdx i) (Remaining - r.1)
          else RemoveItem.loop ItemDef i (Items.set i (some r.2)) (Remaining - r.1)
        else RemoveItem.loop ItemDef i Items Remaining
      | _ => RemoveItem.loop ItemDef i Items Remaining
    else (Items, Remaining)

/-- Source function `UInventoryComponent::RemoveItem`: the returned flag and the component
afterwards. -/
def RemoveItem (self : UInventoryComponent) (ItemDef : Option UItemDefinition)
    (Quantity : Int) : Bool × UInventoryComponent :=
  match ItemDef with
  | none => (false, self)
  | some Def =>
    if Quantity ≤ 0 then (false, self)
    else if self.HasItem (some Def) Quantity = false then (false, self)
    else
      let r := RemoveItem.loop Def self.Items.length self.Items Quantity
      (true,
        { self with
          Items := r.1
          Broadcasts := self.Broadcasts ++
            [InventoryEvent.OnItemRemoved Def Quantity, InventoryEvent.OnInventoryChanged] })

/-- Source function `UInventoryComponent::ClearInventory`. -/
def ClearInventory (self : UInventoryComponent) : UInventoryComponent :=
  { self with
    Items := []
    Broadcasts := self.Broadcasts ++ [InventoryEvent.OnInventoryChanged] }

end UInventoryComponent

/-! ## Abilities: data model -/

/-- The enumeration `EAbilityState`. -/
inductive EAbilityState where
  | Inactive
  | Active
  | OnCooldown
  deriving DecidableEq, Repr

/-- A call that an override of `ActivateAbility` makes on its own instance. -/
inductive AbilityCall where
  | CommitEnd
  | InternalEnd (bWasCancelled : Bool)
  deriving DecidableEq, Repr

/-- An ability class (`TSubclassOf<UMgsGameplayAbility>`). `Name` is the identity of
the class, `CooldownDuration` its default (seconds, as an exact rational), and
`ActivateAbility` the calls made by the override of the activation event, `none`
when the class inherits `ActivateAbility_Implementation`. An override of `EndAbility`
is content code that does not call back into the life cycle of the instance. -/
structure UClass where
  Name : Nat
  CooldownDuration : ℚ
  ActivateAbility : Option (List AbilityCall)
  deriving DecidableEq, Repr

/-- The actor a component belongs to; its world is the world of the component. -/
structure AActor where
  Name : Nat
  deriving DecidableEq, Repr

/-- The object `UMgsGameplayAbility`. `Object` is the identity of the instance (the
value of a pointer to it), `Class` is what `GetClass()` returns. -/
structure UMgsGameplayAbility where
  Object : Nat
  Class : UClass
  CooldownDuration : ℚ
  AbilityOwner : Option AActor
  State : EAbilityState
  CooldownStartTime : ℚ
  deriving DecidableEq, Repr

/-- A timer set through `FTimerManager::SetTimer`: the instance whose
`InternalCooldownExpired` it calls, and its delay. -/
structure FTimer where
  Object : Nat
  Rate : ℚ
  deriving DecidableEq, Repr

/-- The part of `UWorld` the abilities use: the clock and the timers set so far. -/
structure UWorld where
  TimeSeconds : ℚ
  Timers : List FTimer
  deriving DecidableEq, Repr

/-- The delegates of `UAbilityComponent`, one constructor per broadcast; the
argument is the instance as it is when the broadcast is made. -/
inductive AbilityEvent where
  | OnAbilityGranted (Ability : UMgsGameplayAbility)
  | OnAbilityActivated (Ability : UMgsGameplayAbility)
  | OnAbilityEnded (Ability : UMgsGameplayAbility)
  deriving DecidableEq, Repr

/-- An invocation of one of the two overridable events of an ability, with the
instance as it is when the event is invoked. -/
inductive AbilityHook where
  | ActivateAbility (Ability : UMgsGameplayAbility)
  | EndAbility (Ability : UMgsGameplayAbility) (bWasCancelled : Bool)
  deriving DecidableEq, Repr

/-- The object `UAbilityComponent`: what `GetOwner()` and `GetWorld()` return, the
array `GrantedAbilities` (an entry may be a null pointer; every other entry holds an
object of its own), the identity `NewObject` gives to the next instance, the
broadcasts made so far and the overridable events invoked so far, oldest first. -/
structure UAbilityComponent where
  Owner : Option AActor
  World : Option UWorld
  GrantedAbilities : List (Option UMgsGameplayAbility)
  NextObject : Nat
  Broadcasts : List AbilityEvent
  Calls : List AbilityHook
  deriving DecidableEq, Repr

namespace UMgsGameplayAbility

/-- Source function `UMgsGameplayAbility::GetState`. -/
def GetState (self : UMgsGameplayAbility) : EAbilityState := self.State

/-- Source function `UMgsGameplayAbility::IsActive`. -/
def IsActive (self : UMgsGameplayAbility) : Bool := decide (self.State = EAbilityState.Active)

/-- Source function `UMgsGameplayAbility::IsOnCooldown`. -/
def IsOnCooldown (self : UMgsGameplayAbility) : Bool :=
  decide (self.State = EAbilityState.OnCooldown)

/-- Source function `UMgsGameplayAbility::CanActivate`. -/
def CanActivate (self : UMgsGameplayAbility) : Bool :=
  decide (self.State = EAbilityState.Inactive)

/-- The expression `AbilityOwner ? AbilityOwner->GetWorld() : nullptr`. -/
def OwnerWorld (self : UMgsGameplayAbility) (Comp : UAbilityComponent) : Option UWorld :=
  match self.AbilityOwner with
  | none => none
  | some _ => Comp.World

/-- Source function `UMgsGameplayAbility::GetCooldownRemaining`. -/
def GetCooldownRemaining (self : UMgsGameplayAbility) (Comp : UAbilityComponent) : ℚ :=
  if self.State ≠ EAbilityState.OnCooldown ∨ self.CooldownDuration ≤ 0 then 0
  else
    match self.OwnerWorld Comp with
    | none => 0
    | some World =>
      let Elapsed := World.TimeSeconds - self.CooldownStartTime
      max 0 (self.CooldownDuration - Elapsed)

end UMgsGameplayAbility

namespace UAbilityComponent

/-- Source function `UAbilityComponent::NotifyAbilityEnded`. -/
def NotifyAbilityEnded (self : UAbilityComponent) (Ability : Option UMgsGameplayAbility) :
    UAbilityComponent :=
  match Ability with
  | none => self
  | some a => { self with Broadcasts := self.Broadcasts ++ [AbilityEvent.OnAbilityEnded a] }

end UAbilityComponent

namespace UMgsGameplayAbility

/-- Source function `UMgsGameplayAbility::InternalEnd`. An instance method takes the instance and its
outer component and gives both back; the caller stores the instance. -/
def InternalEnd (self : UMgsGameplayAbility) (Comp : UAbilityComponent)
    (bWasCancelled : Bool) : UMgsGameplayAbility × UAbilityComponent :=
  if self.State ≠ EAbilityState.Active then (self, Comp)
  else
    let Comp1 := { Comp with Calls := Comp.Calls ++ [AbilityHook.EndAbility self bWasCancelled] }
    if self.CooldownDuration > 0 ∧ bWasCancelled = false then
      let self1 :=
        { self with
          CooldownStartTime :=
            match self.OwnerWorld Comp1 with
            | some World => World.TimeSeconds
            | none => 0
          State := EAbilityState.OnCooldown }
      match Comp1.World with
      | some MutableWorld =>
        (self1,
          { Comp1 with
            World := some
              { MutableWorld with
                Timers := MutableWorld.Timers ++ [FTimer.mk self.Object self.CooldownDuration] } })
      | none => (self1, Comp1)
    else ({ self with State := EAbilityState.Inactive }, Comp1)

/-- Source function `UMgsGameplayAbility::InternalCooldownExpired`. -/
def InternalCooldownExpired (self : UMgsGameplayAbility) : UMgsGameplayAbility :=
  { self with State := EAbilityState.Inactive }

/-- Source function `UMgsGameplayAbility::CommitEnd`. -/
def CommitEnd (self : UMgsGameplayAbility) (Comp : UAbilityComponent) :
    UMgsGameplayAbility × UAbilityComponent :=
  if self.State = EAbilityState.Active then
    let r := self.InternalEnd Comp false
    (r.1, r.2.NotifyAbilityEnded (some r.1))
  else (self, Comp)

/-- The calls of an override of `ActivateAbility`, made one after the other. -/
def RunCalls : List AbilityCall → UMgsGameplayAbility → UAbilityComponent →
    UMgsGameplayAbility × UAbilityComponent
  | [], self, Comp => (self, Comp)
  | AbilityCall.CommitEnd :: rest, self, Comp =>
    let r := self.CommitEnd Comp
    RunCalls rest r.1 r.2
  | AbilityCall.InternalEnd bWasCancelled :: rest, self, Comp =>
    let r := self.InternalEnd Comp bWasCancelled
    RunCalls rest r.1 r.2

/-- The event `ActivateAbility`: `ActivateAbility_Implementation` (which calls
`CommitEnd`) unless the class overrides it. -/
def ActivateAbility (self : UMgsGameplayAbility) (Comp : UAbilityComponent) :
    UMgsGameplayAbility × UAbilityComponent :=
  let Comp1 := { Comp with Calls := Comp.Calls ++ [AbilityHook.ActivateAbility self] }
  match self.Class.ActivateAbility with
  | none => self.CommitEnd Comp1
  | some Calls => RunCalls Calls self Comp1

/-- Source function `UMgsGameplayAbility::InternalActivate`. -/
def InternalActivate (self : UMgsGameplayAbility) (Comp : UAbilityComponent)
    (InOwner : Option AActor) : UMgsGameplayAbility × UAbilityComponent :=
  let self1 := { self with AbilityOwner := InOwner, State := EAbilityState.Active }
  self1.ActivateAbility Comp

end UMgsGameplayAbility

namespace UAbilityComponent

/-! ## Abilities: the component -/

/-- The loop of `FindAbilityByClass`. -/
def FindAbilityByClass.loop (AbilityClass : UClass) :
    List (Option UMgsGameplayAbility) → Option UMgsGameplayAbility
  | [] => none
  | none :: rest => FindAbilityByClass.loop AbilityClass rest
  | some Ab :: rest =>
    if Ab.Class = AbilityClass then some Ab else FindAbilityByClass.loop AbilityClass rest

/-- Source function `UAbilityComponent::FindAbilityByClass`: the instance found (its identity and its
present contents), `none` for a null pointer. -/
def FindAbilityByClass (self : UAbilityComponent) (AbilityClass : Option UClass) :
    Option UMgsGameplayAbility :=
  match AbilityClass with
  | none => none
  | some Class => FindAbilityByClass.loop Class self.GrantedAbilities

/-- Writing through a pointer: the entries of the array that hold the object
`Ability.Object` see its new contents. -/
def Store (self : UAbilityComponent) (Ability : UMgsGameplayAbility) : UAbilityComponent :=
  { self with
    GrantedAbilities := self.GrantedAbilities.map fun Entry =>
      match Entry with
      | none => none
      | some Ab => if Ab.Object = Ability.Object then some Ability else some Ab }

/-- Engine call `NewObject<UMgsGameplayAbility>(this, AbilityClass)`: a fresh instance with the
defaults of the class. -/
def NewObject (self : UAbilityComponent) (AbilityClass : UClass) : UMgsGameplayAbility :=
  { Object := self.NextObject
    Class := AbilityClass
    CooldownDuration := AbilityClass.CooldownDuration
    AbilityOwner := none
    State := EAbilityState.Inactive
    CooldownStartTime := 0 }

/-- Source function `UAbilityComponent::GiveAbility`: the pointer returned (`none` is `nullptr`) and
the component afterwards. -/
def GiveAbility (self : UAbilityComponent) (AbilityClass : Option UClass) :
    Option Nat × UAbilityComponent :=
  match AbilityClass with
  | none => (none, self)
  | some Class =>
    match self.FindAbilityByClass (some Class) with
    | some Existing => (some Existing.Object, self)
    | none =>
      let NewAbility := self.NewObject Class
      (some NewAbility.Object,
        { self with
          GrantedAbilities := self.GrantedAbilities ++ [some NewAbility]
          NextObject := self.NextObject + 1
          Broadcasts := self.Broadcasts ++ [AbilityEvent.OnAbilityGranted NewAbility] })

/-- Engine call `TArray::Remove(Ability)`: every entry equal to the pointer is removed. -/
def RemoveEntries (Object : Nat) (Entries : List (Option UMgsGameplayAbility)) :
    List (Option UMgsGameplayAbility) :=
  Entries.filter fun Entry =>
    match Entry with
    | none => true
    | some Ab => decide (Ab.Object ≠ Object)

/-- Source function `UAbilityComponent::RemoveAbility`. -/
def RemoveAbility (self : UAbilityComponent) (AbilityClass : Option UClass) :
    UAbilityComponent :=
  match self.FindAbilityByClass AbilityClass with
  | none => self
  | some Ability =>
    let r := if Ability.IsActive then Ability.InternalEnd self true else (Ability, self)
    let Comp := r.2.Store r.1
    { Comp with GrantedAbilities := RemoveEntries Ability.Object Comp.GrantedAbilities }

/-- Source function `UAbilityComponent::TryActivateAbility`: the returned flag and the component
afterwards. -/
def TryActivateAbility (self : UAbilityComponent) (AbilityClass : Option UClass) :
    Bool × UAbilityComponent :=
  match self.FindAbilityByClass AbilityClass with
  | none => (false, self)
  | some Ability =>
    if Ability.CanActivate = false then (false, self)
    else
      let Comp1 :=
        { self with Broadcasts := self.Broadcasts ++ [AbilityEvent.OnAbilityActivated Ability] }
      let r := Ability.InternalActivate Comp1 self.Owner
      (true, r.2.Store r.1)

/-- Source function `UAbilityComponent::CancelAbility`. -/
def CancelAbility (self : UAbilityComponent) (AbilityClass : Option UClass) :
    UAbilityComponent :=
  match self.FindAbilityByClass AbilityClass with
  | none => self
  | some Ability =>
    if Ability.IsActive then
      let r := Ability.InternalEnd self true
      (r.2.NotifyAbilityEnded (some r.1)).Store r.1
    else self

/-- The loop of `CancelAllAbilities` over the entries not yet visited. -/
def CancelAllAbilities.loop :
    List (Option UMgsGameplayAbility) → UAbilityComponent → UAbilityComponent
  | [], Comp => Comp
  | none :: rest, Comp => CancelAllAbilities.loop rest Comp
  | some Ability :: rest, Comp =>
    if Ability.IsActive then
      let r := Ability.InternalEnd Comp true
      let Comp1 :=
        { r.2 with Broadcasts := r.2.Broadcasts ++ [AbilityEvent.OnAbilityEnded r.1] }
      CancelAllAbilities.loop rest (Comp1.Store r.1)
    else CancelAllAbilities.loop rest Comp

/-- Source function `UAbilityComponent::CancelAllAbilities`. -/
def CancelAllAbilities (self : UAbilityComponent) : UAbilityComponent :=
  CancelAllAbilities.loop self.GrantedAbilities self

/-- Source function `UAbilityComponent::HasAbility`. -/
def HasAbility (self : UAbilityComponent) (AbilityClass : Option UClass) : Bool :=
  (self.FindAbilityByClass AbilityClass).isSome

/-- Source function `UAbilityComponent::IsAbilityActive`. -/
def IsAbilityActive (self : UAbilityComponent) (AbilityClass : Option UClass) : Bool :=
  match self.FindAbilityByClass AbilityClass with
  | none => false
  | some Ability => Ability.IsActive

/-- Source function `UAbilityComponent::IsAbilityOnCooldown`. -/
def IsAbilityOnCooldown (self : UAbilityComponent) (AbilityClass : Option UClass) : Bool :=
  match self.FindAbilityByClass AbilityClass with
  | none => false
  | some Ability => Ability.IsOnCooldown

/-- Source function `UAbilityComponent::GetAbilityCooldownRemaining`. -/
def GetAbilityCooldownRemaining (self : UAbilityComponent) (AbilityClass : Option UClass) : ℚ :=
  match self.FindAbilityByClass AbilityClass with
  | none => 0
  | some Ability => Ability.GetCooldownRemaining self

/-- Source function `UAbilityComponent::GetGrantedAbilities`. -/
def GetGrantedAbilities (self : UAbilityComponent) : List UMgsGameplayAbility :=
  self.GrantedAbilities.filterMap id

end UAbilityComponent

end MGS

namespace MGS

/-! ## Quests: data model -/

/-- The engine type `FName`: the name `None` or a proper name. -/
inductive FName where
  | NAME_None
  | Name (Id : Nat)
  deriving DecidableEq, Repr

/-- Engine call `FName::IsNone`. -/
def FName.IsNone : FName → Bool
  | FName.NAME_None => true
  | FName.Name _ => false

/-- Engine call `TSet<FName>::Add`: the element is stored once. -/
def TSetAdd (Set : List FName) (Element : FName) : List FName :=
  if Element ∈ Set then Set else Set ++ [Element]

/-- Unreal Engine `FMath::Clamp` on `float` values, `Max(Min(X, MaxValue), MinValue)`. -/
def FMath.ClampFloat (X MinValue MaxValue : ℚ) : ℚ := max (min X MaxValue) MinValue

/-- The enumeration `EObjectiveState`. -/
inductive EObjectiveState where
  | Inactive
  | Active
  | Completed
  | Failed
  deriving DecidableEq, Repr

/-- The object `UObjectiveBase`: a template inside a quest definition, or a runtime
copy of one. -/
structure UObjectiveBase where
  ObjectiveID : FName
  RequiredProgress : Int
  CurrentProgress : Int
  State : EObjectiveState
  deriving DecidableEq, Repr

/-- The fields of `UQuestDefinition` the tracker reads. `Name` is the identity of the
data asset; an entry of `Objectives` may be a null pointer. -/
structure UQuestDefinition where
  Name : Nat
  QuestID : FName
  Objectives : List (Option UObjectiveBase)
  bRequireAllObjectives : Bool
  deriving DecidableEq, Repr

/-- The struct `FActiveQuestEntry`. -/
structure FActiveQuestEntry where
  Definition : Option UQuestDefinition
  ActiveObjectives : List (Option UObjectiveBase)
  deriving DecidableEq, Repr

/-- The delegates of `UQuestComponent`, one constructor per broadcast; an objective is
passed as it is when the broadcast is made. -/
inductive QuestEvent where
  | OnQuestStarted (Quest : UQuestDefinition)
  | OnQuestCompleted (Quest : UQuestDefinition)
  | OnQuestFailed (Quest : UQuestDefinition)
  | OnObjectiveProgress (Quest : UQuestDefinition) (Objective : UObjectiveBase)
  deriving DecidableEq, Repr

/-- An invocation of one of the overridable events of the quest classes:
`UObjectiveBase::OnProgressUpdated` (with the objective as it is at that moment) and
`UQuestComponent::OnQuestObjectiveCompleted`. -/
inductive QuestHook where
  | OnProgressUpdated (Objective : UObjectiveBase) (OldProgress NewProgress : Int)
  | OnQuestObjectiveCompleted (Quest : UQuestDefinition) (ObjectiveIndex : Int)
  deriving DecidableEq, Repr

/-- The object `UQuestComponent`: the array `ActiveQuests`, the two sets of
identifiers (in insertion order), the broadcasts made so far and the overridable
events invoked so far, oldest first. `FailedEntries` holds the entries `FailQuest`
has removed from `ActiveQuests`, each as it is when removed: the objective objects of
an entry outlive it, with what `FailQuest` wrote to them. -/
structure UQuestComponent where
  ActiveQuests : List FActiveQuestEntry
  CompletedQuestIDs : List FName
  FailedQuestIDs : List FName
  Broadcasts : List QuestEvent
  Calls : List QuestHook
  FailedEntries : List FActiveQuestEntry
  deriving DecidableEq, Repr

namespace UObjectiveBase

/-- Source function `UObjectiveBase::GetCurrentProgress`. -/
def GetCurrentProgress (self : UObjectiveBase) : Int := self.CurrentProgress

/-- Source function `UObjectiveBase::GetState`. -/
def GetState (self : UObjectiveBase) : EObjectiveState := self.State

/-- Source function `UObjectiveBase::IsCompleted`. -/
def IsCompleted (self : UObjectiveBase) : Bool := decide (self.State = EObjectiveState.Completed)

/-- Source function `UObjectiveBase::GetProgressFraction`, the quotient being exact. -/
def GetProgressFraction (self : UObjectiveBase) : ℚ :=
  if self.RequiredProgress ≤ 0 then 1
  else FMath.ClampFloat ((self.CurrentProgress : ℚ) / (self.RequiredProgress : ℚ)) 0 1

/-- Source function `UObjectiveBase::AddProgress`: the returned flag, the objective
afterwards and the invocation of `OnProgressUpdated`, if any. The sum
`CurrentProgress + Delta` is an `int32`. -/
def AddProgress (self : UObjectiveBase) (Delta : Int) : Bool × UObjectiveBase × List QuestHook :=
  if self.State ≠ EObjectiveState.Active ∨ Delta ≤ 0 then (false, self, [])
  else
    let OldProgress := self.CurrentProgress
    let self1 :=
      { self with
        CurrentProgress :=
          FMath.Min (WrapInt32 (self.CurrentProgress + Delta)) self.RequiredProgress }
    let Hook := [QuestHook.OnProgressUpdated self1 OldProgress self1.CurrentProgress]
    if self1.CurrentProgress ≥ self1.RequiredProgress then
      (true, { self1 with State := EObjectiveState.Completed }, Hook)
    else (false, self1, Hook)

/-- Source function `UObjectiveBase::Activate`. -/
def Activate (self : UObjectiveBase) : UObjectiveBase :=
  { self with State := EObjectiveState.Active, CurrentProgress := 0 }

/-- Source function `UObjectiveBase::Fail`. -/
def Fail (self : UObjectiveBase) : UObjectiveBase :=
  { self with State := EObjectiveState.Failed }

end UObjectiveBase

namespace UQuestComponent

/-! ## Quests: the component -/

/-- Source function `UQuestComponent::FindActiveEntry`: the first entry whose
definition is the given one (the entry the returned pointer points to). -/
def FindActiveEntry (self : UQuestComponent) (QuestDef : Option UQuestDefinition) :
    Option FActiveQuestEntry :=
  match QuestDef with
  | none => none
  | some Quest => self.ActiveQuests.find? fun E => decide (E.Definition = some Quest)

/-- Writing through the pointer returned by `FindActiveEntry`: the first entry whose
definition is `Quest` becomes `Entry`. -/
def StoreEntry (Quest : UQuestDefinition) (Entry : FActiveQuestEntry) :
    List FActiveQuestEntry → List FActiveQuestEntry
  | [] => []
  | E :: rest =>
    if E.Definition = some Quest then Entry :: rest else E :: StoreEntry Quest Entry rest

/-- Source function `UQuestComponent::IsQuestActive`. -/
def IsQuestActive (self : UQuestComponent) (QuestDef : Option UQuestDefinition) : Bool :=
  (self.FindActiveEntry QuestDef).isSome

/-- Source function `UQuestComponent::IsQuestCompleted`. -/
def IsQuestCompleted (self : UQuestComponent) (QuestDef : Option UQuestDefinition) : Bool :=
  match QuestDef with
  | none => false
  | some Quest => decide (Quest.QuestID ∈ self.CompletedQuestIDs)

/-- The loop of `StartQuest`: one runtime copy (`DuplicateObject`), activated, per
template that is not a null pointer. -/
def StartQuest.instantiate : List (Option UObjectiveBase) → List (Option UObjectiveBase)
  | [] => []
  | none :: rest => StartQuest.instantiate rest
  | some ObjTemplate :: rest => some ObjTemplate.Activate :: StartQuest.instantiate rest

/-- Source function `UQuestComponent::StartQuest`: the returned flag and the component
afterwards. -/
def StartQuest (self : UQuestComponent) (QuestDef : Option UQuestDefinition) :
    Bool × UQuestComponent :=
  match QuestDef with
  | none => (false, self)
  | some Quest =>
    if self.IsQuestActive (some Quest) ∨ self.IsQuestCompleted (some Quest) then (false, self)
    else
      let Entry : FActiveQuestEntry :=
        { Definition := some Quest
          ActiveObjectives := StartQuest.instantiate Quest.Objectives }
      (true,
        { self with
          ActiveQuests := self.ActiveQuests ++ [Entry]
          Broadcasts := self.Broadcasts ++ [QuestEvent.OnQuestStarted Quest] })

/-- The call `ActiveQuests.RemoveAll` made by `CompleteQuest` and `FailQuest`: every
entry whose definition is `Quest` is removed. -/
def RemoveAllEntries (Quest : UQuestDefinition) (Entries : List FActiveQuestEntry) :
    List FActiveQuestEntry :=
  Entries.filter fun E => !decide (E.Definition = some Quest)

/-- Source function `UQuestComponent::CompleteQuest`. -/
def CompleteQuest (self : UQuestComponent) (QuestDef : Option UQuestDefinition) :
    UQuestComponent :=
  match QuestDef with
  | none => self
  | some Quest =>
    match self.FindActiveEntry (some Quest) with
    | none => self
    | some _ =>
      { self with
        ActiveQuests := RemoveAllEntries Quest self.ActiveQuests
        CompletedQuestIDs := TSetAdd self.CompletedQuestIDs Quest.QuestID
        Broadcasts := self.Broadcasts ++ [QuestEvent.OnQuestCompleted Quest] }

/-- The loop of `FailQuest` over the objectives of the entry: what the objective
instances are after it. -/
def FailQuest.failObjectives : List (Option UObjectiveBase) → List (Option UObjectiveBase)
  | [] => []
  | none :: rest => none :: FailQuest.failObjectives rest
  | some Obj :: rest =>
    (if Obj.IsCompleted = false then some Obj.Fail else some Obj) :: FailQuest.failObjectives rest

/-- The entries `ActiveQuests.RemoveAll` removes: every entry whose definition is
`Quest`, in the order of the array. -/
def RemovedEntries (Quest : UQuestDefinition) (Entries : List FActiveQuestEntry) :
    List FActiveQuestEntry :=
  Entries.filter fun E => decide (E.Definition = some Quest)

/-- Source function `UQuestComponent::FailQuest`. The objectives are marked through
the entry found, and `RemoveAll` then removes the entries of the quest; they are kept,
as they are at that moment, in `FailedEntries`. -/
def FailQuest (self : UQuestComponent) (QuestDef : Option UQuestDefinition) :
    UQuestComponent :=
  match QuestDef with
  | none => self
  | some Quest =>
    match self.FindActiveEntry (some Quest) with
    | none => self
    | some Entry =>
      let Entry1 := { Entry with ActiveObjectives := FailQuest.failObjectives Entry.ActiveObjectives }
      let Active1 := StoreEntry Quest Entry1 self.ActiveQuests
      { self with
        ActiveQuests := RemoveAllEntries Quest Active1
        FailedQuestIDs := TSetAdd self.FailedQuestIDs Quest.QuestID
        Broadcasts := self.Broadcasts ++ [QuestEvent.OnQuestFailed Quest]
        FailedEntries := self.FailedEntries ++ RemovedEntries Quest Active1 }

/-- The value `bAllCompleted` of `CheckQuestCompletion`: no objective that is not a
null pointer is other than completed. -/
def CheckQuestCompletion.bAllCompleted (Entry : FActiveQuestEntry) : Bool :=
  !(Entry.ActiveObjectives.any fun Obj =>
    match Obj with
    | none => false
    | some o => !o.IsCompleted)

/-- Source function `UQuestComponent::CheckQuestCompletion`. -/
def CheckQuestCompletion (self : UQuestComponent) (Entry : FActiveQuestEntry) :
    UQuestComponent :=
  match Entry.Definition with
  | none => self
  | some Quest =>
    if Quest.bRequireAllObjectives = true ∧ CheckQuestCompletion.bAllCompleted Entry = true then
      self.CompleteQuest (some Quest)
    else self

/-- The search made by the loop of `UpdateObjectiveProgress`: the index and the
objective at the first position from `i` on whose objective has the identifier. -/
def UpdateObjectiveProgress.find (ObjectiveID : FName) :
    Nat → List (Option UObjectiveBase) → Option (Nat × UObjectiveBase)
  | _, [] => none
  | i, none :: rest => UpdateObjectiveProgress.find ObjectiveID (i + 1) rest
  | i, some Obj :: rest =>
    if Obj.ObjectiveID = ObjectiveID then some (i, Obj)
    else UpdateObjectiveProgress.find ObjectiveID (i + 1) rest

/-- Source function `UQuestComponent::UpdateObjectiveProgress`. -/
def UpdateObjectiveProgress (self : UQuestComponent) (QuestDef : Option UQuestDefinition)
    (ObjectiveID : FName) (Delta : Int) : UQuestComponent :=
  match QuestDef with
  | none => self
  | some Quest =>
    if ObjectiveID.IsNone = true ∨ Delta ≤ 0 then self
    else
      match self.FindActiveEntry (some Quest) with
      | none => self
      | some Entry =>
        match UpdateObjectiveProgress.find ObjectiveID 0 Entry.ActiveObjectives with
        | none => self
        | some (i, Obj) =>
          let r := Obj.AddProgress Delta
          let Entry1 :=
            { Entry with ActiveObjectives := Entry.ActiveObjectives.set i (some r.2.1) }
          let self1 :=
            { self with
              ActiveQuests := StoreEntry Quest Entry1 self.ActiveQuests
              Calls := self.Calls ++ r.2.2
              Broadcasts := self.Broadcasts ++ [QuestEvent.OnObjectiveProgress Quest r.2.1] }
          if r.1 = true then
            let self2 :=
              { self1 with
                Calls := self1.Calls ++ [QuestHook.OnQuestObjectiveCompleted Quest (i : Int)] }
            self2.CheckQuestCompletion Entry1
          else self1

/-- The loop of `GetQuestProgress`: the sum of the fractions of the objectives that
are not null pointers. -/
def GetQuestProgress.total : List (Option UObjectiveBase) → ℚ
  | [] => 0
  | none :: rest => GetQuestProgress.total rest
  | some Obj :: rest => Obj.GetProgressFraction + GetQuestProgress.total rest

/-- Source function `UQuestComponent::GetQuestProgress`, the quotient being exact. -/
def GetQuestProgress (self : UQuestComponent) (QuestDef : Option UQuestDefinition) : ℚ :=
  match self.FindActiveEntry QuestDef with
  | none => if self.IsQuestCompleted QuestDef then 1 else 0
  | some Entry =>
    if Entry.ActiveObjectives.isEmpty then
      if self.IsQuestCompleted QuestDef then 1 else 0
    else GetQuestProgress.total Entry.ActiveObjectives / (Entry.ActiveObjectives.length : ℚ)

/-- Source function `UQuestComponent::GetActiveQuests`. -/
def GetActiveQuests (self : UQuestComponent) : List FActiveQuestEntry := self.ActiveQuests

end UQuestComponent

end MGS

namespace MGS

/-! ## Predicates and auxiliary functions used in the statements -/

/-- The entry is a stack (not a null pointer) whose definition is `D`. -/
def IsStackOf (D : UItemDefinition) (Entry : Option UItemInstance) : Bool :=
  match Entry with
  | none => false
  | some Instance => decide (Instance.ItemDefinition = some D)

/-- What one entry contributes to the units of `D`. -/
def UnitsOf (D : UItemDefinition) (Entry : Option UItemInstance) : Int :=
  match Entry with
  | none => 0
  | some Instance => if Instance.ItemDefinition = some D then Instance.Quantity else 0

/-- Units of `D` held by a sequence of entries. -/
def Units (D : UItemDefinition) : List (Option UItemInstance) → Int
  | [] => 0
  | Entry :: rest => UnitsOf D Entry + Units D rest

/-- One iteration of the loop of `RemoveItem` at the entry `Entry`, the later
entries being done: `p` holds the entries that follow and `Remaining`. -/
def DrainStep (D : UItemDefinition) (Entry : Option UItemInstance)
    (p : List (Option UItemInstance) × Int) : List (Option UItemInstance) × Int :=
  if p.2 > 0 then
    match Entry with
    | some Instance =>
      if Instance.ItemDefinition = some D then
        if (Instance.RemoveQuantity p.2).2.IsEmpty then (p.1, p.2 - (Instance.RemoveQuantity p.2).1)
        else (some (Instance.RemoveQuantity p.2).2 :: p.1, p.2 - (Instance.RemoveQuantity p.2).1)
      else (Entry :: p.1, p.2)
    | none => (Entry :: p.1, p.2)
  else (Entry :: p.1, p.2)

/-- What `RemoveItem.loop` computes, by recursion on the array: the entries are
visited from the last one to the first one. -/
def Drain (D : UItemDefinition) :
    List (Option UItemInstance) → Int → List (Option UItemInstance) × Int
  | [], Remaining => ([], Remaining)
  | Entry :: rest, Remaining => DrainStep D Entry (Drain D rest Remaining)

/-- A stack holds at least one unit and, when it has a definition, at most
`MaxStackSize` units. -/
def StackInvariant (Instance : UItemInstance) : Prop :=
  1 ≤ Instance.Quantity ∧
    ∀ Def, Instance.ItemDefinition = some Def → Instance.Quantity ≤ Def.MaxStackSize

/-- The ledger invariant: (a) every stack satisfies `StackInvariant`, (b) when
`MaxSlots > 0` there are at most `MaxSlots` entries. -/
def LedgerInvariant (c : UInventoryComponent) : Prop :=
  (∀ Instance, some Instance ∈ c.Items → StackInvariant Instance) ∧
    (c.MaxSlots > 0 → (c.Items.length : Int) ≤ c.MaxSlots)

/-- Every stack of `D` that has a stack of `D` somewhere after it is full. -/
def StackShape (D : UItemDefinition) : List (Option UItemInstance) → Prop
  | [] => True
  | Entry :: rest =>
    (∀ Instance, Entry = some Instance → Instance.ItemDefinition = some D →
        (∃ e ∈ rest, IsStackOf D e = true) → Instance.Quantity = D.MaxStackSize) ∧
      StackShape D rest

/-- The ledgers reached from the empty ledger with slot limit `MaxSlots` by calls of
`AddItem`, `RemoveItem` and `ClearInventory`, the definitions passed having
`MaxStackSize >= 1`. -/
inductive Reachable (MaxSlots : Int) : UInventoryComponent → Prop where
  | empty : Reachable MaxSlots { MaxSlots := MaxSlots, Items := [], Broadcasts := [] }
  | addItem {c c1 : UInventoryComponent} (fuel : Nat) (ItemDef : Option UItemDefinition)
      (Quantity : Int) (ok : Bool) :
      Reachable MaxSlots c → (∀ Def, ItemDef = some Def → 1 ≤ Def.MaxStackSize) →
      UInventoryComponent.AddItem fuel c ItemDef Quantity = some (ok, c1) →
      Reachable MaxSlots c1
  | removeItem {c : UInventoryComponent} (ItemDef : Option UItemDefinition) (Quantity : Int) :
      Reachable MaxSlots c → Reachable MaxSlots (UInventoryComponent.RemoveItem c ItemDef Quantity).2
  | clearInventory {c : UInventoryComponent} :
      Reachable MaxSlots c → Reachable MaxSlots (UInventoryComponent.ClearInventory c)

end MGS

namespace MGS

/-- How an entry that `RemoveItem` keeps relates to what it was: it is the same, or
it is the same stack with fewer units, at least one being left. -/
def KeptAs (Before After : Option UItemInstance) : Prop :=
  Before = After ∨
    ∃ s k, Before = some s ∧ 0 < k ∧ k < s.Quantity ∧
      After = some { s with Quantity := s.Quantity - k }

/-- An item definition with `MaxStackSize = 10`, for the worked examples. -/
def ExampleItem : UItemDefinition := { Name := 1, MaxStackSize := 10 }

/-- A ledger for the worked examples: one stack of `ExampleItem` per quantity
listed, no broadcast made yet. -/
def ExampleLedger (MaxSlots : Int) (Quantities : List Int) : UInventoryComponent :=
  { MaxSlots := MaxSlots
    Items := Quantities.map fun q => some { ItemDefinition := some ExampleItem, Quantity := q }
    Broadcasts := [] }

end MGS

namespace MGS

/-- The ledger reached from the empty unlimited ledger by `AddItem(ExampleItem, 15)`:
stacks `[10, 5]`. -/
def ExampleReached : UInventoryComponent :=
  { ExampleLedger 0 [10, 5] with
    Broadcasts :=
      [InventoryEvent.OnItemAdded ExampleItem 15, InventoryEvent.OnInventoryChanged] }

/-- The ledger `ExampleReached` after `AddItem(ExampleItem, 7)`: stacks `[10, 10, 2]`. -/
def ExampleReachedPlus7 : UInventoryComponent :=
  { ExampleLedger 0 [10, 10, 2] with
    Broadcasts :=
      [InventoryEvent.OnItemAdded ExampleItem 15, InventoryEvent.OnInventoryChanged,
       InventoryEvent.OnItemAdded ExampleItem 7, InventoryEvent.OnInventoryChanged] }

end MGS

namespace MGS

/-- An ability class with a cooldown of 5 seconds that inherits
`ActivateAbility_Implementation`, for the worked examples. -/
def ExampleClass : UClass := { Name := 1, CooldownDuration := 5, ActivateAbility := none }

/-- A registry with no ability granted, owned by an actor, in a world whose clock
shows 0. -/
def ExampleRegistry : UAbilityComponent :=
  { Owner := some { Name := 1 }
    World := some { TimeSeconds := 0, Timers := [] }
    GrantedAbilities := []
    NextObject := 0
    Broadcasts := []
    Calls := [] }

/-- The registry `ExampleRegistry` after `GiveAbility(ExampleClass)` and one
`TryActivateAbility(ExampleClass)`: the instance is on cooldown. -/
def ExampleCoolingDown : UAbilityComponent :=
  ((ExampleRegistry.GiveAbility (some ExampleClass)).2.TryActivateAbility (some ExampleClass)).2

end MGS

namespace MGS

/-- An ability class whose override of `ActivateAbility` makes no call: the instance
stays `Active` until it is ended. -/
def ExampleChannel : UClass := { Name := 2, CooldownDuration := 3, ActivateAbility := some [] }

/-- The registry `ExampleRegistry` after `GiveAbility(ExampleChannel)` and one
`TryActivateAbility(ExampleChannel)`: the instance is `Active`. -/
def ExampleChannelling : UAbilityComponent :=
  ((ExampleRegistry.GiveAbility (some ExampleChannel)).2.TryActivateAbility
    (some ExampleChannel)).2

end MGS

namespace MGS

namespace UAbilityComponent

/-! ## Abilities: what the environment does with a registry -/

/-- The instance a pointer points to: the first entry of the array that holds the
object. -/
def FindAbilityByObject (self : UAbilityComponent) (Object : Nat) :
    Option UMgsGameplayAbility :=
  self.GrantedAbilities.findSome? fun Entry =>
    match Entry with
    | none => none
    | some Ab => if Ab.Object = Object then some Ab else none

/-- The timer set by `InternalEnd` fires: the timer manager calls
`InternalCooldownExpired` on the instance, if the registry still holds it. -/
def FireCooldownTimer (self : UAbilityComponent) (Object : Nat) : UAbilityComponent :=
  match self.FindAbilityByObject Object with
  | none => self
  | some Ability => self.Store Ability.InternalCooldownExpired

/-- The behaviour code of a granted ability calls `CommitEnd` on its instance. -/
def CallCommitEnd (self : UAbilityComponent) (Object : Nat) : UAbilityComponent :=
  match self.FindAbilityByObject Object with
  | none => self
  | some Ability =>
    let r := Ability.CommitEnd self
    r.2.Store r.1

/-- The clock of the world moves to `Now`. -/
def SetTimeSeconds (self : UAbilityComponent) (Now : ℚ) : UAbilityComponent :=
  { self with World := self.World.map fun World => { World with TimeSeconds := Now } }

end UAbilityComponent

/-- The commands a registry receives: the five mutations of `UAbilityComponent`, a
`CommitEnd` made by the behaviour code of an instance, and the expiry of a cooldown
timer. -/
inductive AbilityCommand where
  | GiveAbility (AbilityClass : Option UClass)
  | RemoveAbility (AbilityClass : Option UClass)
  | TryActivateAbility (AbilityClass : Option UClass)
  | CancelAbility (AbilityClass : Option UClass)
  | CancelAllAbilities
  | CommitEnd (Object : Nat)
  | CooldownExpired (Object : Nat)
  deriving DecidableEq, Repr

/-- The registry after a command. -/
def UAbilityComponent.Run (self : UAbilityComponent) : AbilityCommand → UAbilityComponent
  | AbilityCommand.GiveAbility AbilityClass => (self.GiveAbility AbilityClass).2
  | AbilityCommand.RemoveAbility AbilityClass => self.RemoveAbility AbilityClass
  | AbilityCommand.TryActivateAbility AbilityClass => (self.TryActivateAbility AbilityClass).2
  | AbilityCommand.CancelAbility AbilityClass => self.CancelAbility AbilityClass
  | AbilityCommand.CancelAllAbilities => self.CancelAllAbilities
  | AbilityCommand.CommitEnd Object => self.CallCommitEnd Object
  | AbilityCommand.CooldownExpired Object => self.FireCooldownTimer Object

end MGS

namespace MGS

/-- How an instance `a1` of the registry `c1` got its state, `c` being the registry
before the command. If `a1` is `Active`, it was there as it is, or the instance was
`Inactive` before. If `a1` is `OnCooldown`, it was there as it is, or the command
invoked the end behaviour, not cancelled, on this instance while it was `Active`. -/
def EnteredFrom (c c1 : UAbilityComponent) (a1 : UMgsGameplayAbility) : Prop :=
  (a1.State = EAbilityState.Active →
    some a1 ∈ c.GrantedAbilities ∨
      ∃ a, some a ∈ c.GrantedAbilities ∧ a.Object = a1.Object ∧
        a.State = EAbilityState.Inactive) ∧
  (a1.State = EAbilityState.OnCooldown →
    some a1 ∈ c.GrantedAbilities ∨
      ∃ s new, c1.Calls = c.Calls ++ new ∧ AbilityHook.EndAbility s false ∈ new ∧
        s.Object = a1.Object ∧ s.State = EAbilityState.Active)

end MGS

namespace MGS

/-! ## Quests: predicates and examples used in the statements -/

/-- The commands a tracker receives. -/
inductive QuestCommand where
  | StartQuest (QuestDef : Option UQuestDefinition)
  | UpdateObjectiveProgress (QuestDef : Option UQuestDefinition) (ObjectiveID : FName)
      (Delta : Int)
  | CompleteQuest (QuestDef : Option UQuestDefinition)
  | FailQuest (QuestDef : Option UQuestDefinition)
  deriving DecidableEq, Repr

/-- The tracker after a command. -/
def UQuestComponent.Run (self : UQuestComponent) : QuestCommand → UQuestComponent
  | QuestCommand.StartQuest QuestDef => (self.StartQuest QuestDef).2
  | QuestCommand.UpdateObjectiveProgress QuestDef ObjectiveID Delta =>
    self.UpdateObjectiveProgress QuestDef ObjectiveID Delta
  | QuestCommand.CompleteQuest QuestDef => self.CompleteQuest QuestDef
  | QuestCommand.FailQuest QuestDef => self.FailQuest QuestDef

/-- The tracker a component starts with: nothing active, completed or failed. -/
def EmptyTracker : UQuestComponent :=
  { ActiveQuests := [], CompletedQuestIDs := [], FailedQuestIDs := [], Broadcasts := [],
    Calls := [], FailedEntries := [] }

/-- The quest definitions of `Quests` have pairwise distinct identifiers. -/
def DistinctQuestIDs (Quests : UQuestDefinition → Prop) : Prop :=
  ∀ Q1 Q2, Quests Q1 → Quests Q2 → Q1.QuestID = Q2.QuestID → Q1 = Q2

/-- The trackers reached from the empty tracker by `StartQuest`,
`UpdateObjectiveProgress`, `CompleteQuest` and `FailQuest`, the quests started being
taken from `Quests`. -/
inductive QuestReachable (Quests : UQuestDefinition → Prop) : UQuestComponent → Prop where
  | empty : QuestReachable Quests EmptyTracker
  | step {c : UQuestComponent} (cmd : QuestCommand) :
      QuestReachable Quests c →
      (∀ QuestDef Q, cmd = QuestCommand.StartQuest QuestDef → QuestDef = some Q → Quests Q) →
      QuestReachable Quests (c.Run cmd)

/-- The trackers reached as in `QuestReachable` when, in addition, `StartQuest` is
never called for a quest whose identifier is in the failed set. -/
inductive QuestReachableNoRetry (Quests : UQuestDefinition → Prop) :
    UQuestComponent → Prop where
  | empty : QuestReachableNoRetry Quests EmptyTracker
  | step {c : UQuestComponent} (cmd : QuestCommand) :
      QuestReachableNoRetry Quests c →
      (∀ QuestDef Q, cmd = QuestCommand.StartQuest QuestDef → QuestDef = some Q →
        Quests Q ∧ Q.QuestID ∉ c.FailedQuestIDs) →
      QuestReachableNoRetry Quests (c.Run cmd)

/-- An objective template with identifier `Id` that requires a progress of 1. -/
def ExampleObjective (Id : Nat) : UObjectiveBase :=
  { ObjectiveID := FName.Name Id, RequiredProgress := 1, CurrentProgress := 0,
    State := EObjectiveState.Inactive }

/-- A quest with three objectives, each requiring a progress of 1, that requires all
its objectives. -/
def ExampleQuest : UQuestDefinition :=
  { Name := 1, QuestID := FName.Name 100,
    Objectives := [some (ExampleObjective 1), some (ExampleObjective 2), some (ExampleObjective 3)],
    bRequireAllObjectives := true }

/-- The tracker after `StartQuest(ExampleQuest)`. -/
def ExampleStarted : UQuestComponent := (EmptyTracker.StartQuest (some ExampleQuest)).2

/-- The tracker `ExampleStarted` after objectives 1 and 2 were completed. -/
def ExampleTwoOfThree : UQuestComponent :=
  (ExampleStarted.UpdateObjectiveProgress (some ExampleQuest) (FName.Name 1) 1).UpdateObjectiveProgress
    (some ExampleQuest) (FName.Name 2) 1

/-- A quest whose only objective has no identifier (`None`). -/
def ExampleUnnamedQuest : UQuestDefinition :=
  { Name := 2, QuestID := FName.Name 200,
    Objectives := [some { ObjectiveID := FName.NAME_None, RequiredProgress := 1,
                          CurrentProgress := 0, State := EObjectiveState.Inactive }],
    bRequireAllObjectives := true }

/-- The tracker after `StartQuest(ExampleUnnamedQuest)`. -/
def ExampleUnnamedStarted : UQuestComponent :=
  (EmptyTracker.StartQuest (some ExampleUnnamedQuest)).2

/-- The tracker after `StartQuest`, `FailQuest`, `StartQuest` and `CompleteQuest` of
`ExampleQuest`. -/
def ExampleFailedThenCompleted : UQuestComponent :=
  (((EmptyTracker.Run (QuestCommand.StartQuest (some ExampleQuest))).Run
      (QuestCommand.FailQuest (some ExampleQuest))).Run
      (QuestCommand.StartQuest (some ExampleQuest))).Run
    (QuestCommand.CompleteQuest (some ExampleQuest))

end MGS

namespace MGS

/-- The tracker after `StartQuest`, `FailQuest` and `StartQuest` of `ExampleQuest`:
the quest is active again after it failed. -/
def ExampleRetried : UQuestComponent :=
  ((EmptyTracker.Run (QuestCommand.StartQuest (some ExampleQuest))).Run
      (QuestCommand.FailQuest (some ExampleQuest))).Run
    (QuestCommand.StartQuest (some ExampleQuest))

end MGS

namespace MGS

/-! ## Abilities: the registries that can be reached -/

/-- The identity and the class of every instance of the array, in its order. -/
def GrantedKeys (Entries : List (Option UMgsGameplayAbility)) : List (Nat × UClass) :=
  (Entries.filterMap id).map fun Ab => (Ab.Object, Ab.Class)

/-- The registries reached from a registry with no ability granted by the commands
of `AbilityCommand` and by the passing of time. -/
inductive AbilityReachable : UAbilityComponent → Prop where
  | empty (c : UAbilityComponent) : c.GrantedAbilities = [] → AbilityReachable c
  | step {c : UAbilityComponent} (cmd : AbilityCommand) :
      AbilityReachable c → AbilityReachable (c.Run cmd)
  | tick {c : UAbilityComponent} (Now : ℚ) :
      AbilityReachable c → AbilityReachable (c.SetTimeSeconds Now)

/-- What the registry invariant says: no two instances of the array have the same
class, no two have the same identity, and `NewObject` has not given out the identity
it gives next. -/
def RegistryInvariant (c : UAbilityComponent) : Prop :=
  ((GrantedKeys c.GrantedAbilities).map Prod.snd).Nodup ∧
    ((GrantedKeys c.GrantedAbilities).map Prod.fst).Nodup ∧
    ∀ k ∈ GrantedKeys c.GrantedAbilities, k.1 < c.NextObject

end MGS

namespace MGS

/-- The spare capacity of the stacks of `D`: the sum of `GetRemainingCapacity` over
the stacks whose definition is `D`. -/
def SpareCapacity (D : UItemDefinition) : List (Option UItemInstance) → Int
  | [] => 0
  | none :: rest => SpareCapacity D rest
  | some Instance :: rest =>
    (if Instance.ItemDefinition = some D then Instance.GetRemainingCapacity else 0) +
      SpareCapacity D rest

end MGS

namespace MGS

/-- The tracker after a sequence of commands, the first of the list first. -/
def UQuestComponent.RunAll (self : UQuestComponent) (cmds : List QuestCommand) :
    UQuestComponent :=
  cmds.foldl UQuestComponent.Run self

/-- A quest whose two objectives have the same identifier, each requiring a
progress of 1, that requires all its objectives. -/
def ExampleDuplicateQuest : UQuestDefinition :=
  { Name := 3, QuestID := FName.Name 300,
    Objectives := [some (ExampleObjective 1), some (ExampleObjective 1)],
    bRequireAllObjectives := true }

/-- A quest with no objective that requires all its objectives. -/
def ExampleEmptyQuest : UQuestDefinition :=
  { Name := 4, QuestID := FName.Name 400, Objectives := [], bRequireAllObjectives := true }

end MGS

namespace MGS

/-- How an entry after the top-up step of `AddItem` relates to what it was: it is the
same, or it is the same stack of `D` with more units, `MaxStackSize` at most. -/
def ToppedUp (D : UItemDefinition) (Before After : Option UItemInstance) : Prop :=
  Before = After ∨
    ∃ s k, Before = some s ∧ s.ItemDefinition = some D ∧ 0 < k ∧
      s.Quantity + k ≤ D.MaxStackSize ∧ After = some { s with Quantity := s.Quantity + k }

end MGS
namespace MGS

/-! ## Examples at the end of the `int32` range -/

end MGS

namespace MGS

/-! ## Quests: updates whose sum stays in the `int32` range -/

end MGS


namespace MGS
open UInventoryComponent

/-! ## Units held -/

theorem wrapInt32_of_fits (x : Int) (h1 : INT_MIN ≤ x) (h2 : x ≤ INT_MAX) : WrapInt32 x = x := by
  unfold WrapInt32
  unfold INT_MIN INT_MAX at *
  omega

theorem wrapInt32_bounds (x : Int) : INT_MIN ≤ WrapInt32 x ∧ WrapInt32 x ≤ INT_MAX := by
  unfold WrapInt32 INT_MIN INT_MAX
  omega

theorem wrapInt32_add_left (x y : Int) : WrapInt32 (WrapInt32 x + y) = WrapInt32 (x + y) := by
  unfold WrapInt32 INT_MIN
  omega

theorem wrapInt32_idem (x : Int) : WrapInt32 (WrapInt32 x) = WrapInt32 x := by
  unfold WrapInt32 INT_MIN
  omega

theorem foldl_step_eq (D : UItemDefinition) (l : List (Option UItemInstance)) (t : Int)
    (ht : WrapInt32 t = t) :
    l.foldl (GetItemCount.step D) t = WrapInt32 (t + Units D l) := by
  induction l generalizing t with
  | nil => simp [Units, ht]
  | cons e rest ih =>
    rw [List.foldl_cons]
    cases e with
    | none =>
      rw [show GetItemCount.step D t none = t from rfl, ih t ht]
      simp [Units, UnitsOf]
    | some i =>
      by_cases h : i.ItemDefinition = some D
      · have hs : GetItemCount.step D t (some i) = WrapInt32 (t + i.Quantity) := by
          simp [GetItemCount.step, UItemInstance.GetDefinition, UItemInstance.GetQuantity, h]
        rw [hs, ih _ (wrapInt32_idem _), wrapInt32_add_left]
        simp only [Units, UnitsOf, h, if_true]
        congr 1
        ring
      · have hs : GetItemCount.step D t (some i) = t := by
          simp [GetItemCount.step, UItemInstance.GetDefinition, h]
        rw [hs, ih t ht]
        simp [Units, UnitsOf, h]

/-- What `GetItemCount` returns: the units held, as an `int32`. -/
theorem getItemCount_some (c : UInventoryComponent) (D : UItemDefinition) :
    c.GetItemCount (some D) = WrapInt32 (Units D c.Items) := by
  simp [GetItemCount, foldl_step_eq D c.Items 0 (by decide)]

/-- The units held are what `GetItemCount` returns when they fit in an `int32`. -/
theorem getItemCount_fits (c : UInventoryComponent) (D : UItemDefinition)
    (h1 : 0 ≤ Units D c.Items) (h2 : Units D c.Items ≤ INT_MAX) :
    c.GetItemCount (some D) = Units D c.Items := by
  rw [getItemCount_some]
  exact wrapInt32_of_fits _ (by unfold INT_MIN; omega) h2

theorem units_append (D : UItemDefinition) (a b : List (Option UItemInstance)) :
    Units D (a ++ b) = Units D a + Units D b := by
  induction a with
  | nil => simp [Units]
  | cons e rest ih => simp [Units, ih]; ring

end MGS

namespace MGS
open UInventoryComponent

/-! ## The removal loop -/

theorem drainStep_nonpos (D : UItemDefinition) (e : Option UItemInstance)
    (p : List (Option UItemInstance) × Int) (hr : p.2 ≤ 0) :
    DrainStep D e p = (e :: p.1, p.2) := by
  have h : ¬ (p.2 > 0) := by omega
  simp [DrainStep, h]

theorem drain_nonpos (D : UItemDefinition) (l : List (Option UItemInstance)) (r : Int)
    (hr : r ≤ 0) : Drain D l r = (l, r) := by
  induction l with
  | nil => rfl
  | cons e rest ih => rw [Drain, ih, drainStep_nonpos D e _ hr]

theorem drainStep_append (D : UItemDefinition) (e : Option UItemInstance)
    (a b : List (Option UItemInstance)) (r : Int) :
    DrainStep D e (a ++ b, r) = ((DrainStep D e (a, r)).1 ++ b, (DrainStep D e (a, r)).2) := by
  unfold DrainStep
  by_cases h : r > 0
  · cases e with
    | none => simp [h]
    | some i =>
      by_cases hd : i.ItemDefinition = some D
      · by_cases he : (i.RemoveQuantity r).2.IsEmpty = true <;> simp [h, hd, he]
      · simp [h, hd]
  · simp [h]

theorem drain_append (D : UItemDefinition) (a b : List (Option UItemInstance)) (r : Int) :
    Drain D (a ++ b) r =
      ((Drain D a (Drain D b r).2).1 ++ (Drain D b r).1, (Drain D a (Drain D b r).2).2) := by
  induction a with
  | nil => simp [Drain]
  | cons e rest ih =>
    rw [List.cons_append, Drain, ih, drainStep_append, Drain]

theorem loop_eq_drain (D : UItemDefinition) :
    ∀ (n : Nat) (pre suf : List (Option UItemInstance)) (r : Int), pre.length = n →
      RemoveItem.loop D n (pre ++ suf) r = ((Drain D pre r).1 ++ suf, (Drain D pre r).2) := by
  intro n
  induction n with
  | zero =>
    intro pre suf r h
    have : pre = [] := List.length_eq_zero.mp h
    subst this
    simp [RemoveItem.loop, Drain]
  | succ n ih =>
    intro pre suf r h
    rcases List.eq_nil_or_concat pre with h0 | ⟨pre0, x, rfl⟩
    · subst h0; simp at h
    · have hlen : pre0.length = n := by simpa using h
      have hget : (pre0 ++ [x] ++ suf).get? n = some x := by
        rw [List.append_assoc, List.get?_eq_getElem?, List.getElem?_append_right (by omega)]
        simp [hlen]
      have herase : (pre0 ++ [x] ++ suf).eraseIdx n = pre0 ++ suf := by
        rw [List.append_assoc, List.eraseIdx_append_of_length_le (by omega)]
        simp [hlen]
      have hset : ∀ v, (pre0 ++ [x] ++ suf).set n v = pre0 ++ ([v] ++ suf) := by
        intro v
        rw [List.append_assoc, List.set_append_right _ _ (by omega)]
        simp [hlen]
      have hsing : Drain D [x] r = DrainStep D x ([], r) := rfl
      rw [List.concat_eq_append, drain_append, hsing]
      simp only [RemoveItem.loop, hget]
      by_cases hr : r > 0
      · simp only [hr, if_true]
        cases x with
        | none =>
          simp only [DrainStep, hr, if_true]
          rw [List.append_assoc, ih pre0 _ r hlen]
          simp
        | some i =>
          simp only [UItemInstance.GetDefinition]
          by_cases hd : i.ItemDefinition = some D
          · simp only [hd, if_true]
            by_cases he : (i.RemoveQuantity r).2.IsEmpty = true
            · simp only [he, if_true, herase, DrainStep, hr, hd]
              rw [ih pre0 _ _ hlen]
              simp
            · simp only [he, hset, DrainStep, hr, hd]
              rw [ih pre0 _ _ hlen]
              simp
          · simp only [hd, if_false, DrainStep, hr, if_true]
            rw [List.append_assoc, ih pre0 _ r hlen]
            simp
      · simp only [hr, if_false]
        have hr0 : r ≤ 0 := by omega
        rw [drainStep_nonpos D x _ hr0, drain_nonpos D pre0 r hr0]

theorem removeItem_loop_eq (D : UItemDefinition) (l : List (Option UItemInstance)) (r : Int) :
    RemoveItem.loop D l.length l r = Drain D l r := by
  have h := loop_eq_drain D l.length l [] r rfl
  simpa using h

end MGS

namespace MGS
open UInventoryComponent

theorem removeQuantity_pos (i : UItemInstance) (r : Int) (hr : 0 < r) :
    i.RemoveQuantity r =
      (if r < i.Quantity then r else i.Quantity,
        { i with Quantity := i.Quantity - (if r < i.Quantity then r else i.Quantity) }) := by
  have h : ¬ r ≤ 0 := by omega
  simp [UItemInstance.RemoveQuantity, FMath.Min, h]

theorem drainStep_stack (D : UItemDefinition) (i : UItemInstance)
    (p : List (Option UItemInstance) × Int) (hr : 0 < p.2) (hd : i.ItemDefinition = some D) :
    DrainStep D (some i) p =
      if p.2 < i.Quantity then (some { i with Quantity := i.Quantity - p.2 } :: p.1, 0)
      else (p.1, p.2 - i.Quantity) := by
  have h : p.2 > 0 := hr
  unfold DrainStep
  simp only [h, if_true, hd, removeQuantity_pos i p.2 hr]
  by_cases hlt : p.2 < i.Quantity
  · have : ¬ (i.Quantity - p.2 ≤ 0) := by omega
    simp [hlt, UItemInstance.IsEmpty, this]
  · simp [hlt, UItemInstance.IsEmpty]

theorem drainStep_other (D : UItemDefinition) (e : Option UItemInstance)
    (p : List (Option UItemInstance) × Int) (hd : IsStackOf D e = false) :
    DrainStep D e p = (e :: p.1, p.2) := by
  unfold DrainStep
  cases e with
  | none => simp
  | some i =>
    have : ¬ i.ItemDefinition = some D := by simpa [IsStackOf] using hd
    simp [this]

theorem isStackOf_some (D : UItemDefinition) (i : UItemInstance) :
    IsStackOf D (some i) = true ↔ i.ItemDefinition = some D := by
  simp [IsStackOf]

/-- The shape of the result of the removal loop: the array splits into a part the
loop did not reach and a part whose stacks of `D` are all deleted; at most one stack
(the last entry of the first part) is left with fewer units. -/
theorem drain_spec (D : UItemDefinition) (l : List (Option UItemInstance)) (r : Int)
    (hr : 0 < r) :
    ∃ pre suf, l = pre ++ suf ∧ 0 ≤ (Drain D l r).2 ∧ ((Drain D l r).2 > 0 → pre = []) ∧
      ((Drain D l r).1 = pre ++ suf.filter (fun e => !IsStackOf D e) ∨
        ∃ pre0 s k, pre = pre0 ++ [some s] ∧ s.ItemDefinition = some D ∧ 0 < k ∧
          k < s.Quantity ∧ (Drain D l r).2 = 0 ∧
          (Drain D l r).1 =
            pre0 ++ [some { s with Quantity := s.Quantity - k }] ++
              suf.filter (fun e => !IsStackOf D e)) := by
  induction l with
  | nil => exact ⟨[], [], rfl, by simp [Drain]; omega, fun _ => rfl, Or.inl (by simp [Drain])⟩
  | cons e rest ih =>
    obtain ⟨pre, suf, hl, h0, hpre, hcase⟩ := ih
    rw [Drain]
    by_cases hpos : (Drain D rest r).2 > 0
    · have hp : pre = [] := hpre hpos
      subst hp
      simp only [List.nil_append] at hl
      subst hl
      have hA : (Drain D rest r).1 = rest.filter (fun e => !IsStackOf D e) := by
        rcases hcase with h | ⟨pre0, s, k, hp, _⟩
        · simpa using h
        · simp at hp
      by_cases hd : IsStackOf D e = true
      · obtain ⟨i, rfl⟩ : ∃ i, e = some i := by
          cases e with
          | none => simp [IsStackOf] at hd
          | some i => exact ⟨i, rfl⟩
        have hdef : i.ItemDefinition = some D := (isStackOf_some D i).1 hd
        rw [drainStep_stack D i _ hpos hdef]
        by_cases hlt : (Drain D rest r).2 < i.Quantity
        · refine ⟨[some i], rest, rfl, ?_, ?_, Or.inr ⟨[], i, (Drain D rest r).2, rfl, hdef, hpos, hlt, ?_, ?_⟩⟩
          · simp [hlt]
          · simp [hlt]
          · simp [hlt]
          · simp [hlt, hA]
        · refine ⟨[], some i :: rest, rfl, ?_, fun _ => rfl, Or.inl ?_⟩
          · simp only [hlt, if_false]; omega
          · simp [hlt, hA, hd]
      · have hd' : IsStackOf D e = false := by simpa using hd
        rw [drainStep_other D e _ hd']
        refine ⟨[], e :: rest, rfl, h0, fun _ => rfl, Or.inl ?_⟩
        simp [hA, hd']
    · have hle : (Drain D rest r).2 ≤ 0 := by omega
      rw [drainStep_nonpos D e _ hle]
      refine ⟨e :: pre, suf, by simp [hl], h0, fun h => absurd h hpos, ?_⟩
      rcases hcase with h | ⟨pre0, s, k, hp, hdef, hk0, hk, hz, h⟩
      · exact Or.inl (by simp [h])
      · exact Or.inr ⟨e :: pre0, s, k, by simp [hp], hdef, hk0, hk, hz, by simp [h]⟩

theorem unitsOf_eq_zero (D : UItemDefinition) (e : Option UItemInstance)
    (h : IsStackOf D e = false) : UnitsOf D e = 0 := by
  cases e with
  | none => rfl
  | some i =>
    have : ¬ i.ItemDefinition = some D := by simpa [IsStackOf] using h
    simp [UnitsOf, this]

theorem drain_units (D : UItemDefinition) (l : List (Option UItemInstance)) (r : Int)
    (hr : 0 < r) :
    Units D (Drain D l r).1 = Units D l - (r - (Drain D l r).2) ∧ 0 ≤ (Drain D l r).2 := by
  induction l with
  | nil => simp [Drain, Units]; omega
  | cons e rest ih =>
    obtain ⟨ih1, ih2⟩ := ih
    rw [Drain]
    by_cases hpos : (Drain D rest r).2 > 0
    · by_cases hd : IsStackOf D e = true
      · obtain ⟨i, rfl⟩ : ∃ i, e = some i := by
          cases e with
          | none => simp [IsStackOf] at hd
          | some i => exact ⟨i, rfl⟩
        have hdef : i.ItemDefinition = some D := (isStackOf_some D i).1 hd
        rw [drainStep_stack D i _ hpos hdef]
        by_cases hlt : (Drain D rest r).2 < i.Quantity
        · simp only [hlt, if_true, Units, UnitsOf, hdef, ih1]
          constructor <;> omega
        · simp only [hlt, if_false, Units, UnitsOf, hdef, ih1, if_true]
          constructor <;> omega
      · have hd' : IsStackOf D e = false := by simpa using hd
        rw [drainStep_other D e _ hd']
        simp only [Units, ih1, unitsOf_eq_zero D e hd']
        constructor <;> omega
    · have hle : (Drain D rest r).2 ≤ 0 := by omega
      rw [drainStep_nonpos D e _ hle]
      simp only [Units, ih1]
      constructor <;> omega

theorem drain_units_other (D E : UItemDefinition) (hne : E ≠ D)
    (l : List (Option UItemInstance)) (r : Int) :
    Units E (Drain D l r).1 = Units E l := by
  induction l with
  | nil => simp [Drain]
  | cons e rest ih =>
    rw [Drain]
    by_cases hpos : (Drain D rest r).2 > 0
    · by_cases hd : IsStackOf D e = true
      · obtain ⟨i, rfl⟩ : ∃ i, e = some i := by
          cases e with
          | none => simp [IsStackOf] at hd
          | some i => exact ⟨i, rfl⟩
        have hdef : i.ItemDefinition = some D := (isStackOf_some D i).1 hd
        have hE : ¬ (some D = some E) := by
          intro h; exact hne (Option.some.inj h).symm
        rw [drainStep_stack D i _ hpos hdef]
        by_cases hlt : (Drain D rest r).2 < i.Quantity
        · simp [hlt, Units, UnitsOf, hdef, ih, hE]
        · simp [hlt, Units, UnitsOf, hdef, ih, hE]
      · have hd' : IsStackOf D e = false := by simpa using hd
        rw [drainStep_other D e _ hd']
        simp [Units, ih]
    · have hle : (Drain D rest r).2 ≤ 0 := by omega
      rw [drainStep_nonpos D e _ hle]
      simp [Units, ih]

end MGS

namespace MGS
open UInventoryComponent

/-! ## `RemoveItem` as a whole -/

theorem units_filter_not (D : UItemDefinition) (l : List (Option UItemInstance)) :
    Units D (l.filter (fun e => !IsStackOf D e)) = 0 := by
  induction l with
  | nil => rfl
  | cons e rest ih =>
    by_cases hd : IsStackOf D e = true
    · simp [List.filter, hd, ih]
    · have hd' : IsStackOf D e = false := by simpa using hd
      simp [List.filter, hd', Units, ih, unitsOf_eq_zero D e hd']

/-- When enough units are held the removal loop ends with `Remaining = 0`. -/
theorem drain_remaining_zero (D : UItemDefinition) (l : List (Option UItemInstance)) (r : Int)
    (hr : 0 < r) (hle : r ≤ Units D l) : (Drain D l r).2 = 0 := by
  obtain ⟨pre, suf, hl, h0, hpre, hcase⟩ := drain_spec D l r hr
  obtain ⟨hu, _⟩ := drain_units D l r hr
  by_contra hne
  have hpos : (Drain D l r).2 > 0 := by omega
  have hp := hpre hpos
  subst hp
  rcases hcase with h | ⟨pre0, s, k, hp, _⟩
  · rw [h] at hu
    simp only [List.nil_append] at hu
    rw [units_filter_not] at hu
    omega
  · simp at hp

theorem removeItem_ok (c : UInventoryComponent) (D : UItemDefinition) (Quantity : Int)
    (hQ : 0 < Quantity) (hle : Quantity ≤ c.GetItemCount (some D)) :
    c.RemoveItem (some D) Quantity =
      (true,
        { c with
          Items := (Drain D c.Items Quantity).1
          Broadcasts := c.Broadcasts ++
            [InventoryEvent.OnItemRemoved D Quantity, InventoryEvent.OnInventoryChanged] }) := by
  have h1 : ¬ Quantity ≤ 0 := by omega
  have hh : ¬ (c.HasItem (some D) Quantity = false) := by
    simp only [HasItem, decide_eq_false_iff_not, not_not]
    omega
  simp only [RemoveItem, h1, hh, if_false, removeItem_loop_eq]
  simp

theorem removeItem_true_inv (c : UInventoryComponent) (ItemDef : Option UItemDefinition)
    (Quantity : Int) (h : (c.RemoveItem ItemDef Quantity).1 = true) :
    ∃ D, ItemDef = some D ∧ 0 < Quantity ∧ Quantity ≤ c.GetItemCount (some D) := by
  cases ItemDef with
  | none => simp [RemoveItem] at h
  | some D =>
    refine ⟨D, rfl, ?_⟩
    by_cases h1 : Quantity ≤ 0
    · simp [RemoveItem, h1] at h
    · by_cases hh : c.HasItem (some D) Quantity = false
      · simp [RemoveItem, h1, hh] at h
      · simp only [HasItem, decide_eq_false_iff_not, not_not] at hh
        exact ⟨by omega, by omega⟩

end MGS

namespace MGS
open UInventoryComponent

/-! ## The top-up loop of `AddItem` -/

/-- The top-up loop passes over an entry that is not a stack of `D` with room left. -/
theorem topUp_skip (D : UItemDefinition) (e : Option UItemInstance)
    (rest : List (Option UItemInstance)) (r : Int)
    (h : ∀ i, e = some i → i.ItemDefinition = some D → D.MaxStackSize ≤ i.Quantity) :
    AddItem.topUp D (e :: rest) r = (e :: (AddItem.topUp D rest r).1, (AddItem.topUp D rest r).2) := by
  cases e with
  | none => simp [AddItem.topUp]
  | some i =>
    by_cases hd : i.ItemDefinition = some D
    · have hq := h i rfl hd
      simp [AddItem.topUp, UItemInstance.GetDefinition, UItemInstance.IsStackFull, hd, hq]
    · simp [AddItem.topUp, UItemInstance.GetDefinition, hd]

theorem topUp_fill (D : UItemDefinition) (i : UItemInstance)
    (rest : List (Option UItemInstance)) (r : Int) (hd : i.ItemDefinition = some D)
    (hq : i.Quantity < D.MaxStackSize) (hr : 0 < r) :
    AddItem.topUp D (some i :: rest) r =
      if r ≤ D.MaxStackSize - i.Quantity then
        (some { i with Quantity := i.Quantity + r } :: rest, 0)
      else
        (some { i with Quantity := D.MaxStackSize } ::
            (AddItem.topUp D rest (r - (D.MaxStackSize - i.Quantity))).1,
          (AddItem.topUp D rest (r - (D.MaxStackSize - i.Quantity))).2) := by
  have h1 : ¬ D.MaxStackSize ≤ i.Quantity := by omega
  have h2 : ¬ r ≤ 0 := by omega
  by_cases hle : r ≤ D.MaxStackSize - i.Quantity
  · by_cases heq : r = D.MaxStackSize - i.Quantity
    · have h3 : ¬ r < D.MaxStackSize - i.Quantity := by omega
      simp [AddItem.topUp, UItemInstance.GetDefinition, UItemInstance.IsStackFull,
        UItemInstance.AddQuantity, FMath.Min, hd, h1, h2, h3, hle]
      omega
    · have h3 : r < D.MaxStackSize - i.Quantity := by omega
      simp [AddItem.topUp, UItemInstance.GetDefinition, UItemInstance.IsStackFull,
        UItemInstance.AddQuantity, FMath.Min, hd, h1, h2, h3, hle]
  · have h3 : ¬ r < D.MaxStackSize - i.Quantity := by omega
    have h4 : ¬ (r - (D.MaxStackSize - i.Quantity) ≤ 0) := by omega
    simp [AddItem.topUp, UItemInstance.GetDefinition, UItemInstance.IsStackFull,
      UItemInstance.AddQuantity, FMath.Min, hd, h1, h2, h3, hle, h4]

/-- Case analysis for one entry of the top-up loop. -/
theorem topUp_cases (D : UItemDefinition) (e : Option UItemInstance) :
    (∀ i, e = some i → i.ItemDefinition = some D → D.MaxStackSize ≤ i.Quantity) ∨
      ∃ i, e = some i ∧ i.ItemDefinition = some D ∧ i.Quantity < D.MaxStackSize := by
  cases e with
  | none => exact Or.inl (by intro i h; cases h)
  | some i =>
    by_cases hd : i.ItemDefinition = some D
    · by_cases hq : i.Quantity < D.MaxStackSize
      · exact Or.inr ⟨i, rfl, hd, hq⟩
      · exact Or.inl (by intro j hj _; cases hj; omega)
    · exact Or.inl (by intro j hj hdj; cases hj; exact absurd hdj hd)

theorem topUp_length (D : UItemDefinition) (l : List (Option UItemInstance)) (r : Int)
    (hr : 0 < r) : (AddItem.topUp D l r).1.length = l.length := by
  induction l generalizing r with
  | nil => rfl
  | cons e rest ih =>
    rcases topUp_cases D e with h | ⟨i, rfl, hd, hq⟩
    · rw [topUp_skip D e rest r h]; simp [ih r hr]
    · rw [topUp_fill D i rest r hd hq hr]
      split_ifs with hle
      · simp
      · simp [ih (r - (D.MaxStackSize - i.Quantity)) (by omega)]

theorem topUp_remaining (D : UItemDefinition) (l : List (Option UItemInstance)) (r : Int)
    (hr : 0 < r) : 0 ≤ (AddItem.topUp D l r).2 ∧ (AddItem.topUp D l r).2 ≤ r := by
  induction l generalizing r with
  | nil => simp [AddItem.topUp]; omega
  | cons e rest ih =>
    rcases topUp_cases D e with h | ⟨i, rfl, hd, hq⟩
    · rw [topUp_skip D e rest r h]; exact ih r hr
    · rw [topUp_fill D i rest r hd hq hr]
      split_ifs with hle
      · simp; omega
      · have := ih (r - (D.MaxStackSize - i.Quantity)) (by omega)
        simp only
        constructor <;> omega

theorem topUp_units (D : UItemDefinition) (l : List (Option UItemInstance)) (r : Int)
    (hr : 0 < r) :
    Units D (AddItem.topUp D l r).1 = Units D l + (r - (AddItem.topUp D l r).2) := by
  induction l generalizing r with
  | nil => simp [AddItem.topUp, Units]
  | cons e rest ih =>
    rcases topUp_cases D e with h | ⟨i, rfl, hd, hq⟩
    · rw [topUp_skip D e rest r h]; simp only [Units, ih r hr]; ring
    · rw [topUp_fill D i rest r hd hq hr]
      split_ifs with hle
      · simp only [Units, UnitsOf, hd, if_true]; ring
      · simp only [Units, UnitsOf, hd, if_true,
          ih (r - (D.MaxStackSize - i.Quantity)) (by omega)]
        ring

theorem topUp_units_other (D E : UItemDefinition) (hne : E ≠ D)
    (l : List (Option UItemInstance)) (r : Int) (hr : 0 < r) :
    Units E (AddItem.topUp D l r).1 = Units E l := by
  have hE : ¬ (some D = some E) := fun h => hne (Option.some.inj h).symm
  induction l generalizing r with
  | nil => simp [AddItem.topUp]
  | cons e rest ih =>
    rcases topUp_cases D e with h | ⟨i, rfl, hd, hq⟩
    · rw [topUp_skip D e rest r h]; simp only [Units, ih r hr]
    · rw [topUp_fill D i rest r hd hq hr]
      split_ifs with hle
      · simp [Units, UnitsOf, hd, hE]
      · simp [Units, UnitsOf, hd, hE, ih (r - (D.MaxStackSize - i.Quantity)) (by omega)]

theorem topUp_stackInvariant (D : UItemDefinition) (l : List (Option UItemInstance)) (r : Int)
    (hr : 0 < r) (hinv : ∀ i, some i ∈ l → StackInvariant i) :
    ∀ i, some i ∈ (AddItem.topUp D l r).1 → StackInvariant i := by
  induction l generalizing r with
  | nil => intro i hi; simp [AddItem.topUp] at hi
  | cons e rest ih =>
    have hrest : ∀ i, some i ∈ rest → StackInvariant i :=
      fun i hi => hinv i (List.mem_cons_of_mem _ hi)
    rcases topUp_cases D e with h | ⟨i, rfl, hd, hq⟩
    · rw [topUp_skip D e rest r h]
      intro j hj
      rcases List.mem_cons.1 hj with h1 | h1
      · exact hinv j (by rw [h1]; exact List.mem_cons_self _ _)
      · exact ih r hr hrest j h1
    · have hi := hinv i (List.mem_cons_self _ _)
      rw [topUp_fill D i rest r hd hq hr]
      split_ifs with hle
      · intro j hj
        rcases List.mem_cons.1 hj with h1 | h1
        · cases h1
          refine ⟨by simp only; have := hi.1; omega, ?_⟩
          intro Def hDef
          simp only at hDef
          rw [hd] at hDef
          cases hDef
          simp only
          omega
        · exact hrest j h1
      · intro j hj
        rcases List.mem_cons.1 hj with h1 | h1
        · cases h1
          refine ⟨by simp only; have := hi.1; omega, ?_⟩
          intro Def hDef
          simp only at hDef
          rw [hd] at hDef
          cases hDef
          simp only
          omega
        · exact ih _ (by omega) hrest j h1

/-- When units are left after the top-up loop, every stack of `D` is full. -/
theorem topUp_full (D : UItemDefinition) (l : List (Option UItemInstance)) (r : Int)
    (hr : 0 < r) (hleft : 0 < (AddItem.topUp D l r).2) :
    ∀ i, some i ∈ (AddItem.topUp D l r).1 → i.ItemDefinition = some D →
      D.MaxStackSize ≤ i.Quantity := by
  induction l generalizing r with
  | nil => intro i hi; simp [AddItem.topUp] at hi
  | cons e rest ih =>
    rcases topUp_cases D e with h | ⟨i, rfl, hd, hq⟩
    · rw [topUp_skip D e rest r h] at hleft ⊢
      intro j hj hdj
      rcases List.mem_cons.1 hj with h1 | h1
      · exact h j h1.symm hdj
      · exact ih r hr hleft j h1 hdj
    · rw [topUp_fill D i rest r hd hq hr] at hleft ⊢
      split_ifs at hleft ⊢ with hle
      · simp at hleft
      · intro j hj hdj
        rcases List.mem_cons.1 hj with h1 | h1
        · cases h1; simp
        · exact ih _ (by omega) hleft j h1 hdj

theorem topUp_no_stack (D : UItemDefinition) (l : List (Option UItemInstance)) (r : Int)
    (h : ∀ e ∈ l, IsStackOf D e = false) : AddItem.topUp D l r = (l, r) := by
  induction l with
  | nil => rfl
  | cons e rest ih =>
    have he : IsStackOf D e = false := h e (List.mem_cons_self _ _)
    rw [topUp_skip D e rest r, ih (fun x hx => h x (List.mem_cons_of_mem _ hx))]
    intro i hi hd
    rw [hi] at he
    simp [IsStackOf, hd] at he

end MGS

namespace MGS
open UInventoryComponent

/-! ## The new-stack loop of `AddItem` -/

theorem initialize_min (D : UItemDefinition) (hD : 1 ≤ D.MaxStackSize) (R : Int) (hR : 0 < R) :
    UItemInstance.Initialize D (FMath.Min R D.MaxStackSize) =
        { ItemDefinition := some D, Quantity := FMath.Min R D.MaxStackSize } ∧
      1 ≤ FMath.Min R D.MaxStackSize ∧ FMath.Min R D.MaxStackSize ≤ D.MaxStackSize ∧
      FMath.Min R D.MaxStackSize ≤ R ∧
      (FMath.Min R D.MaxStackSize < R → FMath.Min R D.MaxStackSize = D.MaxStackSize) := by
  unfold UItemInstance.Initialize FMath.Clamp FMath.Max FMath.Min
  by_cases h : R < D.MaxStackSize
  · have h1 : ¬ (R < 1) := by omega
    simp [h, h1]
    omega
  · have h1 : ¬ (D.MaxStackSize < 1) := by omega
    simp [h, h1]
    omega

theorem openSlots_stop (D : UItemDefinition) (MaxSlots : Int) (fuel : Nat)
    (Items : List (Option UItemInstance)) (R : Int) (hR : R ≤ 0) :
    AddItem.openSlots D MaxSlots fuel Items R = some (true, Items, R) := by
  have h : ¬ R > 0 := by omega
  cases fuel <;> simp [AddItem.openSlots, h]

theorem openSlots_full (D : UItemDefinition) (MaxSlots : Int) (fuel : Nat)
    (Items : List (Option UItemInstance)) (R : Int) (hR : 0 < R)
    (hfull : MaxSlots > 0 ∧ (Items.length : Int) ≥ MaxSlots) :
    AddItem.openSlots D MaxSlots fuel Items R = some (false, Items, R) := by
  have h : R > 0 := hR
  cases fuel <;> simp [AddItem.openSlots, h, hfull]

theorem openSlots_step (D : UItemDefinition) (MaxSlots : Int) (fuel : Nat)
    (Items : List (Option UItemInstance)) (R : Int) (hR : 0 < R)
    (hfree : ¬ (MaxSlots > 0 ∧ (Items.length : Int) ≥ MaxSlots)) :
    AddItem.openSlots D MaxSlots (fuel + 1) Items R =
      AddItem.openSlots D MaxSlots fuel
        (Items ++ [some (UItemInstance.Initialize D (FMath.Min R D.MaxStackSize))])
        (R - FMath.Min R D.MaxStackSize) := by
  have h : R > 0 := hR
  rw [AddItem.openSlots]
  simp only [h, if_true, hfree, if_false]

/-- What the new-stack loop does when the bound allows `Remaining` iterations: it
appends stacks of `D`, each holding between 1 and `MaxStackSize` units, all full
except possibly the last; it returns `true` with nothing left, or `false` at the slot
limit with only full stacks appended. -/
theorem openSlots_spec (D : UItemDefinition) (hD : 1 ≤ D.MaxStackSize) (MaxSlots : Int) :
    ∀ (fuel : Nat) (Items : List (Option UItemInstance)) (R : Int), 0 ≤ R → R.toNat ≤ fuel →
      ∃ ok new R1, AddItem.openSlots D MaxSlots fuel Items R = some (ok, Items ++ new, R1) ∧
        (∀ e ∈ new, ∃ q, e = some { ItemDefinition := some D, Quantity := q } ∧ 1 ≤ q ∧
          q ≤ D.MaxStackSize) ∧
        Units D new = R - R1 ∧ 0 ≤ R1 ∧ (R = 0 → new = []) ∧ StackShape D new ∧
        (ok = true → R1 = 0) ∧
        (ok = false → 0 < R1 ∧ 0 < MaxSlots ∧ MaxSlots ≤ ((Items ++ new).length : Int) ∧
          ∀ e ∈ new, e = some { ItemDefinition := some D, Quantity := D.MaxStackSize }) ∧
        (MaxSlots > 0 → (Items.length : Int) ≤ MaxSlots →
          ((Items ++ new).length : Int) ≤ MaxSlots) ∧
        (ok = true ↔
          (R = 0 ∨ ¬ MaxSlots > 0 ∨ R ≤ (MaxSlots - (Items.length : Int)) * D.MaxStackSize)) := by
  intro fuel
  induction fuel with
  | zero =>
    intro Items R h0 hf
    have hR : R = 0 := by omega
    subst hR
    refine ⟨true, [], 0, ?_, ?_, ?_, ?_, ?_, ?_, ?_, ?_, ?_, ?_⟩
    · rw [openSlots_stop D MaxSlots 0 Items 0 (le_refl _)]; simp
    · intro e he; simp at he
    · simp [Units]
    · omega
    · intro _; rfl
    · trivial
    · intro _; rfl
    · intro h; cases h
    · intro _ h; simpa using h
    · simp
  | succ fuel ih =>
    intro Items R h0 hf
    by_cases hR : R = 0
    · subst hR
      refine ⟨true, [], 0, ?_, ?_, ?_, ?_, ?_, ?_, ?_, ?_, ?_, ?_⟩
      · rw [openSlots_stop D MaxSlots _ Items 0 (le_refl _)]; simp
      · intro e he; simp at he
      · simp [Units]
      · omega
      · intro _; rfl
      · trivial
      · intro _; rfl
      · intro h; cases h
      · intro _ h; simpa using h
      · simp
    · have hpos : 0 < R := by omega
      by_cases hfull : MaxSlots > 0 ∧ (Items.length : Int) ≥ MaxSlots
      · refine ⟨false, [], R, ?_, ?_, ?_, ?_, ?_, ?_, ?_, ?_, ?_, ?_⟩
        · rw [openSlots_full D MaxSlots _ Items R hpos hfull]; simp
        · intro e he; simp at he
        · simp [Units]
        · omega
        · intro h; exact absurd h hR
        · trivial
        · intro h; cases h
        · intro _
          refine ⟨hpos, hfull.1, by simpa using hfull.2, ?_⟩
          intro e he; simp at he
        · intro _ h; simpa using h
        · constructor
          · intro h; cases h
          · rintro (h | h | h)
            · exact absurd h hR
            · exact absurd hfull.1 h
            · exfalso
              have h1 : MaxSlots - (Items.length : Int) ≤ 0 := by omega
              have h2 : (MaxSlots - (Items.length : Int)) * D.MaxStackSize ≤ 0 :=
                Int.mul_nonpos_of_nonpos_of_nonneg h1 (by omega)
              omega
      · obtain ⟨hinit, hq1, hq2, hq3, hq4⟩ := initialize_min D hD R hpos
        rw [openSlots_step D MaxSlots fuel Items R hpos hfull, hinit]
        generalize FMath.Min R D.MaxStackSize = q at hq1 hq2 hq3 hq4
        generalize hx : (some { ItemDefinition := some D, Quantity := q } : Option UItemInstance) = x
        obtain ⟨ok, new, R1, heq, hnew, hunits, hR1, hnil, hshape, htrue, hfalse, hlen, hiff⟩ :=
          ih (Items ++ [x]) (R - q) (by omega) (by omega)
        have hlenx : ((Items ++ [x]).length : Int) = (Items.length : Int) + 1 := by simp
        have hlenn : ((Items ++ x :: new).length : Int) = ((Items ++ [x] ++ new).length : Int) := by
          simp
        have hqR : 0 < R1 → q < R := by
          intro hR1pos
          by_contra hcon
          have h0' : R - q = 0 := by omega
          have hn := hnil h0'
          rw [hn] at hunits
          simp only [Units] at hunits
          omega
        refine ⟨ok, x :: new, R1, ?_, ?_, ?_, hR1, ?_, ?_, htrue, ?_, ?_, ?_⟩
        · rw [heq]; simp
        · intro e he
          rcases List.mem_cons.1 he with h1 | h1
          · exact ⟨q, by rw [h1, ← hx], hq1, hq2⟩
          · exact hnew e h1
        · rw [← hx]
          simp only [Units, UnitsOf, if_true, hunits]; ring
        · intro h; exact absurd h hR
        · refine ⟨?_, hshape⟩
          intro i hi _ hex
          rw [← hx] at hi
          cases hi
          simp only
          apply hq4
          by_contra hcon
          have : R - q = 0 := by omega
          have hn := hnil this
          rw [hn] at hex
          simp at hex
        · intro hok
          obtain ⟨f1, f2, f3, f4⟩ := hfalse hok
          refine ⟨f1, f2, by rw [hlenn]; exact f3, ?_⟩
          intro e he
          rcases List.mem_cons.1 he with h1 | h1
          · rw [h1, ← hx]
            have : q = D.MaxStackSize := hq4 (hqR f1)
            rw [this]
          · exact f4 e h1
        · intro hM hle
          have hlt : (Items.length : Int) < MaxSlots := by
            by_contra hcon
            exact hfull ⟨hM, by omega⟩
          rw [hlenn]
          exact hlen hM (by omega)
        · rw [hiff, hlenx]
          by_cases hM : MaxSlots > 0
          · have hlt : (Items.length : Int) < MaxSlots := by
              by_contra hcon
              exact hfull ⟨hM, by omega⟩
            have hk : 0 ≤ MaxSlots - (Items.length : Int) - 1 := by omega
            have hmul : 0 ≤ (MaxSlots - (Items.length : Int) - 1) * D.MaxStackSize :=
              Int.mul_nonneg hk (by omega)
            have hexp : (MaxSlots - ((Items.length : Int) + 1)) * D.MaxStackSize
                = (MaxSlots - (Items.length : Int) - 1) * D.MaxStackSize := by
              ring
            have hexp2 : (MaxSlots - (Items.length : Int)) * D.MaxStackSize
                = (MaxSlots - (Items.length : Int) - 1) * D.MaxStackSize + D.MaxStackSize := by
              ring
            rw [hexp, hexp2]
            constructor
            · rintro (h | h | h)
              · right; right; omega
              · exact absurd hM h
              · right; right; omega
            · rintro (h | h | h)
              · exact absurd h hR
              · exact absurd hM h
              · by_cases hqR1 : q < R
                · have := hq4 hqR1
                  right; right; omega
                · left; omega
          · constructor
            · intro _; exact Or.inr (Or.inl hM)
            · intro _; exact Or.inr (Or.inl hM)

end MGS

namespace MGS
open UInventoryComponent

/-! ## `AddItem` as a whole -/

theorem units_nonneg (D : UItemDefinition) (l : List (Option UItemInstance))
    (h : ∀ i, some i ∈ l → 1 ≤ i.Quantity) : 0 ≤ Units D l := by
  induction l with
  | nil => simp [Units]
  | cons e rest ih =>
    have hrest := ih (fun i hi => h i (List.mem_cons_of_mem _ hi))
    cases e with
    | none => simp only [Units, UnitsOf]; omega
    | some i =>
      have hi := h i (List.mem_cons_self _ _)
      simp only [Units, UnitsOf]
      split_ifs <;> omega

/-- Result of `AddItem` with a definition and a positive quantity, in terms of the result of
its second loop. -/
theorem addItem_of_openSlots (c : UInventoryComponent) (D : UItemDefinition)
    (Quantity : Int) (hQ : 0 < Quantity) (fuel : Nat) (ok : Bool)
    (Items2 : List (Option UItemInstance)) (R1 : Int)
    (h : AddItem.openSlots D c.MaxSlots fuel (AddItem.topUp D c.Items Quantity).1
        (AddItem.topUp D c.Items Quantity).2 = some (ok, Items2, R1)) :
    c.AddItem fuel (some D) Quantity =
      some (ok,
        { c with
          Items := Items2
          Broadcasts := c.Broadcasts ++
            (if ok = true then
              [InventoryEvent.OnItemAdded D Quantity, InventoryEvent.OnInventoryChanged]
             else if R1 < Quantity then
              [InventoryEvent.OnItemAdded D (Quantity - R1), InventoryEvent.OnInventoryChanged]
             else []) }) := by
  have h1 : ¬ Quantity ≤ 0 := by omega
  simp only [AddItem, h1, if_false, h]
  cases ok <;> simp

theorem addItem_invalid (c : UInventoryComponent) (ItemDef : Option UItemDefinition)
    (Quantity : Int) (fuel : Nat) (h : ItemDef = none ∨ Quantity ≤ 0) :
    c.AddItem fuel ItemDef Quantity = some (false, c) := by
  cases ItemDef with
  | none => rfl
  | some D =>
    rcases h with h | h
    · cases h
    · simp [AddItem, h]

theorem openSlots_zero (D : UItemDefinition) (MaxSlots : Int)
    (Items : List (Option UItemInstance)) (R : Int) (hR : 0 < R)
    (hfree : ¬ (MaxSlots > 0 ∧ (Items.length : Int) ≥ MaxSlots)) :
    AddItem.openSlots D MaxSlots 0 Items R = none := by
  have h : R > 0 := hR
  rw [AddItem.openSlots]
  simp only [h, if_true, hfree, if_false]

/-- A result of the new-stack loop does not depend on the bound. -/
theorem openSlots_mono (D : UItemDefinition) (MaxSlots : Int) :
    ∀ (fuel fuel1 : Nat) (Items : List (Option UItemInstance)) (R : Int)
      (x : Bool × List (Option UItemInstance) × Int), fuel ≤ fuel1 →
      AddItem.openSlots D MaxSlots fuel Items R = some x →
      AddItem.openSlots D MaxSlots fuel1 Items R = some x := by
  intro fuel
  induction fuel with
  | zero =>
    intro fuel1 Items R x _ h
    by_cases hR : 0 < R
    · by_cases hfull : MaxSlots > 0 ∧ (Items.length : Int) ≥ MaxSlots
      · rw [openSlots_full D MaxSlots _ Items R hR hfull] at h ⊢; exact h
      · rw [openSlots_zero D MaxSlots Items R hR hfull] at h; cases h
    · rw [openSlots_stop D MaxSlots _ Items R (by omega)] at h ⊢; exact h
  | succ fuel ih =>
    intro fuel1 Items R x hle h
    by_cases hR : 0 < R
    · by_cases hfull : MaxSlots > 0 ∧ (Items.length : Int) ≥ MaxSlots
      · rw [openSlots_full D MaxSlots _ Items R hR hfull] at h ⊢; exact h
      · obtain ⟨f, rfl⟩ : ∃ f, fuel1 = f + 1 := ⟨fuel1 - 1, by omega⟩
        rw [openSlots_step D MaxSlots _ Items R hR hfull] at h ⊢
        exact ih f _ _ x (by omega) h
    · rw [openSlots_stop D MaxSlots _ Items R (by omega)] at h ⊢; exact h

/-- A result of `AddItem` does not depend on the bound. -/
theorem addItem_mono (c : UInventoryComponent) (ItemDef : Option UItemDefinition)
    (Quantity : Int) (fuel fuel1 : Nat) (x : Bool × UInventoryComponent) (hle : fuel ≤ fuel1)
    (h : c.AddItem fuel ItemDef Quantity = some x) : c.AddItem fuel1 ItemDef Quantity = some x := by
  cases ItemDef with
  | none => exact h
  | some D =>
    by_cases hQ : Quantity ≤ 0
    · rw [addItem_invalid c (some D) Quantity _ (Or.inr hQ)] at h ⊢; exact h
    · cases hopen : AddItem.openSlots D c.MaxSlots fuel (AddItem.topUp D c.Items Quantity).1
          (AddItem.topUp D c.Items Quantity).2 with
      | none => simp [AddItem, hQ, hopen] at h
      | some y =>
        obtain ⟨ok, Items2, R1⟩ := y
        have h2 := openSlots_mono D c.MaxSlots fuel fuel1 _ _ _ hle hopen
        rw [addItem_of_openSlots c D Quantity (by omega) fuel ok Items2 R1 hopen] at h
        rw [addItem_of_openSlots c D Quantity (by omega) fuel1 ok Items2 R1 h2]
        exact h

/-- The comparison made at the end of `CanAddItem`. -/
theorem divideAndRoundUp_le (R M k : Int) (hR : 0 < R) (hM : 1 ≤ M) :
    FMath.DivideAndRoundUp R M ≤ k ↔ R ≤ k * M := by
  unfold FMath.DivideAndRoundUp
  rw [Int.tdiv_eq_ediv (by omega) (by omega)]
  have hM0 : 0 < M := by omega
  have h1 : (R + M - 1) / M ≤ k ↔ (R + M - 1) / M < k + 1 := by omega
  rw [h1, Int.ediv_lt_iff_lt_mul hM0]
  have h2 : (k + 1) * M = k * M + M := by ring
  rw [h2]
  omega

theorem getRemainingCapacity_full (D : UItemDefinition) (i : UItemInstance)
    (hd : i.ItemDefinition = some D) (hq : D.MaxStackSize ≤ i.Quantity) :
    i.GetRemainingCapacity = 0 := by
  unfold UItemInstance.GetRemainingCapacity FMath.Max
  rw [hd]
  simp only
  split_ifs <;> omega

theorem getRemainingCapacity_notFull (D : UItemDefinition) (i : UItemInstance)
    (hd : i.ItemDefinition = some D) (hq : i.Quantity < D.MaxStackSize) :
    i.GetRemainingCapacity = D.MaxStackSize - i.Quantity := by
  unfold UItemInstance.GetRemainingCapacity FMath.Max
  rw [hd]
  simp only
  split_ifs <;> omega

end MGS

namespace MGS
open UInventoryComponent

/-! ## The ledger invariant -/

theorem drain_mem (D : UItemDefinition) (l : List (Option UItemInstance)) (r : Int)
    (hr : 0 < r) (i : UItemInstance) (hi : some i ∈ (Drain D l r).1) :
    some i ∈ l ∨
      ∃ s k, some s ∈ l ∧ 0 < k ∧ k < s.Quantity ∧ i = { s with Quantity := s.Quantity - k } := by
  obtain ⟨pre, suf, hl, _, _, hcase⟩ := drain_spec D l r hr
  rcases hcase with h | ⟨pre0, s, k, hp, _, hk0, hk, _, h⟩
  · left
    rw [h] at hi
    rw [hl]
    rcases List.mem_append.1 hi with h1 | h1
    · exact List.mem_append.2 (Or.inl h1)
    · exact List.mem_append.2 (Or.inr (List.mem_filter.1 h1).1)
  · rw [h] at hi
    rcases List.mem_append.1 hi with h1 | h1
    · rcases List.mem_append.1 h1 with h2 | h2
      · left; rw [hl, hp]; simp [h2]
      · right
        simp only [List.mem_singleton, Option.some.injEq] at h2
        exact ⟨s, k, by rw [hl, hp]; simp, hk0, hk, h2⟩
    · left
      rw [hl]
      exact List.mem_append.2 (Or.inr (List.mem_filter.1 h1).1)

theorem drain_length_le (D : UItemDefinition) (l : List (Option UItemInstance)) (r : Int)
    (hr : 0 < r) : (Drain D l r).1.length ≤ l.length := by
  obtain ⟨pre, suf, hl, _, _, hcase⟩ := drain_spec D l r hr
  have hf := List.length_filter_le (fun e => !IsStackOf D e) suf
  rcases hcase with h | ⟨pre0, s, k, hp, _, _, _, _, h⟩
  · rw [h, hl]; simp only [List.length_append]; omega
  · rw [h, hl, hp]; simp only [List.length_append, List.length_singleton]; omega

theorem drain_stackInvariant (D : UItemDefinition) (l : List (Option UItemInstance)) (r : Int)
    (hr : 0 < r) (hinv : ∀ i, some i ∈ l → StackInvariant i) :
    ∀ i, some i ∈ (Drain D l r).1 → StackInvariant i := by
  intro i hi
  rcases drain_mem D l r hr i hi with h | ⟨s, k, hs, hk0, hk, rfl⟩
  · exact hinv i h
  · obtain ⟨h1, h2⟩ := hinv s hs
    refine ⟨by simp only; omega, ?_⟩
    intro Def hDef
    have := h2 Def hDef
    simp only
    omega

/-- Case split: `RemoveItem` either refuses and changes nothing, or runs its loop. -/
theorem removeItem_cases (c : UInventoryComponent) (ItemDef : Option UItemDefinition)
    (Quantity : Int) :
    c.RemoveItem ItemDef Quantity = (false, c) ∨
      ∃ D, ItemDef = some D ∧ 0 < Quantity ∧ Quantity ≤ c.GetItemCount (some D) ∧
        c.RemoveItem ItemDef Quantity =
          (true,
            { c with
              Items := (Drain D c.Items Quantity).1
              Broadcasts := c.Broadcasts ++
                [InventoryEvent.OnItemRemoved D Quantity, InventoryEvent.OnInventoryChanged] }) := by
  cases ItemDef with
  | none => left; rfl
  | some D =>
    by_cases h1 : Quantity ≤ 0
    · left; simp [RemoveItem, h1]
    · by_cases hh : c.HasItem (some D) Quantity = false
      · left; simp [RemoveItem, h1, hh]
      · right
        simp only [HasItem, decide_eq_false_iff_not, not_not] at hh
        exact ⟨D, rfl, by omega, by omega, removeItem_ok c D Quantity (by omega) (by omega)⟩

theorem removeItem_ledgerInvariant (c : UInventoryComponent) (hinv : LedgerInvariant c)
    (ItemDef : Option UItemDefinition) (Quantity : Int) :
    (c.RemoveItem ItemDef Quantity).2.MaxSlots = c.MaxSlots ∧
      LedgerInvariant (c.RemoveItem ItemDef Quantity).2 := by
  rcases removeItem_cases c ItemDef Quantity with h | ⟨D, _, hQ, _, h⟩
  · rw [h]; exact ⟨rfl, hinv⟩
  · rw [h]
    refine ⟨rfl, ?_, ?_⟩
    · exact drain_stackInvariant D c.Items Quantity hQ hinv.1
    · intro hM
      have h1 := hinv.2 hM
      have h2 := drain_length_le D c.Items Quantity hQ
      simp only at hM ⊢
      omega

theorem addItem_ledgerInvariant (c : UInventoryComponent) (hinv : LedgerInvariant c)
    (ItemDef : Option UItemDefinition)
    (hdef : ∀ Def, ItemDef = some Def → 1 ≤ Def.MaxStackSize) (Quantity : Int) (fuel : Nat)
    (hfuel : Quantity.toNat ≤ fuel) :
    ∃ ok c1, c.AddItem fuel ItemDef Quantity = some (ok, c1) ∧ c1.MaxSlots = c.MaxSlots ∧
      LedgerInvariant c1 := by
  by_cases hbad : ItemDef = none ∨ Quantity ≤ 0
  · exact ⟨false, c, addItem_invalid c ItemDef Quantity fuel hbad, rfl, hinv⟩
  · obtain ⟨D, rfl⟩ : ∃ D, ItemDef = some D := by
      cases ItemDef with
      | none => exact absurd (Or.inl rfl) hbad
      | some D => exact ⟨D, rfl⟩
    have hQ : 0 < Quantity := by
      by_contra hcon
      exact hbad (Or.inr (by omega))
    have hD := hdef D rfl
    obtain ⟨t0, tle⟩ := topUp_remaining D c.Items Quantity hQ
    obtain ⟨ok, new, R1, heq, hnew, _, _, _, _, _, _, hlen, _⟩ :=
      openSlots_spec D hD c.MaxSlots fuel (AddItem.topUp D c.Items Quantity).1
        (AddItem.topUp D c.Items Quantity).2 t0 (by omega)
    refine ⟨ok, _, addItem_of_openSlots c D Quantity hQ fuel ok _ R1 heq, rfl, ?_, ?_⟩
    · intro i hi
      simp only at hi
      rcases List.mem_append.1 hi with h1 | h1
      · exact topUp_stackInvariant D c.Items Quantity hQ hinv.1 i h1
      · obtain ⟨q, hq, hq1, hq2⟩ := hnew _ h1
        cases hq
        refine ⟨hq1, ?_⟩
        intro Def hDef
        cases hDef
        exact hq2
    · intro hM
      simp only at hM ⊢
      have := hinv.2 hM
      exact hlen hM (by rw [topUp_length D c.Items Quantity hQ]; exact this)

theorem clearInventory_ledgerInvariant (c : UInventoryComponent) :
    c.ClearInventory.MaxSlots = c.MaxSlots ∧ LedgerInvariant c.ClearInventory := by
  refine ⟨rfl, ?_, ?_⟩
  · intro i hi; simp [ClearInventory] at hi
  · intro hM
    simp only [ClearInventory] at hM ⊢
    simp only [List.length_nil, Nat.cast_zero]
    omega

end MGS

namespace MGS
open UInventoryComponent

/-! ## The shape of the stacks of one definition -/

theorem stackShape_append (D : UItemDefinition) (a b : List (Option UItemInstance))
    (ha : StackShape D a) (hb : StackShape D b)
    (hfull : (∃ e ∈ b, IsStackOf D e = true) →
      ∀ i, some i ∈ a → i.ItemDefinition = some D → i.Quantity = D.MaxStackSize) :
    StackShape D (a ++ b) := by
  induction a with
  | nil => simpa using hb
  | cons e rest ih =>
    obtain ⟨h1, h2⟩ := ha
    refine ⟨?_, ih h2 (fun hex i hi hd => hfull hex i (List.mem_cons_of_mem _ hi) hd)⟩
    intro i hi hd hex
    obtain ⟨x, hx, hxD⟩ := hex
    rcases List.mem_append.1 hx with h | h
    · exact h1 i hi hd ⟨x, h, hxD⟩
    · exact hfull ⟨x, h, hxD⟩ i (by rw [hi]; exact List.mem_cons_self _ _) hd

theorem stackShape_of_no_stack (D : UItemDefinition) (l : List (Option UItemInstance))
    (h : ∀ e ∈ l, IsStackOf D e = false) : StackShape D l := by
  induction l with
  | nil => trivial
  | cons e rest ih =>
    refine ⟨?_, ih (fun x hx => h x (List.mem_cons_of_mem _ hx))⟩
    intro i hi hd _
    have := h e (List.mem_cons_self _ _)
    rw [hi] at this
    simp [IsStackOf, hd] at this

theorem topUp_isStackOf (D E : UItemDefinition) (l : List (Option UItemInstance)) (r : Int)
    (hr : 0 < r) :
    ∀ e1 ∈ (AddItem.topUp D l r).1, IsStackOf E e1 = true → ∃ e ∈ l, IsStackOf E e = true := by
  induction l generalizing r with
  | nil => intro e1 h1; simp [AddItem.topUp] at h1
  | cons e rest ih =>
    rcases topUp_cases D e with h | ⟨i, rfl, hd, hq⟩
    · rw [topUp_skip D e rest r h]
      intro e1 h1 hE
      rcases List.mem_cons.1 h1 with h2 | h2
      · exact ⟨e, List.mem_cons_self _ _, by rw [← h2]; exact hE⟩
      · obtain ⟨x, hx, hxE⟩ := ih r hr e1 h2 hE
        exact ⟨x, List.mem_cons_of_mem _ hx, hxE⟩
    · rw [topUp_fill D i rest r hd hq hr]
      split_ifs with hle
      · intro e1 h1 hE
        rcases List.mem_cons.1 h1 with h2 | h2
        · refine ⟨some i, List.mem_cons_self _ _, ?_⟩
          rw [h2] at hE
          simpa [IsStackOf] using hE
        · exact ⟨e1, List.mem_cons_of_mem _ h2, hE⟩
      · intro e1 h1 hE
        rcases List.mem_cons.1 h1 with h2 | h2
        · refine ⟨some i, List.mem_cons_self _ _, ?_⟩
          rw [h2] at hE
          simpa [IsStackOf] using hE
        · obtain ⟨x, hx, hxE⟩ := ih _ (by omega) e1 h2 hE
          exact ⟨x, List.mem_cons_of_mem _ hx, hxE⟩

theorem topUp_shape (D E : UItemDefinition) (l : List (Option UItemInstance)) (r : Int)
    (hr : 0 < r) (hs : StackShape E l) : StackShape E (AddItem.topUp D l r).1 := by
  induction l generalizing r with
  | nil => simpa [AddItem.topUp] using hs
  | cons e rest ih =>
    obtain ⟨h1, h2⟩ := hs
    rcases topUp_cases D e with h | ⟨i, rfl, hd, hq⟩
    · rw [topUp_skip D e rest r h]
      refine ⟨?_, ih r hr h2⟩
      intro j hj hdj hex
      obtain ⟨x, hx, hxE⟩ := hex
      exact h1 j hj hdj (topUp_isStackOf D E rest r hr x hx hxE)
    · have hcontra : ∀ tail : List (Option UItemInstance),
          (∀ e1 ∈ tail, IsStackOf E e1 = true → ∃ e ∈ rest, IsStackOf E e = true) →
          ∀ (q : Int) (j : UItemInstance),
            some { i with Quantity := q } = some j → j.ItemDefinition = some E →
            (∃ e ∈ tail, IsStackOf E e = true) → j.Quantity = E.MaxStackSize := by
        intro tail htail q j hj hdj hex
        exfalso
        cases hj
        simp only at hdj
        rw [hd] at hdj
        cases hdj
        obtain ⟨x, hx, hxE⟩ := hex
        have := h1 i rfl hd (htail x hx hxE)
        omega
      rw [topUp_fill D i rest r hd hq hr]
      split_ifs with hle
      · exact ⟨hcontra rest (fun e1 he1 hE => ⟨e1, he1, hE⟩) _, h2⟩
      · exact ⟨hcontra _ (topUp_isStackOf D E rest _ (by omega)) _, ih _ (by omega) h2⟩

theorem drain_isStackOf (D E : UItemDefinition) (l : List (Option UItemInstance)) (r : Int)
    (hr : 0 < r) :
    ∀ e1 ∈ (Drain D l r).1, IsStackOf E e1 = true → ∃ e ∈ l, IsStackOf E e = true := by
  intro e1 h1 hE
  cases e1 with
  | none => simp [IsStackOf] at hE
  | some i =>
    rcases drain_mem D l r hr i h1 with h | ⟨s, k, hs, _, _, rfl⟩
    · exact ⟨some i, h, hE⟩
    · exact ⟨some s, hs, by simpa [IsStackOf] using hE⟩

/-- When the removal loop ends with units still to remove, no stack of `D` is left. -/
theorem drain_none_left (D : UItemDefinition) (l : List (Option UItemInstance)) (r : Int)
    (hr : 0 < r) (hleft : 0 < (Drain D l r).2) :
    ∀ e ∈ (Drain D l r).1, IsStackOf D e = false := by
  obtain ⟨pre, suf, hl, _, hpre, hcase⟩ := drain_spec D l r hr
  have hp := hpre hleft
  subst hp
  rcases hcase with h | ⟨pre0, s, k, hp, _⟩
  · rw [h]
    intro e he
    simp only [List.nil_append, List.mem_filter] at he
    simpa using he.2
  · simp at hp

theorem drain_shape (D E : UItemDefinition) (l : List (Option UItemInstance)) (r : Int)
    (hr : 0 < r) (hs : StackShape E l) : StackShape E (Drain D l r).1 := by
  induction l with
  | nil => simpa [Drain] using hs
  | cons e rest ih =>
    obtain ⟨h1, h2⟩ := hs
    have ih' := ih h2
    rw [Drain]
    by_cases hpos : (Drain D rest r).2 > 0
    · by_cases hd : IsStackOf D e = true
      · obtain ⟨i, rfl⟩ : ∃ i, e = some i := by
          cases e with
          | none => simp [IsStackOf] at hd
          | some i => exact ⟨i, rfl⟩
        have hdef : i.ItemDefinition = some D := (isStackOf_some D i).1 hd
        rw [drainStep_stack D i _ hpos hdef]
        split_ifs with hlt
        · refine ⟨?_, ih'⟩
          intro j hj hdj hex
          exfalso
          cases hj
          simp only at hdj
          rw [hdef] at hdj
          cases hdj
          obtain ⟨x, hx, hxE⟩ := hex
          have := drain_none_left D rest r hr hpos x hx
          rw [this] at hxE
          cases hxE
        · exact ih'
      · have hd' : IsStackOf D e = false := by simpa using hd
        rw [drainStep_other D e _ hd']
        refine ⟨?_, ih'⟩
        intro j hj hdj hex
        obtain ⟨x, hx, hxE⟩ := hex
        exact h1 j hj hdj (drain_isStackOf D E rest r hr x hx hxE)
    · have hle : (Drain D rest r).2 ≤ 0 := by omega
      rw [drainStep_nonpos D e _ hle]
      refine ⟨?_, ih'⟩
      intro j hj hdj hex
      obtain ⟨x, hx, hxE⟩ := hex
      exact h1 j hj hdj (drain_isStackOf D E rest r hr x hx hxE)

end MGS

namespace MGS
open UInventoryComponent

/-! ## Reachable ledgers -/

theorem addItem_shape (c : UInventoryComponent) (hinv : LedgerInvariant c)
    (hshape : ∀ E, StackShape E c.Items) (ItemDef : Option UItemDefinition)
    (hdef : ∀ Def, ItemDef = some Def → 1 ≤ Def.MaxStackSize) (Quantity : Int) (fuel : Nat)
    (ok : Bool) (c1 : UInventoryComponent)
    (hadd : c.AddItem fuel ItemDef Quantity = some (ok, c1)) :
    c1.MaxSlots = c.MaxSlots ∧ LedgerInvariant c1 ∧ ∀ E, StackShape E c1.Items := by
  have hadd2 := addItem_mono c ItemDef Quantity fuel (max fuel Quantity.toNat) (ok, c1)
    (le_max_left _ _) hadd
  by_cases hbad : ItemDef = none ∨ Quantity ≤ 0
  · rw [addItem_invalid c ItemDef Quantity _ hbad] at hadd
    cases hadd
    exact ⟨rfl, hinv, hshape⟩
  · obtain ⟨D, rfl⟩ : ∃ D, ItemDef = some D := by
      cases ItemDef with
      | none => exact absurd (Or.inl rfl) hbad
      | some D => exact ⟨D, rfl⟩
    have hQ : 0 < Quantity := by
      by_contra hcon
      exact hbad (Or.inr (by omega))
    have hD := hdef D rfl
    obtain ⟨t0, tle⟩ := topUp_remaining D c.Items Quantity hQ
    obtain ⟨ok1, new, R1, heq, hnew, _, _, hnil, hsnew, _, _, hlen, _⟩ :=
      openSlots_spec D hD c.MaxSlots (max fuel Quantity.toNat)
        (AddItem.topUp D c.Items Quantity).1 (AddItem.topUp D c.Items Quantity).2 t0
        (by have := le_max_right fuel Quantity.toNat; omega)
    rw [addItem_of_openSlots c D Quantity hQ _ ok1 _ R1 heq] at hadd2
    cases hadd2
    refine ⟨rfl, ?_, ?_⟩
    · refine ⟨?_, ?_⟩
      · intro i hi
        simp only at hi
        rcases List.mem_append.1 hi with h1 | h1
        · exact topUp_stackInvariant D c.Items Quantity hQ hinv.1 i h1
        · obtain ⟨q, hq, hq1, hq2⟩ := hnew _ h1
          cases hq
          exact ⟨hq1, by intro Def hDef; cases hDef; exact hq2⟩
      · intro hM
        simp only at hM ⊢
        exact hlen hM (by rw [topUp_length D c.Items Quantity hQ]; exact hinv.2 hM)
    · intro E
      simp only
      by_cases hE : E = D
      · subst hE
        refine stackShape_append E _ _ (topUp_shape E E c.Items Quantity hQ (hshape E)) hsnew ?_
        intro hex i hi hd
        have hne : ¬ (AddItem.topUp E c.Items Quantity).2 = 0 := by
          intro h0
          rw [hnil h0] at hex
          simp at hex
        have hge := topUp_full E c.Items Quantity hQ (by omega) i hi hd
        have hle := (topUp_stackInvariant E c.Items Quantity hQ hinv.1 i hi).2 E hd
        omega
      · have hno : ∀ e ∈ new, IsStackOf E e = false := by
          intro e he
          obtain ⟨q, hq, _, _⟩ := hnew e he
          rw [hq]
          have : ¬ (some D = some E) := fun h => hE (Option.some.inj h).symm
          simp [IsStackOf, this]
        refine stackShape_append E _ _ (topUp_shape D E c.Items Quantity hQ (hshape E))
          (stackShape_of_no_stack E new hno) ?_
        intro hex
        obtain ⟨x, hx, hxE⟩ := hex
        rw [hno x hx] at hxE
        cases hxE

theorem removeItem_shape (c : UInventoryComponent) (hshape : ∀ E, StackShape E c.Items)
    (ItemDef : Option UItemDefinition) (Quantity : Int) :
    ∀ E, StackShape E (c.RemoveItem ItemDef Quantity).2.Items := by
  rcases removeItem_cases c ItemDef Quantity with h | ⟨D, _, hQ, _, h⟩
  · rw [h]; exact hshape
  · rw [h]
    intro E
    exact drain_shape D E c.Items Quantity hQ (hshape E)

/-- Every reachable ledger keeps its slot limit, satisfies the ledger invariant and
has, for every definition, all stacks full except possibly the last one. -/
theorem reachable_invariant (MaxSlots : Int) (c : UInventoryComponent)
    (h : Reachable MaxSlots c) :
    c.MaxSlots = MaxSlots ∧ LedgerInvariant c ∧ ∀ E, StackShape E c.Items := by
  induction h with
  | empty =>
    refine ⟨rfl, ⟨?_, ?_⟩, ?_⟩
    · intro i hi; simp at hi
    · intro hM; simp only [List.length_nil, Nat.cast_zero] at hM ⊢; omega
    · intro E; trivial
  | addItem fuel ItemDef Quantity ok _ hdef hadd ih =>
    obtain ⟨h1, h2, h3⟩ := ih
    obtain ⟨g1, g2, g3⟩ := addItem_shape _ h2 h3 ItemDef hdef Quantity fuel ok _ hadd
    exact ⟨by rw [g1, h1], g2, g3⟩
  | removeItem ItemDef Quantity _ ih =>
    obtain ⟨h1, h2, h3⟩ := ih
    obtain ⟨g1, g2⟩ := removeItem_ledgerInvariant _ h2 ItemDef Quantity
    exact ⟨by rw [g1, h1], g2, removeItem_shape _ h3 ItemDef Quantity⟩
  | clearInventory _ ih =>
    obtain ⟨h1, _, _⟩ := ih
    obtain ⟨g1, g2⟩ := clearInventory_ledgerInvariant _
    exact ⟨by rw [g1, h1], g2, by intro E; trivial⟩

/-! ## Adding then removing -/

theorem drain_no_stack (D : UItemDefinition) (l : List (Option UItemInstance)) (r : Int)
    (h : ∀ e ∈ l, IsStackOf D e = false) : Drain D l r = (l, r) := by
  induction l with
  | nil => rfl
  | cons e rest ih =>
    rw [Drain, ih (fun x hx => h x (List.mem_cons_of_mem _ hx)),
      drainStep_other D e _ (h e (List.mem_cons_self _ _))]

/-- The removal loop deletes freshly opened stacks one after the other. -/
theorem drain_new (D : UItemDefinition) (new : List (Option UItemInstance)) (r : Int)
    (hnew : ∀ e ∈ new, ∃ q, e = some { ItemDefinition := some D, Quantity := q } ∧ 1 ≤ q ∧
      q ≤ D.MaxStackSize)
    (hle : Units D new ≤ r) : Drain D new r = ([], r - Units D new) := by
  induction new with
  | nil => simp [Drain, Units]
  | cons e rest ih =>
    obtain ⟨q, rfl, hq1, _⟩ := hnew e (List.mem_cons_self _ _)
    have hrest : ∀ e ∈ rest, ∃ q, e = some { ItemDefinition := some D, Quantity := q } ∧ 1 ≤ q ∧
        q ≤ D.MaxStackSize := fun x hx => hnew x (List.mem_cons_of_mem _ hx)
    have hu : Units D (some { ItemDefinition := some D, Quantity := q } :: rest) =
        q + Units D rest := by
      simp [Units, UnitsOf]
    rw [hu] at hle ⊢
    rw [Drain, ih hrest (by omega), drainStep_stack D _ _ (by simp only; omega) rfl]
    have hnot : ¬ (r - Units D rest < q) := by omega
    simp only [hnot, if_false]
    congr 1
    ring

/-- The removal loop undoes the top-up loop: with the stacks of `D` full except
possibly the last, removing what the top-up placed gives the array back. -/
theorem drain_topUp (D : UItemDefinition) (l : List (Option UItemInstance)) (r : Int)
    (hr : 0 < r) (hinv : ∀ i, some i ∈ l → StackInvariant i) (hs : StackShape D l) :
    Drain D (AddItem.topUp D l r).1 (r - (AddItem.topUp D l r).2) = (l, 0) := by
  induction l generalizing r with
  | nil => simp [AddItem.topUp, Drain]
  | cons e rest ih =>
    obtain ⟨h1, h2⟩ := hs
    have hrest : ∀ i, some i ∈ rest → StackInvariant i :=
      fun i hi => hinv i (List.mem_cons_of_mem _ hi)
    rcases topUp_cases D e with h | ⟨i, rfl, hd, hq⟩
    · rw [topUp_skip D e rest r h]
      simp only
      rw [Drain, ih r hr hrest h2, drainStep_nonpos D e _ (le_refl _)]
    · have hno : ∀ x ∈ rest, IsStackOf D x = false := by
        intro x hx
        by_contra hcon
        have hx' : IsStackOf D x = true := by simpa using hcon
        have := h1 i rfl hd ⟨x, hx, hx'⟩
        omega
      have hi1 := (hinv i (List.mem_cons_self _ _)).1
      have hback : ∀ k : Int, UItemInstance.mk i.ItemDefinition (i.Quantity + k - k) = i := by
        intro k
        cases i
        simp
      rw [topUp_fill D i rest r hd hq hr]
      split_ifs with hle
      · simp only [sub_zero]
        rw [Drain, drain_no_stack D rest r hno,
          drainStep_stack D _ _ (by simpa using hr) (by simpa using hd)]
        have hlt : r < i.Quantity + r := by omega
        simp only [hlt, if_true, hback]
      · rw [topUp_no_stack D rest _ hno]
        simp only
        have hk : r - (r - (D.MaxStackSize - i.Quantity)) = D.MaxStackSize - i.Quantity := by ring
        rw [hk, Drain, drain_no_stack D rest _ hno,
          drainStep_stack D _ _ (by simp only; omega) (by simpa using hd)]
        have hlt : D.MaxStackSize - i.Quantity < D.MaxStackSize := by omega
        simp only [hlt, if_true]
        have hq2 : D.MaxStackSize - (D.MaxStackSize - i.Quantity) = i.Quantity := by ring
        rw [hq2]

end MGS

namespace MGS
open UInventoryComponent

/-! ## Removal: claims C2, C3, C7, C8 -/

/-- C2. `RemoveItem` asked for more units than `GetItemCount` reports returns `false`
and leaves the component as it was: the same entries with the same quantities in the
same order, hence the same `GetItemCount` for every definition, and no broadcast
(neither item-removed nor inventory-changed). -/
theorem removeItem_more_than_held (c : UInventoryComponent)
    (ItemDef : Option UItemDefinition) (Quantity : Int)
    (h : c.GetItemCount ItemDef < Quantity) :
    c.RemoveItem ItemDef Quantity = (false, c) ∧
      (c.RemoveItem ItemDef Quantity).2.Items = c.Items ∧
      (∀ E, (c.RemoveItem ItemDef Quantity).2.GetItemCount E = c.GetItemCount E) ∧
      (c.RemoveItem ItemDef Quantity).2.Broadcasts = c.Broadcasts := by
  have key : c.RemoveItem ItemDef Quantity = (false, c) := by
    cases ItemDef with
    | none => rfl
    | some D =>
      have hh : c.HasItem (some D) Quantity = false := by
        simp only [HasItem, decide_eq_false_iff_not]
        omega
      simp only [RemoveItem, hh]
      split_ifs <;> rfl
  rw [key]
  exact ⟨rfl, rfl, fun _ => rfl, rfl⟩

/-- C2 at a ledger holding 5 units: removing 6 is refused and changes nothing. -/
theorem removeItem_more_than_held_witness :
    (ExampleLedger 0 [5]).GetItemCount (some ExampleItem) < 6 ∧
      (ExampleLedger 0 [5]).RemoveItem (some ExampleItem) 6 = (false, ExampleLedger 0 [5]) :=
  ⟨by decide, (removeItem_more_than_held (ExampleLedger 0 [5]) (some ExampleItem) 6 (by decide)).1⟩

/-- C3. On a ledger whose stacks all hold at least one unit, `RemoveItem(D, Quantity)`
with `0 < Quantity <= GetItemCount(D)` returns `true`, lowers `GetItemCount(D)` by
exactly `Quantity`, leaves `GetItemCount(E)` as it was for every other definition
`E`, leaves no stack without units, and keeps the surviving entries in their order:
the new array is a subsequence of the old one in which an entry is unchanged or
holds fewer units. -/
theorem removeItem_enough_held (c : UInventoryComponent) (D : UItemDefinition)
    (Quantity : Int) (hpos : ∀ i, some i ∈ c.Items → 1 ≤ i.Quantity)
    (hQ : 0 < Quantity) (hle : Quantity ≤ c.GetItemCount (some D)) :
    (c.RemoveItem (some D) Quantity).1 = true ∧
      (c.RemoveItem (some D) Quantity).2.GetItemCount (some D) =
        c.GetItemCount (some D) - Quantity ∧
      (∀ E, E ≠ some D →
        (c.RemoveItem (some D) Quantity).2.GetItemCount E = c.GetItemCount E) ∧
      (∀ i, some i ∈ (c.RemoveItem (some D) Quantity).2.Items → 1 ≤ i.Quantity) ∧
      ∃ kept, List.Sublist kept c.Items ∧
        List.Forall₂ KeptAs kept (c.RemoveItem (some D) Quantity).2.Items := by
  rw [removeItem_ok c D Quantity hQ hle]
  have hnn : 0 ≤ Units D c.Items := units_nonneg D c.Items hpos
  have hW := getItemCount_some c D
  have hle' : Quantity ≤ Units D c.Items := by
    rw [hW] at hle
    unfold WrapInt32 INT_MIN at hle
    omega
  have hz := drain_remaining_zero D c.Items Quantity hQ hle'
  obtain ⟨hu, _⟩ := drain_units D c.Items Quantity hQ
  obtain ⟨pre, suf, hl, h0, hpre, hcase⟩ := drain_spec D c.Items Quantity hQ
  have hrefl : ∀ l : List (Option UItemInstance), List.Forall₂ KeptAs l l := by
    intro l
    induction l with
    | nil => exact List.Forall₂.nil
    | cons a t ih => exact List.Forall₂.cons (Or.inl rfl) ih
  refine ⟨rfl, ?_, ?_, ?_, ?_⟩
  · rw [hW] at hle
    simp only [getItemCount_some, hu, hz]
    unfold WrapInt32 INT_MIN at hle ⊢
    omega
  · intro E hE
    cases E with
    | none => rfl
    | some E =>
      have hne : E ≠ D := fun h => hE (by rw [h])
      simp only [getItemCount_some, drain_units_other D E hne]
  · intro i hi
    simp only at hi
    rcases hcase with h | ⟨pre0, s, k, hp, hdef, hk0, hk, _, h⟩
    · rw [h] at hi
      apply hpos
      rw [hl]
      rcases List.mem_append.1 hi with h1 | h1
      · exact List.mem_append.2 (Or.inl h1)
      · exact List.mem_append.2 (Or.inr (List.mem_filter.1 h1).1)
    · rw [h] at hi
      rcases List.mem_append.1 hi with h1 | h1
      · rcases List.mem_append.1 h1 with h2 | h2
        · apply hpos
          rw [hl, hp]
          simp [h2]
        · simp only [List.mem_singleton, Option.some.injEq] at h2
          subst h2
          simp only
          omega
      · apply hpos
        rw [hl]
        exact List.mem_append.2 (Or.inr (List.mem_filter.1 h1).1)
  · simp only
    rcases hcase with h | ⟨pre0, s, k, hp, hdef, hk0, hk, _, h⟩
    · refine ⟨pre ++ suf.filter (fun e => !IsStackOf D e), ?_, ?_⟩
      · rw [hl]
        exact List.Sublist.append (List.Sublist.refl _) (List.filter_sublist _)
      · rw [h]; exact hrefl _
    · refine ⟨pre0 ++ [some s] ++ suf.filter (fun e => !IsStackOf D e), ?_, ?_⟩
      · rw [hl, hp]
        exact List.Sublist.append (List.Sublist.refl _) (List.filter_sublist _)
      · rw [h]
        refine List.rel_append (List.rel_append (hrefl _) ?_) (hrefl _)
        exact List.Forall₂.cons (Or.inr ⟨s, k, rfl, hk0, hk, rfl⟩) List.Forall₂.nil

/-- C3 at the ledger `[10, 5]`: removing 7 units is accepted. -/
theorem removeItem_enough_held_witness :
    (∀ i, some i ∈ (ExampleLedger 0 [10, 5]).Items → 1 ≤ i.Quantity) ∧
      (0 : Int) < 7 ∧ (7 : Int) ≤ (ExampleLedger 0 [10, 5]).GetItemCount (some ExampleItem) ∧
      ((ExampleLedger 0 [10, 5]).RemoveItem (some ExampleItem) 7).1 = true ∧
      ((ExampleLedger 0 [10, 5]).RemoveItem (some ExampleItem) 7).2.GetItemCount
          (some ExampleItem) =
        (ExampleLedger 0 [10, 5]).GetItemCount (some ExampleItem) - 7 :=
  have hpos : ∀ i, some i ∈ (ExampleLedger 0 [10, 5]).Items → 1 ≤ i.Quantity := by
    intro i hi
    simp [ExampleLedger] at hi
    rcases hi with rfl | rfl <;> decide
  have h := removeItem_enough_held (ExampleLedger 0 [10, 5]) ExampleItem 7 hpos
    (by decide) (by decide)
  ⟨hpos, by decide, by decide, h.1, h.2.1⟩

/-- C7. A successful `RemoveItem(D, Quantity)` takes units from the end of the array
towards its front: the array splits as `pre ++ suf` where every stack of `D` in `suf`
is deleted and nothing else in `suf` is touched; `pre` is untouched, except that its
last entry may be a stack of `D` left with fewer units (at least one). So a stack of
`D` loses units only when all stacks of `D` after it are deleted, and at most one
surviving stack is changed. -/
theorem removeItem_newest_first (c : UInventoryComponent) (ItemDef : Option UItemDefinition)
    (Quantity : Int) (hret : (c.RemoveItem ItemDef Quantity).1 = true) :
    ∃ D pre suf, ItemDef = some D ∧ c.Items = pre ++ suf ∧
      ((c.RemoveItem ItemDef Quantity).2.Items = pre ++ suf.filter (fun e => !IsStackOf D e) ∨
        ∃ pre0 s k, pre = pre0 ++ [some s] ∧ s.ItemDefinition = some D ∧ 0 < k ∧
          k < s.Quantity ∧
          (c.RemoveItem ItemDef Quantity).2.Items =
            pre0 ++ [some { s with Quantity := s.Quantity - k }] ++
              suf.filter (fun e => !IsStackOf D e)) := by
  obtain ⟨D, rfl, hQ, hle⟩ := removeItem_true_inv c ItemDef Quantity hret
  rw [removeItem_ok c D Quantity hQ hle]
  obtain ⟨pre, suf, hl, _, _, hcase⟩ := drain_spec D c.Items Quantity hQ
  refine ⟨D, pre, suf, rfl, hl, ?_⟩
  rcases hcase with h | ⟨pre0, s, k, hp, hdef, hk0, hk, _, h⟩
  · exact Or.inl h
  · exact Or.inr ⟨pre0, s, k, hp, hdef, hk0, hk, h⟩

/-- C7 at the ledger `[10, 5]`: removing 7 units deletes the last stack and takes the
other 2 units from the stack before it. -/
theorem removeItem_newest_first_witness :
    ((ExampleLedger 0 [10, 5]).RemoveItem (some ExampleItem) 7).1 = true ∧
      ((ExampleLedger 0 [10, 5]).RemoveItem (some ExampleItem) 7).2.Items =
        (ExampleLedger 0 [8]).Items ∧
      ∃ D pre suf, some ExampleItem = some D ∧ (ExampleLedger 0 [10, 5]).Items = pre ++ suf ∧
        (((ExampleLedger 0 [10, 5]).RemoveItem (some ExampleItem) 7).2.Items =
            pre ++ suf.filter (fun e => !IsStackOf D e) ∨
          ∃ pre0 s k, pre = pre0 ++ [some s] ∧ s.ItemDefinition = some D ∧ 0 < k ∧
            k < s.Quantity ∧
            ((ExampleLedger 0 [10, 5]).RemoveItem (some ExampleItem) 7).2.Items =
              pre0 ++ [some { s with Quantity := s.Quantity - k }] ++
                suf.filter (fun e => !IsStackOf D e)) :=
  ⟨by decide, by decide,
    removeItem_newest_first (ExampleLedger 0 [10, 5]) (some ExampleItem) 7 (by decide)⟩

/-- C8. The header says `RemoveItem` drains stacks oldest-first; the code does not.
On the ledger `[10, 5]` (the stack of 10 is the older one) `RemoveItem(D, 3)` returns
`true` and leaves `[10, 2]`: the newer stack lost the 3 units while the older stack,
which is not empty, kept all of its 10; oldest-first would leave `[7, 5]`. -/
theorem removeItem_not_oldest_first :
    (ExampleLedger 0 [10, 5]).RemoveItem (some ExampleItem) 3 =
        (true,
          { ExampleLedger 0 [10, 2] with
            Broadcasts :=
              [InventoryEvent.OnItemRemoved ExampleItem 3, InventoryEvent.OnInventoryChanged] }) ∧
      ((ExampleLedger 0 [10, 5]).RemoveItem (some ExampleItem) 3).2.Items ≠
        (ExampleLedger 0 [7, 5]).Items := by
  constructor <;> decide

end MGS

namespace MGS
open UInventoryComponent

/-! ## Adding: claims C1, C4, C5 -/

/-- C4. The ledger invariant (every stack holds between 1 and `MaxStackSize` units;
at most `MaxSlots` entries when `MaxSlots > 0`) is kept by every call of `AddItem`
(which returns, with any arguments, whether it succeeds or not), of `RemoveItem` and of
`ClearInventory`; the definition passed has `MaxStackSize >= 1` and `MaxSlots` is
unchanged. -/
theorem ledgerInvariant_preserved (c : UInventoryComponent) (ItemDef : Option UItemDefinition)
    (Quantity : Int) (fuel : Nat) (hinv : LedgerInvariant c)
    (hdef : ∀ Def, ItemDef = some Def → 1 ≤ Def.MaxStackSize)
    (hfuel : Quantity.toNat ≤ fuel) :
    (∃ ok c1, c.AddItem fuel ItemDef Quantity = some (ok, c1) ∧ c1.MaxSlots = c.MaxSlots ∧
      LedgerInvariant c1) ∧
    ((c.RemoveItem ItemDef Quantity).2.MaxSlots = c.MaxSlots ∧
      LedgerInvariant (c.RemoveItem ItemDef Quantity).2) ∧
    (c.ClearInventory.MaxSlots = c.MaxSlots ∧ LedgerInvariant c.ClearInventory) :=
  ⟨addItem_ledgerInvariant c hinv ItemDef hdef Quantity fuel hfuel,
    removeItem_ledgerInvariant c hinv ItemDef Quantity,
    clearInventory_ledgerInvariant c⟩

/-- C4 at the ledger `[10, 5]` with two slots and a request of 7 units. -/
theorem ledgerInvariant_preserved_witness :
    LedgerInvariant (ExampleLedger 2 [10, 5]) ∧
    (∃ ok c1, (ExampleLedger 2 [10, 5]).AddItem 7 (some ExampleItem) 7 = some (ok, c1) ∧
      c1.MaxSlots = (ExampleLedger 2 [10, 5]).MaxSlots ∧ LedgerInvariant c1) ∧
    LedgerInvariant ((ExampleLedger 2 [10, 5]).RemoveItem (some ExampleItem) 7).2 ∧
    LedgerInvariant (ExampleLedger 2 [10, 5]).ClearInventory :=
  have hinv : LedgerInvariant (ExampleLedger 2 [10, 5]) := by
    refine ⟨?_, by intro _; decide⟩
    intro i hi
    simp [ExampleLedger] at hi
    rcases hi with rfl | rfl
    · exact ⟨by decide, by intro Def h; cases h; decide⟩
    · exact ⟨by decide, by intro Def h; cases h; decide⟩
  have h := ledgerInvariant_preserved (ExampleLedger 2 [10, 5]) (some ExampleItem) 7 7 hinv
    (by intro Def h; cases h; decide) (by decide)
  ⟨hinv, h.1, h.2.1.2, h.2.2.2⟩

end MGS

namespace MGS
open UInventoryComponent

/-! ## Round trip: claim C6 -/

end MGS

namespace MGS
open UAbilityComponent

/-! ## Abilities: claims C9, C10 -/

theorem findLoop_append_none (C : UClass) (l : List (Option UMgsGameplayAbility))
    (n : UMgsGameplayAbility) (h : FindAbilityByClass.loop C l = none) :
    FindAbilityByClass.loop C (l ++ [some n]) = if n.Class = C then some n else none := by
  induction l with
  | nil => simp [FindAbilityByClass.loop]
  | cons e rest ih =>
    cases e with
    | none =>
      simp only [FindAbilityByClass.loop, List.cons_append] at h ⊢
      exact ih h
    | some a =>
      by_cases hc : a.Class = C
      · simp [FindAbilityByClass.loop, hc] at h
      · simp only [FindAbilityByClass.loop, hc, if_false, List.cons_append] at h ⊢
        exact ih h

/-- C9. Granting is idempotent. For every registry and every ability class `C`,
`GiveAbility(C)` returns an instance, a second `GiveAbility(C)` returns the same
instance and leaves the whole component as the first call left it (the granted list,
the state of every instance, the broadcasts: no second granted event), and the
instance returned is the one `FindAbilityByClass` finds. When `C` was already granted
the first call changes nothing either. When `C` was not granted the first call appends
exactly one instance, new, of class `C` and in state `Inactive`, and broadcasts
exactly one granted event, for that instance. -/
theorem giveAbility_idempotent (c : UAbilityComponent) (C : UClass) :
    (∃ a, (c.GiveAbility (some C)).2.FindAbilityByClass (some C) = some a ∧
      (c.GiveAbility (some C)).1 = some a.Object) ∧
    (c.GiveAbility (some C)).2.GiveAbility (some C) =
      ((c.GiveAbility (some C)).1, (c.GiveAbility (some C)).2) ∧
    (∀ a, c.FindAbilityByClass (some C) = some a →
      c.GiveAbility (some C) = (some a.Object, c)) ∧
    (c.FindAbilityByClass (some C) = none →
      (c.GiveAbility (some C)).1 = some (c.NewObject C).Object ∧
      (c.GiveAbility (some C)).2.GrantedAbilities =
        c.GrantedAbilities ++ [some (c.NewObject C)] ∧
      (c.NewObject C).Class = C ∧
      (c.NewObject C).State = EAbilityState.Inactive ∧
      (c.GiveAbility (some C)).2.Broadcasts =
        c.Broadcasts ++ [AbilityEvent.OnAbilityGranted (c.NewObject C)]) := by
  cases hfind : c.FindAbilityByClass (some C) with
  | some a =>
    have h1 : c.GiveAbility (some C) = (some a.Object, c) := by
      simp [GiveAbility, hfind]
    rw [h1]
    refine ⟨⟨a, hfind, rfl⟩, ?_, ?_, ?_⟩
    · simp [GiveAbility, hfind]
    · intro b hb; cases hb; rfl
    · intro h; cases h
  | none =>
    have h1 : c.GiveAbility (some C) =
        (some (c.NewObject C).Object,
          { c with
            GrantedAbilities := c.GrantedAbilities ++ [some (c.NewObject C)]
            NextObject := c.NextObject + 1
            Broadcasts := c.Broadcasts ++ [AbilityEvent.OnAbilityGranted (c.NewObject C)] }) := by
      simp [GiveAbility, hfind]
    have hloop : FindAbilityByClass.loop C c.GrantedAbilities = none := by
      simpa [FindAbilityByClass] using hfind
    have h2 : FindAbilityByClass.loop C (c.GrantedAbilities ++ [some (c.NewObject C)]) =
        some (c.NewObject C) := by
      rw [findLoop_append_none C _ _ hloop]
      simp [NewObject]
    rw [h1]
    refine ⟨⟨c.NewObject C, ?_, rfl⟩, ?_, ?_, ?_⟩
    · simp [FindAbilityByClass, h2]
    · simp [GiveAbility, FindAbilityByClass, h2]
    · intro b hb; cases hb
    · intro _
      exact ⟨rfl, rfl, rfl, rfl, rfl⟩

/-- C9 at the registry with no ability: the first grant stores one `Inactive`
instance and broadcasts once; the second grant returns the same pointer and changes
nothing. -/
theorem giveAbility_idempotent_witness :
    ExampleRegistry.FindAbilityByClass (some ExampleClass) = none ∧
    (ExampleRegistry.GiveAbility (some ExampleClass)).1 = some 0 ∧
    ((ExampleRegistry.GiveAbility (some ExampleClass)).2.GiveAbility (some ExampleClass)).1 =
      some 0 ∧
    (ExampleRegistry.GiveAbility (some ExampleClass)).2.GiveAbility (some ExampleClass) =
      ((ExampleRegistry.GiveAbility (some ExampleClass)).1,
        (ExampleRegistry.GiveAbility (some ExampleClass)).2) ∧
    (ExampleRegistry.GiveAbility (some ExampleClass)).2.GrantedAbilities.length = 1 ∧
    (ExampleRegistry.GiveAbility (some ExampleClass)).2.Broadcasts.length = 1 :=
  ⟨by decide, by decide, by decide,
    (giveAbility_idempotent ExampleRegistry ExampleClass).2.1, by decide, by decide⟩

/-- C10. `TryActivateAbility(C)` returns `true` exactly when `FindAbilityByClass`
finds an instance of `C` and that instance is in state `Inactive`. When it returns
`false` (null class, class not granted, instance `Active` or `OnCooldown`) the
component is left as it was: the granted list, the state of every instance, the
broadcasts, the overridable events invoked and the timers are unchanged. -/
theorem tryActivateAbility_iff (c : UAbilityComponent) (AbilityClass : Option UClass) :
    ((c.TryActivateAbility AbilityClass).1 = true ↔
      ∃ a, c.FindAbilityByClass AbilityClass = some a ∧ a.State = EAbilityState.Inactive) ∧
    ((c.TryActivateAbility AbilityClass).1 = false →
      (c.TryActivateAbility AbilityClass).2 = c) ∧
    (AbilityClass = none → (c.TryActivateAbility AbilityClass).1 = false) := by
  cases hfind : c.FindAbilityByClass AbilityClass with
  | none =>
    have h1 : c.TryActivateAbility AbilityClass = (false, c) := by
      simp [TryActivateAbility, hfind]
    rw [h1]
    refine ⟨?_, fun _ => rfl, fun _ => rfl⟩
    simp
  | some a =>
    by_cases hs : a.State = EAbilityState.Inactive
    · have h1 : (c.TryActivateAbility AbilityClass).1 = true := by
        simp [TryActivateAbility, hfind, UMgsGameplayAbility.CanActivate, hs]
      refine ⟨?_, ?_, ?_⟩
      · rw [h1]; simp [hs]
      · intro h; rw [h1] at h; cases h
      · intro h; subst h; simp [FindAbilityByClass] at hfind
    · have h1 : c.TryActivateAbility AbilityClass = (false, c) := by
        simp [TryActivateAbility, hfind, UMgsGameplayAbility.CanActivate, hs]
      rw [h1]
      refine ⟨?_, fun _ => rfl, fun _ => rfl⟩
      simp [hs]

/-- C10 at a registry whose only ability was granted and activated once and is now
`OnCooldown`: the activation had returned `true`; a new `TryActivateAbility` returns
`false` and changes nothing. -/
theorem tryActivateAbility_iff_witness :
    ((ExampleRegistry.GiveAbility (some ExampleClass)).2.TryActivateAbility
        (some ExampleClass)).1 = true ∧
    (ExampleCoolingDown.TryActivateAbility (some ExampleClass)).1 = false ∧
    (ExampleCoolingDown.TryActivateAbility (some ExampleClass)).2 = ExampleCoolingDown ∧
    (ExampleCoolingDown.TryActivateAbility none).1 = false :=
  ⟨by decide, by decide,
    (tryActivateAbility_iff ExampleCoolingDown (some ExampleClass)).2.1 (by decide),
    (tryActivateAbility_iff ExampleCoolingDown none).2.2 rfl⟩

end MGS

namespace MGS
open UAbilityComponent UMgsGameplayAbility

/-! ## The life cycle of one ability instance -/

theorem internalEnd_not_active (self : UMgsGameplayAbility) (Comp : UAbilityComponent)
    (b : Bool) (h : self.State ≠ EAbilityState.Active) : self.InternalEnd Comp b = (self, Comp) := by
  simp [InternalEnd, h]

theorem internalEnd_cancelled (self : UMgsGameplayAbility) (Comp : UAbilityComponent)
    (h : self.State = EAbilityState.Active) :
    self.InternalEnd Comp true =
      ({ self with State := EAbilityState.Inactive },
        { Comp with Calls := Comp.Calls ++ [AbilityHook.EndAbility self true] }) := by
  simp [InternalEnd, h]

theorem internalEnd_no_cooldown (self : UMgsGameplayAbility) (Comp : UAbilityComponent)
    (b : Bool) (h : self.State = EAbilityState.Active) (hcd : self.CooldownDuration ≤ 0) :
    self.InternalEnd Comp b =
      ({ self with State := EAbilityState.Inactive },
        { Comp with Calls := Comp.Calls ++ [AbilityHook.EndAbility self b] }) := by
  have h1 : ¬ (0 < self.CooldownDuration) := not_lt.mpr hcd
  simp [InternalEnd, h, h1]

/-- Ending an `Active` instance, not cancelled, with a positive cooldown. -/
theorem internalEnd_cooldown (self : UMgsGameplayAbility) (Comp : UAbilityComponent)
    (h : self.State = EAbilityState.Active) (hcd : 0 < self.CooldownDuration) :
    (self.InternalEnd Comp false).1 =
        { self with
          CooldownStartTime :=
            match self.OwnerWorld Comp with
            | some World => World.TimeSeconds
            | none => 0
          State := EAbilityState.OnCooldown } ∧
      (self.InternalEnd Comp false).2.Calls =
        Comp.Calls ++ [AbilityHook.EndAbility self false] ∧
      (self.InternalEnd Comp false).2.Broadcasts = Comp.Broadcasts ∧
      (self.InternalEnd Comp false).2.GrantedAbilities = Comp.GrantedAbilities ∧
      (self.InternalEnd Comp false).2.Owner = Comp.Owner ∧
      (self.InternalEnd Comp false).2.NextObject = Comp.NextObject ∧
      (self.InternalEnd Comp false).2.World =
        Comp.World.map fun W =>
          { W with Timers := W.Timers ++ [FTimer.mk self.Object self.CooldownDuration] } := by
  cases hW : Comp.World with
  | none => simp [InternalEnd, h, hcd, hW, OwnerWorld]
  | some W => simp [InternalEnd, h, hcd, hW, OwnerWorld]

end MGS

namespace MGS
open UAbilityComponent UMgsGameplayAbility

/-- What `InternalEnd` leaves alone, and the state it gives to an `Active` instance. -/
theorem internalEnd_frame (self : UMgsGameplayAbility) (Comp : UAbilityComponent) (b : Bool) :
    (self.InternalEnd Comp b).1.Object = self.Object ∧
      (self.InternalEnd Comp b).1.Class = self.Class ∧
      (self.InternalEnd Comp b).1.CooldownDuration = self.CooldownDuration ∧
      (self.InternalEnd Comp b).1.AbilityOwner = self.AbilityOwner ∧
      (self.InternalEnd Comp b).2.GrantedAbilities = Comp.GrantedAbilities ∧
      (self.InternalEnd Comp b).2.Broadcasts = Comp.Broadcasts ∧
      (self.InternalEnd Comp b).2.Owner = Comp.Owner ∧
      (self.InternalEnd Comp b).2.NextObject = Comp.NextObject := by
  by_cases h : self.State = EAbilityState.Active
  · by_cases hcd : 0 < self.CooldownDuration
    · cases b with
      | false =>
        obtain ⟨h1, _, h3, h4, h5, h6, _⟩ := internalEnd_cooldown self Comp h hcd
        rw [h1]
        exact ⟨rfl, rfl, rfl, rfl, h4, h3, h5, h6⟩
      | true => rw [internalEnd_cancelled self Comp h]; exact ⟨rfl, rfl, rfl, rfl, rfl, rfl, rfl, rfl⟩
    · rw [internalEnd_no_cooldown self Comp b h (not_lt.mp hcd)]
      exact ⟨rfl, rfl, rfl, rfl, rfl, rfl, rfl, rfl⟩
  · rw [internalEnd_not_active self Comp b h]
    exact ⟨rfl, rfl, rfl, rfl, rfl, rfl, rfl, rfl⟩

/-- The transition made by `InternalEnd` on an `Active` instance and the invocation
of the end behaviour that goes with it. -/
theorem internalEnd_active (self : UMgsGameplayAbility) (Comp : UAbilityComponent) (b : Bool)
    (h : self.State = EAbilityState.Active) :
    (self.InternalEnd Comp b).1.State =
        (if b = false ∧ 0 < self.CooldownDuration then EAbilityState.OnCooldown
         else EAbilityState.Inactive) ∧
      (self.InternalEnd Comp b).2.Calls = Comp.Calls ++ [AbilityHook.EndAbility self b] := by
  by_cases hcd : 0 < self.CooldownDuration
  · cases b with
    | false =>
      obtain ⟨h1, h2, _⟩ := internalEnd_cooldown self Comp h hcd
      rw [h1]
      exact ⟨by simp [hcd], h2⟩
    | true => rw [internalEnd_cancelled self Comp h]; simp
  · rw [internalEnd_no_cooldown self Comp b h (not_lt.mp hcd)]
    simp [hcd]

theorem commitEnd_not_active (self : UMgsGameplayAbility) (Comp : UAbilityComponent)
    (h : self.State ≠ EAbilityState.Active) : self.CommitEnd Comp = (self, Comp) := by
  simp [CommitEnd, h]

theorem commitEnd_active (self : UMgsGameplayAbility) (Comp : UAbilityComponent)
    (h : self.State = EAbilityState.Active) :
    self.CommitEnd Comp =
      ((self.InternalEnd Comp false).1,
        { (self.InternalEnd Comp false).2 with
          Broadcasts := (self.InternalEnd Comp false).2.Broadcasts ++
            [AbilityEvent.OnAbilityEnded (self.InternalEnd Comp false).1] }) := by
  simp [CommitEnd, h, NotifyAbilityEnded]

theorem runCalls_not_active (Calls : List AbilityCall) (self : UMgsGameplayAbility)
    (Comp : UAbilityComponent) (h : self.State ≠ EAbilityState.Active) :
    RunCalls Calls self Comp = (self, Comp) := by
  induction Calls with
  | nil => rfl
  | cons c rest ih =>
    cases c with
    | CommitEnd => simp only [RunCalls, commitEnd_not_active self Comp h, ih]
    | InternalEnd b => simp only [RunCalls, internalEnd_not_active self Comp b h, ih]

theorem internalEnd_leaves_active (self : UMgsGameplayAbility) (Comp : UAbilityComponent)
    (b : Bool) (h : self.State = EAbilityState.Active) :
    (self.InternalEnd Comp b).1.State ≠ EAbilityState.Active := by
  rw [(internalEnd_active self Comp b h).1]
  split_ifs <;> simp

/-- An override of `ActivateAbility` run on an `Active` instance: only its first call
has an effect. -/
theorem runCalls_active (c : AbilityCall) (rest : List AbilityCall) (self : UMgsGameplayAbility)
    (Comp : UAbilityComponent) (h : self.State = EAbilityState.Active) :
    RunCalls (c :: rest) self Comp =
      match c with
      | AbilityCall.CommitEnd => self.CommitEnd Comp
      | AbilityCall.InternalEnd b => self.InternalEnd Comp b := by
  cases c with
  | CommitEnd =>
    simp only [RunCalls]
    apply runCalls_not_active
    rw [commitEnd_active self Comp h]
    exact internalEnd_leaves_active self Comp false h
  | InternalEnd b =>
    simp only [RunCalls]
    apply runCalls_not_active
    exact internalEnd_leaves_active self Comp b h

end MGS

namespace MGS
open UAbilityComponent UMgsGameplayAbility

/-! ## Pointers into the granted list -/

theorem findLoop_mem (C : UClass) (l : List (Option UMgsGameplayAbility))
    (a : UMgsGameplayAbility) (h : FindAbilityByClass.loop C l = some a) :
    some a ∈ l ∧ a.Class = C := by
  induction l with
  | nil => simp [FindAbilityByClass.loop] at h
  | cons e rest ih =>
    cases e with
    | none =>
      simp only [FindAbilityByClass.loop] at h
      exact ⟨List.mem_cons_of_mem _ (ih h).1, (ih h).2⟩
    | some x =>
      by_cases hc : x.Class = C
      · simp only [FindAbilityByClass.loop, hc, if_true, Option.some.injEq] at h
        subst h
        exact ⟨List.mem_cons_self _ _, hc⟩
      · simp only [FindAbilityByClass.loop, hc, if_false] at h
        exact ⟨List.mem_cons_of_mem _ (ih h).1, (ih h).2⟩

theorem findAbilityByClass_mem (c : UAbilityComponent) (AbilityClass : Option UClass)
    (a : UMgsGameplayAbility) (h : c.FindAbilityByClass AbilityClass = some a) :
    some a ∈ c.GrantedAbilities ∧ AbilityClass = some a.Class := by
  cases AbilityClass with
  | none => simp [FindAbilityByClass] at h
  | some C =>
    have := findLoop_mem C c.GrantedAbilities a (by simpa [FindAbilityByClass] using h)
    exact ⟨this.1, by rw [this.2]⟩

theorem findAbilityByObject_mem (c : UAbilityComponent) (Object : Nat)
    (a : UMgsGameplayAbility) (h : c.FindAbilityByObject Object = some a) :
    some a ∈ c.GrantedAbilities ∧ a.Object = Object := by
  unfold FindAbilityByObject at h
  obtain ⟨e, he, hf⟩ := List.exists_of_findSome?_eq_some h
  cases e with
  | none => simp at hf
  | some x =>
    by_cases hx : x.Object = Object
    · simp only [hx, if_true, Option.some.injEq] at hf
      subst hf
      exact ⟨he, hx⟩
    · simp [hx] at hf

theorem store_mem (c : UAbilityComponent) (a x : UMgsGameplayAbility)
    (h : some x ∈ (c.Store a).GrantedAbilities) : x = a ∨ some x ∈ c.GrantedAbilities := by
  simp only [Store, List.mem_map] at h
  obtain ⟨e, he, hf⟩ := h
  cases e with
  | none => simp at hf
  | some y =>
    by_cases hy : y.Object = a.Object
    · simp only [hy, if_true, Option.some.injEq] at hf
      exact Or.inl hf.symm
    · simp only [hy, if_false, Option.some.injEq] at hf
      subst hf
      exact Or.inr he

/-- What the calls an instance makes on itself may do: nothing, or end the instance
when it is `Active`, the end behaviour being invoked on the instance as it was. -/
theorem commitEnd_ends (self : UMgsGameplayAbility) (Comp : UAbilityComponent) :
    (self.CommitEnd Comp).1.Object = self.Object ∧
      (self.CommitEnd Comp).2.GrantedAbilities = Comp.GrantedAbilities ∧
      ((self.CommitEnd Comp) = (self, Comp) ∨
        (self.State = EAbilityState.Active ∧
          (self.CommitEnd Comp).2.Calls = Comp.Calls ++ [AbilityHook.EndAbility self false] ∧
          (self.CommitEnd Comp).1.State ≠ EAbilityState.Active)) := by
  by_cases h : self.State = EAbilityState.Active
  · rw [commitEnd_active self Comp h]
    obtain ⟨f1, _, _, _, f5, _⟩ := internalEnd_frame self Comp false
    exact ⟨f1, f5, Or.inr ⟨h, (internalEnd_active self Comp false h).2,
      internalEnd_leaves_active self Comp false h⟩⟩
  · rw [commitEnd_not_active self Comp h]
    exact ⟨rfl, rfl, Or.inl rfl⟩

theorem internalEnd_ends (self : UMgsGameplayAbility) (Comp : UAbilityComponent) (b : Bool) :
    (self.InternalEnd Comp b).1.Object = self.Object ∧
      (self.InternalEnd Comp b).2.GrantedAbilities = Comp.GrantedAbilities ∧
      ((self.InternalEnd Comp b) = (self, Comp) ∨
        (self.State = EAbilityState.Active ∧
          (self.InternalEnd Comp b).2.Calls = Comp.Calls ++ [AbilityHook.EndAbility self b] ∧
          (self.InternalEnd Comp b).1.State ≠ EAbilityState.Active ∧
          ((self.InternalEnd Comp b).1.State = EAbilityState.OnCooldown → b = false))) := by
  obtain ⟨f1, _, _, _, f5, _⟩ := internalEnd_frame self Comp b
  refine ⟨f1, f5, ?_⟩
  by_cases h : self.State = EAbilityState.Active
  · refine Or.inr ⟨h, (internalEnd_active self Comp b h).2,
      internalEnd_leaves_active self Comp b h, ?_⟩
    rw [(internalEnd_active self Comp b h).1]
    intro hs
    by_contra hb
    simp [hb] at hs
  · exact Or.inl (internalEnd_not_active self Comp b h)

/-- The event `ActivateAbility` on an instance just made `Active`: the invocation is
recorded; then the instance stays `Active`, or it is ended once, from `Active`. -/
theorem activateAbility_ends (self : UMgsGameplayAbility) (Comp : UAbilityComponent)
    (h : self.State = EAbilityState.Active) :
    (self.ActivateAbility Comp).1.Object = self.Object ∧
      (self.ActivateAbility Comp).2.GrantedAbilities = Comp.GrantedAbilities ∧
      (((self.ActivateAbility Comp).1 = self ∧
          (self.ActivateAbility Comp).2.Calls =
            Comp.Calls ++ [AbilityHook.ActivateAbility self]) ∨
        ∃ b, (self.ActivateAbility Comp).2.Calls =
            Comp.Calls ++ [AbilityHook.ActivateAbility self, AbilityHook.EndAbility self b] ∧
          (self.ActivateAbility Comp).1.State ≠ EAbilityState.Active ∧
          ((self.ActivateAbility Comp).1.State = EAbilityState.OnCooldown → b = false)) := by
  have key : ∀ (r : UMgsGameplayAbility × UAbilityComponent) (Comp1 : UAbilityComponent) (b : Bool),
      Comp1.Calls = Comp.Calls ++ [AbilityHook.ActivateAbility self] →
      Comp1.GrantedAbilities = Comp.GrantedAbilities →
      r.1.Object = self.Object → r.2.GrantedAbilities = Comp1.GrantedAbilities →
      r.2.Calls = Comp1.Calls ++ [AbilityHook.EndAbility self b] →
      r.1.State ≠ EAbilityState.Active → (r.1.State = EAbilityState.OnCooldown → b = false) →
      r.1.Object = self.Object ∧ r.2.GrantedAbilities = Comp.GrantedAbilities ∧
        ((r.1 = self ∧ r.2.Calls = Comp.Calls ++ [AbilityHook.ActivateAbility self]) ∨
          ∃ b, r.2.Calls =
              Comp.Calls ++ [AbilityHook.ActivateAbility self, AbilityHook.EndAbility self b] ∧
            r.1.State ≠ EAbilityState.Active ∧
            (r.1.State = EAbilityState.OnCooldown → b = false)) := by
    intro r Comp1 b hc hg ho hg2 hc2 hs hb
    refine ⟨ho, by rw [hg2, hg], Or.inr ⟨b, ?_, hs, hb⟩⟩
    rw [hc2, hc]
    simp
  unfold ActivateAbility
  simp only
  cases hscript : self.Class.ActivateAbility with
  | none =>
    simp only
    obtain ⟨g1, g2, g3⟩ := commitEnd_ends self
      { Comp with Calls := Comp.Calls ++ [AbilityHook.ActivateAbility self] }
    rcases g3 with g3 | ⟨_, g4, g5⟩
    · exact absurd h (by
        have := (commitEnd_active self
          { Comp with Calls := Comp.Calls ++ [AbilityHook.ActivateAbility self] } h)
        intro _
        have hne := internalEnd_leaves_active self
          { Comp with Calls := Comp.Calls ++ [AbilityHook.ActivateAbility self] } false h
        rw [this] at g3
        have h1 := congrArg (fun p => p.1.State) g3
        simp only at h1
        exact hne (h1.trans h))
    · exact key _ { Comp with Calls := Comp.Calls ++ [AbilityHook.ActivateAbility self] } false rfl rfl g1 g2 g4 g5 (fun _ => rfl)
  | some script =>
    simp only
    cases script with
    | nil => exact ⟨rfl, rfl, Or.inl ⟨rfl, rfl⟩⟩
    | cons c rest =>
      rw [runCalls_active c rest self _ h]
      cases c with
      | CommitEnd =>
        simp only
        obtain ⟨g1, g2, g3⟩ := commitEnd_ends self
          { Comp with Calls := Comp.Calls ++ [AbilityHook.ActivateAbility self] }
        rcases g3 with g3 | ⟨_, g4, g5⟩
        · exfalso
          have hne := internalEnd_leaves_active self
            { Comp with Calls := Comp.Calls ++ [AbilityHook.ActivateAbility self] } false h
          rw [commitEnd_active self _ h] at g3
          have h1 := congrArg (fun p => p.1.State) g3
          simp only at h1
          exact hne (h1.trans h)
        · exact key _ { Comp with Calls := Comp.Calls ++ [AbilityHook.ActivateAbility self] } false rfl rfl g1 g2 g4 g5 (fun _ => rfl)
      | InternalEnd b =>
        simp only
        obtain ⟨g1, g2, g3⟩ := internalEnd_ends self
          { Comp with Calls := Comp.Calls ++ [AbilityHook.ActivateAbility self] } b
        rcases g3 with g3 | ⟨_, g4, g5, g6⟩
        · exfalso
          have hne := internalEnd_leaves_active self
            { Comp with Calls := Comp.Calls ++ [AbilityHook.ActivateAbility self] } b h
          have h1 := congrArg (fun p => p.1.State) g3
          simp only at h1
          exact hne (h1.trans h)
        · exact key _ { Comp with Calls := Comp.Calls ++ [AbilityHook.ActivateAbility self] } b rfl rfl g1 g2 g4 g5 g6

end MGS

namespace MGS
open UAbilityComponent UMgsGameplayAbility

/-! ## Transitions made by the commands -/

theorem enteredFrom_of_mem (c c1 : UAbilityComponent) (a1 : UMgsGameplayAbility)
    (h : some a1 ∈ c.GrantedAbilities) : EnteredFrom c c1 a1 :=
  ⟨fun _ => Or.inl h, fun _ => Or.inl h⟩

theorem enteredFrom_of_inactive (c c1 : UAbilityComponent) (a1 : UMgsGameplayAbility)
    (h : a1.State = EAbilityState.Inactive) : EnteredFrom c c1 a1 :=
  ⟨fun h1 => (by rw [h] at h1; cases h1), fun h1 => (by rw [h] at h1; cases h1)⟩

theorem giveAbility_entered (c : UAbilityComponent) (AbilityClass : Option UClass)
    (a1 : UMgsGameplayAbility) (h : some a1 ∈ (c.GiveAbility AbilityClass).2.GrantedAbilities) :
    EnteredFrom c (c.GiveAbility AbilityClass).2 a1 := by
  cases AbilityClass with
  | none => exact enteredFrom_of_mem _ _ _ h
  | some C =>
    cases hfind : c.FindAbilityByClass (some C) with
    | some a =>
      simp only [GiveAbility, hfind] at h
      exact enteredFrom_of_mem _ _ _ h
    | none =>
      simp only [GiveAbility, hfind, List.mem_append, List.mem_singleton,
        Option.some.injEq] at h
      rcases h with h | h
      · exact enteredFrom_of_mem _ _ _ h
      · exact enteredFrom_of_inactive _ _ _ (by rw [h]; rfl)

theorem tryActivateAbility_entered (c : UAbilityComponent) (AbilityClass : Option UClass)
    (a1 : UMgsGameplayAbility)
    (h : some a1 ∈ (c.TryActivateAbility AbilityClass).2.GrantedAbilities) :
    EnteredFrom c (c.TryActivateAbility AbilityClass).2 a1 := by
  cases hfind : c.FindAbilityByClass AbilityClass with
  | none =>
    simp only [TryActivateAbility, hfind] at h
    exact enteredFrom_of_mem _ _ _ h
  | some a =>
    by_cases hs : a.State = EAbilityState.Inactive
    · have hmem := (findAbilityByClass_mem c AbilityClass a hfind).1
      have hcan : ¬ (a.CanActivate = false) := by simp [CanActivate, hs]
      have hrun : (c.TryActivateAbility AbilityClass).2 =
          ((UMgsGameplayAbility.ActivateAbility
              { a with AbilityOwner := c.Owner, State := EAbilityState.Active }
              { c with Broadcasts := c.Broadcasts ++ [AbilityEvent.OnAbilityActivated a] }).2).Store
            (UMgsGameplayAbility.ActivateAbility
              { a with AbilityOwner := c.Owner, State := EAbilityState.Active }
              { c with Broadcasts := c.Broadcasts ++ [AbilityEvent.OnAbilityActivated a] }).1 := by
        simp [TryActivateAbility, hfind, hcan, InternalActivate]
      rw [hrun] at h ⊢
      obtain ⟨g1, g2, g3⟩ := activateAbility_ends
        { a with AbilityOwner := c.Owner, State := EAbilityState.Active }
        { c with Broadcasts := c.Broadcasts ++ [AbilityEvent.OnAbilityActivated a] } rfl
      rcases store_mem _ _ _ h with hx | hx
      · subst hx
        refine ⟨fun _ => Or.inr ⟨a, hmem, g1.symm, hs⟩, fun hcool => Or.inr ?_⟩
        rcases g3 with ⟨g4, _⟩ | ⟨b, g4, _, g6⟩
        · rw [g4] at hcool; cases hcool
        · have hb := g6 hcool
          subst hb
          exact ⟨_, _, g4, by simp, g1.symm, rfl⟩
      · rw [g2] at hx
        exact enteredFrom_of_mem _ _ _ hx
    · have hcan : a.CanActivate = false := by simp [CanActivate, hs]
      simp only [TryActivateAbility, hfind, hcan, if_true] at h
      exact enteredFrom_of_mem _ _ _ h

theorem cancelAbility_entered (c : UAbilityComponent) (AbilityClass : Option UClass)
    (a1 : UMgsGameplayAbility) (h : some a1 ∈ (c.CancelAbility AbilityClass).GrantedAbilities) :
    EnteredFrom c (c.CancelAbility AbilityClass) a1 := by
  cases hfind : c.FindAbilityByClass AbilityClass with
  | none =>
    simp only [CancelAbility, hfind] at h
    exact enteredFrom_of_mem _ _ _ h
  | some a =>
    by_cases hs : a.State = EAbilityState.Active
    · have hact : a.IsActive = true := by simp [IsActive, hs]
      simp only [CancelAbility, hfind, hact, if_true, internalEnd_cancelled a c hs] at h
      rcases store_mem _ _ _ h with hx | hx
      · exact enteredFrom_of_inactive _ _ _ (by rw [hx])
      · exact enteredFrom_of_mem _ _ _ hx
    · have hact : a.IsActive = false := by simp [IsActive, hs]
      simp only [CancelAbility, hfind, hact] at h
      exact enteredFrom_of_mem _ _ _ (by simpa using h)

theorem cancelAllLoop_mem (rest : List (Option UMgsGameplayAbility)) :
    ∀ (Comp : UAbilityComponent) (x : UMgsGameplayAbility),
      some x ∈ (CancelAllAbilities.loop rest Comp).GrantedAbilities →
      some x ∈ Comp.GrantedAbilities ∨ x.State = EAbilityState.Inactive := by
  induction rest with
  | nil => intro Comp x h; exact Or.inl h
  | cons e rest ih =>
    intro Comp x h
    cases e with
    | none => exact ih Comp x h
    | some a =>
      by_cases hs : a.State = EAbilityState.Active
      · have hact : a.IsActive = true := by simp [IsActive, hs]
        simp only [CancelAllAbilities.loop, hact, if_true, internalEnd_cancelled a Comp hs] at h
        rcases ih _ x h with h1 | h1
        · rcases store_mem _ _ _ h1 with hx | hx
          · exact Or.inr (by rw [hx])
          · exact Or.inl hx
        · exact Or.inr h1
      · have hact : a.IsActive = false := by simp [IsActive, hs]
        simp only [CancelAllAbilities.loop, hact] at h
        exact ih Comp x (by simpa using h)

theorem removeAbility_mem (c : UAbilityComponent) (AbilityClass : Option UClass)
    (x : UMgsGameplayAbility) (h : some x ∈ (c.RemoveAbility AbilityClass).GrantedAbilities) :
    some x ∈ c.GrantedAbilities := by
  cases hfind : c.FindAbilityByClass AbilityClass with
  | none => simpa [RemoveAbility, hfind] using h
  | some a =>
    simp only [RemoveAbility, hfind, RemoveEntries, List.mem_filter] at h
    obtain ⟨h1, h2⟩ := h
    have hobj : x.Object ≠ a.Object := by simpa using h2
    have hframe : ∀ r : UMgsGameplayAbility × UAbilityComponent,
        r.1.Object = a.Object → r.2.GrantedAbilities = c.GrantedAbilities →
        some x ∈ (r.2.Store r.1).GrantedAbilities → some x ∈ c.GrantedAbilities := by
      intro r ho hg hm
      rcases store_mem _ _ _ hm with hx | hx
      · exact absurd (by rw [hx, ho]) hobj
      · rw [hg] at hx; exact hx
    by_cases hs : a.IsActive = true
    · simp only [hs, if_true] at h1
      obtain ⟨f1, _, _, _, f5, _⟩ := internalEnd_frame a c true
      exact hframe _ f1 f5 h1
    · simp only [hs] at h1
      exact hframe (a, c) rfl rfl (by simpa using h1)

theorem callCommitEnd_entered (c : UAbilityComponent) (Object : Nat)
    (a1 : UMgsGameplayAbility) (h : some a1 ∈ (c.CallCommitEnd Object).GrantedAbilities) :
    EnteredFrom c (c.CallCommitEnd Object) a1 := by
  cases hfind : c.FindAbilityByObject Object with
  | none =>
    simp only [CallCommitEnd, hfind] at h
    exact enteredFrom_of_mem _ _ _ h
  | some a =>
    have hmem := (findAbilityByObject_mem c Object a hfind).1
    simp only [CallCommitEnd, hfind] at h ⊢
    obtain ⟨g1, g2, g3⟩ := commitEnd_ends a c
    rcases store_mem _ _ _ h with hx | hx
    · rcases g3 with g3 | ⟨g4, g5, g6⟩
      · rw [g3] at hx
        simp only at hx
        rw [hx]
        exact enteredFrom_of_mem _ _ _ hmem
      · subst hx
        refine ⟨fun hact => absurd hact g6, fun _ => Or.inr ⟨a, _, g5, by simp, g1.symm, g4⟩⟩
    · rw [g2] at hx
      exact enteredFrom_of_mem _ _ _ hx

theorem fireCooldownTimer_entered (c : UAbilityComponent) (Object : Nat)
    (a1 : UMgsGameplayAbility) (h : some a1 ∈ (c.FireCooldownTimer Object).GrantedAbilities) :
    EnteredFrom c (c.FireCooldownTimer Object) a1 := by
  cases hfind : c.FindAbilityByObject Object with
  | none =>
    simp only [FireCooldownTimer, hfind] at h
    exact enteredFrom_of_mem _ _ _ h
  | some a =>
    simp only [FireCooldownTimer, hfind] at h
    rcases store_mem _ _ _ h with hx | hx
    · exact enteredFrom_of_inactive _ _ _ (by rw [hx]; rfl)
    · exact enteredFrom_of_mem _ _ _ hx

end MGS

namespace MGS
open UAbilityComponent UMgsGameplayAbility

theorem findLoop_store (C : UClass) (l : List (Option UMgsGameplayAbility))
    (a a1 : UMgsGameplayAbility) (h : FindAbilityByClass.loop C l = some a)
    (ho : a1.Object = a.Object) (hc : a1.Class = C) :
    FindAbilityByClass.loop C
        (l.map fun Entry =>
          match Entry with
          | none => none
          | some Ab => if Ab.Object = a1.Object then some a1 else some Ab) =
      some a1 := by
  induction l with
  | nil => simp [FindAbilityByClass.loop] at h
  | cons e rest ih =>
    cases e with
    | none =>
      simp only [FindAbilityByClass.loop, List.map_cons] at h ⊢
      exact ih h
    | some x =>
      by_cases hx : x.Object = a1.Object
      · simp [FindAbilityByClass.loop, hx, hc]
      · by_cases hxc : x.Class = C
        · simp only [FindAbilityByClass.loop, hxc, if_true, Option.some.injEq] at h
          subst h
          exact absurd ho.symm hx
        · simp only [FindAbilityByClass.loop, hxc, if_false] at h
          simp only [List.map_cons, hx, if_false, FindAbilityByClass.loop, hxc]
          exact ih h

/-- After a write through the pointer `FindAbilityByClass` returned, the same search
finds the instance with its new contents. -/
theorem findAbilityByClass_store (c c1 : UAbilityComponent) (AbilityClass : Option UClass)
    (a a1 : UMgsGameplayAbility) (h : c.FindAbilityByClass AbilityClass = some a)
    (hg : c1.GrantedAbilities = c.GrantedAbilities) (ho : a1.Object = a.Object)
    (hc : a1.Class = a.Class) :
    (c1.Store a1).FindAbilityByClass AbilityClass = some a1 := by
  cases AbilityClass with
  | none => simp [FindAbilityByClass] at h
  | some C =>
    have hl : FindAbilityByClass.loop C c.GrantedAbilities = some a := by
      simpa [FindAbilityByClass] using h
    have hC := (findLoop_mem C _ a hl).2
    have := findLoop_store C c.GrantedAbilities a a1 hl ho (hc.trans hC)
    simp only [FindAbilityByClass, Store, hg]
    exact this

end MGS

namespace MGS
open UAbilityComponent UMgsGameplayAbility

/-! ## Ability state machine: claims C11, C12, C13, C14 -/

/-- C11. The ability state machine. `InternalEnd` on an `Active` instance gives
`OnCooldown` exactly when the end is not cancelled and `CooldownDuration > 0`, and
gives `Inactive` otherwise. The cooldown-expiry callback gives `Inactive`. For every
registry and every command (grant, remove, `TryActivateAbility`, cancel, cancel all,
a `CommitEnd` of an instance, the expiry of a cooldown), an instance that is `Active`
afterwards was `Active` already or was `Inactive` before, and an instance that is
`OnCooldown` afterwards was `OnCooldown` already or was ended by the command, not
cancelled, while it was `Active`. -/
theorem ability_state_machine :
    (∀ (self : UMgsGameplayAbility) (Comp : UAbilityComponent) (b : Bool),
      self.State = EAbilityState.Active →
        ((self.InternalEnd Comp b).1.State = EAbilityState.OnCooldown ↔
          (b = false ∧ 0 < self.CooldownDuration)) ∧
        ((self.InternalEnd Comp b).1.State ≠ EAbilityState.OnCooldown →
          (self.InternalEnd Comp b).1.State = EAbilityState.Inactive)) ∧
    (∀ self : UMgsGameplayAbility,
      self.State = EAbilityState.OnCooldown →
        self.InternalCooldownExpired.State = EAbilityState.Inactive) ∧
    (∀ (c : UAbilityComponent) (cmd : AbilityCommand) (a1 : UMgsGameplayAbility),
      some a1 ∈ (c.Run cmd).GrantedAbilities → EnteredFrom c (c.Run cmd) a1) := by
  refine ⟨?_, fun _ _ => rfl, ?_⟩
  · intro self Comp b h
    rw [(internalEnd_active self Comp b h).1]
    by_cases hc : b = false ∧ 0 < self.CooldownDuration
    · simp [hc]
    · simp [hc]
  · intro c cmd a1 h
    cases cmd with
    | GiveAbility C => exact giveAbility_entered c C a1 h
    | RemoveAbility C => exact enteredFrom_of_mem _ _ _ (removeAbility_mem c C a1 h)
    | TryActivateAbility C => exact tryActivateAbility_entered c C a1 h
    | CancelAbility C => exact cancelAbility_entered c C a1 h
    | CancelAllAbilities =>
      rcases cancelAllLoop_mem c.GrantedAbilities c a1 h with h1 | h1
      · exact enteredFrom_of_mem _ _ _ h1
      · exact enteredFrom_of_inactive _ _ _ h1
    | CommitEnd p => exact callCommitEnd_entered c p a1 h
    | CooldownExpired p => exact fireCooldownTimer_entered c p a1 h

/-- C11 on the example registry: the instance granted is activated from `Inactive`,
and its end, not cancelled, with a cooldown of 5 seconds puts it `OnCooldown`; the
expiry of the cooldown makes it `Inactive` again. -/
theorem ability_state_machine_witness :
    ExampleCoolingDown.GrantedAbilities.map (Option.map UMgsGameplayAbility.State) =
      [some EAbilityState.OnCooldown] ∧
    (∀ a1, some a1 ∈ ExampleCoolingDown.GrantedAbilities →
      EnteredFrom (ExampleRegistry.GiveAbility (some ExampleClass)).2
        ((ExampleRegistry.GiveAbility (some ExampleClass)).2.Run
          (AbilityCommand.TryActivateAbility (some ExampleClass))) a1) ∧
    (ExampleCoolingDown.Run (AbilityCommand.CooldownExpired 0)).GrantedAbilities.map
        (Option.map UMgsGameplayAbility.State) =
      [some EAbilityState.Inactive] :=
  ⟨by decide,
    fun a1 h => ability_state_machine.2.2 (ExampleRegistry.GiveAbility (some ExampleClass)).2
      (AbilityCommand.TryActivateAbility (some ExampleClass)) a1 h,
    by decide⟩

/-- C12. Cancel skips the cooldown. When `FindAbilityByClass` finds an instance and
it is `Active`, `CancelAbility` leaves it `Inactive` whatever its `CooldownDuration`,
invokes the end behaviour once, with cancelled = true, broadcasts exactly one ended
event, sets no timer, and the other entries of the granted list are written as by a
store of that one instance. When no instance is found or the instance is not
`Active`, `CancelAbility` leaves the component as it was. -/
theorem cancelAbility_skips_cooldown (c : UAbilityComponent) (AbilityClass : Option UClass) :
    (∀ a, c.FindAbilityByClass AbilityClass = some a → a.State = EAbilityState.Active →
      (c.CancelAbility AbilityClass).FindAbilityByClass AbilityClass =
        some { a with State := EAbilityState.Inactive } ∧
      (c.CancelAbility AbilityClass).GrantedAbilities =
        (c.Store { a with State := EAbilityState.Inactive }).GrantedAbilities ∧
      (c.CancelAbility AbilityClass).Calls = c.Calls ++ [AbilityHook.EndAbility a true] ∧
      (c.CancelAbility AbilityClass).Broadcasts =
        c.Broadcasts ++ [AbilityEvent.OnAbilityEnded { a with State := EAbilityState.Inactive }] ∧
      (c.CancelAbility AbilityClass).World = c.World) ∧
    ((∀ a, c.FindAbilityByClass AbilityClass = some a → a.State ≠ EAbilityState.Active) →
      c.CancelAbility AbilityClass = c) := by
  constructor
  · intro a hfind hs
    have hact : a.IsActive = true := by simp [IsActive, hs]
    have hrun : c.CancelAbility AbilityClass =
        ({ c with
            Calls := c.Calls ++ [AbilityHook.EndAbility a true]
            Broadcasts := c.Broadcasts ++
              [AbilityEvent.OnAbilityEnded { a with State := EAbilityState.Inactive }] }).Store
          { a with State := EAbilityState.Inactive } := by
      simp [CancelAbility, hfind, hact, internalEnd_cancelled a c hs, NotifyAbilityEnded]
    rw [hrun]
    refine ⟨?_, rfl, rfl, rfl, rfl⟩
    exact findAbilityByClass_store c _ AbilityClass a _ hfind rfl rfl rfl
  · intro h
    cases hfind : c.FindAbilityByClass AbilityClass with
    | none => simp [CancelAbility, hfind]
    | some a =>
      have hact : a.IsActive = false := by simp [IsActive, h a hfind]
      simp [CancelAbility, hfind, hact]

end MGS

namespace MGS
open UAbilityComponent UMgsGameplayAbility

/-- C12 on the example registry whose instance is `Active` with a cooldown of 3
seconds: after `CancelAbility` the instance is `Inactive`, one end behaviour was
invoked with cancelled = true, one more event was broadcast and no timer was set. -/
theorem cancelAbility_skips_cooldown_witness :
    ExampleChannelling.GrantedAbilities.map (Option.map UMgsGameplayAbility.State) =
      [some EAbilityState.Active] ∧
    (ExampleChannelling.CancelAbility (some ExampleChannel)).GrantedAbilities.map
        (Option.map UMgsGameplayAbility.State) = [some EAbilityState.Inactive] ∧
    (ExampleChannelling.CancelAbility (some ExampleChannel)).Calls.length =
      ExampleChannelling.Calls.length + 1 ∧
    (ExampleChannelling.CancelAbility (some ExampleChannel)).Broadcasts.length =
      ExampleChannelling.Broadcasts.length + 1 ∧
    (ExampleChannelling.CancelAbility (some ExampleChannel)).World = ExampleChannelling.World ∧
    (ExampleCoolingDown.CancelAbility (some ExampleClass) = ExampleCoolingDown) :=
  ⟨by decide, by decide, by decide, by decide, by decide,
    (cancelAbility_skips_cooldown ExampleCoolingDown (some ExampleClass)).2
      (by decide)⟩

/-- C13. Remaining cooldown, times being exact rationals. With `now` the clock of the
world of the instance and `now >= CooldownStartTime`, `GetCooldownRemaining` is
`max(0, CooldownDuration - (now - CooldownStartTime))` when the instance is
`OnCooldown` and 0 in every other state. Consequently, when an activated instance
(`Active`, with an owner in a world) with `CooldownDuration = d > 0` is ended, not
cancelled, it is `OnCooldown` and the value lies in `(0, d]` as long as fewer than
`d` seconds have elapsed; after the cooldown-expiry callback the state is `Inactive`
and the value is 0. -/
theorem getCooldownRemaining_value :
    (∀ (self : UMgsGameplayAbility) (Comp : UAbilityComponent) (World : UWorld),
      self.OwnerWorld Comp = some World → self.CooldownStartTime ≤ World.TimeSeconds →
      self.GetCooldownRemaining Comp =
        if self.State = EAbilityState.OnCooldown then
          max 0 (self.CooldownDuration - (World.TimeSeconds - self.CooldownStartTime))
        else 0) ∧
    (∀ (self : UMgsGameplayAbility) (Comp : UAbilityComponent),
      self.State ≠ EAbilityState.OnCooldown → self.GetCooldownRemaining Comp = 0) ∧
    (∀ (self : UMgsGameplayAbility) (Comp : UAbilityComponent) (World : UWorld)
        (Owner : AActor) (Now : ℚ),
      self.State = EAbilityState.Active → self.AbilityOwner = some Owner →
      Comp.World = some World → 0 < self.CooldownDuration →
      World.TimeSeconds ≤ Now → Now < World.TimeSeconds + self.CooldownDuration →
      (self.InternalEnd Comp false).1.State = EAbilityState.OnCooldown ∧
      0 < (self.InternalEnd Comp false).1.GetCooldownRemaining
        ((self.InternalEnd Comp false).2.SetTimeSeconds Now) ∧
      (self.InternalEnd Comp false).1.GetCooldownRemaining
        ((self.InternalEnd Comp false).2.SetTimeSeconds Now) ≤ self.CooldownDuration ∧
      (self.InternalEnd Comp false).1.InternalCooldownExpired.State = EAbilityState.Inactive ∧
      (self.InternalEnd Comp false).1.InternalCooldownExpired.GetCooldownRemaining
        ((self.InternalEnd Comp false).2.SetTimeSeconds Now) = 0) := by
  refine ⟨?_, ?_, ?_⟩
  · intro self Comp World hW hnow
    by_cases hs : self.State = EAbilityState.OnCooldown
    · by_cases hcd : self.CooldownDuration ≤ 0
      · have h1 : self.CooldownDuration - (World.TimeSeconds - self.CooldownStartTime) ≤ 0 := by
          linarith
        simp [GetCooldownRemaining, hs, hcd, max_eq_left h1]
      · simp [GetCooldownRemaining, hs, hcd, hW]
    · simp [GetCooldownRemaining, hs]
  · intro self Comp hs
    simp [GetCooldownRemaining, hs]
  · intro self Comp World Owner Now hs ho hW hcd h1 h2
    obtain ⟨e1, _, _, _, _, _, e7⟩ := internalEnd_cooldown self Comp hs hcd
    have hOW : self.OwnerWorld Comp = some World := by simp [OwnerWorld, ho, hW]
    rw [e1, hOW]
    have hcd' : ¬ self.CooldownDuration ≤ 0 := not_le.mpr hcd
    have hval : ∀ st : EAbilityState, UMgsGameplayAbility.OwnerWorld
        { self with CooldownStartTime := World.TimeSeconds, State := st }
        ((self.InternalEnd Comp false).2.SetTimeSeconds Now) =
        some { TimeSeconds := Now,
               Timers := World.Timers ++ [FTimer.mk self.Object self.CooldownDuration] } := by
      intro st
      simp [OwnerWorld, ho, SetTimeSeconds, e7, hW]
    refine ⟨rfl, ?_, ?_, rfl, ?_⟩
    · simp only [GetCooldownRemaining, hcd', hval, ne_eq, not_true_eq_false, or_self, if_false]
      apply lt_max_of_lt_right
      linarith
    · simp only [GetCooldownRemaining, hcd', hval, ne_eq, not_true_eq_false, or_self, if_false]
      apply max_le
      · exact le_of_lt hcd
      · linarith
    · simp [GetCooldownRemaining, InternalCooldownExpired]

theorem exampleCoolingDown_eq :
    ExampleCoolingDown =
      { Owner := some { Name := 1 }
        World := some { TimeSeconds := 0, Timers := [FTimer.mk 0 5] }
        GrantedAbilities :=
          [some { Object := 0, Class := ExampleClass, CooldownDuration := 5,
                  AbilityOwner := some { Name := 1 }, State := EAbilityState.OnCooldown,
                  CooldownStartTime := 0 }]
        NextObject := 1
        Broadcasts := ExampleCoolingDown.Broadcasts
        Calls := ExampleCoolingDown.Calls } := by
  decide

/-- C13 on the example registry: the ability with `CooldownDuration = 5` was activated
and ended at time 0; at time 3 the remaining cooldown is 2, which lies in `(0, 5]`;
after the expiry of the timer the state is `Inactive` and the remaining cooldown is
0. -/
theorem getCooldownRemaining_value_witness :
    (ExampleCoolingDown.SetTimeSeconds 3).GetAbilityCooldownRemaining (some ExampleClass) = 2 ∧
    ((ExampleCoolingDown.SetTimeSeconds 5).FireCooldownTimer 0).GetAbilityCooldownRemaining
      (some ExampleClass) = 0 ∧
    ((ExampleCoolingDown.SetTimeSeconds 5).FireCooldownTimer 0).GrantedAbilities.map
      (Option.map UMgsGameplayAbility.State) = [some EAbilityState.Inactive] ∧
    (∀ (self : UMgsGameplayAbility) (Comp : UAbilityComponent),
      self.State ≠ EAbilityState.OnCooldown → self.GetCooldownRemaining Comp = 0) := by
  refine ⟨?_, ?_, by decide, getCooldownRemaining_value.2.1⟩
  · rw [exampleCoolingDown_eq]
    simp [SetTimeSeconds, GetAbilityCooldownRemaining, FindAbilityByClass,
      FindAbilityByClass.loop, GetCooldownRemaining, OwnerWorld]
    norm_num
  · rw [exampleCoolingDown_eq]
    simp [SetTimeSeconds, FireCooldownTimer, FindAbilityByObject, Store,
      InternalCooldownExpired, GetAbilityCooldownRemaining, FindAbilityByClass,
      FindAbilityByClass.loop, GetCooldownRemaining]

end MGS

namespace MGS
open UAbilityComponent UMgsGameplayAbility

/-- C14. Instant ability. When `FindAbilityByClass` finds an `Inactive` instance whose
class inherits `ActivateAbility_Implementation`, `TryActivateAbility` returns `true`,
broadcasts exactly the activated event and then the ended event, invokes the
activation event once and the end behaviour exactly once, with cancelled = false,
and leaves the instance `OnCooldown` when `CooldownDuration > 0` and `Inactive`
otherwise, so never `Active`. -/
theorem tryActivateAbility_instant (c : UAbilityComponent) (AbilityClass : Option UClass)
    (a : UMgsGameplayAbility) (hfind : c.FindAbilityByClass AbilityClass = some a)
    (hs : a.State = EAbilityState.Inactive) (hdef : a.Class.ActivateAbility = none) :
    (c.TryActivateAbility AbilityClass).1 = true ∧
    ∃ a2, (c.TryActivateAbility AbilityClass).2.FindAbilityByClass AbilityClass = some a2 ∧
      a2.Object = a.Object ∧
      a2.State =
        (if 0 < a.CooldownDuration then EAbilityState.OnCooldown else EAbilityState.Inactive) ∧
      a2.State ≠ EAbilityState.Active ∧
      (c.TryActivateAbility AbilityClass).2.Broadcasts =
        c.Broadcasts ++ [AbilityEvent.OnAbilityActivated a, AbilityEvent.OnAbilityEnded a2] ∧
      (c.TryActivateAbility AbilityClass).2.Calls =
        c.Calls ++
          [AbilityHook.ActivateAbility
              { a with AbilityOwner := c.Owner, State := EAbilityState.Active },
            AbilityHook.EndAbility
              { a with AbilityOwner := c.Owner, State := EAbilityState.Active } false] := by
  have hcan : ¬ (a.CanActivate = false) := by simp [CanActivate, hs]
  have ha1 : (UMgsGameplayAbility.mk a.Object a.Class a.CooldownDuration c.Owner
      EAbilityState.Active a.CooldownStartTime).State = EAbilityState.Active := rfl
  have hrun : c.TryActivateAbility AbilityClass =
      (true,
        ({ (UMgsGameplayAbility.InternalEnd
              { a with AbilityOwner := c.Owner, State := EAbilityState.Active }
              { c with
                Broadcasts := c.Broadcasts ++ [AbilityEvent.OnAbilityActivated a]
                Calls := c.Calls ++ [AbilityHook.ActivateAbility
                  { a with AbilityOwner := c.Owner, State := EAbilityState.Active }] } false).2 with
            Broadcasts :=
              (UMgsGameplayAbility.InternalEnd
                { a with AbilityOwner := c.Owner, State := EAbilityState.Active }
                { c with
                  Broadcasts := c.Broadcasts ++ [AbilityEvent.OnAbilityActivated a]
                  Calls := c.Calls ++ [AbilityHook.ActivateAbility
                    { a with AbilityOwner := c.Owner, State := EAbilityState.Active }] }
                false).2.Broadcasts ++
              [AbilityEvent.OnAbilityEnded
                (UMgsGameplayAbility.InternalEnd
                  { a with AbilityOwner := c.Owner, State := EAbilityState.Active }
                  { c with
                    Broadcasts := c.Broadcasts ++ [AbilityEvent.OnAbilityActivated a]
                    Calls := c.Calls ++ [AbilityHook.ActivateAbility
                      { a with AbilityOwner := c.Owner, State := EAbilityState.Active }] }
                  false).1] }).Store
          (UMgsGameplayAbility.InternalEnd
            { a with AbilityOwner := c.Owner, State := EAbilityState.Active }
            { c with
              Broadcasts := c.Broadcasts ++ [AbilityEvent.OnAbilityActivated a]
              Calls := c.Calls ++ [AbilityHook.ActivateAbility
                { a with AbilityOwner := c.Owner, State := EAbilityState.Active }] } false).1) := by
    simp [TryActivateAbility, hfind, hcan, InternalActivate, UMgsGameplayAbility.ActivateAbility,
      hdef, CommitEnd, NotifyAbilityEnded]
  obtain ⟨f1, f2, f3, _, f5, f6, _, _⟩ := internalEnd_frame
    { a with AbilityOwner := c.Owner, State := EAbilityState.Active }
    { c with
      Broadcasts := c.Broadcasts ++ [AbilityEvent.OnAbilityActivated a]
      Calls := c.Calls ++ [AbilityHook.ActivateAbility
        { a with AbilityOwner := c.Owner, State := EAbilityState.Active }] } false
  obtain ⟨g1, g2⟩ := internalEnd_active
    { a with AbilityOwner := c.Owner, State := EAbilityState.Active }
    { c with
      Broadcasts := c.Broadcasts ++ [AbilityEvent.OnAbilityActivated a]
      Calls := c.Calls ++ [AbilityHook.ActivateAbility
        { a with AbilityOwner := c.Owner, State := EAbilityState.Active }] } false ha1
  rw [hrun]
  refine ⟨rfl, _, ?_, f1, ?_, ?_, ?_, ?_⟩
  · exact findAbilityByClass_store c _ AbilityClass a _ hfind f5 f1 f2
  · rw [g1]; simp
  · rw [g1]; split_ifs <;> simp
  · simp only [Store, f6, List.append_assoc, List.singleton_append]
  · simp only [Store, g2, List.append_assoc, List.singleton_append]

/-- C14 on the example registry: the ability granted (class without overrides,
`CooldownDuration = 5`) is activated; the call returns `true`, two events are
broadcast, two overridable events are invoked, and the instance is `OnCooldown`. -/
theorem tryActivateAbility_instant_witness :
    (ExampleRegistry.GiveAbility (some ExampleClass)).2.FindAbilityByClass (some ExampleClass) =
      some (ExampleRegistry.NewObject ExampleClass) ∧
    ((ExampleRegistry.GiveAbility (some ExampleClass)).2.TryActivateAbility
      (some ExampleClass)).1 = true ∧
    ExampleCoolingDown.GrantedAbilities.map (Option.map UMgsGameplayAbility.State) =
      [some EAbilityState.OnCooldown] ∧
    ExampleCoolingDown.Broadcasts.length = 3 ∧ ExampleCoolingDown.Calls.length = 2 :=
  ⟨by decide,
    (tryActivateAbility_instant (ExampleRegistry.GiveAbility (some ExampleClass)).2
      (some ExampleClass) (ExampleRegistry.NewObject ExampleClass) (by decide) (by decide)
      (by decide)).1,
    by decide, by decide, by decide⟩

end MGS

namespace MGS
open UQuestComponent UObjectiveBase

/-! ## Quests: entries of the active list -/

theorem findActiveEntry_some (c : UQuestComponent) (Q : UQuestDefinition)
    (E : FActiveQuestEntry) (h : c.FindActiveEntry (some Q) = some E) :
    E ∈ c.ActiveQuests ∧ E.Definition = some Q := by
  simp only [FindActiveEntry] at h
  exact ⟨List.mem_of_find?_eq_some h, by simpa using List.find?_some h⟩

theorem findActiveEntry_none_iff (c : UQuestComponent) (Q : UQuestDefinition) :
    c.FindActiveEntry (some Q) = none ↔ ∀ E ∈ c.ActiveQuests, E.Definition ≠ some Q := by
  simp [FindActiveEntry, List.find?_eq_none]

theorem isQuestActive_iff (c : UQuestComponent) (Q : UQuestDefinition) :
    c.IsQuestActive (some Q) = true ↔ ∃ E ∈ c.ActiveQuests, E.Definition = some Q := by
  cases h : c.FindActiveEntry (some Q) with
  | none =>
    simp only [IsQuestActive, h, Option.isSome_none, Bool.false_eq_true, false_iff]
    rintro ⟨E, hE, hd⟩
    exact (findActiveEntry_none_iff c Q).1 h E hE hd
  | some E =>
    simp only [IsQuestActive, h, Option.isSome_some, true_iff]
    exact ⟨E, (findActiveEntry_some c Q E h).1, (findActiveEntry_some c Q E h).2⟩

theorem removeAll_store (Q : UQuestDefinition) (E1 : FActiveQuestEntry)
    (l : List FActiveQuestEntry) (h : E1.Definition = some Q) :
    RemoveAllEntries Q (StoreEntry Q E1 l) = RemoveAllEntries Q l := by
  induction l with
  | nil => rfl
  | cons E rest ih =>
    by_cases hE : E.Definition = some Q
    · simp [StoreEntry, RemoveAllEntries, hE, h]
    · simp only [StoreEntry, hE, if_false]
      simp only [RemoveAllEntries, List.filter_cons, hE, decide_False, Bool.not_false, if_true]
      exact congrArg _ ih

theorem find_store (Q : UQuestDefinition) (E E1 : FActiveQuestEntry)
    (l : List FActiveQuestEntry)
    (h : l.find? (fun X => decide (X.Definition = some Q)) = some E)
    (h1 : E1.Definition = some Q) :
    (StoreEntry Q E1 l).find? (fun X => decide (X.Definition = some Q)) = some E1 := by
  induction l with
  | nil => simp at h
  | cons X rest ih =>
    by_cases hX : X.Definition = some Q
    · simp [StoreEntry, hX, h1]
    · simp only [List.find?_cons, hX, decide_False] at h
      simp only [StoreEntry, hX, if_false, List.find?_cons, decide_False]
      exact ih h

theorem find_removeAll (Q : UQuestDefinition) (l : List FActiveQuestEntry) :
    (RemoveAllEntries Q l).find? (fun X => decide (X.Definition = some Q)) = none := by
  simp [RemoveAllEntries, List.find?_eq_none]

theorem mem_removeAll (Q : UQuestDefinition) (l : List FActiveQuestEntry)
    (E : FActiveQuestEntry) :
    E ∈ RemoveAllEntries Q l ↔ E ∈ l ∧ E.Definition ≠ some Q := by
  simp [RemoveAllEntries]

theorem instantiate_eq (l : List (Option UObjectiveBase)) :
    StartQuest.instantiate l = (l.filterMap id).map fun o => some o.Activate := by
  induction l with
  | nil => rfl
  | cons e rest ih =>
    cases e with
    | none => simpa [StartQuest.instantiate] using ih
    | some o => simp [StartQuest.instantiate, ih]

theorem mem_tSetAdd (s : List FName) (x y : FName) : y ∈ TSetAdd s x ↔ y ∈ s ∨ y = x := by
  unfold TSetAdd
  split_ifs with h
  · constructor
    · exact Or.inl
    · rintro (h1 | h1)
      · exact h1
      · rw [h1]; exact h
  · simp

end MGS

namespace MGS
open UQuestComponent UObjectiveBase

/-! ## Quests: claims C15 to C20 -/

/-- C15. `StartQuest(Q)` returns `false` and leaves the tracker as it was (active
entries, completed set, failed set, broadcasts) when `Q` is null, when an active entry
has the definition `Q`, or when the identifier of `Q` is in the completed set.
Otherwise it returns `true`, appends exactly one active entry, for `Q`, that holds
one objective instance per objective template of `Q`, in the same order, each a copy
of its template (same identifier, same required progress) in state `Active` with
current progress 0, broadcasts one quest-started event, and changes nothing else. -/
theorem startQuest_spec (c : UQuestComponent) (QuestDef : Option UQuestDefinition) :
    ((QuestDef = none ∨
        ∃ Q, QuestDef = some Q ∧
          ((∃ E ∈ c.ActiveQuests, E.Definition = some Q) ∨ Q.QuestID ∈ c.CompletedQuestIDs)) →
      c.StartQuest QuestDef = (false, c)) ∧
    (∀ Q, QuestDef = some Q → (∀ E ∈ c.ActiveQuests, E.Definition ≠ some Q) →
      Q.QuestID ∉ c.CompletedQuestIDs →
      c.StartQuest QuestDef =
        (true,
          { c with
            ActiveQuests := c.ActiveQuests ++
              [{ Definition := some Q
                 ActiveObjectives := (Q.Objectives.filterMap id).map fun o =>
                   some { o with State := EObjectiveState.Active, CurrentProgress := 0 } }]
            Broadcasts := c.Broadcasts ++ [QuestEvent.OnQuestStarted Q] })) := by
  constructor
  · rintro (h | ⟨Q, rfl, h⟩)
    · subst h; rfl
    · have : c.IsQuestActive (some Q) = true ∨ c.IsQuestCompleted (some Q) = true := by
        rcases h with h | h
        · exact Or.inl ((isQuestActive_iff c Q).2 h)
        · exact Or.inr (by simp [IsQuestCompleted, h])
      simp [StartQuest, this]
  · intro Q hQ hact hcomp
    subst hQ
    have h1 : ¬ (c.IsQuestActive (some Q) = true) := by
      rw [isQuestActive_iff]
      rintro ⟨E, hE, hd⟩
      exact hact E hE hd
    have h2 : ¬ (c.IsQuestCompleted (some Q) = true) := by simp [IsQuestCompleted, hcomp]
    simp only [StartQuest, h1, h2, or_self, if_false, instantiate_eq]
    rfl

/-- C15 on the example quest: it starts on the empty tracker, with three objective
instances; it does not start again while it is active. -/
theorem startQuest_spec_witness :
    (EmptyTracker.StartQuest (some ExampleQuest)).1 = true ∧
    (EmptyTracker.StartQuest (some ExampleQuest)).2.ActiveQuests.length = 1 ∧
    (EmptyTracker.StartQuest none) = (false, EmptyTracker) ∧
    ExampleStarted.StartQuest (some ExampleQuest) = (false, ExampleStarted) :=
  ⟨by decide, by decide, (startQuest_spec EmptyTracker none).1 (Or.inl rfl), by decide⟩

end MGS

namespace MGS
open UQuestComponent UObjectiveBase

/-! ## Quests: progress of one objective -/

theorem fmath_min_eq (A B : Int) : FMath.Min A B = min A B := by
  unfold FMath.Min
  split_ifs with h
  · exact (min_eq_left (le_of_lt h)).symm
  · exact (min_eq_right (not_lt.1 h)).symm

theorem fmath_min_ge_iff (A B : Int) : FMath.Min A B ≥ B ↔ FMath.Min A B = B := by
  rw [fmath_min_eq]
  constructor
  · intro h; exact le_antisymm (min_le_right A B) h
  · intro h; exact le_of_eq h.symm

theorem addProgress_active (Obj : UObjectiveBase) (Delta : Int)
    (hs : Obj.State = EObjectiveState.Active) (hd : 0 < Delta) :
    Obj.AddProgress Delta =
      (decide (FMath.Min (WrapInt32 (Obj.CurrentProgress + Delta)) Obj.RequiredProgress = Obj.RequiredProgress),
        { Obj with
          CurrentProgress := FMath.Min (WrapInt32 (Obj.CurrentProgress + Delta)) Obj.RequiredProgress
          State :=
            if FMath.Min (WrapInt32 (Obj.CurrentProgress + Delta)) Obj.RequiredProgress = Obj.RequiredProgress
            then EObjectiveState.Completed else EObjectiveState.Active },
        [QuestHook.OnProgressUpdated
          { Obj with
            CurrentProgress := FMath.Min (WrapInt32 (Obj.CurrentProgress + Delta)) Obj.RequiredProgress }
          Obj.CurrentProgress
          (FMath.Min (WrapInt32 (Obj.CurrentProgress + Delta)) Obj.RequiredProgress)]) := by
  have h1 : ¬ (Obj.State ≠ EObjectiveState.Active ∨ Delta ≤ 0) := by
    simp [hs, hd]
  unfold AddProgress
  rw [if_neg h1]
  by_cases h : FMath.Min (WrapInt32 (Obj.CurrentProgress + Delta)) Obj.RequiredProgress = Obj.RequiredProgress
  · have h2 := (fmath_min_ge_iff _ _).2 h
    simp only [h, ge_iff_le, le_refl, if_true, decide_True]
  · have h2 : ¬ (FMath.Min (WrapInt32 (Obj.CurrentProgress + Delta)) Obj.RequiredProgress ≥
        Obj.RequiredProgress) := fun h3 => h ((fmath_min_ge_iff _ _).1 h3)
    simp only [h2, h, if_false, decide_False]
    cases Obj
    simp only at hs
    subst hs
    rfl

theorem addProgress_not_active (Obj : UObjectiveBase) (Delta : Int)
    (hs : Obj.State ≠ EObjectiveState.Active) : Obj.AddProgress Delta = (false, Obj, []) := by
  simp [AddProgress, hs]

theorem find_spec (ObjectiveID : FName) (l : List (Option UObjectiveBase)) (k i : Nat)
    (Obj : UObjectiveBase)
    (h : UpdateObjectiveProgress.find ObjectiveID k l = some (i, Obj)) :
    k ≤ i ∧ l[i - k]? = some (some Obj) ∧ Obj.ObjectiveID = ObjectiveID ∧
      ∀ j o, j < i - k → l[j]? = some (some o) → o.ObjectiveID ≠ ObjectiveID := by
  induction l generalizing k with
  | nil => simp [UpdateObjectiveProgress.find] at h
  | cons e rest ih =>
    cases e with
    | none =>
      simp only [UpdateObjectiveProgress.find] at h
      obtain ⟨h1, h2, h3, h4⟩ := ih (k + 1) h
      have hk : i - k = (i - (k + 1)) + 1 := by omega
      refine ⟨by omega, ?_, h3, ?_⟩
      · rw [hk, List.getElem?_cons_succ]; exact h2
      · intro j o hj hjo
        cases j with
        | zero => simp at hjo
        | succ j =>
          rw [List.getElem?_cons_succ] at hjo
          exact h4 j o (by omega) hjo
    | some o1 =>
      simp only [UpdateObjectiveProgress.find] at h
      split_ifs at h with hid
      · simp only [Option.some.injEq, Prod.mk.injEq] at h
        obtain ⟨rfl, rfl⟩ := h
        refine ⟨le_refl _, by simp, hid, ?_⟩
        intro j o hj
        simp at hj
      · obtain ⟨h1, h2, h3, h4⟩ := ih (k + 1) h
        have hk : i - k = (i - (k + 1)) + 1 := by omega
        refine ⟨by omega, ?_, h3, ?_⟩
        · rw [hk, List.getElem?_cons_succ]; exact h2
        · intro j o hj hjo
          cases j with
          | zero =>
            simp only [List.getElem?_cons_zero, Option.some.injEq] at hjo
            subst hjo
            exact hid
          | succ j =>
            rw [List.getElem?_cons_succ] at hjo
            exact h4 j o (by omega) hjo

theorem store_same (Q : UQuestDefinition) (E : FActiveQuestEntry) (l : List FActiveQuestEntry)
    (h : l.find? (fun X => decide (X.Definition = some Q)) = some E) :
    StoreEntry Q E l = l := by
  induction l with
  | nil => rfl
  | cons X rest ih =>
    by_cases hX : X.Definition = some Q
    · simp only [List.find?_cons, hX, decide_True, Option.some.injEq] at h
      subst h
      simp [StoreEntry, hX]
    · simp only [List.find?_cons, hX, decide_False] at h
      simp only [StoreEntry, hX, if_false]
      rw [ih h]

theorem set_same {α : Type} (l : List α) (i : Nat) (a : α) (h : l[i]? = some a) :
    l.set i a = l := by
  induction l generalizing i with
  | nil => rfl
  | cons x rest ih =>
    cases i with
    | zero =>
      simp only [List.getElem?_cons_zero, Option.some.injEq] at h
      simp [h]
    | succ i =>
      rw [List.getElem?_cons_succ] at h
      simp [ih i h]

theorem bAllCompleted_iff (Entry : FActiveQuestEntry) :
    CheckQuestCompletion.bAllCompleted Entry = true ↔
      ∀ o, some o ∈ Entry.ActiveObjectives → o.State = EObjectiveState.Completed := by
  unfold CheckQuestCompletion.bAllCompleted
  rw [Bool.not_eq_true', List.any_eq_false]
  constructor
  · intro h o ho
    have := h (some o) ho
    simpa [IsCompleted] using this
  · intro h x hx
    cases x with
    | none => simp
    | some o => simp [IsCompleted, h o hx]

/-- The tracker after `UpdateObjectiveProgress` when the quest is active and an
objective with the identifier is found. -/
theorem updateObjectiveProgress_found (c : UQuestComponent) (Q : UQuestDefinition)
    (E : FActiveQuestEntry) (ObjectiveID : FName) (Delta : Int) (i : Nat) (Obj : UObjectiveBase)
    (hE : c.FindActiveEntry (some Q) = some E) (hID : ObjectiveID ≠ FName.NAME_None)
    (hd : 0 < Delta)
    (hfind : UpdateObjectiveProgress.find ObjectiveID 0 E.ActiveObjectives = some (i, Obj)) :
    c.UpdateObjectiveProgress (some Q) ObjectiveID Delta =
      if (Obj.AddProgress Delta).1 = true then
        if Q.bRequireAllObjectives = true ∧
            CheckQuestCompletion.bAllCompleted
              { E with ActiveObjectives :=
                  E.ActiveObjectives.set i (some (Obj.AddProgress Delta).2.1) } = true then
          { c with
            ActiveQuests := RemoveAllEntries Q c.ActiveQuests
            CompletedQuestIDs := TSetAdd c.CompletedQuestIDs Q.QuestID
            Calls := c.Calls ++ (Obj.AddProgress Delta).2.2 ++
              [QuestHook.OnQuestObjectiveCompleted Q (i : Int)]
            Broadcasts := c.Broadcasts ++
              [QuestEvent.OnObjectiveProgress Q (Obj.AddProgress Delta).2.1,
                QuestEvent.OnQuestCompleted Q] }
        else
          { c with
            ActiveQuests := StoreEntry Q
              { E with ActiveObjectives :=
                  E.ActiveObjectives.set i (some (Obj.AddProgress Delta).2.1) } c.ActiveQuests
            Calls := c.Calls ++ (Obj.AddProgress Delta).2.2 ++
              [QuestHook.OnQuestObjectiveCompleted Q (i : Int)]
            Broadcasts := c.Broadcasts ++
              [QuestEvent.OnObjectiveProgress Q (Obj.AddProgress Delta).2.1] }
      else
        { c with
          ActiveQuests := StoreEntry Q
            { E with ActiveObjectives :=
                E.ActiveObjectives.set i (some (Obj.AddProgress Delta).2.1) } c.ActiveQuests
          Calls := c.Calls ++ (Obj.AddProgress Delta).2.2
          Broadcasts := c.Broadcasts ++
            [QuestEvent.OnObjectiveProgress Q (Obj.AddProgress Delta).2.1] } := by
  have hE2 := (findActiveEntry_some c Q E hE).2
  obtain ⟨D, Objs⟩ := E
  simp only at hE2
  subst hE2
  have hE2 : (FActiveQuestEntry.mk (some Q) Objs).Definition = some Q := rfl
  have hnone : ¬ (ObjectiveID.IsNone = true ∨ Delta ≤ 0) := by
    cases ObjectiveID with
    | NAME_None => exact absurd rfl hID
    | Name n => simp [FName.IsNone, hd]
  simp only [UpdateObjectiveProgress, hnone, if_false, hE, hfind]
  by_cases hr : (Obj.AddProgress Delta).1 = true
  · simp only [hr, if_true, CheckQuestCompletion]
    by_cases hall : Q.bRequireAllObjectives = true ∧
        CheckQuestCompletion.bAllCompleted
          { Definition := some Q
            ActiveObjectives := Objs.set i (some (Obj.AddProgress Delta).2.1) } = true
    · have hfound : (StoreEntry Q
          { Definition := some Q
            ActiveObjectives := Objs.set i (some (Obj.AddProgress Delta).2.1) }
          c.ActiveQuests).find? (fun X => decide (X.Definition = some Q)) =
          some { Definition := some Q
                 ActiveObjectives := Objs.set i (some (Obj.AddProgress Delta).2.1) } :=
        find_store Q _ _ c.ActiveQuests hE rfl
      rw [if_pos hall, if_pos hall]
      simp only [CompleteQuest, FindActiveEntry, hfound]
      rw [removeAll_store Q _ _ rfl]
      simp
    · rw [if_neg hall, if_neg hall]
  · simp only [hr, Bool.false_eq_true, if_false]

end MGS

namespace MGS
open UQuestComponent UObjectiveBase

/-- C16, as written, fails for the identifier `None`: the only objective of the active
quest `ExampleUnnamedQuest` is `Active`, carries the identifier `None` and requires 1,
yet `UpdateObjectiveProgress(ExampleUnnamedQuest, None, 1)` leaves the tracker as it
was: no progress is recorded, no event is broadcast and no hook is invoked. -/
theorem updateObjectiveProgress_none_identifier :
    ExampleUnnamedStarted.FindActiveEntry (some ExampleUnnamedQuest) =
      some { Definition := some ExampleUnnamedQuest
             ActiveObjectives :=
               [some { ObjectiveID := FName.NAME_None, RequiredProgress := 1,
                       CurrentProgress := 0, State := EObjectiveState.Active }] } ∧
    ExampleUnnamedStarted.UpdateObjectiveProgress (some ExampleUnnamedQuest) FName.NAME_None 1 =
      ExampleUnnamedStarted := by
  decide

/-- C16 (amended). Let `Q` be an active quest with entry `E`, `ObjectiveID` an
identifier other than `None`, `Delta > 0`, and `Obj`, at index `i`, the first objective
instance of `E` that carries `ObjectiveID`, the sum `old + Delta` of its progress and
`Delta` being an `int32` (between `INT_MIN` and `INT_MAX`). If `Obj` is `Active`,
`UpdateObjectiveProgress` replaces it by `Obj1`, whose progress is
`min(old + Delta, required)` and which is `Completed` exactly when that progress
equals the required one (every other objective instance and every other entry stays
as it was, unless the quest is then completed and its entry removed), broadcasts one
objective-progress event carrying `Obj1`, and invokes `OnQuestObjectiveCompleted`, with
the index `i`, exactly when `Obj1` is `Completed`. If `Obj` is not `Active` (for
instance already `Completed`), no hook is invoked and no objective changes, so that
an objective instance is completed at most once. -/
theorem updateObjectiveProgress_spec (c : UQuestComponent) (Q : UQuestDefinition)
    (E : FActiveQuestEntry) (ObjectiveID : FName) (Delta : Int) (i : Nat) (Obj : UObjectiveBase)
    (hE : c.FindActiveEntry (some Q) = some E) (hID : ObjectiveID ≠ FName.NAME_None)
    (hd : 0 < Delta)
    (hfind : UpdateObjectiveProgress.find ObjectiveID 0 E.ActiveObjectives = some (i, Obj))
    (hfit : INT_MIN ≤ Obj.CurrentProgress + Delta ∧ Obj.CurrentProgress + Delta ≤ INT_MAX) :
    (E.ActiveObjectives[i]? = some (some Obj) ∧ Obj.ObjectiveID = ObjectiveID ∧
      ∀ j o, j < i → E.ActiveObjectives[j]? = some (some o) → o.ObjectiveID ≠ ObjectiveID) ∧
    (Obj.State = EObjectiveState.Active →
      ∀ Obj1 : UObjectiveBase,
        Obj1 =
          { Obj with
            CurrentProgress := min (Obj.CurrentProgress + Delta) Obj.RequiredProgress
            State :=
              if min (Obj.CurrentProgress + Delta) Obj.RequiredProgress = Obj.RequiredProgress
              then EObjectiveState.Completed else EObjectiveState.Active } →
        ((c.UpdateObjectiveProgress (some Q) ObjectiveID Delta).ActiveQuests =
            StoreEntry Q { E with ActiveObjectives := E.ActiveObjectives.set i (some Obj1) }
              c.ActiveQuests ∨
          (Obj1.State = EObjectiveState.Completed ∧
            (c.UpdateObjectiveProgress (some Q) ObjectiveID Delta).ActiveQuests =
              RemoveAllEntries Q c.ActiveQuests)) ∧
        ((c.UpdateObjectiveProgress (some Q) ObjectiveID Delta).Broadcasts =
            c.Broadcasts ++ [QuestEvent.OnObjectiveProgress Q Obj1] ∨
          (Obj1.State = EObjectiveState.Completed ∧
            (c.UpdateObjectiveProgress (some Q) ObjectiveID Delta).Broadcasts =
              c.Broadcasts ++
                [QuestEvent.OnObjectiveProgress Q Obj1, QuestEvent.OnQuestCompleted Q])) ∧
        (c.UpdateObjectiveProgress (some Q) ObjectiveID Delta).Calls =
          c.Calls ++
            QuestHook.OnProgressUpdated { Obj with CurrentProgress := Obj1.CurrentProgress }
                Obj.CurrentProgress Obj1.CurrentProgress ::
              (if Obj1.State = EObjectiveState.Completed then
                [QuestHook.OnQuestObjectiveCompleted Q (i : Int)] else [])) ∧
    (Obj.State ≠ EObjectiveState.Active →
      (c.UpdateObjectiveProgress (some Q) ObjectiveID Delta).ActiveQuests = c.ActiveQuests ∧
      (c.UpdateObjectiveProgress (some Q) ObjectiveID Delta).CompletedQuestIDs =
        c.CompletedQuestIDs ∧
      (c.UpdateObjectiveProgress (some Q) ObjectiveID Delta).Calls = c.Calls ∧
      (c.UpdateObjectiveProgress (some Q) ObjectiveID Delta).Broadcasts =
        c.Broadcasts ++ [QuestEvent.OnObjectiveProgress Q Obj]) := by
  have hf := find_spec ObjectiveID E.ActiveObjectives 0 i Obj hfind
  have hrun := updateObjectiveProgress_found c Q E ObjectiveID Delta i Obj hE hID hd hfind
  refine ⟨⟨by simpa using hf.2.1, hf.2.2.1, fun j o hj => hf.2.2.2 j o (by simpa using hj)⟩, ?_, ?_⟩
  · intro hs Obj1 hObj1
    rw [← fmath_min_eq] at hObj1
    have hadd := addProgress_active Obj Delta hs hd
    rw [wrapInt32_of_fits _ hfit.1 hfit.2] at hadd
    rw [hadd] at hrun
    rw [hrun, hObj1]
    by_cases hc : FMath.Min (Obj.CurrentProgress + Delta) Obj.RequiredProgress =
        Obj.RequiredProgress
    · simp only [hc, decide_True, if_true]
      split_ifs with hall
      · simp
      · simp
    · simp only [hc, decide_False, Bool.false_eq_true, if_false]
      simp
  · intro hs
    have hadd := addProgress_not_active Obj Delta hs
    rw [hadd] at hrun
    simp only [Bool.false_eq_true, if_false, List.append_nil] at hrun
    rw [hrun]
    have h1 : E.ActiveObjectives.set i (some Obj) = E.ActiveObjectives :=
      set_same _ _ _ (by simpa using hf.2.1)
    refine ⟨?_, rfl, rfl, rfl⟩
    simp only [h1]
    exact store_same Q E c.ActiveQuests hE

/-- C16 on the example quest, started: the first update of objective 1 (index 0)
records the progress 1, completes the objective and invokes the hook with index 0;
a second update of the same objective finds it `Completed` and invokes nothing. -/
theorem updateObjectiveProgress_spec_witness :
    ((ExampleStarted.UpdateObjectiveProgress (some ExampleQuest) (FName.Name 1) 1).ActiveQuests =
        StoreEntry ExampleQuest
          { Definition := some ExampleQuest
            ActiveObjectives :=
              [some { ObjectiveID := FName.Name 1, RequiredProgress := 1, CurrentProgress := 1,
                      State := EObjectiveState.Completed },
                some (ExampleObjective 2).Activate, some (ExampleObjective 3).Activate] }
          ExampleStarted.ActiveQuests ∨
      ((UObjectiveBase.mk (FName.Name 1) 1 1 EObjectiveState.Completed).State =
          EObjectiveState.Completed ∧
        (ExampleStarted.UpdateObjectiveProgress (some ExampleQuest) (FName.Name 1) 1).ActiveQuests =
          RemoveAllEntries ExampleQuest ExampleStarted.ActiveQuests)) ∧
    (ExampleStarted.UpdateObjectiveProgress (some ExampleQuest) (FName.Name 1) 1).Calls =
      [QuestHook.OnProgressUpdated
          { ObjectiveID := FName.Name 1, RequiredProgress := 1, CurrentProgress := 1,
            State := EObjectiveState.Active } 0 1,
        QuestHook.OnQuestObjectiveCompleted ExampleQuest 0] ∧
    ((ExampleStarted.UpdateObjectiveProgress (some ExampleQuest) (FName.Name 1) 1).UpdateObjectiveProgress
        (some ExampleQuest) (FName.Name 1) 1).Calls =
      (ExampleStarted.UpdateObjectiveProgress (some ExampleQuest) (FName.Name 1) 1).Calls :=
  ⟨((updateObjectiveProgress_spec ExampleStarted ExampleQuest
        { Definition := some ExampleQuest
          ActiveObjectives := [some (ExampleObjective 1).Activate,
            some (ExampleObjective 2).Activate, some (ExampleObjective 3).Activate] }
        (FName.Name 1) 1 0 (ExampleObjective 1).Activate (by decide) (by decide) (by decide)
        (by decide) (by decide)).2.1 (by decide)
        { ObjectiveID := FName.Name 1, RequiredProgress := 1, CurrentProgress := 1,
          State := EObjectiveState.Completed } (by decide)).1,
    by decide,
    ((updateObjectiveProgress_spec
        (ExampleStarted.UpdateObjectiveProgress (some ExampleQuest) (FName.Name 1) 1) ExampleQuest
        { Definition := some ExampleQuest
          ActiveObjectives :=
            [some { ObjectiveID := FName.Name 1, RequiredProgress := 1, CurrentProgress := 1,
                    State := EObjectiveState.Completed },
              some (ExampleObjective 2).Activate, some (ExampleObjective 3).Activate] }
        (FName.Name 1) 1 0
        { ObjectiveID := FName.Name 1, RequiredProgress := 1, CurrentProgress := 1,
          State := EObjectiveState.Completed }
        (by decide) (by decide) (by decide) (by decide) (by decide)).2.2 (by decide)).2.2.1⟩

end MGS

namespace MGS
open UQuestComponent UObjectiveBase

/-- C17. Let an `UpdateObjectiveProgress` call complete the objective `Obj` of the
active quest `Q` (entry `E`, index `i`; `Obj1` is the objective afterwards): `Obj` is
`Active` and the sum of its progress and `Delta`, as the `int32` that `AddProgress`
computes, is at least the required progress. If `Q`
requires all objectives and every objective instance of the entry is now `Completed`,
every entry of `Q` is removed from the active list, the identifier of `Q` is inserted
into the completed set and one quest-completed event is broadcast, after the
objective-progress event. Otherwise the entry of `Q` stays active, with `Obj1` in place
of `Obj`, the completed set is unchanged and no quest-completed event is broadcast. -/
theorem updateObjectiveProgress_auto_completion (c : UQuestComponent) (Q : UQuestDefinition)
    (E : FActiveQuestEntry) (ObjectiveID : FName) (Delta : Int) (i : Nat)
    (Obj Obj1 : UObjectiveBase)
    (hE : c.FindActiveEntry (some Q) = some E) (hID : ObjectiveID ≠ FName.NAME_None)
    (hd : 0 < Delta)
    (hfind : UpdateObjectiveProgress.find ObjectiveID 0 E.ActiveObjectives = some (i, Obj))
    (hs : Obj.State = EObjectiveState.Active)
    (hc : Obj.RequiredProgress ≤ WrapInt32 (Obj.CurrentProgress + Delta))
    (hObj1 : Obj1 =
      { Obj with CurrentProgress := Obj.RequiredProgress, State := EObjectiveState.Completed }) :
    ((Q.bRequireAllObjectives = true ∧
        ∀ o, some o ∈ E.ActiveObjectives.set i (some Obj1) → o.State = EObjectiveState.Completed) →
      (c.UpdateObjectiveProgress (some Q) ObjectiveID Delta).ActiveQuests =
        RemoveAllEntries Q c.ActiveQuests ∧
      (c.UpdateObjectiveProgress (some Q) ObjectiveID Delta).FindActiveEntry (some Q) = none ∧
      (c.UpdateObjectiveProgress (some Q) ObjectiveID Delta).CompletedQuestIDs =
        TSetAdd c.CompletedQuestIDs Q.QuestID ∧
      Q.QuestID ∈ (c.UpdateObjectiveProgress (some Q) ObjectiveID Delta).CompletedQuestIDs ∧
      (c.UpdateObjectiveProgress (some Q) ObjectiveID Delta).Broadcasts =
        c.Broadcasts ++ [QuestEvent.OnObjectiveProgress Q Obj1, QuestEvent.OnQuestCompleted Q]) ∧
    (¬ (Q.bRequireAllObjectives = true ∧
        ∀ o, some o ∈ E.ActiveObjectives.set i (some Obj1) → o.State = EObjectiveState.Completed) →
      (c.UpdateObjectiveProgress (some Q) ObjectiveID Delta).ActiveQuests =
        StoreEntry Q { E with ActiveObjectives := E.ActiveObjectives.set i (some Obj1) }
          c.ActiveQuests ∧
      (c.UpdateObjectiveProgress (some Q) ObjectiveID Delta).FindActiveEntry (some Q) =
        some { E with ActiveObjectives := E.ActiveObjectives.set i (some Obj1) } ∧
      (c.UpdateObjectiveProgress (some Q) ObjectiveID Delta).CompletedQuestIDs =
        c.CompletedQuestIDs ∧
      (c.UpdateObjectiveProgress (some Q) ObjectiveID Delta).Broadcasts =
        c.Broadcasts ++ [QuestEvent.OnObjectiveProgress Q Obj1]) := by
  have hE2 := (findActiveEntry_some c Q E hE).2
  have hmin : FMath.Min (WrapInt32 (Obj.CurrentProgress + Delta)) Obj.RequiredProgress =
      Obj.RequiredProgress := by
    rw [fmath_min_eq]; exact min_eq_right hc
  have hadd : Obj.AddProgress Delta =
      (true, Obj1,
        [QuestHook.OnProgressUpdated { Obj with CurrentProgress := Obj.RequiredProgress }
          Obj.CurrentProgress Obj.RequiredProgress]) := by
    rw [addProgress_active Obj Delta hs hd, hObj1]
    simp only [hmin, if_true, decide_True]
  have hrun := updateObjectiveProgress_found c Q E ObjectiveID Delta i Obj hE hID hd hfind
  rw [hadd] at hrun
  simp only [if_true] at hrun
  have hiff := bAllCompleted_iff { E with ActiveObjectives := E.ActiveObjectives.set i (some Obj1) }
  simp only at hiff
  constructor
  · intro hall
    have hall2 : Q.bRequireAllObjectives = true ∧
        CheckQuestCompletion.bAllCompleted
          { E with ActiveObjectives := E.ActiveObjectives.set i (some Obj1) } = true :=
      ⟨hall.1, hiff.2 hall.2⟩
    rw [if_pos hall2] at hrun
    rw [hrun]
    refine ⟨rfl, ?_, rfl, ?_, rfl⟩
    · exact find_removeAll Q c.ActiveQuests
    · exact (mem_tSetAdd _ _ _).2 (Or.inr rfl)
  · intro hall
    have hall2 : ¬ (Q.bRequireAllObjectives = true ∧
        CheckQuestCompletion.bAllCompleted
          { E with ActiveObjectives := E.ActiveObjectives.set i (some Obj1) } = true) :=
      fun h => hall ⟨h.1, hiff.1 h.2⟩
    rw [if_neg hall2] at hrun
    rw [hrun]
    refine ⟨rfl, ?_, rfl, rfl⟩
    exact find_store Q E _ c.ActiveQuests hE hE2

/-- C17 on the example quest (three objectives, each requiring 1, all required): the
quest stays active when objective 1 is completed and when objective 2 is completed;
when objective 3 is completed it leaves the active list, its identifier enters the
completed set, and one quest-completed event is broadcast. -/
theorem updateObjectiveProgress_auto_completion_witness :
    ((ExampleStarted.UpdateObjectiveProgress (some ExampleQuest) (FName.Name 1) 1).FindActiveEntry
        (some ExampleQuest)).isSome = true ∧
    (ExampleStarted.UpdateObjectiveProgress (some ExampleQuest) (FName.Name 1) 1).CompletedQuestIDs =
      [] ∧
    (ExampleTwoOfThree.FindActiveEntry (some ExampleQuest)).isSome = true ∧
    ExampleTwoOfThree.CompletedQuestIDs = [] ∧
    ((ExampleTwoOfThree.UpdateObjectiveProgress (some ExampleQuest) (FName.Name 3) 1).ActiveQuests =
        RemoveAllEntries ExampleQuest ExampleTwoOfThree.ActiveQuests ∧
      (ExampleTwoOfThree.UpdateObjectiveProgress (some ExampleQuest) (FName.Name 3) 1).FindActiveEntry
        (some ExampleQuest) = none ∧
      (ExampleTwoOfThree.UpdateObjectiveProgress (some ExampleQuest)
        (FName.Name 3) 1).CompletedQuestIDs =
        TSetAdd ExampleTwoOfThree.CompletedQuestIDs ExampleQuest.QuestID ∧
      ExampleQuest.QuestID ∈
        (ExampleTwoOfThree.UpdateObjectiveProgress (some ExampleQuest)
          (FName.Name 3) 1).CompletedQuestIDs ∧
      (ExampleTwoOfThree.UpdateObjectiveProgress (some ExampleQuest) (FName.Name 3) 1).Broadcasts =
        ExampleTwoOfThree.Broadcasts ++
          [QuestEvent.OnObjectiveProgress ExampleQuest
              { ObjectiveID := FName.Name 3, RequiredProgress := 1, CurrentProgress := 1,
                State := EObjectiveState.Completed },
            QuestEvent.OnQuestCompleted ExampleQuest]) ∧
    (ExampleTwoOfThree.UpdateObjectiveProgress (some ExampleQuest) (FName.Name 3) 1).ActiveQuests =
      [] ∧
    (ExampleTwoOfThree.UpdateObjectiveProgress (some ExampleQuest)
      (FName.Name 3) 1).CompletedQuestIDs = [FName.Name 100] :=
  ⟨by decide, by decide, by decide, by decide,
    (updateObjectiveProgress_auto_completion ExampleTwoOfThree ExampleQuest
      { Definition := some ExampleQuest
        ActiveObjectives :=
          [some { ObjectiveID := FName.Name 1, RequiredProgress := 1, CurrentProgress := 1,
                  State := EObjectiveState.Completed },
            some { ObjectiveID := FName.Name 2, RequiredProgress := 1, CurrentProgress := 1,
                   State := EObjectiveState.Completed },
            some (ExampleObjective 3).Activate] }
      (FName.Name 3) 1 2 (ExampleObjective 3).Activate
      { ObjectiveID := FName.Name 3, RequiredProgress := 1, CurrentProgress := 1,
        State := EObjectiveState.Completed }
      (by decide) (by decide) (by decide) (by decide) (by decide) (by decide) (by decide)).1
      ⟨by decide, fun o ho => by
        simp only [List.set, List.mem_cons, Option.some.injEq, List.mem_singleton,
          List.not_mem_nil, or_false] at ho
        rcases ho with rfl | rfl | rfl <;> rfl⟩,
    by decide, by decide⟩

end MGS

namespace MGS
open UQuestComponent UObjectiveBase

/-! ## Quests: the progress of a quest -/

theorem getProgressFraction_bounds (o : UObjectiveBase) :
    0 ≤ o.GetProgressFraction ∧ o.GetProgressFraction ≤ 1 := by
  unfold GetProgressFraction FMath.ClampFloat
  split_ifs
  · exact ⟨zero_le_one, le_refl _⟩
  · exact ⟨le_max_right _ _, max_le (min_le_right _ _) zero_le_one⟩

theorem getProgressFraction_eq (o : UObjectiveBase) (h : 1 ≤ o.RequiredProgress) :
    o.GetProgressFraction =
      max 0 (min 1 ((o.CurrentProgress : ℚ) / (o.RequiredProgress : ℚ))) := by
  have h1 : ¬ (o.RequiredProgress ≤ 0) := by omega
  unfold GetProgressFraction FMath.ClampFloat
  rw [if_neg h1, max_comm, min_comm]

theorem total_eq (l : List (Option UObjectiveBase)) :
    GetQuestProgress.total l = ((l.filterMap id).map GetProgressFraction).sum := by
  induction l with
  | nil => rfl
  | cons e rest ih =>
    cases e with
    | none => simpa [GetQuestProgress.total] using ih
    | some o => simp [GetQuestProgress.total, ih]

theorem total_bounds (l : List (Option UObjectiveBase)) :
    0 ≤ GetQuestProgress.total l ∧ GetQuestProgress.total l ≤ (l.length : ℚ) := by
  induction l with
  | nil => simp [GetQuestProgress.total]
  | cons e rest ih =>
    cases e with
    | none =>
      simp only [GetQuestProgress.total, List.length_cons, Nat.cast_add, Nat.cast_one]
      exact ⟨ih.1, by linarith [ih.2]⟩
    | some o =>
      simp only [GetQuestProgress.total, List.length_cons, Nat.cast_add, Nat.cast_one]
      have hb := getProgressFraction_bounds o
      exact ⟨by linarith [ih.1, hb.1], by linarith [ih.2, hb.2]⟩

theorem exampleTwoOfThree_entry :
    ExampleTwoOfThree.FindActiveEntry (some ExampleQuest) =
      some { Definition := some ExampleQuest
             ActiveObjectives :=
               [some { ObjectiveID := FName.Name 1, RequiredProgress := 1, CurrentProgress := 1,
                       State := EObjectiveState.Completed },
                 some { ObjectiveID := FName.Name 2, RequiredProgress := 1, CurrentProgress := 1,
                        State := EObjectiveState.Completed },
                 some { ObjectiveID := FName.Name 3, RequiredProgress := 1, CurrentProgress := 0,
                        State := EObjectiveState.Active }] } := by
  decide

/-- C18. `GetQuestProgress(Q)`, fractions being exact rationals. When `Q` is active
and its entry `E` holds at least one objective, the result is the sum, over the
objective instances of `E`, of `current / required` clamped to `[0, 1]` (every
required progress being at least 1, as the data model has it), divided by the number
of objectives of `E`, and it lies in `[0, 1]`. (A null pointer in the list adds nothing
to the sum and counts in the divisor; `StartQuest` stores none.) When `Q` is not
active, the result is 1 if the identifier of `Q` is in the completed set and 0
otherwise. -/
theorem getQuestProgress_spec (c : UQuestComponent) (Q : UQuestDefinition) :
    (∀ E, c.FindActiveEntry (some Q) = some E → E.ActiveObjectives ≠ [] →
      (∀ o, some o ∈ E.ActiveObjectives → 1 ≤ o.RequiredProgress) →
      c.GetQuestProgress (some Q) =
        1 / (E.ActiveObjectives.length : ℚ) *
          ((E.ActiveObjectives.filterMap id).map fun o =>
            max 0 (min 1 ((o.CurrentProgress : ℚ) / (o.RequiredProgress : ℚ)))).sum ∧
      0 ≤ c.GetQuestProgress (some Q) ∧ c.GetQuestProgress (some Q) ≤ 1) ∧
    (c.FindActiveEntry (some Q) = none →
      c.GetQuestProgress (some Q) = if Q.QuestID ∈ c.CompletedQuestIDs then 1 else 0) := by
  constructor
  · intro E hE hne hreq
    have hemp : E.ActiveObjectives.isEmpty = false := by
      cases h : E.ActiveObjectives with
      | nil => exact absurd h hne
      | cons a l => rfl
    have hlen : (0 : ℚ) < (E.ActiveObjectives.length : ℚ) := by
      have : 0 < E.ActiveObjectives.length := List.length_pos.2 hne
      exact_mod_cast this
    have hrun : c.GetQuestProgress (some Q) =
        GetQuestProgress.total E.ActiveObjectives / (E.ActiveObjectives.length : ℚ) := by
      simp [GetQuestProgress, hE, hemp]
    have hb := total_bounds E.ActiveObjectives
    refine ⟨?_, ?_, ?_⟩
    · rw [hrun, total_eq, div_eq_mul_one_div, mul_comm]
      congr 2
      apply List.map_congr_left
      intro o ho
      apply getProgressFraction_eq
      apply hreq
      simpa using ho
    · rw [hrun]; exact div_nonneg hb.1 (le_of_lt hlen)
    · rw [hrun, div_le_one hlen]; exact hb.2
  · intro hE
    simp [GetQuestProgress, hE, IsQuestCompleted]

/-- C18 on the example quest: with objectives 1 and 2 completed and objective 3
untouched, the progress of the quest is 2/3. -/
theorem getQuestProgress_spec_witness :
    ExampleTwoOfThree.GetQuestProgress (some ExampleQuest) = 2 / 3 ∧
    (EmptyTracker.GetQuestProgress (some ExampleQuest) = 0) := by
  constructor
  · rw [((getQuestProgress_spec ExampleTwoOfThree ExampleQuest).1 _ exampleTwoOfThree_entry
      (by decide) (by
        intro o ho
        simp only [List.mem_cons, Option.some.injEq, List.mem_singleton, List.not_mem_nil,
          or_false] at ho
        rcases ho with rfl | rfl | rfl <;> decide)).1]
    simp only [List.filterMap_cons, List.filterMap_nil, id, List.map_cons, List.map_nil,
      List.sum_cons, List.sum_nil, List.length_cons, List.length_nil]
    norm_num
  · rw [(getQuestProgress_spec EmptyTracker ExampleQuest).2 (by decide)]
    decide

end MGS

namespace MGS
open UQuestComponent UObjectiveBase

/-! ## Quests: failing a quest -/

theorem failObjectives_eq (l : List (Option UObjectiveBase)) :
    FailQuest.failObjectives l =
      l.map (Option.map fun o =>
        if o.State = EObjectiveState.Completed then o
        else { o with State := EObjectiveState.Failed }) := by
  induction l with
  | nil => rfl
  | cons e rest ih =>
    cases e with
    | none => simp [FailQuest.failObjectives, ih]
    | some o =>
      by_cases h : o.State = EObjectiveState.Completed
      · simp [FailQuest.failObjectives, ih, IsCompleted, h]
      · simp [FailQuest.failObjectives, ih, IsCompleted, h, Fail]

/-- The entries of `Quest` after a write through the pointer to the first of them:
the entry written, followed by the other entries of `Quest`. -/
theorem removed_store (Q : UQuestDefinition) (E1 : FActiveQuestEntry)
    (hE1 : E1.Definition = some Q) (l : List FActiveQuestEntry)
    (h : ∃ E ∈ l, E.Definition = some Q) :
    RemovedEntries Q (StoreEntry Q E1 l) = E1 :: (RemovedEntries Q l).tail := by
  induction l with
  | nil => obtain ⟨E, hE, _⟩ := h; cases hE
  | cons X rest ih =>
    by_cases hX : X.Definition = some Q
    · simp [StoreEntry, RemovedEntries, hX, hE1, List.filter_cons]
    · have hrest : ∃ E ∈ rest, E.Definition = some Q := by
        obtain ⟨E, hE, hd⟩ := h
        rcases List.mem_cons.1 hE with rfl | hr
        · exact absurd hd hX
        · exact ⟨E, hr, hd⟩
      have := ih hrest
      simp only [RemovedEntries] at this
      simp [StoreEntry, RemovedEntries, hX, List.filter_cons, this]

/-- C19. `FailQuest(Q)` on an active quest `Q` with entry `E` (the first entry of `Q`)
sets every objective instance of `E` that is not `Completed` to `Failed` (same
identifier and progress) and leaves every `Completed` instance as it was: this is how
the entry is when it is removed, as `FailedEntries` records (followed by the other
entries of `Q`, untouched, if the active list holds several). It removes every entry of
`Q` from the active list, inserts the identifier of `Q` into the failed set and
broadcasts one quest-failed event; the completed set and the invocations of hooks are
unchanged. If `Q` is null or not active, the tracker is left as it was. -/
theorem failQuest_spec (c : UQuestComponent) (QuestDef : Option UQuestDefinition) :
    (∀ Q E, QuestDef = some Q → c.FindActiveEntry (some Q) = some E →
      c.FailQuest QuestDef =
        { c with
          ActiveQuests := RemoveAllEntries Q c.ActiveQuests
          FailedQuestIDs := TSetAdd c.FailedQuestIDs Q.QuestID
          Broadcasts := c.Broadcasts ++ [QuestEvent.OnQuestFailed Q]
          FailedEntries :=
            c.FailedEntries ++
              { E with
                ActiveObjectives :=
                  E.ActiveObjectives.map (Option.map fun o =>
                    if o.State = EObjectiveState.Completed then o
                    else { o with State := EObjectiveState.Failed }) } ::
                (RemovedEntries Q c.ActiveQuests).tail } ∧
      (RemovedEntries Q c.ActiveQuests = [E] →
        (c.FailQuest QuestDef).FailedEntries =
          c.FailedEntries ++
            [{ E with
               ActiveObjectives :=
                 E.ActiveObjectives.map (Option.map fun o =>
                   if o.State = EObjectiveState.Completed then o
                   else { o with State := EObjectiveState.Failed }) }]) ∧
      (c.FailQuest QuestDef).FindActiveEntry (some Q) = none ∧
      Q.QuestID ∈ (c.FailQuest QuestDef).FailedQuestIDs ∧
      (c.FailQuest QuestDef).CompletedQuestIDs = c.CompletedQuestIDs ∧
      (c.FailQuest QuestDef).Calls = c.Calls) ∧
    ((QuestDef = none ∨ ∃ Q, QuestDef = some Q ∧ ∀ E ∈ c.ActiveQuests, E.Definition ≠ some Q) →
      c.FailQuest QuestDef = c) := by
  constructor
  · intro Q E hQ hE
    subst hQ
    have hE1 := (findActiveEntry_some c Q E hE).1
    have hE2 := (findActiveEntry_some c Q E hE).2
    have hrun : c.FailQuest (some Q) =
        { c with
          ActiveQuests := RemoveAllEntries Q c.ActiveQuests
          FailedQuestIDs := TSetAdd c.FailedQuestIDs Q.QuestID
          Broadcasts := c.Broadcasts ++ [QuestEvent.OnQuestFailed Q]
          FailedEntries :=
            c.FailedEntries ++
              { E with
                ActiveObjectives :=
                  E.ActiveObjectives.map (Option.map fun o =>
                    if o.State = EObjectiveState.Completed then o
                    else { o with State := EObjectiveState.Failed }) } ::
                (RemovedEntries Q c.ActiveQuests).tail } := by
      simp only [FailQuest, hE, failObjectives_eq]
      generalize List.map _ E.ActiveObjectives = M
      rw [removeAll_store Q (FActiveQuestEntry.mk E.Definition M) c.ActiveQuests hE2,
        removed_store Q (FActiveQuestEntry.mk E.Definition M) hE2 c.ActiveQuests ⟨E, hE1, hE2⟩]
    refine ⟨hrun, ?_, ?_, ?_, ?_, ?_⟩
    · intro hone
      rw [hrun, hone]
      rfl
    · rw [hrun]
      exact find_removeAll Q _
    · rw [hrun]; exact (mem_tSetAdd _ _ _).2 (Or.inr rfl)
    · rw [hrun]
    · rw [hrun]
  · rintro (h | ⟨Q, rfl, h⟩)
    · subst h; rfl
    · have := (findActiveEntry_none_iff c Q).2 h
      simp only [FailQuest, this]

/-- C19 on the example quest with objective 1 completed: `FailQuest` marks
objectives 2 and 3 `Failed`, keeps objective 1 `Completed`, empties the active list,
puts the identifier into the failed set and broadcasts one quest-failed event; a
second `FailQuest` changes nothing. -/
theorem failQuest_spec_witness :
    ((ExampleStarted.UpdateObjectiveProgress (some ExampleQuest) (FName.Name 1) 1).FailQuest
        (some ExampleQuest)).FailedEntries =
      [{ Definition := some ExampleQuest
         ActiveObjectives :=
           [some { ObjectiveID := FName.Name 1, RequiredProgress := 1, CurrentProgress := 1,
                   State := EObjectiveState.Completed },
            some { ObjectiveID := FName.Name 2, RequiredProgress := 1, CurrentProgress := 0,
                   State := EObjectiveState.Failed },
            some { ObjectiveID := FName.Name 3, RequiredProgress := 1, CurrentProgress := 0,
                   State := EObjectiveState.Failed }] }] ∧
    ((ExampleStarted.UpdateObjectiveProgress (some ExampleQuest) (FName.Name 1) 1).FailQuest
        (some ExampleQuest)).ActiveQuests = [] ∧
    (((ExampleStarted.UpdateObjectiveProgress (some ExampleQuest) (FName.Name 1) 1).FailQuest
        (some ExampleQuest)).FindActiveEntry (some ExampleQuest) = none ∧
      ExampleQuest.QuestID ∈
        ((ExampleStarted.UpdateObjectiveProgress (some ExampleQuest) (FName.Name 1) 1).FailQuest
          (some ExampleQuest)).FailedQuestIDs ∧
      ((ExampleStarted.UpdateObjectiveProgress (some ExampleQuest) (FName.Name 1) 1).FailQuest
        (some ExampleQuest)).CompletedQuestIDs =
        (ExampleStarted.UpdateObjectiveProgress (some ExampleQuest) (FName.Name 1) 1).CompletedQuestIDs ∧
      ((ExampleStarted.UpdateObjectiveProgress (some ExampleQuest) (FName.Name 1) 1).FailQuest
        (some ExampleQuest)).Calls =
        (ExampleStarted.UpdateObjectiveProgress (some ExampleQuest) (FName.Name 1) 1).Calls) ∧
    ((ExampleStarted.UpdateObjectiveProgress (some ExampleQuest) (FName.Name 1) 1).FailQuest
      (some ExampleQuest)).Broadcasts.length = 3 ∧
    ((ExampleStarted.FailQuest (some ExampleQuest)).FailQuest (some ExampleQuest)) =
      ExampleStarted.FailQuest (some ExampleQuest) :=
  ⟨by decide, by decide,
    ((failQuest_spec
      (ExampleStarted.UpdateObjectiveProgress (some ExampleQuest) (FName.Name 1) 1)
      (some ExampleQuest)).1 ExampleQuest
      { Definition := some ExampleQuest
        ActiveObjectives :=
          [some { ObjectiveID := FName.Name 1, RequiredProgress := 1, CurrentProgress := 1,
                  State := EObjectiveState.Completed },
            some (ExampleObjective 2).Activate, some (ExampleObjective 3).Activate] }
      rfl (by decide)).2.2,
    by decide, by decide⟩

end MGS

namespace MGS
open UQuestComponent UObjectiveBase

/-! ## Quests: the completed set and the failed set -/

theorem mem_store (Q : UQuestDefinition) (E1 X : FActiveQuestEntry)
    (l : List FActiveQuestEntry) (h : X ∈ StoreEntry Q E1 l) : X = E1 ∨ X ∈ l := by
  induction l with
  | nil => simp [StoreEntry] at h
  | cons Y rest ih =>
    simp only [StoreEntry] at h
    split_ifs at h with hY
    · rcases List.mem_cons.1 h with h1 | h1
      · exact Or.inl h1
      · exact Or.inr (List.mem_cons_of_mem _ h1)
    · rcases List.mem_cons.1 h with h1 | h1
      · exact Or.inr (h1 ▸ List.mem_cons_self _ _)
      · rcases ih h1 with h2 | h2
        · exact Or.inl h2
        · exact Or.inr (List.mem_cons_of_mem _ h2)

/-- What `UpdateObjectiveProgress` may do to the active list and to the two sets. -/
theorem updateObjectiveProgress_cases (c : UQuestComponent) (QuestDef : Option UQuestDefinition)
    (ObjectiveID : FName) (Delta : Int) :
    c.UpdateObjectiveProgress QuestDef ObjectiveID Delta = c ∨
      ∃ Q E E1, c.FindActiveEntry (some Q) = some E ∧ E1.Definition = some Q ∧
        (c.UpdateObjectiveProgress QuestDef ObjectiveID Delta).FailedQuestIDs =
          c.FailedQuestIDs ∧
        (((c.UpdateObjectiveProgress QuestDef ObjectiveID Delta).ActiveQuests =
              StoreEntry Q E1 c.ActiveQuests ∧
            (c.UpdateObjectiveProgress QuestDef ObjectiveID Delta).CompletedQuestIDs =
              c.CompletedQuestIDs) ∨
          ((c.UpdateObjectiveProgress QuestDef ObjectiveID Delta).ActiveQuests =
              RemoveAllEntries Q c.ActiveQuests ∧
            (c.UpdateObjectiveProgress QuestDef ObjectiveID Delta).CompletedQuestIDs =
              TSetAdd c.CompletedQuestIDs Q.QuestID)) := by
  cases QuestDef with
  | none => exact Or.inl rfl
  | some Q =>
    by_cases hID : ObjectiveID = FName.NAME_None
    · left; subst hID; simp [UpdateObjectiveProgress, FName.IsNone]
    by_cases hd : 0 < Delta
    swap
    · left
      have : Delta ≤ 0 := not_lt.1 hd
      simp [UpdateObjectiveProgress, this]
    cases hE : c.FindActiveEntry (some Q) with
    | none =>
      left
      simp only [UpdateObjectiveProgress, hE]
      split_ifs <;> rfl
    | some E =>
      cases hfind : UpdateObjectiveProgress.find ObjectiveID 0 E.ActiveObjectives with
      | none =>
        left
        simp only [UpdateObjectiveProgress, hE, hfind]
        split_ifs <;> rfl
      | some p =>
        obtain ⟨i, Obj⟩ := p
        right
        have hE2 := (findActiveEntry_some c Q E hE).2
        have hrun := updateObjectiveProgress_found c Q E ObjectiveID Delta i Obj hE hID hd hfind
        refine ⟨Q, E,
          { E with ActiveObjectives := E.ActiveObjectives.set i (some (Obj.AddProgress Delta).2.1) },
          hE, hE2, ?_, ?_⟩
        · rw [hrun]; split_ifs <;> rfl
        · rw [hrun]
          split_ifs
          · exact Or.inr ⟨rfl, rfl⟩
          · exact Or.inl ⟨rfl, rfl⟩
          · exact Or.inl ⟨rfl, rfl⟩

/-- The invariant behind the disjointness of the two sets: no active entry is for a
quest whose identifier is in one of them. -/
theorem noRetry_invariant (Quests : UQuestDefinition → Prop) (hdist : DistinctQuestIDs Quests)
    (c : UQuestComponent) (h : QuestReachableNoRetry Quests c) :
    (∀ Id, Id ∈ c.CompletedQuestIDs → Id ∉ c.FailedQuestIDs) ∧
    (∀ E ∈ c.ActiveQuests, ∃ Q, E.Definition = some Q ∧ Quests Q ∧
      Q.QuestID ∉ c.CompletedQuestIDs ∧ Q.QuestID ∉ c.FailedQuestIDs) := by
  induction h with
  | empty => exact ⟨fun Id h => by simp [EmptyTracker] at h, fun E h => by simp [EmptyTracker] at h⟩
  | @step c cmd hreach hcmd ih =>
    obtain ⟨ih1, ih2⟩ := ih
    -- removing the entries of an active quest and adding its identifier to one set
    have hremove : ∀ Q E0, c.FindActiveEntry (some Q) = some E0 →
        Quests Q ∧ Q.QuestID ∉ c.CompletedQuestIDs ∧ Q.QuestID ∉ c.FailedQuestIDs ∧
        ∀ E ∈ RemoveAllEntries Q c.ActiveQuests, ∃ Q1, E.Definition = some Q1 ∧ Quests Q1 ∧
          Q1.QuestID ∉ c.CompletedQuestIDs ∧ Q1.QuestID ∉ c.FailedQuestIDs ∧
          Q1.QuestID ≠ Q.QuestID := by
      intro Q E0 hE0
      obtain ⟨hm, hdef⟩ := findActiveEntry_some c Q E0 hE0
      obtain ⟨Q0, h0, hq0, hc0, hf0⟩ := ih2 E0 hm
      rw [hdef] at h0
      cases h0
      refine ⟨hq0, hc0, hf0, ?_⟩
      intro E hE
      obtain ⟨hE1, hE2⟩ := (mem_removeAll Q c.ActiveQuests E).1 hE
      obtain ⟨Q1, h1, hq1, hc1, hf1⟩ := ih2 E hE1
      refine ⟨Q1, h1, hq1, hc1, hf1, ?_⟩
      intro hid
      have := hdist Q1 Q hq1 hq0 hid
      subst this
      exact hE2 h1
    cases cmd with
    | StartQuest QuestDef =>
      cases QuestDef with
      | none => exact ⟨ih1, ih2⟩
      | some Q =>
        obtain ⟨hq, hnf⟩ := hcmd (some Q) Q rfl rfl
        by_cases hgo : c.IsQuestActive (some Q) = true ∨ c.IsQuestCompleted (some Q) = true
        · have : c.Run (QuestCommand.StartQuest (some Q)) = c := by
            simp [UQuestComponent.Run, StartQuest, hgo]
          rw [this]; exact ⟨ih1, ih2⟩
        · have hnc : Q.QuestID ∉ c.CompletedQuestIDs := by
            intro hc
            exact hgo (Or.inr (by simp [IsQuestCompleted, hc]))
          have hrun : c.Run (QuestCommand.StartQuest (some Q)) =
              { c with
                ActiveQuests := c.ActiveQuests ++
                  [{ Definition := some Q
                     ActiveObjectives := StartQuest.instantiate Q.Objectives }]
                Broadcasts := c.Broadcasts ++ [QuestEvent.OnQuestStarted Q] } := by
            simp only [UQuestComponent.Run, StartQuest, hgo, if_false]
          rw [hrun]
          refine ⟨ih1, ?_⟩
          intro E hE
          rcases List.mem_append.1 hE with hE | hE
          · exact ih2 E hE
          · rw [List.mem_singleton] at hE
            subst hE
            exact ⟨Q, rfl, hq, hnc, hnf⟩
    | UpdateObjectiveProgress QuestDef ObjectiveID Delta =>
      rcases updateObjectiveProgress_cases c QuestDef ObjectiveID Delta with h | h
      · simp only [UQuestComponent.Run]
        rw [h]; exact ⟨ih1, ih2⟩
      · obtain ⟨Q, E0, E1, hE0, hE1, hfail, hrest⟩ := h
        obtain ⟨hq, hc, hf, hrem⟩ := hremove Q E0 hE0
        simp only [UQuestComponent.Run]
        rcases hrest with ⟨ha, hcomp⟩ | ⟨ha, hcomp⟩
        · rw [ha, hcomp, hfail]
          refine ⟨ih1, ?_⟩
          intro E hE
          rcases mem_store Q E1 E c.ActiveQuests hE with h1 | h1
          · subst h1
            exact ⟨Q, hE1, hq, hc, hf⟩
          · exact ih2 E h1
        · rw [ha, hcomp, hfail]
          constructor
          · intro Id hId
            rcases (mem_tSetAdd _ _ _).1 hId with h1 | h1
            · exact ih1 Id h1
            · rw [h1]; exact hf
          · intro E hE
            obtain ⟨Q1, h1, hq1, hc1, hf1, hne⟩ := hrem E hE
            refine ⟨Q1, h1, hq1, ?_, hf1⟩
            intro hmem
            rcases (mem_tSetAdd _ _ _).1 hmem with h2 | h2
            · exact hc1 h2
            · exact hne h2
    | CompleteQuest QuestDef =>
      cases QuestDef with
      | none => exact ⟨ih1, ih2⟩
      | some Q =>
        cases hE0 : c.FindActiveEntry (some Q) with
        | none =>
          have : c.Run (QuestCommand.CompleteQuest (some Q)) = c := by
            simp only [UQuestComponent.Run, CompleteQuest, hE0]
          rw [this]; exact ⟨ih1, ih2⟩
        | some E0 =>
          obtain ⟨hq, hc, hf, hrem⟩ := hremove Q E0 hE0
          have hrun : c.Run (QuestCommand.CompleteQuest (some Q)) =
              { c with
                ActiveQuests := RemoveAllEntries Q c.ActiveQuests
                CompletedQuestIDs := TSetAdd c.CompletedQuestIDs Q.QuestID
                Broadcasts := c.Broadcasts ++ [QuestEvent.OnQuestCompleted Q] } := by
            simp only [UQuestComponent.Run, CompleteQuest, hE0]
          rw [hrun]
          constructor
          · intro Id hId
            rcases (mem_tSetAdd _ _ _).1 hId with h1 | h1
            · exact ih1 Id h1
            · rw [h1]; exact hf
          · intro E hE
            obtain ⟨Q1, h1, hq1, hc1, hf1, hne⟩ := hrem E hE
            refine ⟨Q1, h1, hq1, ?_, hf1⟩
            intro hmem
            rcases (mem_tSetAdd _ _ _).1 hmem with h2 | h2
            · exact hc1 h2
            · exact hne h2
    | FailQuest QuestDef =>
      cases QuestDef with
      | none => exact ⟨ih1, ih2⟩
      | some Q =>
        cases hE0 : c.FindActiveEntry (some Q) with
        | none =>
          have : c.Run (QuestCommand.FailQuest (some Q)) = c := by
            simp only [UQuestComponent.Run, FailQuest, hE0]
          rw [this]; exact ⟨ih1, ih2⟩
        | some E0 =>
          obtain ⟨hq, hc, hf, hrem⟩ := hremove Q E0 hE0
          have hE2 := (findActiveEntry_some c Q E0 hE0).2
          have hrun : c.Run (QuestCommand.FailQuest (some Q)) =
              { c with
                ActiveQuests := RemoveAllEntries Q c.ActiveQuests
                FailedQuestIDs := TSetAdd c.FailedQuestIDs Q.QuestID
                Broadcasts := c.Broadcasts ++ [QuestEvent.OnQuestFailed Q]
                FailedEntries := (c.FailQuest (some Q)).FailedEntries } := by
            simp only [UQuestComponent.Run, FailQuest, hE0]
            rw [removeAll_store Q
              (FActiveQuestEntry.mk E0.Definition (FailQuest.failObjectives E0.ActiveObjectives))
              c.ActiveQuests hE2]
          rw [hrun]
          constructor
          · intro Id hId hmem
            rcases (mem_tSetAdd _ _ _).1 hmem with h1 | h1
            · exact ih1 Id hId h1
            · rw [h1] at hId; exact hc hId
          · intro E hE
            obtain ⟨Q1, h1, hq1, hc1, hf1, hne⟩ := hrem E hE
            refine ⟨Q1, h1, hq1, hc1, ?_⟩
            intro hmem
            rcases (mem_tSetAdd _ _ _).1 hmem with h2 | h2
            · exact hf1 h2
            · exact hne h2

/-- C20, as written, fails: `StartQuest` does not look at the failed set, so the
example quest can be started, failed, started again and completed; the tracker
reached holds its identifier in the completed set and in the failed set. -/
theorem completed_and_failed_after_retry :
    DistinctQuestIDs (fun Q => Q = ExampleQuest) ∧
    QuestReachable (fun Q => Q = ExampleQuest) ExampleFailedThenCompleted ∧
    FName.Name 100 ∈ ExampleFailedThenCompleted.CompletedQuestIDs ∧
    FName.Name 100 ∈ ExampleFailedThenCompleted.FailedQuestIDs := by
  refine ⟨fun Q1 Q2 h1 h2 _ => h1.trans h2.symm, ?_, by decide, by decide⟩
  unfold ExampleFailedThenCompleted
  refine QuestReachable.step _ (QuestReachable.step _ (QuestReachable.step _
    (QuestReachable.step _ QuestReachable.empty ?_) ?_) ?_) ?_
  · intro QuestDef Q h1 h2
    cases h1
    cases h2
    rfl
  · intro QuestDef Q h1; cases h1
  · intro QuestDef Q h1 h2
    cases h1
    cases h2
    rfl
  · intro QuestDef Q h1; cases h1

/-- C20 (amended). In every tracker state reached from the empty tracker by
`StartQuest`, `UpdateObjectiveProgress`, `CompleteQuest` and `FailQuest`, the quests
started having pairwise distinct identifiers and `StartQuest` never being called for
a quest whose identifier is in the failed set, no identifier is in the completed set
and in the failed set. -/
theorem completed_failed_disjoint (Quests : UQuestDefinition → Prop)
    (hdist : DistinctQuestIDs Quests) (c : UQuestComponent)
    (h : QuestReachableNoRetry Quests c) :
    ∀ Id, Id ∈ c.CompletedQuestIDs → Id ∉ c.FailedQuestIDs :=
  (noRetry_invariant Quests hdist c h).1

/-- C20 (amended) on the example quest, started and then failed: its identifier is in
the failed set, and nothing in the completed set is in the failed set. -/
theorem completed_failed_disjoint_witness :
    ((EmptyTracker.Run (QuestCommand.StartQuest (some ExampleQuest))).Run
      (QuestCommand.FailQuest (some ExampleQuest))).FailedQuestIDs = [FName.Name 100] ∧
    ∀ Id,
      Id ∈ ((EmptyTracker.Run (QuestCommand.StartQuest (some ExampleQuest))).Run
        (QuestCommand.FailQuest (some ExampleQuest))).CompletedQuestIDs →
      Id ∉ ((EmptyTracker.Run (QuestCommand.StartQuest (some ExampleQuest))).Run
        (QuestCommand.FailQuest (some ExampleQuest))).FailedQuestIDs :=
  ⟨by decide,
    completed_failed_disjoint (fun Q => Q = ExampleQuest)
      (fun Q1 Q2 h1 h2 _ => h1.trans h2.symm) _
      (QuestReachableNoRetry.step _
        (QuestReachableNoRetry.step _ QuestReachableNoRetry.empty
          (fun QuestDef Q h1 h2 => by
            cases h1
            cases h2
            exact ⟨rfl, by decide⟩))
        (fun QuestDef Q h1 => by cases h1))⟩

end MGS

namespace MGS
open UQuestComponent UObjectiveBase

/-! ## Quests: claims C21 to C23 -/

/-- In a tracker reached by the four commands, every active entry is for a quest of
`Quests` whose identifier is not in the completed set. -/
theorem reachable_active_invariant (Quests : UQuestDefinition → Prop)
    (hdist : DistinctQuestIDs Quests) (c : UQuestComponent) (h : QuestReachable Quests c) :
    ∀ E ∈ c.ActiveQuests, ∃ Q, E.Definition = some Q ∧ Quests Q ∧
      Q.QuestID ∉ c.CompletedQuestIDs := by
  induction h with
  | empty => exact fun E h => by simp [EmptyTracker] at h
  | @step c cmd hreach hcmd ih =>
    have hremove : ∀ Q E0, c.FindActiveEntry (some Q) = some E0 →
        ∀ E ∈ RemoveAllEntries Q c.ActiveQuests, ∃ Q1, E.Definition = some Q1 ∧ Quests Q1 ∧
          Q1.QuestID ∉ TSetAdd c.CompletedQuestIDs Q.QuestID := by
      intro Q E0 hE0 E hE
      obtain ⟨hm, hdef⟩ := findActiveEntry_some c Q E0 hE0
      obtain ⟨Q0, h0, hq0, _⟩ := ih E0 hm
      rw [hdef] at h0
      cases h0
      obtain ⟨hE1, hE2⟩ := (mem_removeAll Q c.ActiveQuests E).1 hE
      obtain ⟨Q1, h1, hq1, hc1⟩ := ih E hE1
      refine ⟨Q1, h1, hq1, ?_⟩
      intro hmem
      rcases (mem_tSetAdd _ _ _).1 hmem with h2 | h2
      · exact hc1 h2
      · have := hdist Q1 Q hq1 hq0 h2
        subst this
        exact hE2 h1
    cases cmd with
    | StartQuest QuestDef =>
      cases QuestDef with
      | none => exact ih
      | some Q =>
        have hq := hcmd (some Q) Q rfl rfl
        by_cases hgo : c.IsQuestActive (some Q) = true ∨ c.IsQuestCompleted (some Q) = true
        · have : c.Run (QuestCommand.StartQuest (some Q)) = c := by
            simp [UQuestComponent.Run, StartQuest, hgo]
          rw [this]; exact ih
        · have hnc : Q.QuestID ∉ c.CompletedQuestIDs := by
            intro hc
            exact hgo (Or.inr (by simp [IsQuestCompleted, hc]))
          have hrun : c.Run (QuestCommand.StartQuest (some Q)) =
              { c with
                ActiveQuests := c.ActiveQuests ++
                  [{ Definition := some Q
                     ActiveObjectives := StartQuest.instantiate Q.Objectives }]
                Broadcasts := c.Broadcasts ++ [QuestEvent.OnQuestStarted Q] } := by
            simp only [UQuestComponent.Run, StartQuest, hgo, if_false]
          rw [hrun]
          intro E hE
          rcases List.mem_append.1 hE with hE | hE
          · exact ih E hE
          · rw [List.mem_singleton] at hE
            subst hE
            exact ⟨Q, rfl, hq, hnc⟩
    | UpdateObjectiveProgress QuestDef ObjectiveID Delta =>
      rcases updateObjectiveProgress_cases c QuestDef ObjectiveID Delta with h | h
      · simp only [UQuestComponent.Run]
        rw [h]; exact ih
      · obtain ⟨Q, E0, E1, hE0, hE1, _, hrest⟩ := h
        simp only [UQuestComponent.Run]
        rcases hrest with ⟨ha, hcomp⟩ | ⟨ha, hcomp⟩
        · rw [ha, hcomp]
          intro E hE
          rcases mem_store Q E1 E c.ActiveQuests hE with h1 | h1
          · subst h1
            obtain ⟨hm, hdef⟩ := findActiveEntry_some c Q E0 hE0
            obtain ⟨Q0, h0, hq0, hc0⟩ := ih E0 hm
            rw [hdef] at h0
            cases h0
            exact ⟨Q, hE1, hq0, hc0⟩
          · exact ih E h1
        · rw [ha, hcomp]
          exact hremove Q E0 hE0
    | CompleteQuest QuestDef =>
      cases QuestDef with
      | none => exact ih
      | some Q =>
        cases hE0 : c.FindActiveEntry (some Q) with
        | none =>
          have : c.Run (QuestCommand.CompleteQuest (some Q)) = c := by
            simp only [UQuestComponent.Run, CompleteQuest, hE0]
          rw [this]; exact ih
        | some E0 =>
          have hrun : c.Run (QuestCommand.CompleteQuest (some Q)) =
              { c with
                ActiveQuests := RemoveAllEntries Q c.ActiveQuests
                CompletedQuestIDs := TSetAdd c.CompletedQuestIDs Q.QuestID
                Broadcasts := c.Broadcasts ++ [QuestEvent.OnQuestCompleted Q] } := by
            simp only [UQuestComponent.Run, CompleteQuest, hE0]
          rw [hrun]
          exact hremove Q E0 hE0
    | FailQuest QuestDef =>
      cases QuestDef with
      | none => exact ih
      | some Q =>
        cases hE0 : c.FindActiveEntry (some Q) with
        | none =>
          have : c.Run (QuestCommand.FailQuest (some Q)) = c := by
            simp only [UQuestComponent.Run, FailQuest, hE0]
          rw [this]; exact ih
        | some E0 =>
          have hE2 := (findActiveEntry_some c Q E0 hE0).2
          have hrun : c.Run (QuestCommand.FailQuest (some Q)) =
              { c with
                ActiveQuests := RemoveAllEntries Q c.ActiveQuests
                FailedQuestIDs := TSetAdd c.FailedQuestIDs Q.QuestID
                Broadcasts := c.Broadcasts ++ [QuestEvent.OnQuestFailed Q]
                FailedEntries := (c.FailQuest (some Q)).FailedEntries } := by
            simp only [UQuestComponent.Run, FailQuest, hE0]
            rw [removeAll_store Q
              (FActiveQuestEntry.mk E0.Definition (FailQuest.failObjectives E0.ActiveObjectives))
              c.ActiveQuests hE2]
          rw [hrun]
          intro E hE
          exact ih E ((mem_removeAll Q c.ActiveQuests E).1 hE).1

/-- C21, as written, fails for the failed set: after `StartQuest`, `FailQuest` and
`StartQuest` of the example quest, its identifier is in the failed set and the quest
is active. -/
theorem failed_quest_active_again :
    DistinctQuestIDs (fun Q => Q = ExampleQuest) ∧
    QuestReachable (fun Q => Q = ExampleQuest) ExampleRetried ∧
    ExampleQuest.QuestID ∈ ExampleRetried.FailedQuestIDs ∧
    ExampleRetried.IsQuestActive (some ExampleQuest) = true := by
  refine ⟨fun Q1 Q2 h1 h2 _ => h1.trans h2.symm, ?_, by decide, by decide⟩
  unfold ExampleRetried
  refine QuestReachable.step _ (QuestReachable.step _
    (QuestReachable.step _ QuestReachable.empty ?_) ?_) ?_
  · intro QuestDef Q h1 h2
    cases h1
    cases h2
    rfl
  · intro QuestDef Q h1; cases h1
  · intro QuestDef Q h1 h2
    cases h1
    cases h2
    rfl

/-- C21 (amended). In every tracker state reached from the empty tracker by
`StartQuest`, `UpdateObjectiveProgress`, `CompleteQuest` and `FailQuest`, the quests
started having pairwise distinct identifiers, a quest whose identifier is in the
completed set is not active. When, in addition, `StartQuest` is never called for a
quest whose identifier is in the failed set, a quest whose identifier is in the
failed set is not active. -/
theorem completed_or_failed_not_active (Quests : UQuestDefinition → Prop)
    (hdist : DistinctQuestIDs Quests) (c : UQuestComponent) :
    (QuestReachable Quests c →
      ∀ Q, Q.QuestID ∈ c.CompletedQuestIDs → c.IsQuestActive (some Q) = false) ∧
    (QuestReachableNoRetry Quests c →
      ∀ Q, Q.QuestID ∈ c.CompletedQuestIDs ∨ Q.QuestID ∈ c.FailedQuestIDs →
        c.IsQuestActive (some Q) = false) := by
  constructor
  · intro h Q hQ
    rw [Bool.eq_false_iff]
    intro hact
    obtain ⟨E, hE, hd⟩ := (isQuestActive_iff c Q).1 hact
    obtain ⟨Q1, h1, _, hc1⟩ := reachable_active_invariant Quests hdist c h E hE
    rw [hd] at h1
    cases h1
    exact hc1 hQ
  · intro h Q hQ
    rw [Bool.eq_false_iff]
    intro hact
    obtain ⟨E, hE, hd⟩ := (isQuestActive_iff c Q).1 hact
    obtain ⟨Q1, h1, _, hc1, hf1⟩ := (noRetry_invariant Quests hdist c h).2 E hE
    rw [hd] at h1
    cases h1
    rcases hQ with hQ | hQ
    · exact hc1 hQ
    · exact hf1 hQ

/-- C21 (amended) on the example quest: completed after a retry, it is not active;
failed and not started again, it is not active. -/
theorem completed_or_failed_not_active_witness :
    ExampleQuest.QuestID ∈ ExampleFailedThenCompleted.CompletedQuestIDs ∧
    ExampleFailedThenCompleted.IsQuestActive (some ExampleQuest) = false ∧
    ExampleQuest.QuestID ∈
      ((EmptyTracker.Run (QuestCommand.StartQuest (some ExampleQuest))).Run
        (QuestCommand.FailQuest (some ExampleQuest))).FailedQuestIDs ∧
    ((EmptyTracker.Run (QuestCommand.StartQuest (some ExampleQuest))).Run
      (QuestCommand.FailQuest (some ExampleQuest))).IsQuestActive (some ExampleQuest) = false :=
  ⟨by decide,
    (completed_or_failed_not_active (fun Q => Q = ExampleQuest)
      (fun Q1 Q2 h1 h2 _ => h1.trans h2.symm) ExampleFailedThenCompleted).1
      (QuestReachable.step _ (QuestReachable.step _ (QuestReachable.step _
        (QuestReachable.step _ QuestReachable.empty
          (fun QuestDef Q h1 h2 => by
            cases h1
            cases h2
            rfl))
        (fun QuestDef Q h1 => by cases h1))
        (fun QuestDef Q h1 h2 => by
          cases h1
          cases h2
          rfl))
        (fun QuestDef Q h1 => by cases h1))
      ExampleQuest (by decide),
    by decide,
    (completed_or_failed_not_active (fun Q => Q = ExampleQuest)
      (fun Q1 Q2 h1 h2 _ => h1.trans h2.symm) _).2
      (QuestReachableNoRetry.step _
        (QuestReachableNoRetry.step _ QuestReachableNoRetry.empty
          (fun QuestDef Q h1 h2 => by
            cases h1
            cases h2
            exact ⟨rfl, by decide⟩))
        (fun QuestDef Q h1 => by cases h1))
      ExampleQuest (Or.inr (by decide))⟩

end MGS

namespace MGS
open UQuestComponent UObjectiveBase

/-- C22. `CompleteQuest(Q)` leaves the tracker as it was when `Q` is null or no active
entry is for `Q`. When an entry is for `Q`, whatever the completion policy of `Q` and
whatever the states of the objective instances of the entry, it removes every entry
of `Q` from the active list (the other entries stay, in their order), inserts the
identifier of `Q` into the completed set and broadcasts one quest-completed event;
the failed set and the invocations of hooks are unchanged. -/
theorem completeQuest_spec (c : UQuestComponent) (QuestDef : Option UQuestDefinition) :
    ((QuestDef = none ∨ ∃ Q, QuestDef = some Q ∧ ∀ E ∈ c.ActiveQuests, E.Definition ≠ some Q) →
      c.CompleteQuest QuestDef = c) ∧
    (∀ Q E, QuestDef = some Q → E ∈ c.ActiveQuests → E.Definition = some Q →
      c.CompleteQuest QuestDef =
        { c with
          ActiveQuests := c.ActiveQuests.filter fun X => decide (X.Definition ≠ some Q)
          CompletedQuestIDs := TSetAdd c.CompletedQuestIDs Q.QuestID
          Broadcasts := c.Broadcasts ++ [QuestEvent.OnQuestCompleted Q] } ∧
      (c.CompleteQuest QuestDef).IsQuestActive (some Q) = false ∧
      Q.QuestID ∈ (c.CompleteQuest QuestDef).CompletedQuestIDs ∧
      (c.CompleteQuest QuestDef).FailedQuestIDs = c.FailedQuestIDs) := by
  constructor
  · rintro (h | ⟨Q, rfl, h⟩)
    · subst h; rfl
    · have := (findActiveEntry_none_iff c Q).2 h
      simp only [CompleteQuest, this]
  · intro Q E hQ hE hd
    subst hQ
    cases hfind : c.FindActiveEntry (some Q) with
    | none => exact absurd hd ((findActiveEntry_none_iff c Q).1 hfind E hE)
    | some E0 =>
      have hrun : c.CompleteQuest (some Q) =
          { c with
            ActiveQuests := c.ActiveQuests.filter fun X => decide (X.Definition ≠ some Q)
            CompletedQuestIDs := TSetAdd c.CompletedQuestIDs Q.QuestID
            Broadcasts := c.Broadcasts ++ [QuestEvent.OnQuestCompleted Q] } := by
        simp only [CompleteQuest, hfind, RemoveAllEntries]
        congr 2
        funext X
        simp
      refine ⟨hrun, ?_, ?_, ?_⟩
      · rw [hrun]
        simp [IsQuestActive, FindActiveEntry, List.find?_eq_none]
      · rw [hrun]; exact (mem_tSetAdd _ _ _).2 (Or.inr rfl)
      · rw [hrun]

/-- C22 on the example quest: started, with no objective completed, it is completed
by `CompleteQuest`; a second `CompleteQuest` changes nothing. -/
theorem completeQuest_spec_witness :
    (ExampleStarted.CompleteQuest (some ExampleQuest)).ActiveQuests = [] ∧
    (ExampleStarted.CompleteQuest (some ExampleQuest)).CompletedQuestIDs = [FName.Name 100] ∧
    (ExampleStarted.CompleteQuest (some ExampleQuest)).Broadcasts =
      ExampleStarted.Broadcasts ++ [QuestEvent.OnQuestCompleted ExampleQuest] ∧
    (ExampleStarted.CompleteQuest (some ExampleQuest)).CompleteQuest (some ExampleQuest) =
      ExampleStarted.CompleteQuest (some ExampleQuest) :=
  ⟨by decide, by decide, by decide,
    (completeQuest_spec (ExampleStarted.CompleteQuest (some ExampleQuest))
      (some ExampleQuest)).1 (Or.inr ⟨ExampleQuest, rfl, by decide⟩)⟩

/-- An objective with the identifier is found exactly when one is in the list. -/
theorem find_none_iff (ObjectiveID : FName) (l : List (Option UObjectiveBase)) (k : Nat) :
    UpdateObjectiveProgress.find ObjectiveID k l = none ↔
      ∀ o, some o ∈ l → o.ObjectiveID ≠ ObjectiveID := by
  induction l generalizing k with
  | nil => simp [UpdateObjectiveProgress.find]
  | cons e rest ih =>
    cases e with
    | none => simp [UpdateObjectiveProgress.find, ih]
    | some o1 =>
      by_cases h : o1.ObjectiveID = ObjectiveID
      · simp [UpdateObjectiveProgress.find, h]
      · simp [UpdateObjectiveProgress.find, h, ih]

/-- C23. `UpdateObjectiveProgress(Q, id, delta)` leaves the tracker as it was (active
entries with the progress and state of every objective, completed set, failed set,
broadcasts made, hooks invoked) when `Q` is null, when no active entry is for `Q`,
when no objective instance of the entry of `Q` has the identifier `id`, when `id` is
`None`, or when `delta <= 0`. -/
theorem updateObjectiveProgress_no_op (c : UQuestComponent) (QuestDef : Option UQuestDefinition)
    (ObjectiveID : FName) (Delta : Int)
    (h : QuestDef = none ∨ Delta ≤ 0 ∨ ObjectiveID = FName.NAME_None ∨
      ∃ Q, QuestDef = some Q ∧
        ((∀ E ∈ c.ActiveQuests, E.Definition ≠ some Q) ∨
          ∃ E, c.FindActiveEntry (some Q) = some E ∧
            ∀ o, some o ∈ E.ActiveObjectives → o.ObjectiveID ≠ ObjectiveID)) :
    c.UpdateObjectiveProgress QuestDef ObjectiveID Delta = c := by
  rcases h with h | h | h | ⟨Q, rfl, h | ⟨E, hE, h⟩⟩
  · subst h; rfl
  · cases QuestDef with
    | none => rfl
    | some Q => simp [UpdateObjectiveProgress, h]
  · subst h
    cases QuestDef with
    | none => rfl
    | some Q => simp [UpdateObjectiveProgress, FName.IsNone]
  · have := (findActiveEntry_none_iff c Q).2 h
    simp only [UpdateObjectiveProgress, this]
    split_ifs <;> rfl
  · have := (find_none_iff ObjectiveID E.ActiveObjectives 0).2 h
    simp only [UpdateObjectiveProgress, hE, this]
    split_ifs <;> rfl

/-- C23 on the example quest: an update of a quest that is not active, an update with
an identifier no objective has, and an update with `delta = 0` change nothing. -/
theorem updateObjectiveProgress_no_op_witness :
    EmptyTracker.UpdateObjectiveProgress (some ExampleQuest) (FName.Name 1) 1 = EmptyTracker ∧
    ExampleStarted.UpdateObjectiveProgress (some ExampleQuest) (FName.Name 7) 1 = ExampleStarted ∧
    ExampleStarted.UpdateObjectiveProgress (some ExampleQuest) (FName.Name 1) 0 = ExampleStarted :=
  ⟨updateObjectiveProgress_no_op EmptyTracker (some ExampleQuest) (FName.Name 1) 1
      (Or.inr (Or.inr (Or.inr ⟨ExampleQuest, rfl, Or.inl (by decide)⟩))),
    by decide, by decide⟩

end MGS

namespace MGS

/-! ## Rejection at the boundary: claim C24 -/

/-- C24. Every mutation called with a null definition or class, and `AddItem` and
`RemoveItem` called with `Quantity <= 0`, reports failure and leaves the registry,
the ledger or the tracker as it was, broadcasts and invocations of hooks included:
`GiveAbility` returns no instance; `TryActivateAbility`, `AddItem` (whatever the
bound on its loop), `RemoveItem` and `StartQuest` return `false`; `RemoveAbility`,
`CancelAbility`, `CompleteQuest`, `FailQuest` and `UpdateObjectiveProgress` return. -/
theorem null_rejected :
    (∀ c : UAbilityComponent,
      c.GiveAbility none = (none, c) ∧ c.RemoveAbility none = c ∧
      c.TryActivateAbility none = (false, c) ∧ c.CancelAbility none = c) ∧
    (∀ (c : UInventoryComponent) (fuel : Nat) (ItemDef : Option UItemDefinition)
        (Quantity : Int),
      ItemDef = none ∨ Quantity ≤ 0 →
        c.AddItem fuel ItemDef Quantity = some (false, c) ∧
        c.RemoveItem ItemDef Quantity = (false, c)) ∧
    (∀ (c : UQuestComponent) (ObjectiveID : FName) (Delta : Int),
      c.StartQuest none = (false, c) ∧ c.CompleteQuest none = c ∧ c.FailQuest none = c ∧
      c.UpdateObjectiveProgress none ObjectiveID Delta = c) := by
  refine ⟨fun c => ⟨rfl, rfl, rfl, rfl⟩, ?_, fun c _ _ => ⟨rfl, rfl, rfl, rfl⟩⟩
  intro c fuel ItemDef Quantity h
  refine ⟨addItem_invalid c ItemDef Quantity fuel h, ?_⟩
  cases ItemDef with
  | none => rfl
  | some D =>
    rcases h with h | h
    · cases h
    · simp [UInventoryComponent.RemoveItem, h]

/-- C24 on the examples: a null class on a registry that holds an active ability, a
null definition and a quantity of 0 on a ledger that holds stacks, and a null quest
on a tracker with an active quest. -/
theorem null_rejected_witness :
    (ExampleChannelling.GiveAbility none = (none, ExampleChannelling) ∧
      ExampleChannelling.RemoveAbility none = ExampleChannelling ∧
      ExampleChannelling.TryActivateAbility none = (false, ExampleChannelling) ∧
      ExampleChannelling.CancelAbility none = ExampleChannelling) ∧
    (ExampleReached.AddItem 0 (some ExampleItem) 0 = some (false, ExampleReached) ∧
      ExampleReached.RemoveItem (some ExampleItem) 0 = (false, ExampleReached)) ∧
    (ExampleReached.AddItem 0 none 5 = some (false, ExampleReached) ∧
      ExampleReached.RemoveItem none 5 = (false, ExampleReached)) ∧
    (ExampleStarted.StartQuest none = (false, ExampleStarted) ∧
      ExampleStarted.CompleteQuest none = ExampleStarted ∧
      ExampleStarted.FailQuest none = ExampleStarted ∧
      ExampleStarted.UpdateObjectiveProgress none (FName.Name 1) 1 = ExampleStarted) :=
  ⟨null_rejected.1 ExampleChannelling,
    null_rejected.2.1 ExampleReached 0 (some ExampleItem) 0 (Or.inr (by decide)),
    null_rejected.2.1 ExampleReached 0 none 5 (Or.inl rfl),
    null_rejected.2.2 ExampleStarted (FName.Name 1) 1⟩

end MGS

namespace MGS
open UInventoryComponent

/-! ## Events of `AddItem`: claim C25 -/

end MGS

namespace MGS
open UAbilityComponent UMgsGameplayAbility

/-! ## Abilities: the registry invariant -/

theorem commitEnd_frame (self : UMgsGameplayAbility) (Comp : UAbilityComponent) :
    (self.CommitEnd Comp).1.Object = self.Object ∧
      (self.CommitEnd Comp).1.Class = self.Class ∧
      (self.CommitEnd Comp).2.GrantedAbilities = Comp.GrantedAbilities ∧
      (self.CommitEnd Comp).2.NextObject = Comp.NextObject ∧
      ∃ new, (self.CommitEnd Comp).2.Broadcasts = Comp.Broadcasts ++ new := by
  obtain ⟨f1, f2, _, _, f5, f6, _, f8⟩ := internalEnd_frame self Comp false
  by_cases h : self.State = EAbilityState.Active
  · rw [commitEnd_active self Comp h]
    exact ⟨f1, f2, f5, f8, [AbilityEvent.OnAbilityEnded (self.InternalEnd Comp false).1],
      by simp only [f6]⟩
  · rw [commitEnd_not_active self Comp h]
    exact ⟨rfl, rfl, rfl, rfl, [], by simp⟩

theorem runCalls_frame (Calls : List AbilityCall) :
    ∀ (self : UMgsGameplayAbility) (Comp : UAbilityComponent),
      (RunCalls Calls self Comp).1.Object = self.Object ∧
      (RunCalls Calls self Comp).1.Class = self.Class ∧
      (RunCalls Calls self Comp).2.GrantedAbilities = Comp.GrantedAbilities ∧
      (RunCalls Calls self Comp).2.NextObject = Comp.NextObject ∧
      ∃ new, (RunCalls Calls self Comp).2.Broadcasts = Comp.Broadcasts ++ new := by
  induction Calls with
  | nil => intro self Comp; exact ⟨rfl, rfl, rfl, rfl, [], by simp [RunCalls]⟩
  | cons call rest ih =>
    intro self Comp
    cases call with
    | CommitEnd =>
      obtain ⟨f1, f2, f3, f4, n1, f5⟩ := commitEnd_frame self Comp
      obtain ⟨g1, g2, g3, g4, n2, g5⟩ := ih (self.CommitEnd Comp).1 (self.CommitEnd Comp).2
      simp only [RunCalls]
      exact ⟨g1.trans f1, g2.trans f2, g3.trans f3, g4.trans f4, n1 ++ n2,
        by rw [g5, f5, List.append_assoc]⟩
    | InternalEnd b =>
      obtain ⟨f1, f2, _, _, f5, f6, _, f8⟩ := internalEnd_frame self Comp b
      obtain ⟨g1, g2, g3, g4, n2, g5⟩ := ih (self.InternalEnd Comp b).1 (self.InternalEnd Comp b).2
      simp only [RunCalls]
      exact ⟨g1.trans f1, g2.trans f2, g3.trans f5, g4.trans f8, n2, by rw [g5, f6]⟩

theorem internalActivate_frame (self : UMgsGameplayAbility) (Comp : UAbilityComponent)
    (InOwner : Option AActor) :
    (self.InternalActivate Comp InOwner).1.Object = self.Object ∧
      (self.InternalActivate Comp InOwner).1.Class = self.Class ∧
      (self.InternalActivate Comp InOwner).2.GrantedAbilities = Comp.GrantedAbilities ∧
      (self.InternalActivate Comp InOwner).2.NextObject = Comp.NextObject ∧
      ∃ new, (self.InternalActivate Comp InOwner).2.Broadcasts = Comp.Broadcasts ++ new := by
  simp only [InternalActivate, UMgsGameplayAbility.ActivateAbility]
  cases h : self.Class.ActivateAbility with
  | none =>
    exact commitEnd_frame
      { self with AbilityOwner := InOwner, State := EAbilityState.Active }
      { Comp with Calls := Comp.Calls ++ [AbilityHook.ActivateAbility
          { self with AbilityOwner := InOwner, State := EAbilityState.Active }] }
  | some Calls =>
    exact runCalls_frame Calls
      { self with AbilityOwner := InOwner, State := EAbilityState.Active }
      { Comp with Calls := Comp.Calls ++ [AbilityHook.ActivateAbility
          { self with AbilityOwner := InOwner, State := EAbilityState.Active }] }

theorem mem_grantedKeys (l : List (Option UMgsGameplayAbility)) (k : Nat × UClass) :
    k ∈ GrantedKeys l ↔ ∃ a, some a ∈ l ∧ (a.Object, a.Class) = k := by
  simp [GrantedKeys]

theorem store_keys (l : List (Option UMgsGameplayAbility)) (a1 : UMgsGameplayAbility)
    (h : ∀ Ab, some Ab ∈ l → Ab.Object = a1.Object → Ab.Class = a1.Class) :
    GrantedKeys (l.map fun Entry =>
      match Entry with
      | none => none
      | some Ab => if Ab.Object = a1.Object then some a1 else some Ab) = GrantedKeys l := by
  induction l with
  | nil => rfl
  | cons e rest ih =>
    have ih1 := ih fun Ab hAb => h Ab (List.mem_cons_of_mem _ hAb)
    cases e with
    | none => simpa [GrantedKeys] using ih1
    | some Ab =>
      simp only [GrantedKeys, List.map_cons, List.filterMap_cons] at ih1 ⊢
      by_cases ho : Ab.Object = a1.Object
      · have hc := h Ab (List.mem_cons_self _ _) ho
        simp only [ho, if_true, id, List.map_cons, hc]
        rw [ih1]
      · simp only [ho, if_false, id, List.map_cons]
        rw [ih1]

theorem keys_class_of_object (l : List (Option UMgsGameplayAbility))
    (hnd : ((GrantedKeys l).map Prod.fst).Nodup) (a b : UMgsGameplayAbility)
    (ha : some a ∈ l) (hb : some b ∈ l) (ho : a.Object = b.Object) : a.Class = b.Class := by
  have h1 : (a.Object, a.Class) ∈ GrantedKeys l := (mem_grantedKeys l _).2 ⟨a, ha, rfl⟩
  have h2 : (b.Object, b.Class) ∈ GrantedKeys l := (mem_grantedKeys l _).2 ⟨b, hb, rfl⟩
  have := List.inj_on_of_nodup_map hnd h1 h2 ho
  exact (Prod.mk.inj this).2

/-- Writing an instance that keeps its identity and its class keeps the invariant. -/
theorem store_invariant (c c1 : UAbilityComponent) (a a1 : UMgsGameplayAbility)
    (hinv : RegistryInvariant c) (ha : some a ∈ c.GrantedAbilities)
    (ho : a1.Object = a.Object) (hc : a1.Class = a.Class)
    (hg : c1.GrantedAbilities = c.GrantedAbilities) (hn : c1.NextObject = c.NextObject) :
    RegistryInvariant (c1.Store a1) ∧
      GrantedKeys (c1.Store a1).GrantedAbilities = GrantedKeys c.GrantedAbilities := by
  have hk : GrantedKeys (c1.Store a1).GrantedAbilities = GrantedKeys c.GrantedAbilities := by
    simp only [Store, hg]
    apply store_keys
    intro Ab hAb hAbo
    rw [hc]
    exact keys_class_of_object c.GrantedAbilities hinv.2.1 Ab a hAb ha (hAbo.trans ho)
  refine ⟨?_, hk⟩
  unfold RegistryInvariant
  rw [hk]
  have : (c1.Store a1).NextObject = c.NextObject := by simp only [Store, hn]
  rw [this]
  exact hinv

theorem findLoop_none_iff (C : UClass) (l : List (Option UMgsGameplayAbility)) :
    FindAbilityByClass.loop C l = none ↔ ∀ a, some a ∈ l → a.Class ≠ C := by
  induction l with
  | nil => simp [FindAbilityByClass.loop]
  | cons e rest ih =>
    cases e with
    | none => simp [FindAbilityByClass.loop, ih]
    | some Ab =>
      by_cases h : Ab.Class = C
      · simp [FindAbilityByClass.loop, h]
      · simp [FindAbilityByClass.loop, h, ih]

theorem removeEntries_keys (o : Nat) (l : List (Option UMgsGameplayAbility)) :
    (GrantedKeys (RemoveEntries o l)).Sublist (GrantedKeys l) := by
  unfold GrantedKeys RemoveEntries
  exact ((List.filter_sublist l).filterMap id).map _

theorem removeEntries_store (o : Nat) (l : List (Option UMgsGameplayAbility))
    (a1 : UMgsGameplayAbility) (ho : a1.Object = o) :
    RemoveEntries o (l.map fun Entry =>
      match Entry with
      | none => none
      | some Ab => if Ab.Object = a1.Object then some a1 else some Ab) = RemoveEntries o l := by
  subst ho
  unfold RemoveEntries
  induction l with
  | nil => rfl
  | cons e rest ih =>
    cases e with
    | none =>
      simp only [List.map_cons, List.filter_cons, if_true]
      rw [ih]
    | some Ab =>
      by_cases h : Ab.Object = a1.Object
      · simp only [List.map_cons, List.filter_cons, h, if_true, ne_eq, not_true_eq_false,
          decide_False, Bool.false_eq_true, if_false]
        exact ih
      · simp only [List.map_cons, List.filter_cons, h, if_false, ne_eq, not_false_eq_true,
          decide_True, if_true]
        rw [ih]

end MGS

namespace MGS
open UAbilityComponent UMgsGameplayAbility

theorem giveAbility_invariant (c : UAbilityComponent) (hinv : RegistryInvariant c)
    (AbilityClass : Option UClass) : RegistryInvariant (c.GiveAbility AbilityClass).2 := by
  cases AbilityClass with
  | none => exact hinv
  | some C =>
    cases hfind : c.FindAbilityByClass (some C) with
    | some a =>
      have : (c.GiveAbility (some C)).2 = c := by simp only [GiveAbility, hfind]
      rw [this]; exact hinv
    | none =>
      have hrun : (c.GiveAbility (some C)).2 =
          { c with
            GrantedAbilities := c.GrantedAbilities ++ [some (c.NewObject C)]
            NextObject := c.NextObject + 1
            Broadcasts := c.Broadcasts ++ [AbilityEvent.OnAbilityGranted (c.NewObject C)] } := by
        simp only [GiveAbility, hfind]
      have hk : GrantedKeys (c.GrantedAbilities ++ [some (c.NewObject C)]) =
          GrantedKeys c.GrantedAbilities ++ [(c.NextObject, C)] := by
        simp [GrantedKeys, List.filterMap_append, NewObject]
      have hnone := (findLoop_none_iff C c.GrantedAbilities).1 hfind
      obtain ⟨h1, h2, h3⟩ := hinv
      rw [hrun]
      unfold RegistryInvariant
      simp only [hk, List.map_append, List.map_cons, List.map_nil]
      refine ⟨?_, ?_, ?_⟩
      · apply List.Nodup.append h1 (List.nodup_singleton _)
        intro x hx hx2
        rw [List.mem_singleton] at hx2
        subst hx2
        obtain ⟨k, hk1, hk2⟩ := List.mem_map.1 hx
        obtain ⟨a, ha, hak⟩ := (mem_grantedKeys _ _).1 hk1
        apply hnone a ha
        rw [← hk2, ← hak]
      · apply List.Nodup.append h2 (List.nodup_singleton _)
        intro x hx hx2
        rw [List.mem_singleton] at hx2
        subst hx2
        obtain ⟨k, hk1, hk2⟩ := List.mem_map.1 hx
        have := h3 k hk1
        omega
      · intro k hk
        rcases List.mem_append.1 hk with hk | hk
        · have := h3 k hk; omega
        · rw [List.mem_singleton] at hk
          subst hk
          exact Nat.lt_succ_self _

theorem removeAbility_invariant (c : UAbilityComponent) (hinv : RegistryInvariant c)
    (AbilityClass : Option UClass) : RegistryInvariant (c.RemoveAbility AbilityClass) := by
  cases hfind : c.FindAbilityByClass AbilityClass with
  | none =>
    have : c.RemoveAbility AbilityClass = c := by simp only [RemoveAbility, hfind]
    rw [this]; exact hinv
  | some a =>
    have ha := (findAbilityByClass_mem c AbilityClass a hfind).1
    have hr : ∃ a1 c1, (if a.IsActive = true then a.InternalEnd c true else (a, c)) = (a1, c1) ∧
        a1.Object = a.Object ∧ a1.Class = a.Class ∧ c1.GrantedAbilities = c.GrantedAbilities ∧
        c1.NextObject = c.NextObject := by
      split_ifs
      · obtain ⟨f1, f2, _, _, f5, _, _, f8⟩ := internalEnd_frame a c true
        exact ⟨_, _, rfl, f1, f2, f5, f8⟩
      · exact ⟨_, _, rfl, rfl, rfl, rfl, rfl⟩
    obtain ⟨a1, c1, hrr, ho, hc, hg, hn⟩ := hr
    obtain ⟨⟨h1, h2, h3⟩, hk⟩ := store_invariant c c1 a a1 hinv ha ho hc hg hn
    have hrun : c.RemoveAbility AbilityClass =
        { c1.Store a1 with
          GrantedAbilities := RemoveEntries a.Object (c1.Store a1).GrantedAbilities } := by
      simp only [RemoveAbility, hfind, hrr]
    rw [hrun]
    have hsub := removeEntries_keys a.Object (c1.Store a1).GrantedAbilities
    exact ⟨h1.sublist (hsub.map _), h2.sublist (hsub.map _), fun k hk1 => h3 k (hsub.subset hk1)⟩

theorem tryActivateAbility_invariant (c : UAbilityComponent) (hinv : RegistryInvariant c)
    (AbilityClass : Option UClass) :
    RegistryInvariant (c.TryActivateAbility AbilityClass).2 := by
  cases hfind : c.FindAbilityByClass AbilityClass with
  | none =>
    have : (c.TryActivateAbility AbilityClass).2 = c := by simp only [TryActivateAbility, hfind]
    rw [this]; exact hinv
  | some a =>
    have ha := (findAbilityByClass_mem c AbilityClass a hfind).1
    by_cases hcan : a.CanActivate = false
    · have : (c.TryActivateAbility AbilityClass).2 = c := by
        simp only [TryActivateAbility, hfind, hcan, if_true]
      rw [this]; exact hinv
    · obtain ⟨f1, f2, f3, f4, _⟩ := internalActivate_frame a
        { c with Broadcasts := c.Broadcasts ++ [AbilityEvent.OnAbilityActivated a] } c.Owner
      have hrun : (c.TryActivateAbility AbilityClass).2 =
          (a.InternalActivate
            { c with Broadcasts := c.Broadcasts ++ [AbilityEvent.OnAbilityActivated a] }
            c.Owner).2.Store
          (a.InternalActivate
            { c with Broadcasts := c.Broadcasts ++ [AbilityEvent.OnAbilityActivated a] }
            c.Owner).1 := by
        simp [TryActivateAbility, hfind, hcan]
      rw [hrun]
      exact (store_invariant c _ a _ hinv ha f1 f2 f3 f4).1

theorem cancelAbility_invariant (c : UAbilityComponent) (hinv : RegistryInvariant c)
    (AbilityClass : Option UClass) : RegistryInvariant (c.CancelAbility AbilityClass) := by
  cases hfind : c.FindAbilityByClass AbilityClass with
  | none =>
    have : c.CancelAbility AbilityClass = c := by simp only [CancelAbility, hfind]
    rw [this]; exact hinv
  | some a =>
    have ha := (findAbilityByClass_mem c AbilityClass a hfind).1
    by_cases hact : a.IsActive = true
    · obtain ⟨f1, f2, _, _, f5, _, _, f8⟩ := internalEnd_frame a c true
      have hrun : c.CancelAbility AbilityClass =
          ((a.InternalEnd c true).2.NotifyAbilityEnded (some (a.InternalEnd c true).1)).Store
            (a.InternalEnd c true).1 := by
        simp only [CancelAbility, hfind, hact, if_true]
      rw [hrun]
      exact (store_invariant c _ a _ hinv ha f1 f2 f5 f8).1
    · have : c.CancelAbility AbilityClass = c := by
        simp only [CancelAbility, hfind, hact, if_false]
        rfl
      rw [this]; exact hinv

theorem cancelAllLoop_invariant (rest : List (Option UMgsGameplayAbility)) :
    ∀ Comp : UAbilityComponent, RegistryInvariant Comp →
      (∀ a, some a ∈ rest → (a.Object, a.Class) ∈ GrantedKeys Comp.GrantedAbilities) →
      RegistryInvariant (CancelAllAbilities.loop rest Comp) := by
  induction rest with
  | nil => intro Comp hinv _; exact hinv
  | cons e rest ih =>
    intro Comp hinv hmem
    have hmem1 : ∀ a, some a ∈ rest → (a.Object, a.Class) ∈ GrantedKeys Comp.GrantedAbilities :=
      fun a ha => hmem a (List.mem_cons_of_mem _ ha)
    cases e with
    | none => exact ih Comp hinv hmem1
    | some Ability =>
      simp only [CancelAllAbilities.loop]
      split_ifs with hact
      · obtain ⟨f1, f2, _, _, f5, _, _, f8⟩ := internalEnd_frame Ability Comp true
        obtain ⟨b, hb, hbk⟩ := (mem_grantedKeys _ _).1 (hmem Ability (List.mem_cons_self _ _))
        obtain ⟨hb1, hb2⟩ := Prod.mk.inj hbk
        obtain ⟨hinv1, hk⟩ := store_invariant Comp
          { (Ability.InternalEnd Comp true).2 with
            Broadcasts := (Ability.InternalEnd Comp true).2.Broadcasts ++
              [AbilityEvent.OnAbilityEnded (Ability.InternalEnd Comp true).1] }
          b (Ability.InternalEnd Comp true).1 hinv hb (f1.trans hb1.symm) (f2.trans hb2.symm)
          f5 f8
        apply ih _ hinv1
        intro a ha
        rw [hk]
        exact hmem1 a ha
      · exact ih Comp hinv hmem1

/-- Every command keeps the registry invariant. -/
theorem run_invariant (c : UAbilityComponent) (hinv : RegistryInvariant c)
    (cmd : AbilityCommand) : RegistryInvariant (c.Run cmd) := by
  cases cmd with
  | GiveAbility C => exact giveAbility_invariant c hinv C
  | RemoveAbility C => exact removeAbility_invariant c hinv C
  | TryActivateAbility C => exact tryActivateAbility_invariant c hinv C
  | CancelAbility C => exact cancelAbility_invariant c hinv C
  | CancelAllAbilities =>
    exact cancelAllLoop_invariant c.GrantedAbilities c hinv
      fun a ha => (mem_grantedKeys _ _).2 ⟨a, ha, rfl⟩
  | CommitEnd Object =>
    simp only [UAbilityComponent.Run, CallCommitEnd]
    cases hfind : c.FindAbilityByObject Object with
    | none => exact hinv
    | some a =>
      have ha := (findAbilityByObject_mem c Object a hfind).1
      obtain ⟨f1, f2, f3, f4, _⟩ := commitEnd_frame a c
      exact (store_invariant c _ a _ hinv ha f1 f2 f3 f4).1
  | CooldownExpired Object =>
    simp only [UAbilityComponent.Run, FireCooldownTimer]
    cases hfind : c.FindAbilityByObject Object with
    | none => exact hinv
    | some a =>
      have ha := (findAbilityByObject_mem c Object a hfind).1
      show RegistryInvariant (c.Store a.InternalCooldownExpired)
      exact (store_invariant c c a a.InternalCooldownExpired hinv ha rfl rfl rfl rfl).1

/-- Every registry that can be reached satisfies the registry invariant. -/
theorem reachable_registryInvariant (c : UAbilityComponent) (h : AbilityReachable c) :
    RegistryInvariant c := by
  induction h with
  | empty c h0 =>
    unfold RegistryInvariant
    rw [h0]
    simp [GrantedKeys]
  | step cmd _ ih => exact run_invariant _ ih cmd
  | tick Now _ ih => exact ih

end MGS

namespace MGS
open UAbilityComponent UMgsGameplayAbility

/-! ## Abilities: claims C26 to C29 -/

/-- C26. In every registry reached from a registry with no ability granted by
`GiveAbility`, `RemoveAbility`, `TryActivateAbility`, `CancelAbility`,
`CancelAllAbilities`, a `CommitEnd` of an instance, the expiry of a cooldown timer and
the passing of time, no two instances of the granted list have the same class; and
`GiveAbility` of a class that has an instance returns that instance and leaves the
registry as it was. -/
theorem one_instance_per_class (c : UAbilityComponent) (h : AbilityReachable c) :
    (c.GetGrantedAbilities.map UMgsGameplayAbility.Class).Nodup ∧
    ∀ C a, c.FindAbilityByClass (some C) = some a →
      c.GiveAbility (some C) = (some a.Object, c) := by
  constructor
  · have h1 := (reachable_registryInvariant c h).1
    simpa [GrantedKeys, GetGrantedAbilities, List.map_map, Function.comp] using h1
  · intro C a hfind
    simp only [GiveAbility, hfind]

/-- C26 on the example registry: after `GiveAbility` and `TryActivateAbility` of the
example class, a second `GiveAbility` of it returns the instance granted first and
changes nothing; the granted list holds one instance. -/
theorem one_instance_per_class_witness :
    (ExampleCoolingDown.GetGrantedAbilities.map UMgsGameplayAbility.Class).Nodup ∧
    ExampleCoolingDown.GiveAbility (some ExampleClass) = (some 0, ExampleCoolingDown) ∧
    ExampleCoolingDown.GetGrantedAbilities.length = 1 :=
  ⟨(one_instance_per_class ExampleCoolingDown
      (AbilityReachable.step (AbilityCommand.TryActivateAbility (some ExampleClass))
        (AbilityReachable.step (AbilityCommand.GiveAbility (some ExampleClass))
          (AbilityReachable.empty ExampleRegistry rfl)))).1,
    by decide, by decide⟩

/-- C27. `RemoveAbility(C)` leaves the registry as it was when `C` has no instance
(`HasAbility(C)` is false). When `FindAbilityByClass` finds the instance `a`, every
entry that holds `a` leaves the granted list and the other entries stay as they
were, in their order; if `a` was `Active`, the end behaviour was invoked once, on `a`,
with cancelled = true, by an `InternalEnd` made on the registry whose list still held
`a`, and otherwise no behaviour was invoked; no event is broadcast and no timer is
set. When no two instances have the same class, `HasAbility(C)` is false
afterwards. -/
theorem removeAbility_spec (c : UAbilityComponent) (AbilityClass : Option UClass) :
    (c.HasAbility AbilityClass = false → c.RemoveAbility AbilityClass = c) ∧
    (∀ a, c.FindAbilityByClass AbilityClass = some a →
      c.RemoveAbility AbilityClass =
        { (if a.State = EAbilityState.Active then (a.InternalEnd c true).2 else c) with
          GrantedAbilities :=
            c.GrantedAbilities.filter fun Entry =>
              match Entry with
              | none => true
              | some Ab => decide (Ab.Object ≠ a.Object) } ∧
      (c.RemoveAbility AbilityClass).Calls =
        c.Calls ++
          (if a.State = EAbilityState.Active then [AbilityHook.EndAbility a true] else []) ∧
      (c.RemoveAbility AbilityClass).Broadcasts = c.Broadcasts ∧
      (c.RemoveAbility AbilityClass).World = c.World ∧
      ((c.GetGrantedAbilities.map UMgsGameplayAbility.Class).Nodup →
        (c.RemoveAbility AbilityClass).HasAbility AbilityClass = false)) := by
  constructor
  · intro h
    have : c.FindAbilityByClass AbilityClass = none := by
      cases hf : c.FindAbilityByClass AbilityClass with
      | none => rfl
      | some a => simp [HasAbility, hf] at h
    simp only [RemoveAbility, this]
  · intro a hfind
    obtain ⟨ha, hcls⟩ := findAbilityByClass_mem c AbilityClass a hfind
    have hrun : c.RemoveAbility AbilityClass =
        { (if a.State = EAbilityState.Active then (a.InternalEnd c true).2 else c) with
          GrantedAbilities :=
            c.GrantedAbilities.filter fun Entry =>
              match Entry with
              | none => true
              | some Ab => decide (Ab.Object ≠ a.Object) } := by
      by_cases hs : a.State = EAbilityState.Active
      · have hact : a.IsActive = true := by simp [IsActive, hs]
        obtain ⟨f1, _, _, _, f5, _, _, _⟩ := internalEnd_frame a c true
        simp only [RemoveAbility, hfind, hact, if_true, hs, Store, f5]
        rw [removeEntries_store a.Object c.GrantedAbilities (a.InternalEnd c true).1 f1]
        rfl
      · have hact : a.IsActive = false := by simp [IsActive, hs]
        simp only [RemoveAbility, hfind, hact, hs, if_false, Store, Bool.false_eq_true]
        rw [removeEntries_store a.Object c.GrantedAbilities a rfl]
        rfl
    refine ⟨hrun, ?_, ?_, ?_, ?_⟩
    · rw [hrun]
      by_cases hs : a.State = EAbilityState.Active
      · simp only [hs, if_true]
        rw [internalEnd_cancelled a c hs]
      · simp only [hs, if_false, List.append_nil]
    · rw [hrun]
      by_cases hs : a.State = EAbilityState.Active
      · simp only [hs, if_true]
        rw [internalEnd_cancelled a c hs]
      · simp only [hs, if_false]
    · rw [hrun]
      by_cases hs : a.State = EAbilityState.Active
      · simp only [hs, if_true]
        rw [internalEnd_cancelled a c hs]
      · simp only [hs, if_false]
    · intro hnd
      rw [hrun, hcls]
      simp only [HasAbility, FindAbilityByClass]
      have hnone : FindAbilityByClass.loop a.Class
          (c.GrantedAbilities.filter fun Entry =>
            match Entry with
            | none => true
            | some Ab => decide (Ab.Object ≠ a.Object)) = none := by
        rw [findLoop_none_iff]
        intro b hb hbc
        obtain ⟨hb1, hb2⟩ := List.mem_filter.1 hb
        simp only [ne_eq, decide_eq_true_eq] at hb2
        have hmem : ∀ x, some x ∈ c.GrantedAbilities → x ∈ c.GetGrantedAbilities := by
          intro x hx
          simp [GetGrantedAbilities, hx]
        have := List.inj_on_of_nodup_map hnd (hmem b hb1) (hmem a ha) hbc
        exact hb2 (by rw [this])
      rw [hnone]
      rfl

/-- C27 on the example registry whose instance is `Active`: `RemoveAbility` invokes
the end behaviour once with cancelled = true, broadcasts nothing, and the class has
no instance afterwards; a second `RemoveAbility` changes nothing. -/
theorem removeAbility_spec_witness :
    ExampleChannelling.GrantedAbilities.map (Option.map UMgsGameplayAbility.State) =
      [some EAbilityState.Active] ∧
    (ExampleChannelling.RemoveAbility (some ExampleChannel)).GrantedAbilities = [] ∧
    (ExampleChannelling.RemoveAbility (some ExampleChannel)).Calls.length =
      ExampleChannelling.Calls.length + 1 ∧
    (ExampleChannelling.RemoveAbility (some ExampleChannel)).Broadcasts =
      ExampleChannelling.Broadcasts ∧
    (ExampleChannelling.RemoveAbility (some ExampleChannel)).HasAbility (some ExampleChannel) =
      false ∧
    (ExampleChannelling.RemoveAbility (some ExampleChannel)).RemoveAbility (some ExampleChannel) =
      ExampleChannelling.RemoveAbility (some ExampleChannel) :=
  ⟨by decide, by decide, by decide, by decide, by decide,
    (removeAbility_spec (ExampleChannelling.RemoveAbility (some ExampleChannel))
      (some ExampleChannel)).1 (by decide)⟩

end MGS

namespace MGS
open UAbilityComponent UMgsGameplayAbility

/-- C29 does not hold of the code. Whenever `TryActivateAbility` returns `true`, the
instance carried by the activated event, as it is when the event is broadcast, is
`Inactive`: the broadcast is made before `InternalActivate` sets the state. On the
example registry the instance of `ExampleChannel` is `Active` after the call and stays
so, and the activated event still shows it `Inactive`. -/
theorem activated_event_sees_inactive :
    (∀ (c : UAbilityComponent) (AbilityClass : Option UClass),
      (c.TryActivateAbility AbilityClass).1 = true →
        ∃ a new, c.FindAbilityByClass AbilityClass = some a ∧
          a.State = EAbilityState.Inactive ∧
          (c.TryActivateAbility AbilityClass).2.Broadcasts =
            c.Broadcasts ++ AbilityEvent.OnAbilityActivated a :: new) ∧
    ((ExampleRegistry.GiveAbility (some ExampleChannel)).2.TryActivateAbility
        (some ExampleChannel)).1 = true ∧
    ExampleChannelling.GrantedAbilities.map (Option.map UMgsGameplayAbility.State) =
      [some EAbilityState.Active] ∧
    ExampleChannelling.Broadcasts =
      [AbilityEvent.OnAbilityGranted (ExampleRegistry.NewObject ExampleChannel),
        AbilityEvent.OnAbilityActivated
          { Object := 0, Class := ExampleChannel, CooldownDuration := 3, AbilityOwner := none,
            State := EAbilityState.Inactive, CooldownStartTime := 0 }] := by
  refine ⟨?_, by decide, by decide, by decide⟩
  intro c AbilityClass h
  cases hfind : c.FindAbilityByClass AbilityClass with
  | none => simp [TryActivateAbility, hfind] at h
  | some a =>
    by_cases hcan : a.CanActivate = false
    · simp [TryActivateAbility, hfind, hcan] at h
    · have hs : a.State = EAbilityState.Inactive := by
        simpa [CanActivate] using hcan
      obtain ⟨_, _, _, _, new, f5⟩ := internalActivate_frame a
        { c with Broadcasts := c.Broadcasts ++ [AbilityEvent.OnAbilityActivated a] } c.Owner
      have hrun : (c.TryActivateAbility AbilityClass).2 =
          (a.InternalActivate
            { c with Broadcasts := c.Broadcasts ++ [AbilityEvent.OnAbilityActivated a] }
            c.Owner).2.Store
          (a.InternalActivate
            { c with Broadcasts := c.Broadcasts ++ [AbilityEvent.OnAbilityActivated a] }
            c.Owner).1 := by
        simp [TryActivateAbility, hfind, hcan]
      refine ⟨a, new, rfl, hs, ?_⟩
      rw [hrun]
      simp only [Store, f5, List.append_assoc, List.singleton_append]

end MGS

namespace MGS
open UInventoryComponent

/-! ## Round trip when a stack is opened: claim C30 -/

theorem spareCapacity_nonneg (D : UItemDefinition) (l : List (Option UItemInstance)) :
    0 ≤ SpareCapacity D l := by
  induction l with
  | nil => exact le_refl _
  | cons e rest ih =>
    cases e with
    | none => exact ih
    | some i =>
      simp only [SpareCapacity]
      have : 0 ≤ (if i.ItemDefinition = some D then i.GetRemainingCapacity else 0) := by
        split_ifs with h
        · by_cases hq : i.Quantity < D.MaxStackSize
          · rw [getRemainingCapacity_notFull D i h hq]; omega
          · rw [getRemainingCapacity_full D i h (not_lt.1 hq)]
        · exact le_refl _
      omega

/-- When more is added than the stacks of `D` can take, the first step of `AddItem`
leaves the difference. -/
theorem topUp_remaining_spare (D : UItemDefinition) (l : List (Option UItemInstance)) :
    ∀ r : Int, 0 < r → SpareCapacity D l < r →
      (AddItem.topUp D l r).2 = r - SpareCapacity D l := by
  induction l with
  | nil => intro r _ _; simp [AddItem.topUp, SpareCapacity]
  | cons e rest ih =>
    intro r hr hs
    rcases topUp_cases D e with hfull | ⟨i, rfl, hd, hq⟩
    · rw [topUp_skip D e rest r hfull]
      cases e with
      | none => exact ih r hr hs
      | some i =>
        simp only [SpareCapacity] at hs ⊢
        by_cases hd : i.ItemDefinition = some D
        · have h0 := getRemainingCapacity_full D i hd (hfull i rfl hd)
          simp only [hd, if_true, h0, zero_add] at hs ⊢
          exact ih r hr hs
        · simp only [hd, if_false, zero_add] at hs ⊢
          exact ih r hr hs
    · have hcap := getRemainingCapacity_notFull D i hd hq
      have hnn := spareCapacity_nonneg D rest
      simp only [SpareCapacity, hd, if_true, hcap] at hs ⊢
      rw [topUp_fill D i rest r hd hq hr]
      have : ¬ (r ≤ D.MaxStackSize - i.Quantity) := by omega
      rw [if_neg this]
      simp only
      rw [ih (r - (D.MaxStackSize - i.Quantity)) (by omega) (by omega)]
      ring

theorem no_stack_iff_units (D : UItemDefinition) (l : List (Option UItemInstance))
    (h : ∀ i, some i ∈ l → 1 ≤ i.Quantity) :
    (∀ e ∈ l, IsStackOf D e = false) ↔ Units D l = 0 := by
  induction l with
  | nil => simp [Units]
  | cons e rest ih =>
    have ih1 := ih fun i hi => h i (List.mem_cons_of_mem _ hi)
    have hnn := units_nonneg D rest fun i hi => h i (List.mem_cons_of_mem _ hi)
    simp only [List.mem_cons, forall_eq_or_imp, Units, ih1]
    cases e with
    | none => simp [IsStackOf, UnitsOf]
    | some i =>
      have hq := h i (List.mem_cons_self _ _)
      by_cases hd : i.ItemDefinition = some D
      · simp only [IsStackOf, UnitsOf, hd, decide_True, if_true, Bool.true_eq_false, false_and,
          false_iff]
        omega
      · simp [IsStackOf, UnitsOf, hd]

/-- What `AddItem` and then `RemoveItem` of the same quantity give on a ledger whose
stacks of `D` are all full but the last: the stacks of before, one more entry at
least in between when the quantity exceeds the spare capacity. -/
theorem addItem_removeItem_items (c c1 : UInventoryComponent) (D : UItemDefinition) (n : Int)
    (fuel : Nat) (hinv : LedgerInvariant c) (hshape : StackShape D c.Items)
    (hD : 1 ≤ D.MaxStackSize) (hn : 0 < n)
    (hadd : c.AddItem fuel (some D) n = some (true, c1))
    (hfit : Units D c.Items + n ≤ INT_MAX) :
    (c1.RemoveItem (some D) n).1 = true ∧ (c1.RemoveItem (some D) n).2.Items = c.Items ∧
      (SpareCapacity D c.Items < n → c.Items.length < c1.Items.length) := by
  have hadd2 := addItem_mono c (some D) n fuel (max fuel n.toNat) (true, c1)
    (le_max_left _ _) hadd
  obtain ⟨t0, tle⟩ := topUp_remaining D c.Items n hn
  obtain ⟨ok1, new, R1, heq, hnew, hunits, _, _, _, htrue, _, _, _⟩ :=
    openSlots_spec D hD c.MaxSlots (max fuel n.toNat)
      (AddItem.topUp D c.Items n).1 (AddItem.topUp D c.Items n).2 t0
      (by have := le_max_right fuel n.toNat; omega)
  rw [addItem_of_openSlots c D n hn _ ok1 _ R1 heq] at hadd2
  simp only [Option.some.injEq, Prod.mk.injEq] at hadd2
  obtain ⟨hok, hc1⟩ := hadd2
  have hR1 : R1 = 0 := htrue hok
  rw [hR1] at hunits
  have hitems : c1.Items = (AddItem.topUp D c.Items n).1 ++ new := by rw [← hc1]
  have hcpos : ∀ i, some i ∈ c.Items → 1 ≤ i.Quantity := fun i hi => (hinv.1 i hi).1
  have hnn := units_nonneg D c.Items hcpos
  have hunits1 : Units D c1.Items = Units D c.Items + n := by
    rw [hitems, units_append, topUp_units D c.Items n hn, hunits]; ring
  have hcount : c1.GetItemCount (some D) = Units D c.Items + n := by
    rw [getItemCount_fits c1 D (by omega) (by omega), hunits1]
  rw [removeItem_ok c1 D n hn (by rw [hcount]; omega)]
  refine ⟨rfl, ?_, ?_⟩
  · simp only
    rw [hitems, drain_append, drain_new D new n hnew (by rw [hunits]; omega)]
    simp only [hunits, sub_zero]
    rw [drain_topUp D c.Items n hn hinv.1 hshape]
    simp
  · intro hs
    have hrem := topUp_remaining_spare D c.Items n hn hs
    have hne : new ≠ [] := by
      intro h0
      rw [h0] at hunits
      simp only [Units] at hunits
      omega
    rw [hitems, List.length_append, topUp_length D c.Items n hn]
    have := List.length_pos.2 hne
    omega

/-- C30, as written, fails: the reachable ledger `[10, 5]` has a spare capacity of 5
for `ExampleItem`; `AddItem` of 7 units succeeds and opens a third stack, and the
`RemoveItem` of 7 units that follows leaves the stacks `[10, 5]`, 15 units of
`ExampleItem`, not a ledger empty of it. -/
theorem round_trip_not_empty :
    Reachable 0 ExampleReached ∧
    SpareCapacity ExampleItem ExampleReached.Items = 5 ∧
    ExampleReached.AddItem 7 (some ExampleItem) 7 = some (true, ExampleReachedPlus7) ∧
    ExampleReachedPlus7.Items.length = ExampleReached.Items.length + 1 ∧
    (ExampleReachedPlus7.RemoveItem (some ExampleItem) 7).1 = true ∧
    (ExampleReachedPlus7.RemoveItem (some ExampleItem) 7).2.Items =
      (ExampleLedger 0 [10, 5]).Items ∧
    (ExampleReachedPlus7.RemoveItem (some ExampleItem) 7).2.GetItemCount (some ExampleItem) =
      15 :=
  ⟨Reachable.addItem 15 (some ExampleItem) 15 true Reachable.empty
      (by intro Def h; cases h; decide) (by decide),
    by decide, by decide, by decide, by decide, by decide, by decide⟩

/-- C30 (amended). In a ledger reached from the empty ledger by `AddItem`,
`RemoveItem` and `ClearInventory` (definitions with `MaxStackSize >= 1`), when
`AddItem(D, n)` returns `true` with `n > 0` greater than the spare capacity of the
stacks of `D` (so that the array has grown by one stack at least) and the units of
`D` held, the `n` added included, do not exceed `INT_MAX`, the following
`RemoveItem(D, n)` returns `true` and leaves the array of stacks as it was before the
`AddItem`; `GetItemCount(D)` is what it was, and the ledger is empty of `D`
afterwards exactly when it held no unit of `D` before. -/
theorem addItem_removeItem_new_stack (MaxSlots : Int) (c c1 : UInventoryComponent)
    (D : UItemDefinition) (n : Int) (fuel : Nat) (hreach : Reachable MaxSlots c)
    (hD : 1 ≤ D.MaxStackSize) (hn : 0 < n)
    (hadd : c.AddItem fuel (some D) n = some (true, c1))
    (hspare : SpareCapacity D c.Items < n) (hfit : Units D c.Items + n ≤ INT_MAX) :
    c.Items.length < c1.Items.length ∧
    (c1.RemoveItem (some D) n).1 = true ∧
    (c1.RemoveItem (some D) n).2.Items = c.Items ∧
    (c1.RemoveItem (some D) n).2.GetItemCount (some D) = c.GetItemCount (some D) ∧
    ((∀ e ∈ (c1.RemoveItem (some D) n).2.Items, IsStackOf D e = false) ↔
      c.GetItemCount (some D) = 0) := by
  obtain ⟨_, hinv, hshape⟩ := reachable_invariant MaxSlots c hreach
  obtain ⟨h1, h2, h3⟩ :=
    addItem_removeItem_items c c1 D n fuel hinv (hshape D) hD hn hadd hfit
  have hnn := units_nonneg D c.Items fun i hi => (hinv.1 i hi).1
  refine ⟨h3 hspare, h1, h2, ?_, ?_⟩
  · rw [getItemCount_some, getItemCount_some, h2]
  · rw [h2, getItemCount_fits c D hnn (by omega)]
    exact no_stack_iff_units D c.Items fun i hi => (hinv.1 i hi).1

/-- C30 (amended) on two ledgers. The reachable ledger `[10, 5]`: 7 units are added
(spare capacity 5) and removed, and the stacks are `[10, 5]` again. The empty ledger:
15 units are added and removed, and the ledger is empty of the item again. -/
theorem addItem_removeItem_new_stack_witness :
    SpareCapacity ExampleItem ExampleReached.Items < 7 ∧
    Units ExampleItem ExampleReached.Items + 7 ≤ INT_MAX ∧
    (ExampleReached.Items.length < ExampleReachedPlus7.Items.length ∧
      (ExampleReachedPlus7.RemoveItem (some ExampleItem) 7).1 = true ∧
      (ExampleReachedPlus7.RemoveItem (some ExampleItem) 7).2.Items = ExampleReached.Items ∧
      (ExampleReachedPlus7.RemoveItem (some ExampleItem) 7).2.GetItemCount (some ExampleItem) =
        ExampleReached.GetItemCount (some ExampleItem) ∧
      ((∀ e ∈ (ExampleReachedPlus7.RemoveItem (some ExampleItem) 7).2.Items,
          IsStackOf ExampleItem e = false) ↔
        ExampleReached.GetItemCount (some ExampleItem) = 0)) ∧
    (ExampleReached.RemoveItem (some ExampleItem) 15).2.Items = [] :=
  ⟨by decide, by decide,
    addItem_removeItem_new_stack 0 ExampleReached ExampleReachedPlus7 ExampleItem 7 7
      (Reachable.addItem 15 (some ExampleItem) 15 true Reachable.empty
        (by intro Def h; cases h; decide) (by decide))
      (by decide) (by decide) (by decide) (by decide) (by decide),
    by decide⟩

end MGS

namespace MGS
open UQuestComponent UObjectiveBase

/-! ## Quests: one entry through a command -/

theorem find_store_ne (Q Q1 : UQuestDefinition) (E1 : FActiveQuestEntry)
    (l : List FActiveQuestEntry) (hne : Q1 ≠ Q) (h1 : E1.Definition = some Q1) :
    (StoreEntry Q1 E1 l).find? (fun X => decide (X.Definition = some Q)) =
      l.find? (fun X => decide (X.Definition = some Q)) := by
  have hE1 : ¬ (E1.Definition = some Q) := by
    rw [h1]; intro h; exact hne (Option.some.inj h)
  induction l with
  | nil => rfl
  | cons X rest ih =>
    by_cases hX : X.Definition = some Q1
    · have hXQ : ¬ (X.Definition = some Q) := by
        rw [hX]; intro h; exact hne (Option.some.inj h)
      rw [StoreEntry, if_pos hX]
      simp only [List.find?_cons, hE1, hXQ, decide_False]
    · rw [StoreEntry, if_neg hX]
      simp only [List.find?_cons]
      rw [ih]

theorem find_removeAll_ne (Q Q1 : UQuestDefinition) (l : List FActiveQuestEntry)
    (hne : Q1 ≠ Q) :
    (RemoveAllEntries Q1 l).find? (fun X => decide (X.Definition = some Q)) =
      l.find? (fun X => decide (X.Definition = some Q)) := by
  unfold RemoveAllEntries
  induction l with
  | nil => rfl
  | cons X rest ih =>
    by_cases hX : X.Definition = some Q1
    · have hXQ : ¬ (X.Definition = some Q) := by
        rw [hX]; intro h; exact hne (Option.some.inj h)
      have h1 : (!decide (X.Definition = some Q1)) = false := by simp [hX]
      rw [List.filter_cons_of_neg (by simp [hX])]
      simp only [List.find?_cons, hXQ, decide_False]
      exact ih
    · rw [List.filter_cons_of_pos (by simp [hX])]
      simp only [List.find?_cons]
      rw [ih]

/-- The tracker after `UpdateObjectiveProgress`: as it was, or as
`updateObjectiveProgress_found` gives it. -/
theorem updateObjectiveProgress_unfold (c : UQuestComponent)
    (QuestDef : Option UQuestDefinition) (ObjectiveID : FName) (Delta : Int) :
    c.UpdateObjectiveProgress QuestDef ObjectiveID Delta = c ∨
      ∃ Q E i Obj, QuestDef = some Q ∧ ObjectiveID ≠ FName.NAME_None ∧ 0 < Delta ∧
        c.FindActiveEntry (some Q) = some E ∧
        UpdateObjectiveProgress.find ObjectiveID 0 E.ActiveObjectives = some (i, Obj) := by
  cases QuestDef with
  | none => exact Or.inl rfl
  | some Q =>
    by_cases hID : ObjectiveID = FName.NAME_None
    · left; subst hID; simp [UpdateObjectiveProgress, FName.IsNone]
    by_cases hd : 0 < Delta
    swap
    · left
      have : Delta ≤ 0 := not_lt.1 hd
      simp [UpdateObjectiveProgress, this]
    cases hE : c.FindActiveEntry (some Q) with
    | none =>
      left
      simp only [UpdateObjectiveProgress, hE]
      split_ifs <;> rfl
    | some E =>
      cases hfind : UpdateObjectiveProgress.find ObjectiveID 0 E.ActiveObjectives with
      | none =>
        left
        simp only [UpdateObjectiveProgress, hE, hfind]
        split_ifs <;> rfl
      | some p =>
        obtain ⟨i, Obj⟩ := p
        exact Or.inr ⟨Q, E, i, Obj, rfl, hID, hd, hE, hfind⟩

/-- What a command does to the entry of an active quest: it leaves it, it advances one
of its objectives, or it removes it, and then the command is `CompleteQuest` or
`FailQuest` of the quest, or an update that completed an objective of the quest while
it requires all objectives and all are completed. -/
theorem run_find (c : UQuestComponent) (cmd : QuestCommand) (Q : UQuestDefinition)
    (E : FActiveQuestEntry) (hE : c.FindActiveEntry (some Q) = some E) :
    (c.Run cmd).FindActiveEntry (some Q) = some E ∨
    (∃ ObjectiveID Delta i Obj,
      cmd = QuestCommand.UpdateObjectiveProgress (some Q) ObjectiveID Delta ∧
      ObjectiveID ≠ FName.NAME_None ∧ 0 < Delta ∧
      UpdateObjectiveProgress.find ObjectiveID 0 E.ActiveObjectives = some (i, Obj) ∧
      ((c.Run cmd).FindActiveEntry (some Q) =
          some { E with
            ActiveObjectives := E.ActiveObjectives.set i (some (Obj.AddProgress Delta).2.1) } ∨
        ((Obj.AddProgress Delta).1 = true ∧ Q.bRequireAllObjectives = true ∧
          CheckQuestCompletion.bAllCompleted
            { E with
              ActiveObjectives :=
                E.ActiveObjectives.set i (some (Obj.AddProgress Delta).2.1) } = true ∧
          (c.Run cmd).FindActiveEntry (some Q) = none))) ∨
    ((cmd = QuestCommand.CompleteQuest (some Q) ∨ cmd = QuestCommand.FailQuest (some Q)) ∧
      (c.Run cmd).FindActiveEntry (some Q) = none) := by
  have hE2 := (findActiveEntry_some c Q E hE).2
  have hEf : c.ActiveQuests.find? (fun X => decide (X.Definition = some Q)) = some E := hE
  cases cmd with
  | StartQuest QuestDef =>
    left
    cases QuestDef with
    | none => exact hE
    | some Q1 =>
      by_cases hgo : c.IsQuestActive (some Q1) = true ∨ c.IsQuestCompleted (some Q1) = true
      · have : c.Run (QuestCommand.StartQuest (some Q1)) = c := by
          simp [UQuestComponent.Run, StartQuest, hgo]
        rw [this]; exact hE
      · simp only [UQuestComponent.Run, StartQuest, hgo, if_false, FindActiveEntry]
        rw [List.find?_append, hEf]
        rfl
  | UpdateObjectiveProgress QuestDef ObjectiveID Delta =>
    rcases updateObjectiveProgress_unfold c QuestDef ObjectiveID Delta with h | h
    · left
      simp only [UQuestComponent.Run]
      rw [h]; exact hE
    · obtain ⟨Q1, E1, i, Obj, rfl, hID, hd, hE1, hfind⟩ := h
      have hd1 := (findActiveEntry_some c Q1 E1 hE1).2
      have hrun := updateObjectiveProgress_found c Q1 E1 ObjectiveID Delta i Obj hE1 hID hd hfind
      by_cases hQ : Q1 = Q
      · subst hQ
        rw [hE] at hE1
        cases hE1
        right; left
        refine ⟨ObjectiveID, Delta, i, Obj, rfl, hID, hd, hfind, ?_⟩
        simp only [UQuestComponent.Run]
        rw [hrun]
        have hst : (StoreEntry Q1
            { E with
              ActiveObjectives := E.ActiveObjectives.set i (some (Obj.AddProgress Delta).2.1) }
            c.ActiveQuests).find? (fun X => decide (X.Definition = some Q1)) =
            some { E with
              ActiveObjectives :=
                E.ActiveObjectives.set i (some (Obj.AddProgress Delta).2.1) } :=
          find_store Q1 E _ c.ActiveQuests hE hE2
        by_cases hr : (Obj.AddProgress Delta).1 = true
        · rw [if_pos hr]
          by_cases hall : Q1.bRequireAllObjectives = true ∧
              CheckQuestCompletion.bAllCompleted
                { E with
                  ActiveObjectives :=
                    E.ActiveObjectives.set i (some (Obj.AddProgress Delta).2.1) } = true
          · rw [if_pos hall]
            exact Or.inr ⟨hr, hall.1, hall.2, find_removeAll Q1 c.ActiveQuests⟩
          · rw [if_neg hall]
            exact Or.inl hst
        · rw [if_neg hr]
          exact Or.inl hst
      · left
        simp only [UQuestComponent.Run]
        rw [hrun]
        have h1 : (StoreEntry Q1
            { E1 with
              ActiveObjectives := E1.ActiveObjectives.set i (some (Obj.AddProgress Delta).2.1) }
            c.ActiveQuests).find? (fun X => decide (X.Definition = some Q)) = some E := by
          exact (find_store_ne Q Q1
            (FActiveQuestEntry.mk E1.Definition
              (E1.ActiveObjectives.set i (some (Obj.AddProgress Delta).2.1)))
            c.ActiveQuests hQ hd1).trans hEf
        have h2 : (RemoveAllEntries Q1 c.ActiveQuests).find?
            (fun X => decide (X.Definition = some Q)) = some E := by
          exact (find_removeAll_ne Q Q1 c.ActiveQuests hQ).trans hEf
        split_ifs
        · exact h2
        · exact h1
        · exact h1
  | CompleteQuest QuestDef =>
    by_cases hQ : QuestDef = some Q
    · subst hQ
      right; right
      refine ⟨Or.inl rfl, ?_⟩
      simp only [UQuestComponent.Run, CompleteQuest, hE]
      exact find_removeAll Q c.ActiveQuests
    · left
      cases QuestDef with
      | none => exact hE
      | some Q1 =>
        have hne : Q1 ≠ Q := fun h => hQ (by rw [h])
        cases hE1 : c.FindActiveEntry (some Q1) with
        | none =>
          simp only [UQuestComponent.Run, CompleteQuest, hE1]
          exact hE
        | some E1 =>
          simp only [UQuestComponent.Run, CompleteQuest, hE1]
          exact (find_removeAll_ne Q Q1 c.ActiveQuests hne).trans hEf
  | FailQuest QuestDef =>
    by_cases hQ : QuestDef = some Q
    · subst hQ
      right; right
      refine ⟨Or.inr rfl, ?_⟩
      simp only [UQuestComponent.Run, FailQuest, hE]
      exact find_removeAll Q _
    · left
      cases QuestDef with
      | none => exact hE
      | some Q1 =>
        have hne : Q1 ≠ Q := fun h => hQ (by rw [h])
        cases hE1 : c.FindActiveEntry (some Q1) with
        | none =>
          simp only [UQuestComponent.Run, FailQuest, hE1]
          exact hE
        | some E1 =>
          have hd1 := (findActiveEntry_some c Q1 E1 hE1).2
          simp only [UQuestComponent.Run, FailQuest, hE1]
          exact ((find_removeAll_ne Q Q1 _ hne).trans
            (find_store_ne Q Q1
              (FActiveQuestEntry.mk E1.Definition (FailQuest.failObjectives E1.ActiveObjectives))
              c.ActiveQuests hne hd1)).trans hEf

end MGS

namespace MGS
open UQuestComponent UObjectiveBase

/-! ## Quests: the entries of a reachable tracker -/

/-- Where an entry of the active list after a command comes from: it was there, it is
the entry `StartQuest` makes, or it is an entry that was there with one objective
advanced by `AddProgress`. -/
theorem run_entries (c : UQuestComponent) (cmd : QuestCommand) (E1 : FActiveQuestEntry)
    (h : E1 ∈ (c.Run cmd).ActiveQuests) :
    E1 ∈ c.ActiveQuests ∨
    (∃ Q, cmd = QuestCommand.StartQuest (some Q) ∧
      E1 = { Definition := some Q, ActiveObjectives := StartQuest.instantiate Q.Objectives }) ∨
    (∃ E ∈ c.ActiveQuests, ∃ ObjectiveID Delta i Obj,
      ObjectiveID ≠ FName.NAME_None ∧ 0 < Delta ∧
      UpdateObjectiveProgress.find ObjectiveID 0 E.ActiveObjectives = some (i, Obj) ∧
      E1 = { E with
        ActiveObjectives := E.ActiveObjectives.set i (some (Obj.AddProgress Delta).2.1) }) := by
  cases cmd with
  | StartQuest QuestDef =>
    cases QuestDef with
    | none => exact Or.inl h
    | some Q =>
      by_cases hgo : c.IsQuestActive (some Q) = true ∨ c.IsQuestCompleted (some Q) = true
      · have : c.Run (QuestCommand.StartQuest (some Q)) = c := by
          simp [UQuestComponent.Run, StartQuest, hgo]
        rw [this] at h; exact Or.inl h
      · simp only [UQuestComponent.Run, StartQuest, hgo, if_false] at h
        rcases List.mem_append.1 h with h | h
        · exact Or.inl h
        · rw [List.mem_singleton] at h
          exact Or.inr (Or.inl ⟨Q, rfl, h⟩)
  | UpdateObjectiveProgress QuestDef ObjectiveID Delta =>
    simp only [UQuestComponent.Run] at h
    rcases updateObjectiveProgress_unfold c QuestDef ObjectiveID Delta with h1 | h1
    · rw [h1] at h; exact Or.inl h
    · obtain ⟨Q, E, i, Obj, rfl, hID, hd, hE, hfind⟩ := h1
      have hrun := updateObjectiveProgress_found c Q E ObjectiveID Delta i Obj hE hID hd hfind
      have hmem := (findActiveEntry_some c Q E hE).1
      have hcase : E1 ∈ RemoveAllEntries Q c.ActiveQuests ∨
          E1 ∈ StoreEntry Q
            { E with
              ActiveObjectives := E.ActiveObjectives.set i (some (Obj.AddProgress Delta).2.1) }
            c.ActiveQuests := by
        rw [hrun] at h
        split_ifs at h
        · exact Or.inl h
        · exact Or.inr h
        · exact Or.inr h
      rcases hcase with h2 | h2
      · exact Or.inl ((mem_removeAll Q c.ActiveQuests E1).1 h2).1
      · rcases mem_store Q _ E1 c.ActiveQuests h2 with h3 | h3
        · exact Or.inr (Or.inr ⟨E, hmem, ObjectiveID, Delta, i, Obj, hID, hd, hfind, h3⟩)
        · exact Or.inl h3
  | CompleteQuest QuestDef =>
    left
    cases QuestDef with
    | none => exact h
    | some Q =>
      cases hE : c.FindActiveEntry (some Q) with
      | none =>
        simp only [UQuestComponent.Run, CompleteQuest, hE] at h
        exact h
      | some E =>
        simp only [UQuestComponent.Run, CompleteQuest, hE] at h
        exact ((mem_removeAll Q c.ActiveQuests E1).1 h).1
  | FailQuest QuestDef =>
    left
    cases QuestDef with
    | none => exact h
    | some Q =>
      cases hE : c.FindActiveEntry (some Q) with
      | none =>
        simp only [UQuestComponent.Run, FailQuest, hE] at h
        exact h
      | some E =>
        have hd := (findActiveEntry_some c Q E hE).2
        simp only [UQuestComponent.Run, FailQuest, hE] at h
        rw [removeAll_store Q
          (FActiveQuestEntry.mk E.Definition (FailQuest.failObjectives E.ActiveObjectives))
          c.ActiveQuests hd] at h
        exact ((mem_removeAll Q c.ActiveQuests E1).1 h).1

/-- A property of entries that holds of the entries `StartQuest` makes and is kept by
`AddProgress` on an objective found holds of every entry of a reachable tracker. -/
theorem reachable_entries (Quests : UQuestDefinition → Prop) (P : FActiveQuestEntry → Prop)
    (hstart : ∀ Q, Quests Q →
      P { Definition := some Q, ActiveObjectives := StartQuest.instantiate Q.Objectives })
    (hupd : ∀ (E : FActiveQuestEntry) (ObjectiveID : FName) (Delta : Int) (i : Nat)
      (Obj : UObjectiveBase), P E → ObjectiveID ≠ FName.NAME_None → 0 < Delta →
      UpdateObjectiveProgress.find ObjectiveID 0 E.ActiveObjectives = some (i, Obj) →
      P { E with
        ActiveObjectives := E.ActiveObjectives.set i (some (Obj.AddProgress Delta).2.1) })
    (c : UQuestComponent) (h : QuestReachable Quests c) : ∀ E ∈ c.ActiveQuests, P E := by
  induction h with
  | empty => exact fun E h => by simp [EmptyTracker] at h
  | @step c cmd _ hcmd ih =>
    intro E1 hE1
    rcases run_entries c cmd E1 hE1 with h | ⟨Q, hQ, rfl⟩ | ⟨E, hE, id, d, i, Obj, hID, hd, hf, rfl⟩
    · exact ih E1 h
    · exact hstart Q (hcmd (some Q) Q hQ rfl)
    · exact hupd E id d i Obj (ih E hE) hID hd hf

theorem mem_instantiate (l : List (Option UObjectiveBase)) (o : UObjectiveBase)
    (h : some o ∈ StartQuest.instantiate l) :
    ∃ t, some t ∈ l ∧ o = t.Activate := by
  rw [instantiate_eq] at h
  simp only [List.mem_map, List.mem_filterMap, id, Option.some.injEq] at h
  obtain ⟨t, ⟨e, he, het⟩, hto⟩ := h
  subst het
  exact ⟨t, he, hto.symm⟩

/-- The objective after `AddProgress`: the identifier and the required progress are
kept; with `0 <= current <= required` and state `Active` or `Completed`, `Completed`
exactly at `current = required`, the same holds afterwards and the progress has not
decreased, provided the sum `current + Delta`, when it is computed, does not exceed
`INT_MAX`. -/
theorem addProgress_keeps (Obj : UObjectiveBase) (Delta : Int) :
    (Obj.AddProgress Delta).2.1.ObjectiveID = Obj.ObjectiveID ∧
    (Obj.AddProgress Delta).2.1.RequiredProgress = Obj.RequiredProgress ∧
    ((0 ≤ Obj.CurrentProgress ∧ Obj.CurrentProgress ≤ Obj.RequiredProgress ∧
        (Obj.State = EObjectiveState.Active ∨ Obj.State = EObjectiveState.Completed) ∧
        (Obj.State = EObjectiveState.Completed ↔ Obj.CurrentProgress = Obj.RequiredProgress)) →
      (Obj.State = EObjectiveState.Active → 0 < Delta →
        Obj.CurrentProgress + Delta ≤ INT_MAX) →
      0 ≤ (Obj.AddProgress Delta).2.1.CurrentProgress ∧
      (Obj.AddProgress Delta).2.1.CurrentProgress ≤ Obj.RequiredProgress ∧
      ((Obj.AddProgress Delta).2.1.State = EObjectiveState.Active ∨
        (Obj.AddProgress Delta).2.1.State = EObjectiveState.Completed) ∧
      ((Obj.AddProgress Delta).2.1.State = EObjectiveState.Completed ↔
        (Obj.AddProgress Delta).2.1.CurrentProgress = Obj.RequiredProgress) ∧
      Obj.CurrentProgress ≤ (Obj.AddProgress Delta).2.1.CurrentProgress) := by
  by_cases hs : Obj.State = EObjectiveState.Active
  · by_cases hd : 0 < Delta
    · rw [addProgress_active Obj Delta hs hd]
      refine ⟨rfl, rfl, ?_⟩
      rintro ⟨h0, h1, _, _⟩ hfit
      rw [wrapInt32_of_fits (Obj.CurrentProgress + Delta) (by unfold INT_MIN; omega)
        (hfit hs hd)]
      simp only [fmath_min_eq]
      refine ⟨le_min (by omega) (by omega), min_le_right _ _, ?_, ?_, le_min (by omega) h1⟩
      · split_ifs
        · exact Or.inr rfl
        · exact Or.inl rfl
      · split_ifs with h
        · exact ⟨(fun _ => h), (fun _ => rfl)⟩
        · exact ⟨(fun h2 => by cases h2), (fun h2 => absurd h2 h)⟩
    · have : Obj.AddProgress Delta = (false, Obj, []) := by
        simp [AddProgress, not_lt.1 hd]
      rw [this]
      exact ⟨rfl, rfl, fun ⟨h0, h1, h2, h3⟩ _ => ⟨h0, h1, h2, h3, le_refl _⟩⟩
  · rw [addProgress_not_active Obj Delta hs]
    exact ⟨rfl, rfl, fun ⟨h0, h1, h2, h3⟩ _ => ⟨h0, h1, h2, h3, le_refl _⟩⟩

end MGS

namespace MGS
open UQuestComponent UObjectiveBase

/-! ## Quests: claims C33, C35, C36, C39 -/

end MGS

namespace MGS
open UQuestComponent UObjectiveBase

/-- The search for an identifier after one objective of the list is replaced by an
objective with the same identifier: the same position, with the new objective if it
is the one replaced. -/
theorem find_set (ObjectiveID : FName) (l : List (Option UObjectiveBase)) :
    ∀ (k i : Nat) (a a1 : UObjectiveBase), l[i]? = some (some a) →
      a1.ObjectiveID = a.ObjectiveID →
      UpdateObjectiveProgress.find ObjectiveID k (l.set i (some a1)) =
        (UpdateObjectiveProgress.find ObjectiveID k l).map fun p =>
          if p.1 = k + i then (p.1, a1) else p := by
  induction l with
  | nil => intro k i a a1 h; simp at h
  | cons e rest ih =>
    intro k i a a1 hi hid
    cases i with
    | zero =>
      simp only [List.getElem?_cons_zero, Option.some.injEq] at hi
      subst hi
      simp only [List.set_cons_zero, UpdateObjectiveProgress.find, hid]
      split_ifs with h
      · simp
      · have hk : ∀ p, UpdateObjectiveProgress.find ObjectiveID (k + 1) rest = some p →
            p.1 ≠ k + 0 := by
          intro p hp
          have := (find_spec ObjectiveID rest (k + 1) p.1 p.2 hp).1
          omega
        cases hf : UpdateObjectiveProgress.find ObjectiveID (k + 1) rest with
        | none => rfl
        | some p =>
          have h1 : ¬ (p.1 = k) := by
            have := hk p hf
            simpa using this
          simp [h1]
    | succ i =>
      rw [List.getElem?_cons_succ] at hi
      have ih1 := ih (k + 1) i a a1 hi hid
      have hki : k + 1 + i = k + (i + 1) := by omega
      rw [hki] at ih1
      cases e with
      | none =>
        simp only [List.set_cons_succ, UpdateObjectiveProgress.find]
        exact ih1
      | some o =>
        simp only [List.set_cons_succ, UpdateObjectiveProgress.find]
        split_ifs with h
        · simp
        · exact ih1

/-- In a reachable tracker an objective instance is `Active` with progress 0, or it
has an identifier other than `None` and is the first of its entry with it. -/
theorem reachable_touched (Quests : UQuestDefinition → Prop) (c : UQuestComponent)
    (h : QuestReachable Quests c) :
    ∀ E ∈ c.ActiveQuests, ∀ (j : Nat) (o : UObjectiveBase),
      E.ActiveObjectives[j]? = some (some o) →
      (o.State = EObjectiveState.Active ∧ o.CurrentProgress = 0) ∨
        (o.ObjectiveID ≠ FName.NAME_None ∧
          UpdateObjectiveProgress.find o.ObjectiveID 0 E.ActiveObjectives = some (j, o)) := by
  apply reachable_entries Quests
    (fun E => ∀ (j : Nat) (o : UObjectiveBase), E.ActiveObjectives[j]? = some (some o) →
      (o.State = EObjectiveState.Active ∧ o.CurrentProgress = 0) ∨
        (o.ObjectiveID ≠ FName.NAME_None ∧
          UpdateObjectiveProgress.find o.ObjectiveID 0 E.ActiveObjectives = some (j, o)))
    ?_ ?_ c h
  · intro Q _ j o hj
    have hmem : some o ∈ StartQuest.instantiate Q.Objectives := List.mem_iff_getElem?.2 ⟨j, hj⟩
    obtain ⟨t, _, rfl⟩ := mem_instantiate Q.Objectives o hmem
    exact Or.inl ⟨rfl, rfl⟩
  · intro E id d i Obj hP hID _ hfind j o hj
    obtain ⟨_, hi, hObjid, _⟩ := find_spec id E.ActiveObjectives 0 i Obj hfind
    simp only [Nat.sub_zero] at hi
    have hlt : i < E.ActiveObjectives.length := (List.getElem?_eq_some.1 hi).1
    have hkeep := (addProgress_keeps Obj d).1
    have hfs := find_set o.ObjectiveID E.ActiveObjectives 0 i Obj (Obj.AddProgress d).2.1 hi hkeep
    simp only [Nat.zero_add] at hfs
    by_cases hij : i = j
    · right
      subst hij
      simp only [List.getElem?_set_self hlt, Option.some.injEq] at hj
      subst hj
      rw [hkeep, hObjid] at hfs ⊢
      refine ⟨hID, ?_⟩
      show UpdateObjectiveProgress.find id 0
        (E.ActiveObjectives.set i (some (Obj.AddProgress d).2.1)) = _
      rw [hfs, hfind]
      simp
    · simp only [List.getElem?_set_ne hij] at hj
      rcases hP j o hj with h1 | ⟨h1, h2⟩
      · exact Or.inl h1
      · right
        refine ⟨h1, ?_⟩
        show UpdateObjectiveProgress.find o.ObjectiveID 0
          (E.ActiveObjectives.set i (some (Obj.AddProgress d).2.1)) = _
        rw [hfs, h2]
        have : ¬ (j = i) := fun h => hij h.symm
        simp [this]

end MGS

namespace MGS
open UQuestComponent UObjectiveBase

/-- Updates leave alone an objective that comes after another with the same
identifier, and do not complete the quest, as long as that objective is not
`Completed`. -/
theorem updates_skip_later (Q : UQuestDefinition) (j1 j2 : Nat) (o2 : UObjectiveBase)
    (hlt : j1 < j2) (hs : o2.State ≠ EObjectiveState.Completed) (cmds : List QuestCommand)
    (hcmds : ∀ cmd ∈ cmds, ∃ q id d, cmd = QuestCommand.UpdateObjectiveProgress q id d) :
    ∀ (c : UQuestComponent) (E : FActiveQuestEntry) (o1 : UObjectiveBase),
      c.FindActiveEntry (some Q) = some E → E.ActiveObjectives[j1]? = some (some o1) →
      E.ActiveObjectives[j2]? = some (some o2) → o1.ObjectiveID = o2.ObjectiveID →
      ∃ E1, (c.RunAll cmds).FindActiveEntry (some Q) = some E1 ∧
        E1.ActiveObjectives[j2]? = some (some o2) := by
  induction cmds with
  | nil => intro c E o1 hE _ h2 _; exact ⟨E, hE, h2⟩
  | cons cmd rest ih =>
    intro c E o1 hE h1 h2 hid
    have ih1 := ih fun x hx => hcmds x (List.mem_cons_of_mem _ hx)
    obtain ⟨q, id, d, hcmd⟩ := hcmds cmd (List.mem_cons_self _ _)
    show ∃ E1, ((c.Run cmd).RunAll rest).FindActiveEntry (some Q) = some E1 ∧ _
    rcases run_find c cmd Q E hE with h | ⟨id1, d1, i, Obj, _, _, _, hfind, h⟩ | ⟨h, _⟩
    · exact ih1 (c.Run cmd) E o1 h h1 h2 hid
    · obtain ⟨_, hi, hObjid, hfirst⟩ := find_spec id1 E.ActiveObjectives 0 i Obj hfind
      simp only [Nat.sub_zero] at hi hfirst
      have hlt1 : i < E.ActiveObjectives.length := (List.getElem?_eq_some.1 hi).1
      have hij2 : i ≠ j2 := by
        intro hij
        subst hij
        rw [hi] at h2
        cases h2
        exact hfirst j1 o1 hlt h1 (hid.trans hObjid)
      have h2' : (E.ActiveObjectives.set i (some (Obj.AddProgress d1).2.1))[j2]? =
          some (some o2) := by
        rw [List.getElem?_set_ne hij2]; exact h2
      rcases h with h | ⟨_, _, hall, _⟩
      · by_cases hij1 : i = j1
        · subst hij1
          rw [hi] at h1
          cases h1
          exact ih1 (c.Run cmd) _ _ h (List.getElem?_set_self hlt1) h2'
            ((addProgress_keeps _ d1).1.trans hid)
        · exact ih1 (c.Run cmd) _ o1 h
            (by rw [List.getElem?_set_ne hij1]; exact h1) h2' hid
      · exfalso
        have := (bAllCompleted_iff _).1 hall o2 (List.mem_iff_getElem?.2 ⟨j2, h2'⟩)
        exact hs this
    · exfalso
      rcases h with h | h <;> rw [hcmd] at h <;> cases h

/-- C35. In a reachable tracker let two objective instances of the entry of an
active quest `Q` have the same identifier, `o2` coming after `o1`. Then `o2` is
`Active` with progress 0, and after every sequence of `UpdateObjectiveProgress` calls
(whatever quests, identifiers and deltas) `Q` is still active and `o2` is at its
position as it was: the updates reach the first instance only, and the quest is not
completed by them. -/
theorem duplicate_identifier_untouched (Quests : UQuestDefinition → Prop)
    (c : UQuestComponent) (h : QuestReachable Quests c) (Q : UQuestDefinition)
    (E : FActiveQuestEntry) (j1 j2 : Nat) (o1 o2 : UObjectiveBase)
    (hE : c.FindActiveEntry (some Q) = some E)
    (h1 : E.ActiveObjectives[j1]? = some (some o1))
    (h2 : E.ActiveObjectives[j2]? = some (some o2)) (hlt : j1 < j2)
    (hid : o1.ObjectiveID = o2.ObjectiveID) (cmds : List QuestCommand)
    (hcmds : ∀ cmd ∈ cmds, ∃ q id d, cmd = QuestCommand.UpdateObjectiveProgress q id d) :
    o2.State = EObjectiveState.Active ∧ o2.CurrentProgress = 0 ∧
    ∃ E1, (c.RunAll cmds).FindActiveEntry (some Q) = some E1 ∧
      E1.ActiveObjectives[j2]? = some (some o2) := by
  have hmem := (findActiveEntry_some c Q E hE).1
  have hstate : o2.State = EObjectiveState.Active ∧ o2.CurrentProgress = 0 := by
    rcases reachable_touched Quests c h E hmem j2 o2 h2 with h3 | ⟨_, h3⟩
    · exact h3
    · exfalso
      have := (find_spec o2.ObjectiveID E.ActiveObjectives 0 j2 o2 h3).2.2.2 j1 o1
        (by simpa using hlt) h1
      exact this hid
  refine ⟨hstate.1, hstate.2, ?_⟩
  exact updates_skip_later Q j1 j2 o2 hlt (by rw [hstate.1]; decide) cmds hcmds c E o1 hE h1 h2
    hid

/-- C35 on the example quest whose two objectives have the identifier 1: after three
updates of the identifier 1 the first objective is `Completed`, the second is
`Active` with progress 0, and the quest is active. -/
theorem duplicate_identifier_untouched_witness :
    (EmptyTracker.StartQuest (some ExampleDuplicateQuest)).2.FindActiveEntry
        (some ExampleDuplicateQuest) =
      some { Definition := some ExampleDuplicateQuest
             ActiveObjectives :=
               [some (ExampleObjective 1).Activate, some (ExampleObjective 1).Activate] } ∧
    ((ExampleObjective 1).Activate.State = EObjectiveState.Active ∧
      (ExampleObjective 1).Activate.CurrentProgress = 0 ∧
      ∃ E1,
        ((EmptyTracker.StartQuest (some ExampleDuplicateQuest)).2.RunAll
          [QuestCommand.UpdateObjectiveProgress (some ExampleDuplicateQuest) (FName.Name 1) 1,
            QuestCommand.UpdateObjectiveProgress (some ExampleDuplicateQuest) (FName.Name 1) 1,
            QuestCommand.UpdateObjectiveProgress (some ExampleDuplicateQuest) (FName.Name 1)
              1]).FindActiveEntry (some ExampleDuplicateQuest) = some E1 ∧
        E1.ActiveObjectives[1]? = some (some (ExampleObjective 1).Activate)) ∧
    ((EmptyTracker.StartQuest (some ExampleDuplicateQuest)).2.RunAll
      [QuestCommand.UpdateObjectiveProgress (some ExampleDuplicateQuest) (FName.Name 1) 1,
        QuestCommand.UpdateObjectiveProgress (some ExampleDuplicateQuest) (FName.Name 1) 1,
        QuestCommand.UpdateObjectiveProgress (some ExampleDuplicateQuest) (FName.Name 1)
          1]).FindActiveEntry (some ExampleDuplicateQuest) =
      some { Definition := some ExampleDuplicateQuest
             ActiveObjectives :=
               [some { ObjectiveID := FName.Name 1, RequiredProgress := 1, CurrentProgress := 1,
                       State := EObjectiveState.Completed },
                 some { ObjectiveID := FName.Name 1, RequiredProgress := 1, CurrentProgress := 0,
                        State := EObjectiveState.Active }] } :=
  ⟨by decide,
    duplicate_identifier_untouched (fun Q => Q = ExampleDuplicateQuest)
      (EmptyTracker.StartQuest (some ExampleDuplicateQuest)).2
      (QuestReachable.step (QuestCommand.StartQuest (some ExampleDuplicateQuest))
        QuestReachable.empty
        (fun QuestDef Q h1 h2 => by
          cases h1
          cases h2
          rfl))
      ExampleDuplicateQuest
      { Definition := some ExampleDuplicateQuest
        ActiveObjectives :=
          [some (ExampleObjective 1).Activate, some (ExampleObjective 1).Activate] }
      0 1 (ExampleObjective 1).Activate (ExampleObjective 1).Activate (by decide) (by decide)
      (by decide) (by decide) rfl _
      (by
        intro cmd hcmd
        simp only [List.mem_cons, List.mem_singleton, List.not_mem_nil, or_false] at hcmd
        rcases hcmd with rfl | rfl | rfl <;> exact ⟨_, _, _, rfl⟩),
    by decide⟩

/-- C36. In a reachable tracker, for an active quest `Q`, an objective instance `o`
of its entry that is `Completed` and `delta > 0`, `UpdateObjectiveProgress` with the
identifier of `o` changes nothing but the broadcasts, to which it adds one
objective-progress event carrying `o`: the progress and the state of every
objective, the active list and the completed set are as they were, and no hook is
invoked. -/
theorem update_completed_objective (Quests : UQuestDefinition → Prop) (c : UQuestComponent)
    (h : QuestReachable Quests c) (Q : UQuestDefinition) (E : FActiveQuestEntry) (j : Nat)
    (o : UObjectiveBase) (Delta : Int) (hE : c.FindActiveEntry (some Q) = some E)
    (hj : E.ActiveObjectives[j]? = some (some o)) (hs : o.State = EObjectiveState.Completed)
    (hd : 0 < Delta) :
    c.UpdateObjectiveProgress (some Q) o.ObjectiveID Delta =
      { c with Broadcasts := c.Broadcasts ++ [QuestEvent.OnObjectiveProgress Q o] } := by
  have hmem := (findActiveEntry_some c Q E hE).1
  have hna : o.State ≠ EObjectiveState.Active := by rw [hs]; decide
  rcases reachable_touched Quests c h E hmem j o hj with h3 | ⟨hID, hfind⟩
  · exact absurd h3.1 hna
  · have hrun := updateObjectiveProgress_found c Q E o.ObjectiveID Delta j o hE hID hd hfind
    rw [addProgress_not_active o Delta hna] at hrun
    simp only [Bool.false_eq_true, if_false, List.append_nil] at hrun
    rw [hrun, set_same E.ActiveObjectives j (some o) hj]
    have : StoreEntry Q { E with ActiveObjectives := E.ActiveObjectives } c.ActiveQuests =
        c.ActiveQuests := store_same Q E c.ActiveQuests hE
    rw [this]

/-- C36 on the example quest with objectives 1 and 2 completed: an update of
objective 1 by 1 adds one objective-progress event and changes nothing else. -/
theorem update_completed_objective_witness :
    ExampleTwoOfThree.UpdateObjectiveProgress (some ExampleQuest) (FName.Name 1) 1 =
      { ExampleTwoOfThree with
        Broadcasts := ExampleTwoOfThree.Broadcasts ++
          [QuestEvent.OnObjectiveProgress ExampleQuest
            { ObjectiveID := FName.Name 1, RequiredProgress := 1, CurrentProgress := 1,
              State := EObjectiveState.Completed }] } :=
  update_completed_objective (fun Q => Q = ExampleQuest) ExampleTwoOfThree
    (QuestReachable.step
      (QuestCommand.UpdateObjectiveProgress (some ExampleQuest) (FName.Name 2) 1)
      (QuestReachable.step
        (QuestCommand.UpdateObjectiveProgress (some ExampleQuest) (FName.Name 1) 1)
        (QuestReachable.step (QuestCommand.StartQuest (some ExampleQuest)) QuestReachable.empty
          (fun QuestDef Q h1 h2 => by
            cases h1
            cases h2
            rfl))
        (fun QuestDef Q h1 => by cases h1))
      (fun QuestDef Q h1 => by cases h1))
    ExampleQuest _ 0
    { ObjectiveID := FName.Name 1, RequiredProgress := 1, CurrentProgress := 1,
      State := EObjectiveState.Completed }
    1 exampleTwoOfThree_entry (by decide) rfl (by decide)

end MGS

namespace MGS
open UQuestComponent UObjectiveBase

/-- C39. A quest `Q` with no objective that is neither active nor completed is
started by `StartQuest`, with an entry that holds no objective. In a reachable
tracker (quests with pairwise distinct identifiers), while the entry of `Q` holds no
objective `GetQuestProgress(Q)` is 0, and after any command the entry is there as it
was unless the command is `CompleteQuest(Q)` or `FailQuest(Q)`: no
`UpdateObjectiveProgress` call completes the quest, whether or not it requires all
objectives. -/
theorem empty_quest (Quests : UQuestDefinition → Prop) (hdist : DistinctQuestIDs Quests)
    (c : UQuestComponent) (h : QuestReachable Quests c) (Q : UQuestDefinition) :
    (Q.Objectives = [] → c.IsQuestActive (some Q) = false →
      Q.QuestID ∉ c.CompletedQuestIDs →
      c.StartQuest (some Q) =
        (true,
          { c with
            ActiveQuests := c.ActiveQuests ++ [{ Definition := some Q, ActiveObjectives := [] }]
            Broadcasts := c.Broadcasts ++ [QuestEvent.OnQuestStarted Q] })) ∧
    (∀ E, c.FindActiveEntry (some Q) = some E → E.ActiveObjectives = [] →
      c.GetQuestProgress (some Q) = 0 ∧
      ∀ cmd : QuestCommand,
        (c.Run cmd).FindActiveEntry (some Q) = some E ∨
          ((cmd = QuestCommand.CompleteQuest (some Q) ∨ cmd = QuestCommand.FailQuest (some Q)) ∧
            (c.Run cmd).FindActiveEntry (some Q) = none)) := by
  constructor
  · intro hobj hact hcomp
    have h2 : ¬ (c.IsQuestCompleted (some Q) = true) := by simp [IsQuestCompleted, hcomp]
    simp [StartQuest, hact, h2, hobj, StartQuest.instantiate]
  · intro E hE hobj
    obtain ⟨hmem, hdef⟩ := findActiveEntry_some c Q E hE
    constructor
    · obtain ⟨Q1, h1, _, hc1⟩ := reachable_active_invariant Quests hdist c h E hmem
      rw [hdef] at h1
      cases h1
      simp [GetQuestProgress, hE, hobj, IsQuestCompleted, hc1]
    · intro cmd
      rcases run_find c cmd Q E hE with h1 | ⟨id, d, i, Obj, _, _, _, hfind, _⟩ | h1
      · exact Or.inl h1
      · rw [hobj] at hfind
        simp [UpdateObjectiveProgress.find] at hfind
      · exact Or.inr h1

/-- C39 on the example quest with no objective: it is started on the empty tracker;
its progress is then 0; an update leaves it active; `CompleteQuest` completes it. -/
theorem empty_quest_witness :
    EmptyTracker.StartQuest (some ExampleEmptyQuest) =
      (true,
        { EmptyTracker with
          ActiveQuests := EmptyTracker.ActiveQuests ++
            [{ Definition := some ExampleEmptyQuest, ActiveObjectives := [] }]
          Broadcasts := EmptyTracker.Broadcasts ++
            [QuestEvent.OnQuestStarted ExampleEmptyQuest] }) ∧
    (EmptyTracker.StartQuest (some ExampleEmptyQuest)).2.GetQuestProgress
      (some ExampleEmptyQuest) = 0 ∧
    ((EmptyTracker.StartQuest (some ExampleEmptyQuest)).2.UpdateObjectiveProgress
      (some ExampleEmptyQuest) (FName.Name 1) 1).IsQuestActive (some ExampleEmptyQuest) = true ∧
    ((EmptyTracker.StartQuest (some ExampleEmptyQuest)).2.CompleteQuest
      (some ExampleEmptyQuest)).CompletedQuestIDs = [FName.Name 400] :=
  ⟨(empty_quest (fun Q => Q = ExampleEmptyQuest) (fun Q1 Q2 h1 h2 _ => h1.trans h2.symm)
      EmptyTracker QuestReachable.empty ExampleEmptyQuest).1 rfl (by decide) (by decide),
    ((empty_quest (fun Q => Q = ExampleEmptyQuest) (fun Q1 Q2 h1 h2 _ => h1.trans h2.symm)
      (EmptyTracker.StartQuest (some ExampleEmptyQuest)).2
      (QuestReachable.step (QuestCommand.StartQuest (some ExampleEmptyQuest))
        QuestReachable.empty
        (fun QuestDef Q h1 h2 => by
          cases h1
          cases h2
          rfl))
      ExampleEmptyQuest).2 { Definition := some ExampleEmptyQuest, ActiveObjectives := [] }
      (by decide) rfl).1,
    by decide, by decide⟩

end MGS

namespace MGS
open UAbilityComponent UMgsGameplayAbility

/-! ## Abilities: claims C32, C37, C38 -/

theorem store_notin (l : List (Option UMgsGameplayAbility)) (a1 : UMgsGameplayAbility)
    (h : a1.Object ∉ (l.filterMap id).map UMgsGameplayAbility.Object) :
    (l.map fun Entry =>
      match Entry with
      | none => none
      | some Ab => if Ab.Object = a1.Object then some a1 else some Ab) = l := by
  induction l with
  | nil => rfl
  | cons e rest ih =>
    cases e with
    | none =>
      simp only [List.map_cons]
      rw [ih (by simpa using h)]
    | some Ab =>
      simp only [List.filterMap_cons, id, List.map_cons, List.mem_cons, not_or] at h
      have h1 : ¬ (Ab.Object = a1.Object) := fun h2 => h.1 h2.symm
      simp only [List.map_cons, h1, if_false]
      rw [ih h.2]

/-- The loop of `CancelAllAbilities` when no two instances of the array are the same
object: the instances not yet visited that are `Active` become `Inactive`, each with
one end behaviour invoked with cancelled = true and one ended event, in the order of
the array. -/
theorem cancelAllLoop_spec (rest : List (Option UMgsGameplayAbility)) :
    ∀ (pre : List (Option UMgsGameplayAbility)) (Comp : UAbilityComponent),
      Comp.GrantedAbilities = pre ++ rest →
      (((pre ++ rest).filterMap id).map UMgsGameplayAbility.Object).Nodup →
      CancelAllAbilities.loop rest Comp =
        { Comp with
          GrantedAbilities :=
            pre ++ rest.map (Option.map fun a =>
              if a.State = EAbilityState.Active then { a with State := EAbilityState.Inactive }
              else a)
          Calls := Comp.Calls ++
            ((rest.filterMap id).filter fun a => decide (a.State = EAbilityState.Active)).map
              fun a => AbilityHook.EndAbility a true
          Broadcasts := Comp.Broadcasts ++
            ((rest.filterMap id).filter fun a => decide (a.State = EAbilityState.Active)).map
              fun a => AbilityEvent.OnAbilityEnded { a with State := EAbilityState.Inactive } } := by
  induction rest with
  | nil =>
    intro pre Comp hg _
    simp only [CancelAllAbilities.loop, List.map_nil, List.filterMap_nil, List.filter_nil,
      List.append_nil] at hg ⊢
    rw [← hg]
  | cons e rest ih =>
    intro pre Comp hg hnd
    cases e with
    | none =>
      have hg1 : Comp.GrantedAbilities = (pre ++ [none]) ++ rest := by
        rw [hg, List.append_assoc]; rfl
      have hnd1 : ((((pre ++ [none]) ++ rest).filterMap id).map
          UMgsGameplayAbility.Object).Nodup := by
        rw [List.append_assoc]; exact hnd
      simp only [CancelAllAbilities.loop]
      rw [ih (pre ++ [none]) Comp hg1 hnd1]
      simp
    | some a =>
      by_cases hs : a.State = EAbilityState.Active
      · have hact : a.IsActive = true := by simp [IsActive, hs]
        have hobj : a.Object ∉ (pre.filterMap id).map UMgsGameplayAbility.Object ∧
            a.Object ∉ (rest.filterMap id).map UMgsGameplayAbility.Object := by
          simp only [List.filterMap_append, List.filterMap_cons, id, List.map_append,
            List.map_cons] at hnd
          have h1 := List.nodup_append.1 hnd
          have h2 := List.nodup_cons.1 h1.2.1
          refine ⟨?_, h2.1⟩
          intro hin
          exact h1.2.2 hin (List.mem_cons_self _ _)
        have hst : (pre ++ some a :: rest).map (fun Entry =>
            match Entry with
            | none => none
            | some Ab =>
              if Ab.Object = a.Object then some { a with State := EAbilityState.Inactive }
              else some Ab) =
            (pre ++ [some { a with State := EAbilityState.Inactive }]) ++ rest := by
          rw [List.map_append, List.map_cons,
            store_notin pre { a with State := EAbilityState.Inactive } hobj.1,
            store_notin rest { a with State := EAbilityState.Inactive } hobj.2]
          simp
        have hnd1 : ((((pre ++ [some { a with State := EAbilityState.Inactive }]) ++
            rest).filterMap id).map UMgsGameplayAbility.Object).Nodup := by
          simpa [List.filterMap_append] using hnd
        simp only [CancelAllAbilities.loop, hact, if_true]
        rw [internalEnd_cancelled a Comp hs]
        rw [ih (pre ++ [some { a with State := EAbilityState.Inactive }]) _
          (by simp only [Store, hg]; exact hst) hnd1]
        simp [Store, hs]
      · have hact : a.IsActive = false := by simp [IsActive, hs]
        have hg1 : Comp.GrantedAbilities = (pre ++ [some a]) ++ rest := by
          rw [hg, List.append_assoc]; rfl
        have hnd1 : ((((pre ++ [some a]) ++ rest).filterMap id).map
            UMgsGameplayAbility.Object).Nodup := by
          rw [List.append_assoc]; exact hnd
        simp only [CancelAllAbilities.loop, hact, Bool.false_eq_true, if_false]
        rw [ih (pre ++ [some a]) Comp hg1 hnd1]
        simp [hs]

/-- C32. In a registry whose granted instances are distinct objects,
`CancelAllAbilities` leaves every instance at its position, makes every instance that
was `Active` just `Inactive` (whatever its `CooldownDuration`) and leaves every other
instance as it was, so that no instance is `Active` afterwards; for each instance
that was `Active`, in the order of the granted list, it invokes the end behaviour
once with cancelled = true and broadcasts one ended event; it sets no timer. -/
theorem cancelAllAbilities_spec (c : UAbilityComponent)
    (hnd : (c.GetGrantedAbilities.map UMgsGameplayAbility.Object).Nodup) :
    c.CancelAllAbilities.GrantedAbilities =
      c.GrantedAbilities.map (Option.map fun a =>
        if a.State = EAbilityState.Active then { a with State := EAbilityState.Inactive }
        else a) ∧
    (∀ a, some a ∈ c.CancelAllAbilities.GrantedAbilities → a.State ≠ EAbilityState.Active) ∧
    c.CancelAllAbilities.Broadcasts =
      c.Broadcasts ++
        (c.GetGrantedAbilities.filter fun a => decide (a.State = EAbilityState.Active)).map
          (fun a => AbilityEvent.OnAbilityEnded { a with State := EAbilityState.Inactive }) ∧
    c.CancelAllAbilities.Calls =
      c.Calls ++
        (c.GetGrantedAbilities.filter fun a => decide (a.State = EAbilityState.Active)).map
          (fun a => AbilityHook.EndAbility a true) ∧
    c.CancelAllAbilities.World = c.World := by
  have h := cancelAllLoop_spec c.GrantedAbilities [] c rfl hnd
  have hrun : c.CancelAllAbilities = _ := h
  rw [hrun]
  refine ⟨rfl, ?_, rfl, rfl, rfl⟩
  intro a ha
  simp only [List.nil_append, List.mem_map] at ha
  obtain ⟨e, _, he⟩ := ha
  cases e with
  | none => simp at he
  | some b =>
    simp only [Option.map_some', Option.some.injEq] at he
    subst he
    split_ifs with hs
    · simp
    · exact hs

/-- C32 on a registry that holds an `Active` instance and one on cooldown: after
`CancelAllAbilities` the first is `Inactive`, the second is as it was, and one ended
event was broadcast. -/
theorem cancelAllAbilities_spec_witness :
    ((ExampleChannelling.GiveAbility (some ExampleClass)).2.TryActivateAbility
        (some ExampleClass)).2.GrantedAbilities.map (Option.map UMgsGameplayAbility.State) =
      [some EAbilityState.Active, some EAbilityState.OnCooldown] ∧
    ((ExampleChannelling.GiveAbility (some ExampleClass)).2.TryActivateAbility
        (some ExampleClass)).2.CancelAllAbilities.GrantedAbilities.map
        (Option.map UMgsGameplayAbility.State) =
      [some EAbilityState.Inactive, some EAbilityState.OnCooldown] ∧
    ((ExampleChannelling.GiveAbility (some ExampleClass)).2.TryActivateAbility
        (some ExampleClass)).2.CancelAllAbilities.Broadcasts.length =
      ((ExampleChannelling.GiveAbility (some ExampleClass)).2.TryActivateAbility
        (some ExampleClass)).2.Broadcasts.length + 1 ∧
    ExampleChannelling.CancelAllAbilities.World = ExampleChannelling.World :=
  ⟨by decide, by decide, by decide,
    (cancelAllAbilities_spec ExampleChannelling (by decide)).2.2.2.2⟩

end MGS

namespace MGS
open UAbilityComponent UMgsGameplayAbility

/-- C37. `InternalEnd` on an `Active` instance invokes the end behaviour on the
instance as it is before the state changes: the instance the behaviour sees is
`Active`, `IsActive` is true of it and its `GetCooldownRemaining` is 0; the state
returned afterwards is `OnCooldown` or `Inactive`. An `InternalEnd` or a `CommitEnd`
made on the instance the behaviour sees is therefore not a no-op: it invokes the end
behaviour again. -/
theorem end_behaviour_sees_active (self : UMgsGameplayAbility) (Comp : UAbilityComponent)
    (b : Bool) (h : self.State = EAbilityState.Active) :
    ∃ seen : UMgsGameplayAbility,
      (self.InternalEnd Comp b).2.Calls = Comp.Calls ++ [AbilityHook.EndAbility seen b] ∧
      seen.State = EAbilityState.Active ∧ seen.IsActive = true ∧
      seen.GetCooldownRemaining Comp = 0 ∧
      ((self.InternalEnd Comp b).1.State = EAbilityState.OnCooldown ∨
        (self.InternalEnd Comp b).1.State = EAbilityState.Inactive) ∧
      ∀ (Comp1 : UAbilityComponent) (b1 : Bool),
        seen.InternalEnd Comp1 b1 ≠ (seen, Comp1) ∧ seen.CommitEnd Comp1 ≠ (seen, Comp1) ∧
        (seen.InternalEnd Comp1 b1).2.Calls = Comp1.Calls ++ [AbilityHook.EndAbility seen b1] ∧
        (seen.CommitEnd Comp1).2.Calls =
          Comp1.Calls ++ [AbilityHook.EndAbility seen false] := by
  obtain ⟨h1, h2⟩ := internalEnd_active self Comp b h
  refine ⟨self, h2, h, by simp [IsActive, h], by simp [GetCooldownRemaining, h], ?_, ?_⟩
  · rw [h1]
    split_ifs
    · exact Or.inl rfl
    · exact Or.inr rfl
  · intro Comp1 b1
    have g1 := (internalEnd_active self Comp1 b1 h).2
    have g2 : (self.CommitEnd Comp1).2.Calls =
        Comp1.Calls ++ [AbilityHook.EndAbility self false] := by
      rw [commitEnd_active self Comp1 h]
      exact (internalEnd_active self Comp1 false h).2
    refine ⟨?_, ?_, g1, g2⟩
    · intro heq
      rw [heq] at g1
      simp at g1
    · intro heq
      rw [heq] at g2
      simp at g2

/-- C37 on the example registry whose instance is `Active`: the end behaviour invoked
by `CommitEnd` is recorded with the instance still `Active`, and the instance is
`OnCooldown` afterwards. -/
theorem end_behaviour_sees_active_witness :
    (∃ seen : UMgsGameplayAbility,
      ((ExampleRegistry.NewObject ExampleChannel).InternalActivate ExampleRegistry
          ExampleRegistry.Owner).1.State = EAbilityState.Active ∧
      seen.State = EAbilityState.Active ∧
      (ExampleChannelling.CallCommitEnd 0).Calls =
        ExampleChannelling.Calls ++ [AbilityHook.EndAbility seen false]) ∧
    (ExampleChannelling.CallCommitEnd 0).GrantedAbilities.map
      (Option.map UMgsGameplayAbility.State) = [some EAbilityState.OnCooldown] :=
  ⟨(end_behaviour_sees_active
      ((ExampleRegistry.NewObject ExampleChannel).InternalActivate ExampleRegistry
        ExampleRegistry.Owner).1 ExampleChannelling false (by decide)).elim
      fun seen hs => ⟨seen, by decide, hs.2.1, by
        have h1 := hs.1
        have h2 : (ExampleChannelling.CallCommitEnd 0).Calls =
            (((ExampleRegistry.NewObject ExampleChannel).InternalActivate ExampleRegistry
              ExampleRegistry.Owner).1.InternalEnd ExampleChannelling false).2.Calls := by
          decide
        rw [h2, h1]⟩,
    by decide⟩

/-- C38. For an instance `a` found by its class and `Active`: `RemoveAbility` invokes
the end behaviour once with cancelled = true and broadcasts nothing; `CancelAbility`
invokes it once with cancelled = true and broadcasts one ended event; `CommitEnd` on
the instance invokes it once with cancelled = false and broadcasts one ended
event. -/
theorem removeAbility_silent (c : UAbilityComponent) (AbilityClass : Option UClass)
    (a : UMgsGameplayAbility) (hfind : c.FindAbilityByClass AbilityClass = some a)
    (hs : a.State = EAbilityState.Active) :
    ((c.RemoveAbility AbilityClass).Calls = c.Calls ++ [AbilityHook.EndAbility a true] ∧
      (c.RemoveAbility AbilityClass).Broadcasts = c.Broadcasts) ∧
    ((c.CancelAbility AbilityClass).Calls = c.Calls ++ [AbilityHook.EndAbility a true] ∧
      (c.CancelAbility AbilityClass).Broadcasts =
        c.Broadcasts ++ [AbilityEvent.OnAbilityEnded { a with State := EAbilityState.Inactive }]) ∧
    ((a.CommitEnd c).2.Calls = c.Calls ++ [AbilityHook.EndAbility a false] ∧
      (a.CommitEnd c).2.Broadcasts =
        c.Broadcasts ++ [AbilityEvent.OnAbilityEnded (a.CommitEnd c).1]) := by
  have hact : a.IsActive = true := by simp [IsActive, hs]
  have hend := internalEnd_cancelled a c hs
  refine ⟨?_, ?_, ?_⟩
  · simp [RemoveAbility, hfind, hact, hend, Store]
  · simp [CancelAbility, hfind, hact, hend, NotifyAbilityEnded, Store]
  · obtain ⟨_, _, _, _, _, f6, _, _⟩ := internalEnd_frame a c false
    rw [commitEnd_active a c hs]
    exact ⟨(internalEnd_active a c false hs).2, by simp only [f6]⟩

/-- C38 on the example registry whose instance is `Active`: `RemoveAbility` adds no
broadcast; `CancelAbility` and a `CommitEnd` of the instance add one each. -/
theorem removeAbility_silent_witness :
    (ExampleChannelling.RemoveAbility (some ExampleChannel)).Broadcasts =
      ExampleChannelling.Broadcasts ∧
    (ExampleChannelling.RemoveAbility (some ExampleChannel)).Calls.length =
      ExampleChannelling.Calls.length + 1 ∧
    (ExampleChannelling.CancelAbility (some ExampleChannel)).Broadcasts.length =
      ExampleChannelling.Broadcasts.length + 1 ∧
    (ExampleChannelling.CallCommitEnd 0).Broadcasts.length =
      ExampleChannelling.Broadcasts.length + 1 :=
  ⟨(removeAbility_silent ExampleChannelling (some ExampleChannel)
      ((ExampleRegistry.NewObject ExampleChannel).InternalActivate ExampleRegistry
        ExampleRegistry.Owner).1 (by decide) (by decide)).1.2,
    by decide, by decide, by decide⟩

end MGS

namespace MGS
open UInventoryComponent

/-! ## Inventory: claims C31, C34, C40 -/

theorem divideAndRoundUp_zero (M : Int) (hM : 1 ≤ M) : FMath.DivideAndRoundUp 0 M = 0 := by
  unfold FMath.DivideAndRoundUp
  rw [Int.tdiv_eq_ediv (by omega) (by omega)]
  exact Int.ediv_eq_zero_of_lt (by omega) (by omega)

theorem divideAndRoundUp_eq (U M : Int) (k : Nat) (hM : 1 ≤ M) (hU : 0 < U)
    (h1 : ((k : Int) - 1) * M < U) (h2 : U ≤ (k : Int) * M) :
    FMath.DivideAndRoundUp U M = (k : Int) := by
  apply le_antisymm
  · exact (divideAndRoundUp_le U M k hU hM).2 h2
  · by_contra hlt
    have h3 : FMath.DivideAndRoundUp U M ≤ (k : Int) - 1 := by omega
    have := (divideAndRoundUp_le U M ((k : Int) - 1) hU hM).1 h3
    omega

/-- The stacks of `D` of a sequence in which every stack of `D` but the last is full
and each holds between 1 and `MaxStackSize` units: none and no unit, or `k` stacks and
more than `(k - 1) * MaxStackSize` and at most `k * MaxStackSize` units. -/
theorem shape_count (D : UItemDefinition) (l : List (Option UItemInstance))
    (hs : StackShape D l)
    (hq : ∀ i, some i ∈ l → i.ItemDefinition = some D →
      1 ≤ i.Quantity ∧ i.Quantity ≤ D.MaxStackSize) :
    (l.countP (IsStackOf D) = 0 ∧ Units D l = 0) ∨
      (0 < l.countP (IsStackOf D) ∧
        ((l.countP (IsStackOf D) : Int) - 1) * D.MaxStackSize < Units D l ∧
        Units D l ≤ (l.countP (IsStackOf D) : Int) * D.MaxStackSize) := by
  induction l with
  | nil => exact Or.inl ⟨rfl, rfl⟩
  | cons e rest ih =>
    obtain ⟨hs1, hs2⟩ := hs
    have ih1 := ih hs2 fun i hi => hq i (List.mem_cons_of_mem _ hi)
    by_cases he : IsStackOf D e = true
    · cases e with
      | none => simp [IsStackOf] at he
      | some i =>
        have hd := (isStackOf_some D i).1 he
        obtain ⟨q1, q2⟩ := hq i (List.mem_cons_self _ _) hd
        have hu : Units D (some i :: rest) = i.Quantity + Units D rest := by
          simp [Units, UnitsOf, hd]
        right
        rw [List.countP_cons_of_pos _ _ he, hu]
        rcases ih1 with ⟨c0, u0⟩ | ⟨c1, u1, u2⟩
        · rw [c0, u0]
          refine ⟨Nat.succ_pos _, ?_, ?_⟩
          · simp only [Nat.zero_add, Nat.cast_one, sub_self, zero_mul, add_zero]
            omega
          · simp only [Nat.zero_add, Nat.cast_one, one_mul, add_zero]
            exact q2
        · have hfull : i.Quantity = D.MaxStackSize :=
            hs1 i rfl hd (List.countP_pos_iff.1 c1)
          refine ⟨Nat.succ_pos _, ?_, ?_⟩
          · push_cast
            rw [hfull]
            nlinarith
          · push_cast
            rw [hfull]
            nlinarith
    · have he2 : IsStackOf D e = false := by simpa using he
      have hu : Units D (e :: rest) = Units D rest := by
        simp [Units, unitsOf_eq_zero D e he2]
      rw [List.countP_cons_of_neg _ _ he, hu]
      exact ih1

theorem shape_count_ceil (D : UItemDefinition) (hD : 1 ≤ D.MaxStackSize)
    (l : List (Option UItemInstance)) (hs : StackShape D l)
    (hq : ∀ i, some i ∈ l → i.ItemDefinition = some D →
      1 ≤ i.Quantity ∧ i.Quantity ≤ D.MaxStackSize) :
    (l.countP (IsStackOf D) : Int) = FMath.DivideAndRoundUp (Units D l) D.MaxStackSize := by
  rcases shape_count D l hs hq with ⟨c0, u0⟩ | ⟨c1, u1, u2⟩
  · rw [c0, u0, divideAndRoundUp_zero _ hD]; rfl
  · have hU : 0 < Units D l := by
      have : (0 : Int) ≤ ((l.countP (IsStackOf D) : Int) - 1) * D.MaxStackSize := by
        apply mul_nonneg
        · have : (1 : Int) ≤ (l.countP (IsStackOf D) : Int) := by exact_mod_cast c1
          omega
        · omega
      omega
    exact (divideAndRoundUp_eq _ _ _ hD hU u1 u2).symm

end MGS

namespace MGS
open UInventoryComponent

/-- C40. `AddItem(D, Quantity)` with `MaxStackSize >= 1` returns, for every ledger,
every `Quantity` and every `MaxSlots`: with any bound of at least `Quantity` on the
number of new stacks the result is the same. Every new stack holds at least one
unit; with `R` the units left after the top-up step, the array grows by at most `R`
divided by `MaxStackSize`, rounded up, and by exactly that number, with the result
`true`, when the inventory is unlimited (`MaxSlots <= 0`). -/
theorem addItem_terminates (c : UInventoryComponent) (D : UItemDefinition) (Quantity : Int)
    (hD : 1 ≤ D.MaxStackSize) :
    ∃ ok c1, (∀ fuel : Nat, Quantity.toNat ≤ fuel →
        c.AddItem fuel (some D) Quantity = some (ok, c1)) ∧
      (0 < Quantity →
        ∃ new, c1.Items = (AddItem.topUp D c.Items Quantity).1 ++ new ∧
          (AddItem.topUp D c.Items Quantity).1.length = c.Items.length ∧
          (∀ e ∈ new, ∃ q, e = some { ItemDefinition := some D, Quantity := q } ∧ 1 ≤ q) ∧
          (new.length : Int) ≤
            FMath.DivideAndRoundUp (AddItem.topUp D c.Items Quantity).2 D.MaxStackSize ∧
          (c.MaxSlots ≤ 0 →
            ok = true ∧
            (new.length : Int) =
              FMath.DivideAndRoundUp (AddItem.topUp D c.Items Quantity).2 D.MaxStackSize)) := by
  by_cases hQ : 0 < Quantity
  swap
  · refine ⟨false, c, fun fuel _ => addItem_invalid c (some D) Quantity fuel (Or.inr (by omega)),
      fun h => absurd h hQ⟩
  obtain ⟨t0, tle⟩ := topUp_remaining D c.Items Quantity hQ
  obtain ⟨ok, new, R1, heq, hnew, hunits, hR1, _, hshape, htrue, hfalse, _, hiff⟩ :=
    openSlots_spec D hD c.MaxSlots Quantity.toNat (AddItem.topUp D c.Items Quantity).1
      (AddItem.topUp D c.Items Quantity).2 t0 (by omega)
  have hadd := addItem_of_openSlots c D Quantity hQ Quantity.toNat ok _ R1 heq
  refine ⟨ok, _, fun fuel hfuel => addItem_mono c (some D) Quantity _ fuel _ hfuel hadd, ?_⟩
  intro _
  have hall : ∀ e ∈ new, IsStackOf D e = true := by
    intro e he
    obtain ⟨q, rfl, _, _⟩ := hnew e he
    simp [IsStackOf]
  have hcount : new.countP (IsStackOf D) = new.length := List.countP_eq_length.2 hall
  have hq : ∀ i, some i ∈ new → i.ItemDefinition = some D →
      1 ≤ i.Quantity ∧ i.Quantity ≤ D.MaxStackSize := by
    intro i hi _
    obtain ⟨q, h1, h2, h3⟩ := hnew _ hi
    cases h1
    exact ⟨h2, h3⟩
  have hnn : 0 ≤ Units D new := units_nonneg D new fun i hi => by
    obtain ⟨q, h1, h2, _⟩ := hnew _ hi
    cases h1
    exact h2
  have hsc := shape_count D new hshape hq
  have hceil := shape_count_ceil D hD new hshape hq
  rw [hcount] at hsc hceil
  refine ⟨new, rfl, topUp_length D c.Items Quantity hQ, ?_, ?_, ?_⟩
  · intro e he
    obtain ⟨q, h1, h2, _⟩ := hnew e he
    exact ⟨q, h1, h2⟩
  · cases hok : ok with
    | true =>
      rw [hceil, hunits, htrue hok, sub_zero]
    | false =>
      obtain ⟨f1, _⟩ := hfalse hok
      rcases hsc with ⟨c0, _⟩ | ⟨c1, u1, _⟩
      · rw [c0]
        have : (0 : Int) < (AddItem.topUp D c.Items Quantity).2 := by omega
        by_contra hlt
        have h3 : FMath.DivideAndRoundUp (AddItem.topUp D c.Items Quantity).2 D.MaxStackSize ≤
            (0 : Int) := by
          have := not_le.1 hlt
          simp only [Nat.cast_zero] at this
          omega
        have := (divideAndRoundUp_le _ _ 0 this hD).1 h3
        omega
      · have hpos : (0 : Int) < (AddItem.topUp D c.Items Quantity).2 := by omega
        by_contra hlt
        have h3 : FMath.DivideAndRoundUp (AddItem.topUp D c.Items Quantity).2 D.MaxStackSize ≤
            (new.length : Int) - 1 := by omega
        have := (divideAndRoundUp_le _ _ _ hpos hD).1 h3
        rw [hunits] at u1
        omega
  · intro hslots
    have hok : ok = true := hiff.2 (Or.inr (Or.inl (by omega)))
    refine ⟨hok, ?_⟩
    rw [hceil, hunits, htrue hok, sub_zero]

/-- C40 on the unlimited empty ledger with `MaxStackSize = 10`: `AddItem(D, 25)`
returns `true` with any bound of at least 25 and opens 3 stacks, 25 divided by 10
rounded up. -/
theorem addItem_terminates_witness :
    (∃ ok c1, (∀ fuel : Nat, (25 : Int).toNat ≤ fuel →
        (ExampleLedger 0 []).AddItem fuel (some ExampleItem) 25 = some (ok, c1)) ∧
      ((0 : Int) < 25 →
        ∃ new, c1.Items = (AddItem.topUp ExampleItem (ExampleLedger 0 []).Items 25).1 ++ new ∧
          (AddItem.topUp ExampleItem (ExampleLedger 0 []).Items 25).1.length =
            (ExampleLedger 0 []).Items.length ∧
          (∀ e ∈ new, ∃ q, e = some { ItemDefinition := some ExampleItem, Quantity := q } ∧
            1 ≤ q) ∧
          (new.length : Int) ≤
            FMath.DivideAndRoundUp (AddItem.topUp ExampleItem (ExampleLedger 0 []).Items 25).2
              ExampleItem.MaxStackSize ∧
          ((ExampleLedger 0 []).MaxSlots ≤ 0 →
            ok = true ∧
            (new.length : Int) =
              FMath.DivideAndRoundUp
                (AddItem.topUp ExampleItem (ExampleLedger 0 []).Items 25).2
                ExampleItem.MaxStackSize))) ∧
    (ExampleLedger 0 []).AddItem 25 (some ExampleItem) 25 =
      some (true,
        { ExampleLedger 0 [10, 10, 5] with
          Broadcasts :=
            [InventoryEvent.OnItemAdded ExampleItem 25, InventoryEvent.OnInventoryChanged] }) ∧
    FMath.DivideAndRoundUp 25 ExampleItem.MaxStackSize = 3 :=
  ⟨addItem_terminates (ExampleLedger 0 []) ExampleItem 25 (by decide), by decide, by decide⟩

end MGS

namespace MGS
open UInventoryComponent

theorem toppedUp_refl (D : UItemDefinition) (l : List (Option UItemInstance)) :
    List.Forall₂ (ToppedUp D) l l := by
  induction l with
  | nil => exact List.Forall₂.nil
  | cons e rest ih => exact List.Forall₂.cons (Or.inl rfl) ih

/-- The top-up step of `AddItem`, entry by entry. -/
theorem topUp_pointwise (D : UItemDefinition) (l : List (Option UItemInstance)) :
    ∀ r : Int, 0 < r → List.Forall₂ (ToppedUp D) l (AddItem.topUp D l r).1 := by
  induction l with
  | nil => intro r _; exact List.Forall₂.nil
  | cons e rest ih =>
    intro r hr
    rcases topUp_cases D e with hfull | ⟨i, rfl, hd, hq⟩
    · rw [topUp_skip D e rest r hfull]
      exact List.Forall₂.cons (Or.inl rfl) (ih r hr)
    · rw [topUp_fill D i rest r hd hq hr]
      split_ifs with hle
      · exact List.Forall₂.cons (Or.inr ⟨i, r, rfl, hd, hr, by omega, rfl⟩)
          (toppedUp_refl D rest)
      · refine List.Forall₂.cons
          (Or.inr ⟨i, D.MaxStackSize - i.Quantity, rfl, hd, by omega, by omega, ?_⟩)
          (ih _ (by omega))
        simp

/-- The top-up step of `AddItem` fills in the order of the array: an entry is changed
only if every stack of `D` before it is full afterwards. -/
theorem topUp_order (D : UItemDefinition) (l : List (Option UItemInstance)) :
    ∀ r : Int, 0 < r → ∀ j : Nat, l[j]? ≠ (AddItem.topUp D l r).1[j]? →
      ∀ (j1 : Nat) (s : UItemInstance), j1 < j →
        (AddItem.topUp D l r).1[j1]? = some (some s) → s.ItemDefinition = some D →
        D.MaxStackSize ≤ s.Quantity := by
  induction l with
  | nil => intro r _ j hne; simp [AddItem.topUp] at hne
  | cons e rest ih =>
    intro r hr j hne j1 s hlt hj1 hd1
    rcases topUp_cases D e with hfull | ⟨i, rfl, hd, hq⟩
    · rw [topUp_skip D e rest r hfull] at hne hj1
      cases j with
      | zero => omega
      | succ j =>
        simp only [List.getElem?_cons_succ] at hne
        cases j1 with
        | zero =>
          simp only [List.getElem?_cons_zero, Option.some.injEq] at hj1
          exact hfull s hj1 hd1
        | succ j1 =>
          rw [List.getElem?_cons_succ] at hj1
          exact ih r hr j hne j1 s (by omega) hj1 hd1
    · rw [topUp_fill D i rest r hd hq hr] at hne hj1
      split_ifs at hne hj1 with hle
      · cases j with
        | zero => omega
        | succ j =>
          simp only [List.getElem?_cons_succ] at hne
          exact absurd rfl hne
      · cases j with
        | zero => omega
        | succ j =>
          simp only [List.getElem?_cons_succ] at hne
          cases j1 with
          | zero =>
            simp only [List.getElem?_cons_zero, Option.some.injEq] at hj1
            subst hj1
            exact le_refl _
          | succ j1 =>
            rw [List.getElem?_cons_succ] at hj1
            exact ih _ (by omega) j hne j1 s (by omega) hj1 hd1

/-- The stacks the second loop of `AddItem` opens: stack number `k` holds
`min(R - k * MaxStackSize, MaxStackSize)` units. -/
theorem openSlots_closed (D : UItemDefinition) (hD : 1 ≤ D.MaxStackSize) (MaxSlots : Int) :
    ∀ (fuel : Nat) (Items : List (Option UItemInstance)) (R : Int) (ok : Bool)
      (Items2 : List (Option UItemInstance)) (R1 : Int), 0 ≤ R →
      AddItem.openSlots D MaxSlots fuel Items R = some (ok, Items2, R1) →
      ∃ new, Items2 = Items ++ new ∧ (R ≤ 0 → new = []) ∧
        ∀ k : Nat, k < new.length →
          new[k]? = some (some
            { ItemDefinition := some D
              Quantity := min (R - (k : Int) * D.MaxStackSize) D.MaxStackSize }) := by
  intro fuel
  induction fuel with
  | zero =>
    intro Items R ok Items2 R1 hR h
    by_cases hpos : 0 < R
    · by_cases hfull : MaxSlots > 0 ∧ (Items.length : Int) ≥ MaxSlots
      · rw [openSlots_full D MaxSlots 0 Items R hpos hfull] at h
        simp only [Option.some.injEq, Prod.mk.injEq] at h
        exact ⟨[], by simp [h.2.1], fun _ => rfl, fun k hk => by simp at hk⟩
      · rw [openSlots_zero D MaxSlots Items R hpos hfull] at h
        cases h
    · rw [openSlots_stop D MaxSlots 0 Items R (by omega)] at h
      simp only [Option.some.injEq, Prod.mk.injEq] at h
      exact ⟨[], by simp [h.2.1], fun _ => rfl, fun k hk => by simp at hk⟩
  | succ fuel ih =>
    intro Items R ok Items2 R1 hR h
    by_cases hpos : 0 < R
    · by_cases hfull : MaxSlots > 0 ∧ (Items.length : Int) ≥ MaxSlots
      · rw [openSlots_full D MaxSlots (fuel + 1) Items R hpos hfull] at h
        simp only [Option.some.injEq, Prod.mk.injEq] at h
        exact ⟨[], by simp [h.2.1], fun _ => rfl, fun k hk => by simp at hk⟩
      · rw [openSlots_step D MaxSlots fuel Items R hpos hfull] at h
        obtain ⟨i1, i2, i3, i4, i5⟩ := initialize_min D hD R hpos
        obtain ⟨new1, hn1, hn2, hn3⟩ := ih _ _ ok Items2 R1 (by omega) h
        rw [i1] at hn1
        refine ⟨some { ItemDefinition := some D, Quantity := FMath.Min R D.MaxStackSize } :: new1,
          by rw [hn1, List.append_assoc]; rfl, fun h0 => absurd h0 (by omega), ?_⟩
        intro k hk
        cases k with
        | zero =>
          simp only [List.getElem?_cons_zero, fmath_min_eq, Nat.cast_zero, zero_mul, sub_zero]
        | succ k =>
          rw [List.getElem?_cons_succ]
          simp only [List.length_cons, Nat.succ_lt_succ_iff] at hk
          by_cases hRM : R ≤ D.MaxStackSize
          · have hmin : FMath.Min R D.MaxStackSize = R := by
              rw [fmath_min_eq]; exact min_eq_left hRM
            have : new1 = [] := hn2 (by rw [hmin]; omega)
            rw [this] at hk
            simp at hk
          · have hmin : FMath.Min R D.MaxStackSize = D.MaxStackSize := by
              rw [fmath_min_eq]; exact min_eq_right (by omega)
            rw [hn3 k hk, hmin]
            congr 4
            push_cast
            ring
    · rw [openSlots_stop D MaxSlots (fuel + 1) Items R (by omega)] at h
      simp only [Option.some.injEq, Prod.mk.injEq] at h
      exact ⟨[], by simp [h.2.1], fun _ => rfl, fun k hk => by simp at hk⟩

/-- C31. `AddItem(D, Quantity)` with `MaxStackSize >= 1` and `Quantity > 0` (the bound
allowing `Quantity` new stacks) gives the array `pre ++ new`. `pre` has the entries of
before at their positions: each is as it was, or is a stack of `D` with more units,
`MaxStackSize` at most; an entry is changed only if every stack of `D` before it is
full afterwards; a stack is opened only if every stack of `D` of `pre` is full. With
`R` the units not taken by `pre`, the stack number `k` of `new` is a stack of `D` with
`min(R - k * MaxStackSize, MaxStackSize)` units. -/
theorem addItem_tops_up_in_order (c : UInventoryComponent) (D : UItemDefinition)
    (Quantity : Int) (fuel : Nat) (hD : 1 ≤ D.MaxStackSize) (hQ : 0 < Quantity)
    (hfuel : Quantity.toNat ≤ fuel) :
    ∃ ok c1 pre new R, c.AddItem fuel (some D) Quantity = some (ok, c1) ∧
      c1.Items = pre ++ new ∧ List.Forall₂ (ToppedUp D) c.Items pre ∧
      (∀ j : Nat, c.Items[j]? ≠ pre[j]? →
        ∀ (j1 : Nat) (s : UItemInstance), j1 < j → pre[j1]? = some (some s) →
          s.ItemDefinition = some D → D.MaxStackSize ≤ s.Quantity) ∧
      (new ≠ [] → ∀ s, some s ∈ pre → s.ItemDefinition = some D →
        D.MaxStackSize ≤ s.Quantity) ∧
      0 ≤ R ∧ Units D pre = Units D c.Items + (Quantity - R) ∧
      ∀ k : Nat, k < new.length →
        new[k]? = some (some
          { ItemDefinition := some D
            Quantity := min (R - (k : Int) * D.MaxStackSize) D.MaxStackSize }) := by
  obtain ⟨t0, tle⟩ := topUp_remaining D c.Items Quantity hQ
  obtain ⟨ok, new, R1, heq, _, _, _, hzero, _⟩ :=
    openSlots_spec D hD c.MaxSlots fuel (AddItem.topUp D c.Items Quantity).1
      (AddItem.topUp D c.Items Quantity).2 t0 (by omega)
  obtain ⟨new1, hn1, _, hn3⟩ := openSlots_closed D hD c.MaxSlots fuel _ _ ok _ R1 t0 heq
  have hnew : new1 = new := (List.append_cancel_left hn1).symm
  subst hnew
  refine ⟨ok, _, (AddItem.topUp D c.Items Quantity).1, new1,
    (AddItem.topUp D c.Items Quantity).2,
    addItem_of_openSlots c D Quantity hQ fuel ok _ R1 heq, rfl,
    topUp_pointwise D c.Items Quantity hQ, topUp_order D c.Items Quantity hQ, ?_, t0,
    topUp_units D c.Items Quantity hQ, hn3⟩
  intro hne s hs hd
  have hleft : 0 < (AddItem.topUp D c.Items Quantity).2 := by
    by_contra h0
    exact hne (hzero (by omega))
  exact topUp_full D c.Items Quantity hQ hleft s hs hd

/-- C31 on the ledger `[10, 5]` with `MaxStackSize = 10`: `AddItem(D, 17)` leaves the
first stack, fills the second, and appends the stacks 10 and 2. -/
theorem addItem_tops_up_in_order_witness :
    (∃ ok c1 pre new R, ExampleReached.AddItem 17 (some ExampleItem) 17 = some (ok, c1) ∧
      c1.Items = pre ++ new ∧ List.Forall₂ (ToppedUp ExampleItem) ExampleReached.Items pre ∧
      (∀ j : Nat, ExampleReached.Items[j]? ≠ pre[j]? →
        ∀ (j1 : Nat) (s : UItemInstance), j1 < j → pre[j1]? = some (some s) →
          s.ItemDefinition = some ExampleItem → ExampleItem.MaxStackSize ≤ s.Quantity) ∧
      (new ≠ [] → ∀ s, some s ∈ pre → s.ItemDefinition = some ExampleItem →
        ExampleItem.MaxStackSize ≤ s.Quantity) ∧
      0 ≤ R ∧ Units ExampleItem pre = Units ExampleItem ExampleReached.Items + (17 - R) ∧
      ∀ k : Nat, k < new.length →
        new[k]? = some (some
          { ItemDefinition := some ExampleItem
            Quantity := min (R - (k : Int) * ExampleItem.MaxStackSize)
              ExampleItem.MaxStackSize })) ∧
    (ExampleReached.AddItem 17 (some ExampleItem) 17).map (fun r => r.2.Items) =
      some (ExampleLedger 0 [10, 10, 10, 2]).Items :=
  ⟨addItem_tops_up_in_order ExampleReached ExampleItem 17 17 (by decide) (by decide)
      (by decide),
    by decide⟩

end MGS
